import Mathlib

/-!
# Physics3D bounds tree: a shallow embedding and its properties

The development embeds `src/physics/datastructures/boundsTree.h` (tree nodes,
the node stack, the unfiltered and the filtered iterator, the `BoundsTree`
container) and `src/physics/world.cpp` (the validity checks and the methods of
`WorldPrototype` that work on the trees).  The bodies that live in
`boundsTree.cpp`, `math/bounds.h` and `world.h` are not among the sources; each
definition standing for one of them says so in its comment.

Conventions of the embedding

* A `TreeNode` is a sum type: `leaf` stands for `nodeCount == LEAF_NODE_SIGNIFIER`
  (the `object` member of the union is live), `node` for every other node (the
  `subTrees` member is live and `nodeCount` is the length of the child list).
* An object pointer is a natural number, `nullptr` is `0`.
* A coordinate is the raw 64-bit value of a `Fix<32>`, so `1.0` is `2 ^ 32`.
* A `NodeStack` is the list of frames in use, top frame first.  The empty list
  is the position `top == stack - 1`, the one that compares equal to
  `IteratorEnd`.
* Undefined behaviour of the C++ (reading a child that does not exist, pushing
  a 65th frame) is the result `none`.
* Where a stack is used to change the tree, it is a `TreeCursor`: the tree together
  with the child indices of the frames, so that every write through a frame is a
  write into the tree.
* A method that can throw returns an `Outcome`, or an `Effect` when it also leaves a
  tree behind.
-/

namespace Physics3D

/-! ## Bounds -/

/-- A position: three fixed point coordinates (raw `Fix<32>` values). -/
structure Position where
  x : Int
  y : Int
  z : Int
deriving DecidableEq, Repr

/-- Modelled from the spec: `Bounds` of `math/bounds.h`, which is not among the
sources: an axis-aligned box given by its min and max corner. -/
structure Bounds where
  min : Position
  max : Position
deriving DecidableEq, Repr

/-- Modelled from the spec: the default constructed `Bounds()` of `math/bounds.h`
(all coordinates zero). -/
def Bounds.default : Bounds := ⟨⟨0, 0, 0⟩, ⟨0, 0, 0⟩⟩

/-- Modelled from the spec: `unionOfBounds` of `math/bounds.h`: the smallest box
enclosing both arguments (componentwise min of the min corners, max of the max
corners). -/
def unionOfBounds (a b : Bounds) : Bounds :=
  ⟨⟨Min.min a.min.x b.min.x, Min.min a.min.y b.min.y, Min.min a.min.z b.min.z⟩,
   ⟨Max.max a.max.x b.max.x, Max.max a.max.y b.max.y, Max.max a.max.z b.max.z⟩⟩

/-- Modelled from the spec: `Bounds::contains(const Bounds&)` of `math/bounds.h`:
the receiver encloses the argument. -/
def Bounds.contains (a b : Bounds) : Bool :=
  decide (a.min.x ≤ b.min.x) && decide (a.min.y ≤ b.min.y) && decide (a.min.z ≤ b.min.z) &&
  decide (b.max.x ≤ a.max.x) && decide (b.max.y ≤ a.max.y) && decide (b.max.z ≤ a.max.z)

/-- Modelled from the spec: `Bounds::contains(const Position&)` of `math/bounds.h`:
the point lies in the box, faces included. -/
def Bounds.containsPoint (a : Bounds) (p : Position) : Bool :=
  decide (a.min.x ≤ p.x) && decide (a.min.y ≤ p.y) && decide (a.min.z ≤ p.z) &&
  decide (p.x ≤ a.max.x) && decide (p.y ≤ a.max.y) && decide (p.z ≤ a.max.z)

/-! ## Tree nodes -/

/-- The constant `MAX_BRANCHES`. -/
def MAX_BRANCHES : Nat := 4
/-- The constant `MAX_HEIGHT`. -/
def MAX_HEIGHT : Nat := 64
/-- The constant `LEAF_NODE_SIGNIFIER`. -/
def LEAF_NODE_SIGNIFIER : Nat := 0x7FFFFFFF

/-- The struct `TreeNode`. -/
inductive TreeNode where
  | leaf (bounds : Bounds) (object : Nat) (isGroupHead : Bool)
  | node (bounds : Bounds) (subTrees : List TreeNode) (isGroupHead : Bool)
deriving Repr

mutual
/-- Decidable equality of tree nodes. -/
def TreeNode.decEq : (a b : TreeNode) → Decidable (a = b)
  | .leaf b o g, .leaf b' o' g' =>
    if h : b = b' ∧ o = o' ∧ g = g' then isTrue (by rcases h with ⟨rfl, rfl, rfl⟩; rfl)
    else isFalse (by intro e; cases e; exact h ⟨rfl, rfl, rfl⟩)
  | .leaf .., .node .. => isFalse (by intro e; cases e)
  | .node .., .leaf .. => isFalse (by intro e; cases e)
  | .node b s g, .node b' s' g' =>
    match TreeNode.decEqList s s' with
    | isTrue hs =>
      if h : b = b' ∧ g = g' then isTrue (by rcases h with ⟨rfl, rfl⟩; subst hs; rfl)
      else isFalse (by intro e; cases e; exact h ⟨rfl, rfl⟩)
    | isFalse hs => isFalse (by intro e; cases e; exact hs rfl)
/-- Decidable equality of lists of tree nodes. -/
def TreeNode.decEqList : (a b : List TreeNode) → Decidable (a = b)
  | [], [] => isTrue rfl
  | [], _ :: _ => isFalse (by intro e; cases e)
  | _ :: _, [] => isFalse (by intro e; cases e)
  | x :: xs, y :: ys =>
    match TreeNode.decEq x y, TreeNode.decEqList xs ys with
    | isTrue h1, isTrue h2 => isTrue (by subst h1; subst h2; rfl)
    | isFalse h1, _ => isFalse (by intro e; cases e; exact h1 rfl)
    | _, isFalse h2 => isFalse (by intro e; cases e; exact h2 rfl)
end

instance : DecidableEq TreeNode := TreeNode.decEq

namespace TreeNode

/-- The member `bounds`. -/
def bounds : TreeNode → Bounds
  | leaf b _ _ => b
  | node b _ _ => b

/-- The member `isGroupHead`. -/
def isGroupHead : TreeNode → Bool
  | leaf _ _ g => g
  | node _ _ g => g

/-- The member `nodeCount`. -/
def nodeCount : TreeNode → Nat
  | leaf _ _ _ => LEAF_NODE_SIGNIFIER
  | node _ subs _ => subs.length

/-- The method `isLeafNode()`: `nodeCount == LEAF_NODE_SIGNIFIER`. -/
def isLeafNode : TreeNode → Bool
  | leaf _ _ _ => true
  | node _ _ _ => false

/-- The children of a node (none for a leaf). -/
def subTrees : TreeNode → List TreeNode
  | leaf _ _ _ => []
  | node _ subs _ => subs

/-- The address computation `&node.subTrees[index]` followed by a read: `none` when
the node is a leaf or the index is not below `nodeCount`. -/
def child? (n : TreeNode) (index : Nat) : Option TreeNode :=
  n.subTrees[index]?

/-- The object of a leaf (`nullptr` for an internal node). -/
def object : TreeNode → Nat
  | leaf _ o _ => o
  | node _ _ _ => 0

mutual
/-- The leaves of a subtree in left-to-right depth-first order. -/
def leaves : TreeNode → List TreeNode
  | leaf b o g => [leaf b o g]
  | node _ subs _ => leavesList subs
/-- The leaves of a list of subtrees, left to right. -/
def leavesList : List TreeNode → List TreeNode
  | [] => []
  | t :: ts => leaves t ++ leavesList ts
end

mutual
/-- Number of nodes on the longest path from this node down to a leaf. -/
def height : TreeNode → Nat
  | leaf _ _ _ => 1
  | node _ subs _ => heightList subs + 1
/-- The largest height in a list of subtrees. -/
def heightList : List TreeNode → Nat
  | [] => 0
  | t :: ts => Max.max (height t) (heightList ts)
end

mutual
/-- Every internal node of the subtree has between 1 and `MAX_BRANCHES` children. -/
def branchesOk : TreeNode → Bool
  | leaf _ _ _ => true
  | node _ subs _ => decide (1 ≤ subs.length) && decide (subs.length ≤ MAX_BRANCHES) && branchesOkList subs
/-- Every tree of the list satisfies `branchesOk`. -/
def branchesOkList : List TreeNode → Bool
  | [] => true
  | t :: ts => branchesOk t && branchesOkList ts
end

mutual
/-- Number of nodes of the subtree. -/
def size : TreeNode → Nat
  | leaf _ _ _ => 1
  | node _ subs _ => sizeList subs + 1
/-- Number of nodes of a list of subtrees. -/
def sizeList : List TreeNode → Nat
  | [] => 0
  | t :: ts => size t + sizeList ts
end

/-- A well-formed tree: every internal node has between 1 and `MAX_BRANCHES`
children and every root-to-leaf path has at most `MAX_HEIGHT` nodes. -/
def WellFormed (t : TreeNode) : Prop :=
  t.branchesOk = true ∧ t.height ≤ MAX_HEIGHT

instance (t : TreeNode) : Decidable (WellFormed t) := by
  unfold WellFormed; exact inferInstance

end TreeNode

/-! ## The node stack and the unfiltered iterator -/

/-- The struct `TreeStackElement`. -/
structure TreeStackElement where
  node : TreeNode
  index : Nat
deriving DecidableEq, Repr

/-- The struct `NodeStack`: the frames `stack[0] .. *top`, top frame first. -/
abbrev NodeStack := List TreeStackElement

namespace NodeStack

/-- Modelled from the spec: the constructor `NodeStack(TreeNode& rootNode)`, whose
body is in the missing `boundsTree.cpp`: one frame for the root with child index 0;
for the empty root (`nodeCount == 0`) the stack starts exhausted. -/
def ofRoot (rootNode : TreeNode) : NodeStack :=
  if rootNode.nodeCount = 0 then [] else [⟨rootNode, 0⟩]

/-- The comparison `operator!=(IteratorEnd)`: `top + 1 != stack`. -/
def neEnd (s : NodeStack) : Bool := !s.isEmpty

/-- The dereference `operator*`: `top->node`. -/
def deref? : NodeStack → Option TreeNode
  | [] => none
  | top :: _ => some top.node

end NodeStack

namespace ConstTreeIterator

/-- The loop of `delveDown()` (and of the constructor): while the top node is not a
leaf, push its child at the recorded index with index 0.  The first argument bounds
the number of iterations. -/
def delveDownLoop : Nat → NodeStack → Option NodeStack
  | _, [] => none
  | 0, _ :: _ => none
  | fuel + 1, top :: rest =>
    if top.node.isLeafNode then some (top :: rest)
    else
      match top.node.child? top.index with
      | none => none
      | some nextNode =>
        if MAX_HEIGHT ≤ rest.length + 1 then none
        else delveDownLoop fuel (⟨nextNode, 0⟩ :: top :: rest)

/-- The method `delveDown()`.  Every iteration pushes a frame and a 65th frame is
undefined, so `MAX_HEIGHT + 1` iterations are all a run can have. -/
def delveDown (s : NodeStack) : Option NodeStack :=
  delveDownLoop (MAX_HEIGHT + 1) s

/-- The constructor `ConstTreeIterator(TreeNode& rootNode)`. -/
def new (rootNode : TreeNode) : Option NodeStack :=
  if rootNode.nodeCount = 0 then some (NodeStack.ofRoot rootNode)
  else delveDown (NodeStack.ofRoot rootNode)

/-- The do-while loop of `operator++`, entered after the first `top--`:
`[]` is the `return` taken when `top < stack`. -/
def riseUntilAvailable : NodeStack → NodeStack
  | [] => []
  | top :: rest =>
    if top.index + 1 = top.node.nodeCount then riseUntilAvailable rest
    else ⟨top.node, top.index + 1⟩ :: rest

/-- The method `operator++`.  On an exhausted iterator the decrement leaves the
array, which is undefined. -/
def increment : NodeStack → Option NodeStack
  | [] => none
  | _ :: rest =>
    match riseUntilAvailable rest with
    | [] => some []
    | top :: rest' => delveDown (top :: rest')

/-- The nodes visited by `for (; it != IteratorEnd(); ++it)`, in order.  The first
argument bounds the number of increments. -/
def visit : Nat → NodeStack → Option (List TreeNode)
  | _, [] => some []
  | 0, _ :: _ => none
  | fuel + 1, top :: rest =>
    match increment (top :: rest) with
    | none => none
    | some s => (visit fuel s).map (fun l => top.node :: l)

end ConstTreeIterator

/-! ## The filtered iterator -/

namespace FilteredTreeIterator

/-- The inner `while (top->index == top->node->nodeCount)` loop of
`delveDownFiltered()`; the frame argument is the top frame, the list the frames
below it.  `[]` is the `return` taken when `top < stack`. -/
def riseWhileFull : TreeStackElement → NodeStack → NodeStack
  | top, [] => if top.index = top.node.nodeCount then [] else [top]
  | top, below :: rest =>
    if top.index = top.node.nodeCount then riseWhileFull ⟨below.node, below.index + 1⟩ rest
    else top :: below :: rest

/-- The loop of `delveDownFiltered()`.  The first argument bounds the number of
iterations.  The index of an accepted leaf's frame is not written by the source and
never read; the embedding records 0. -/
def delveDownFilteredLoop (filter : TreeNode → Bool) : Nat → NodeStack → Option NodeStack
  | _, [] => none
  | 0, _ :: _ => none
  | fuel + 1, top :: rest =>
    match top.node.child? top.index with
    | none => none
    | some nextNode =>
      if MAX_HEIGHT ≤ rest.length + 1 then none
      else if filter nextNode then
        if nextNode.isLeafNode then some (⟨nextNode, 0⟩ :: top :: rest)
        else delveDownFilteredLoop filter fuel (⟨nextNode, 0⟩ :: top :: rest)
      else
        match riseWhileFull ⟨top.node, top.index + 1⟩ rest with
        | [] => some []
        | top' :: rest' => delveDownFilteredLoop filter fuel (top' :: rest')

/-- The constructor `FilteredTreeIterator(TreeNode& rootNode, const Filter& filter)`. -/
def new (filter : TreeNode → Bool) (fuel : Nat) (rootNode : TreeNode) : Option NodeStack :=
  if rootNode.nodeCount = 0 then some (NodeStack.ofRoot rootNode)
  else if !rootNode.isLeafNode then delveDownFilteredLoop filter fuel (NodeStack.ofRoot rootNode)
  else some (NodeStack.ofRoot rootNode)

/-- The method `operator++`. -/
def increment (filter : TreeNode → Bool) (fuel : Nat) : NodeStack → Option NodeStack
  | [] => none
  | _ :: rest =>
    match ConstTreeIterator.riseUntilAvailable rest with
    | [] => some []
    | top :: rest' => delveDownFilteredLoop filter fuel (top :: rest')

/-- The nodes visited by `for (; it != IteratorEnd(); ++it)`, in order.  The second
argument bounds the number of increments, `fuel` the iterations of each descent. -/
def visit (filter : TreeNode → Bool) (fuel : Nat) : Nat → NodeStack → Option (List TreeNode)
  | _, [] => some []
  | 0, _ :: _ => none
  | steps + 1, top :: rest =>
    match increment filter fuel (top :: rest) with
    | none => none
    | some s => (visit filter fuel steps s).map (fun l => top.node :: l)

end FilteredTreeIterator

/-- The struct `BoundsTree<Boundable>`. -/
structure BoundsTree where
  rootNode : TreeNode
deriving DecidableEq, Repr

namespace BoundsTree

/-- The default constructor: the root is `TreeNode()`, an internal node without
children. -/
def empty : BoundsTree := ⟨.node Bounds.default [] false⟩

/-- The method `isEmpty()`. -/
def isEmpty (t : BoundsTree) : Bool := decide (t.rootNode.nodeCount = 0)

/-- The nodes visited by `for (it = begin(); it != end(); ++it)`. -/
def iterate (t : BoundsTree) (fuel : Nat) : Option (List TreeNode) :=
  match ConstTreeIterator.new t.rootNode with
  | none => none
  | some s => ConstTreeIterator.visit fuel s

/-- The nodes visited by a loop over `iterFiltered(filter)`. -/
def iterFiltered (t : BoundsTree) (filter : TreeNode → Bool) (fuel steps : Nat) :
    Option (List TreeNode) :=
  match FilteredTreeIterator.new filter fuel t.rootNode with
  | none => none
  | some s => FilteredTreeIterator.visit filter fuel steps s

end BoundsTree

/-! ## Cursor invariants used in the proofs -/

/-- The leaves still to come once the top frame is left: for every frame below
the top, top-most first, the leaves of the children after the recorded index. -/
def restLeaves : NodeStack → List TreeNode
  | [] => []
  | f :: rest => TreeNode.leavesList (f.node.subTrees.drop (f.index + 1)) ++ restLeaves rest

/-- The frames below the top of a cursor in a well-formed tree: each is an internal
node with its index in range, well-formed children, and room in the stack for the
deepest of them. -/
def StackOk : NodeStack → Prop
  | [] => True
  | f :: rest =>
    (f.node.isLeafNode = false ∧ f.index < f.node.subTrees.length ∧
      TreeNode.branchesOkList f.node.subTrees = true ∧
      TreeNode.heightList f.node.subTrees + rest.length + 1 ≤ MAX_HEIGHT) ∧ StackOk rest


/-- The nodes the filtered descent has still to test once the top frame is left:
the sizes of the subtrees after the recorded index of every frame. -/
def restSize : NodeStack → Nat
  | [] => 0
  | f :: rest => TreeNode.sizeList (f.node.subTrees.drop (f.index + 1)) + restSize rest

namespace TreeNode

mutual
/-- The leaves of a subtree that a pruned descent reaches when the filter is applied
to the subtree's root and to every node below it: a rejected node hides its subtree. -/
def filteredLeaves (filter : TreeNode → Bool) : TreeNode → List TreeNode
  | leaf b o g => if filter (leaf b o g) then [leaf b o g] else []
  | node b subs g => if filter (node b subs g) then filteredLeavesList filter subs else []
/-- The leaves reached by the pruned descent in a list of subtrees, left to right. -/
def filteredLeavesList (filter : TreeNode → Bool) : List TreeNode → List TreeNode
  | [] => []
  | t :: ts => filteredLeaves filter t ++ filteredLeavesList filter ts
end

mutual
/-- Every internal node's bounds enclose the bounds of each of its children. -/
def boundsEnclose : TreeNode → Bool
  | leaf _ _ _ => true
  | node b subs _ => subs.all (fun c => b.contains c.bounds) && boundsEncloseList subs
/-- Every tree of the list satisfies `boundsEnclose`. -/
def boundsEncloseList : List TreeNode → Bool
  | [] => true
  | t :: ts => boundsEnclose t && boundsEncloseList ts
end

end TreeNode

/-- The filtered leaves still to come once the top frame is left. -/
def restFiltered (filter : TreeNode → Bool) : NodeStack → List TreeNode
  | [] => []
  | f :: rest =>
    TreeNode.filteredLeavesList filter (f.node.subTrees.drop (f.index + 1)) ++ restFiltered filter rest

/-- The monotonicity contract of a filter: a filter that accepts a node accepts
every node whose bounds enclose the bounds of the first. -/
def FilterMonotone (filter : TreeNode → Bool) : Prop :=
  ∀ a b : TreeNode, b.bounds.contains a.bounds = true → filter a = true → filter b = true

/-- The sequence a loop over `iterFiltered(filter)` is expected to produce: the root
is never tested; below an internal root the pruned descent applies. -/
def filteredSequence (filter : TreeNode → Bool) (rootNode : TreeNode) : List TreeNode :=
  if rootNode.isLeafNode then [rootNode] else TreeNode.filteredLeavesList filter rootNode.subTrees

/-- Modelled from the spec: `computeBoundsOfList(const TreeNode* list, size_t count)`,
declared in `boundsTree.h` with its body in the missing `boundsTree.cpp`: the union of
the bounds of the listed nodes, taken from the first one on (the loop that
`recursiveTreeValidCheck` spells out).  The list is given as its first node and the
others. -/
def computeBoundsOfList (first : TreeNode) (others : List TreeNode) : Bounds :=
  others.foldl (fun acc c => unionOfBounds acc c.bounds) first.bounds

namespace TreeNode

mutual
/-- Bounds consistency: every internal node with children has bounds equal to the
union of the bounds of its children. -/
def boundsConsistent : TreeNode → Bool
  | leaf _ _ _ => true
  | node b subs _ =>
    (match subs with
     | [] => true
     | first :: others => decide (b = computeBoundsOfList first others)) &&
    boundsConsistentList subs
/-- Every tree of the list satisfies `boundsConsistent`. -/
def boundsConsistentList : List TreeNode → Bool
  | [] => true
  | t :: ts => boundsConsistent t && boundsConsistentList ts
end

end TreeNode

/-- The filter of a point query: the node's bounds contain the point. -/
def pointFilter (p : Position) : TreeNode → Bool :=
  fun n => n.bounds.containsPoint p

/-- The raw `Fix<32>` value of a number of halves (`fixHalves 1` is 0.5, `fixHalves 2` is 1.0). -/
def fixHalves (n : Int) : Int := n * 2 ^ 31

/-- The box from `(a, a, a)` to `(b, b, b)`, the corners given in world units. -/
def cube (a b : Int) : Bounds :=
  ⟨⟨fixHalves (2 * a), fixHalves (2 * a), fixHalves (2 * a)⟩,
   ⟨fixHalves (2 * b), fixHalves (2 * b), fixHalves (2 * b)⟩⟩

/-- The tree of the point-query example: one internal root over the leaves
`(0,0,0)-(1,1,1)`, `(2,2,2)-(3,3,3)` and `(0,0,0)-(5,5,5)`, holding objects 1, 2, 3. -/
def queryTree : BoundsTree :=
  ⟨.node (cube 0 5)
    [.leaf (cube 0 1) 1 true, .leaf (cube 2 3) 2 true, .leaf (cube 0 5) 3 true] false⟩

/-- The query point `(0.5, 0.5, 0.5)`. -/
def queryPoint : Position := ⟨fixHalves 1, fixHalves 1, fixHalves 1⟩

/-- The group of the end-to-end scenario: a group head over the members
`(0,0,0)-(1,1,1)`, `(1,1,1)-(2,2,2)` and `(2,2,2)-(3,3,3)`, holding objects 1, 2, 3. -/
def groupTree : BoundsTree :=
  ⟨.node (cube 0 3)
    [.leaf (cube 0 1) 1 false, .leaf (cube 1 2) 2 false, .leaf (cube 2 3) 3 false] true⟩

/-- A single-object tree: the root is the leaf `(2,2,2)-(3,3,3)` holding object 2. -/
def singleLeafTree : BoundsTree := ⟨.leaf (cube 2 3) 2 true⟩

/-! ## The tree validity check of `world.cpp` -/

/-- The result of a call that may throw: a value, a thrown message, or undefined
behaviour. -/
inductive Outcome (α : Type) where
  | ok (value : α)
  | thrown (message : String)
  | undefined
deriving DecidableEq, Repr

mutual
/-- The function `recursiveTreeValidCheck(node, hasAlreadyPassedGroupHead)`.  Reading
`node[0]` of an internal node without children is undefined. -/
def recursiveTreeValidCheck : TreeNode → Bool → Outcome Unit
  | .leaf _ _ isGroupHead, hasAlreadyPassedGroupHead =>
    if hasAlreadyPassedGroupHead && isGroupHead then
      .thrown "Another group head found below one!"
    else if !hasAlreadyPassedGroupHead && !isGroupHead then
      .thrown "No group head found in this subtree!"
    else .ok ()
  | .node nodeBounds subTrees isGroupHead, hasAlreadyPassedGroupHead =>
    if hasAlreadyPassedGroupHead && isGroupHead then
      .thrown "Another group head found below one!"
    else
      match subTrees.head? with
      | none => .undefined
      | some first =>
        let bounds := subTrees.tail.foldl (fun acc c => unionOfBounds acc c.bounds) first.bounds
        if bounds ≠ nodeBounds then
          .thrown "A node in the tree does not have valid bounds!"
        else
          recursiveTreeValidCheckList subTrees (isGroupHead || hasAlreadyPassedGroupHead)
/-- The loop `for (TreeNode& n : node) recursiveTreeValidCheck(n, ...)`: the first
throw ends it. -/
def recursiveTreeValidCheckList : List TreeNode → Bool → Outcome Unit
  | [], _ => .ok ()
  | n :: ns, passed =>
    match recursiveTreeValidCheck n passed with
    | .ok _ => recursiveTreeValidCheckList ns passed
    | .thrown message => .thrown message
    | .undefined => .undefined
end

/-- The function `treeValidCheck(tree)`. -/
def treeValidCheck (tree : BoundsTree) : Outcome Unit :=
  if !tree.isEmpty then recursiveTreeValidCheck tree.rootNode false else .ok ()

/-- A box is the union of a list of boxes: it encloses each of them and is enclosed
by every box that does. -/
def IsUnionOf (b : Bounds) (cs : List Bounds) : Prop :=
  (∀ c ∈ cs, b.contains c = true) ∧ ∀ b' : Bounds, (∀ c ∈ cs, b'.contains c = true) → b'.contains b = true

namespace TreeNode

mutual
/-- Every internal node's bounds are the union of the bounds of its children. -/
def boundsAreUnions : TreeNode → Prop
  | leaf _ _ _ => True
  | node b subs _ => IsUnionOf b (subs.map TreeNode.bounds) ∧ boundsAreUnionsList subs
/-- Every tree of the list satisfies `boundsAreUnions`. -/
def boundsAreUnionsList : List TreeNode → Prop
  | [] => True
  | t :: ts => boundsAreUnions t ∧ boundsAreUnionsList ts
end

mutual
/-- The root-to-leaf paths of a subtree, each the list of its nodes from the root of
the subtree down to the leaf. -/
def rootPaths : TreeNode → List (List TreeNode)
  | leaf b o g => [[leaf b o g]]
  | node b subs g => (rootPathsList subs).map (fun p => node b subs g :: p)
/-- The root-to-leaf paths of a list of subtrees. -/
def rootPathsList : List TreeNode → List (List TreeNode)
  | [] => []
  | t :: ts => rootPaths t ++ rootPathsList ts
end

mutual
/-- Every internal node of the subtree has at least one child. -/
def hasChildren : TreeNode → Bool
  | leaf _ _ _ => true
  | node _ subs _ => decide (1 ≤ subs.length) && hasChildrenList subs
/-- Every tree of the list satisfies `hasChildren`. -/
def hasChildrenList : List TreeNode → Bool
  | [] => true
  | t :: ts => hasChildren t && hasChildrenList ts
end

/-- The group invariant: every root-to-leaf path has exactly one node with
`isGroupHead = true`. -/
def OneGroupHeadPerPath (t : TreeNode) : Prop :=
  ∀ p ∈ rootPaths t, p.countP TreeNode.isGroupHead = 1

instance (t : TreeNode) : Decidable (OneGroupHeadPerPath t) := by
  unfold OneGroupHeadPerPath; exact inferInstance

end TreeNode

/-! ## Mutation: node operations

The bodies of `TreeNode::addOutside`, `addInside`, `remove`, the
`recalculateBounds*` family and of the `NodeStack` methods are in `boundsTree.cpp`,
which is not among the sources.  They are modelled from the specification; the
`BoundsTree` methods below, which are in `boundsTree.h`, are embedded from the source
and call them. -/

namespace TreeNode

/-- A write to the member `bounds`. -/
def setBounds : TreeNode → Bounds → TreeNode
  | leaf _ o g, b => leaf b o g
  | node _ subs g, b => node b subs g

/-- A write to the member `isGroupHead`. -/
def setGroupHead : TreeNode → Bool → TreeNode
  | leaf b o _, g => leaf b o g
  | node b subs _, g => node b subs g

/-- The subtree reached from a node by a list of child indices. -/
def nodeAt : TreeNode → List Nat → Option TreeNode
  | t, [] => some t
  | t, i :: p =>
    match t.child? i with
    | none => none
    | some c => nodeAt c p

/-- Rewrites the subtree at the end of a path with `atTarget` and then every node on
the way back up to the start with `onAncestor`.  A path that leaves the tree changes
nothing. -/
def modifyPath (atTarget onAncestor : TreeNode → TreeNode) : List Nat → TreeNode → TreeNode
  | [], t => atTarget t
  | _ :: _, leaf b o g => leaf b o g
  | i :: p, node b subs g =>
    match subs[i]? with
    | none => node b subs g
    | some c => onAncestor (node b (subs.set i (modifyPath atTarget onAncestor p c)) g)

/-- Modelled from the spec: `recalculateBoundsFromSubBounds()`: "recompute one level
using already-correct child bounds".  A node without children keeps its bounds. -/
def recalculateBoundsFromSubBounds : TreeNode → TreeNode
  | leaf b o g => leaf b o g
  | node b [] g => node b [] g
  | node _ (first :: others) g => node (computeBoundsOfList first others) (first :: others) g

mutual
/-- Modelled from the spec: `recalculateBoundsRecursive()`: "recompute the full
subtree bottom-up". -/
def recalculateBoundsRecursive : TreeNode → TreeNode
  | leaf b o g => leaf b o g
  | node b subs g => recalculateBoundsFromSubBounds (node b (recalculateBoundsRecursiveList subs) g)
/-- The recursive recomputation on every tree of a list. -/
def recalculateBoundsRecursiveList : List TreeNode → List TreeNode
  | [] => []
  | t :: ts => recalculateBoundsRecursive t :: recalculateBoundsRecursiveList ts
end

/-- The cost increase of a child when a box is added to it: the insertion policy of
the spec compares `computeCost` of the child's bounds united with the new bounds
against `computeCost` of the child's bounds. -/
def additionCost (computeCost : Bounds → Int) (childBounds newBounds : Bounds) : Int :=
  computeCost (unionOfBounds childBounds newBounds) - computeCost childBounds

/-- The scan for the child of least cost increase: the best index and cost so far,
the index of the next child, the children still to look at. -/
def bestChildFrom (computeCost : Bounds → Int) (newBounds : Bounds) :
    Nat → Int → Nat → List TreeNode → Nat
  | bestIndex, _, _, [] => bestIndex
  | bestIndex, bestCost, i, c :: cs =>
    if additionCost computeCost c.bounds newBounds < bestCost then
      bestChildFrom computeCost newBounds i (additionCost computeCost c.bounds newBounds) (i + 1) cs
    else bestChildFrom computeCost newBounds bestIndex bestCost (i + 1) cs

/-- Modelled from the spec: the insertion tie-break policy: "pick the child whose
bounds-union-with-the-new-node yields the smallest cost increase"; the first such
child on ties. -/
def bestChildIndex (computeCost : Bounds → Int) (newBounds : Bounds) : List TreeNode → Nat
  | [] => 0
  | c :: cs => bestChildFrom computeCost newBounds 0 (additionCost computeCost c.bounds newBounds) 1 cs

mutual
/-- Modelled from the spec: `addOutside(node)`: "insert `node` as a new sibling
subtree at this level or above, growing the tree"; a node added outside a group
"must not become a descendant of that group's head".  A leaf or a group head gets a
new parent holding it and the new node; any other node takes the new node as one
more child while it has room, and otherwise passes it to the child chosen by the
insertion policy.  The cost function `computeCost` is a parameter.  The receiver is
the first node argument. -/
def addOutside (computeCost : Bounds → Int) : TreeNode → TreeNode → TreeNode
  | leaf b o g, newNode => node (unionOfBounds b newNode.bounds) [leaf b o g, newNode] false
  | node b subs g, newNode =>
    if g then node (unionOfBounds b newNode.bounds) [node b subs g, newNode] false
    else if subs.length < MAX_BRANCHES then
      node (unionOfBounds b newNode.bounds) (subs ++ [newNode]) false
    else
      node (unionOfBounds b newNode.bounds)
        (addOutsideAt computeCost (bestChildIndex computeCost newNode.bounds subs) subs newNode) false
/-- The call `subTrees[index].addOutside(node)`. -/
def addOutsideAt (computeCost : Bounds → Int) : Nat → List TreeNode → TreeNode → List TreeNode
  | _, [], _ => []
  | 0, c :: cs, newNode => addOutside computeCost c newNode :: cs
  | i + 1, c :: cs, newNode => c :: addOutsideAt computeCost i cs newNode
end

/-- Modelled from the spec: `addInside(node)`: "insert `node` as an additional child
under this node (growing branching factor up to MAX_BRANCHES, splitting into a new
internal level when exceeded).  Used to extend an existing group with a new member."
The node inserted becomes a member of the group of the receiver, "losing the donor's
group-head marking (demoted to an ordinary member)": it is stored with `isGroupHead`
cleared.  A leaf becomes an internal node over a copy of itself that is not a group
head and the new node, keeping its own flag; a full node moves its children one level
down.  The receiver is the first argument. -/
def addInside : TreeNode → TreeNode → TreeNode
  | leaf b o g, newNode =>
    node (unionOfBounds b newNode.bounds) [leaf b o false, newNode.setGroupHead false] g
  | node b subs g, newNode =>
    if subs.length < MAX_BRANCHES then
      node (unionOfBounds b newNode.bounds) (subs ++ [newNode.setGroupHead false]) g
    else
      node (unionOfBounds b newNode.bounds) [node b subs false, newNode.setGroupHead false] g

/-- Modelled from the spec: the node left by `remove(index)`: the child at `index` is
detached and `nodeCount` patched; a node left with a single child is "collapsed",
"replacing the internal node with its one remaining child", which takes over the
group-head flag of the node it replaces.  The bounds are not repaired here.  A node
that loses its only child is left with `nodeCount == 0`; `NodeStack::remove()` lets
this happen to the root alone, which is then the root of the empty tree. -/
def withoutChild : TreeNode → Nat → TreeNode
  | leaf b o g, _ => leaf b o g
  | node b subs g, index =>
    match subs.eraseIdx index with
    | [remaining] => remaining.setGroupHead (g || remaining.isGroupHead)
    | others => node b others g

mutual
/-- Modelled from the spec: the search of `NodeStack(rootNode, objToFind, objBounds)`
below a node: "find the leaf whose object pointer equals a given reference, using
bounds as a pruning hint".  The result is the list of child indices from the node
down to the first matching leaf in depth-first order.  With `prune` set a child is
entered only when its bounds contain the hint (the test of `FinderFilter`). -/
def findPath (prune : Bool) (objToFind : Nat) (objBounds : Bounds) : TreeNode → Option (List Nat)
  | leaf _ o _ => if o = objToFind then some [] else none
  | node _ subs _ => findPathList prune objToFind objBounds 0 subs
/-- The search through the children from index `i` on. -/
def findPathList (prune : Bool) (objToFind : Nat) (objBounds : Bounds) :
    Nat → List TreeNode → Option (List Nat)
  | _, [] => none
  | i, c :: cs =>
    if !prune || c.bounds.contains objBounds then
      match findPath prune objToFind objBounds c with
      | some p => some (i :: p)
      | none => findPathList prune objToFind objBounds (i + 1) cs
    else findPathList prune objToFind objBounds (i + 1) cs
end

mutual
/-- Replaces the bounds of every leaf of the subtree by `getStrictBounds` of its
object: the effect of the loop `for (TreeIterator iter(node); ...) node->bounds = ...`. -/
def refreshLeafBounds (getStrictBounds : Nat → Bounds) : TreeNode → TreeNode
  | leaf _ o g => leaf (getStrictBounds o) o g
  | node b subs g => node b (refreshLeafBoundsList getStrictBounds subs) g
/-- The refresh on every tree of a list. -/
def refreshLeafBoundsList (getStrictBounds : Nat → Bounds) : List TreeNode → List TreeNode
  | [] => []
  | t :: ts => refreshLeafBounds getStrictBounds t :: refreshLeafBoundsList getStrictBounds ts
end

end TreeNode

/-! ## Mutation: the node stack over a tree -/

/-- A `NodeStack` whose frames point into a tree under mutation: the tree, and the
`index` member of every frame in use, top frame first.  The `node` pointer of a frame
is the subtree reached from the root by the indices of the frames below it.  The
empty list of indices is the position `top == stack - 1`. -/
structure TreeCursor where
  rootNode : TreeNode
  indices : List Nat
deriving DecidableEq, Repr

namespace TreeCursor

/-- The child indices leading from the root to the node of the top frame. -/
def path (c : TreeCursor) : List Nat := c.indices.tail.reverse

/-- The node `top->node`. -/
def topNode? (c : TreeCursor) : Option TreeNode :=
  match c.indices with
  | [] => none
  | _ :: below => c.rootNode.nodeAt below.reverse

/-- The frames over a list of indices with their node pointers followed, top frame
first. -/
def framesOf (rootNode : TreeNode) : List Nat → NodeStack
  | [] => []
  | i :: below =>
    match rootNode.nodeAt below.reverse with
    | none => []
    | some n => ⟨n, i⟩ :: framesOf rootNode below

/-- The frames of the stack with their node pointers followed, top frame first. -/
def frames (c : TreeCursor) : NodeStack := framesOf c.rootNode c.indices

/-- Modelled from the spec: the search of the constructor
`NodeStack(rootNode, objToFind, objBounds)`, "a find function, returning the stack of
all nodes leading up to the requested object".  The bounds are "used only to prune, so
a stale/incorrect bounds hint degrades to a full scan of siblings, never to wrong
results, as object identity is the ground truth at the leaf": the pruned search comes
first and, when it finds nothing, the search without pruning; an absent object
"signals an error". -/
def search (rootNode : TreeNode) (objToFind : Nat) (objBounds : Bounds) : Outcome TreeCursor :=
  match rootNode.findPath true objToFind objBounds with
  | some p => .ok ⟨rootNode, 0 :: p.reverse⟩
  | none =>
    match rootNode.findPath false objToFind objBounds with
    | some p => .ok ⟨rootNode, 0 :: p.reverse⟩
    | none => .thrown "object not found"

/-- Modelled from the spec: the constructor `NodeStack(rootNode, objToFind, objBounds)`.
The search descends with the frames of the stack, `TreeStackElement stack[MAX_HEIGHT]`,
one frame for every node of the path it follows ("depth ≤ MAX_HEIGHT (64)").  On a
tree with a path of more than `MAX_HEIGHT` nodes the frames do not hold every path
and the behaviour is undefined; on every other tree the result is that of `search`. -/
def find (rootNode : TreeNode) (objToFind : Nat) (objBounds : Bounds) : Outcome TreeCursor :=
  if MAX_HEIGHT < rootNode.height then .undefined
  else search rootNode objToFind objBounds

/-- A write through `top->node`: the node of the top frame is replaced by its image
under `f`, in the tree.  Nothing is written when no frame is in use. -/
def modifyTop (f : TreeNode → TreeNode) (c : TreeCursor) : TreeCursor :=
  match c.indices with
  | [] => c
  | _ :: _ => ⟨c.rootNode.modifyPath f id c.path, c.indices⟩

/-- The statement `top--`. -/
def pop (c : TreeCursor) : TreeCursor := ⟨c.rootNode, c.indices.tail⟩

/-- The ascent of `riseUntilGroupHeadWhile()` over the indices: frames are dropped
until the node of the top frame is a group head. -/
def riseUntilGroupHeadLoop (rootNode : TreeNode) : List Nat → Option (List Nat)
  | [] => none
  | i :: below =>
    match rootNode.nodeAt below.reverse with
    | none => none
    | some n => if n.isGroupHead then some (i :: below) else riseUntilGroupHeadLoop rootNode below

/-- Modelled from the spec: `riseUntilGroupHeadWhile()`: "ascend until the current
frame's node is a group head".  Leaving the stack without meeting one is undefined. -/
def riseUntilGroupHeadWhile (c : TreeCursor) : Option TreeCursor :=
  match riseUntilGroupHeadLoop c.rootNode c.indices with
  | none => none
  | some indices => some ⟨c.rootNode, indices⟩

/-- Modelled from the spec: `updateBoundsAllTheWayToTop()`: "from the current frame
upward to the root, recompute each ancestor's bounds from its direct children". -/
def updateBoundsAllTheWayToTop (c : TreeCursor) : TreeCursor :=
  match c.indices with
  | [] => c
  | _ :: _ =>
    ⟨c.rootNode.modifyPath TreeNode.recalculateBoundsFromSubBounds
      TreeNode.recalculateBoundsFromSubBounds c.path, c.indices⟩

/-- Modelled from the spec: `expandBoundsAllTheWayToTop()`: "each ancestor's bounds is
unioned with the new node's bounds rather than fully recomputed"; the bounds united
into the ancestors are those of the node of the top frame. -/
def expandBoundsAllTheWayToTop (c : TreeCursor) : TreeCursor :=
  match c.topNode? with
  | none => c
  | some top =>
    ⟨c.rootNode.modifyPath id (fun n => n.setBounds (unionOfBounds n.bounds top.bounds)) c.path,
      c.indices⟩

/-- The loop of `riseUntilAvailableWhile()` over the indices (the index of the top
frame, the indices below it): while the top index equals the `nodeCount` of the top
node, drop the frame and advance the one below. -/
def riseUntilAvailableLoop (rootNode : TreeNode) : Nat → List Nat → List Nat
  | i, [] =>
    if i = rootNode.nodeCount then [] else [i]
  | i, j :: below =>
    match rootNode.nodeAt (j :: below).reverse with
    | none => i :: j :: below
    | some n =>
      if i = n.nodeCount then riseUntilAvailableLoop rootNode (j + 1) below
      else i :: j :: below

/-- Modelled from the spec: the tree and the indices of the stack that
`NodeStack::remove()` leaves when child `index` of `parent`, the node reached by the
frames `below`, is detached and `parent` stays: the parent loses the child, is
collapsed when a single child remains, and the bounds are repaired from there up to
the root.  The stack is left at the frame of the parent, or past it when nothing is
left to visit there. -/
def detach (rootNode parent : TreeNode) (index : Nat) (below : List Nat) : TreeNode × List Nat :=
  let rootNode := rootNode.modifyPath
    (fun n => TreeNode.recalculateBoundsFromSubBounds (n.withoutChild index))
    TreeNode.recalculateBoundsFromSubBounds below.reverse
  let collapsed := decide (parent.nodeCount = 2)
  let indices :=
    if collapsed then
      if index = 0 then 0 :: below
      else
        match below with
        | [] => []
        | j :: rest => riseUntilAvailableLoop rootNode (j + 1) rest
    else riseUntilAvailableLoop rootNode index below
  (rootNode, indices)

/-- Modelled from the spec: the removal of child `index` of the node reached by the
frames `below`.  An internal node has "`nodeCount` in [1, MAX_BRANCHES]", so a parent
other than the root cannot stay behind without a child: when the child detached is
its only one, the parent is detached from its own parent in turn.  Only the root can
be left without children, as the root of the empty tree. -/
def removeFrom (rootNode : TreeNode) : Nat → List Nat → Option (TreeNode × List Nat)
  | index, [] =>
    match rootNode.child? index with
    | none => none
    | some _ => some (detach rootNode rootNode index [])
  | index, j :: rest =>
    match rootNode.nodeAt (j :: rest).reverse with
    | none => none
    | some parent =>
      match parent.child? index with
      | none => none
      | some _ =>
        if parent.nodeCount = 1 then removeFrom rootNode j rest
        else some (detach rootNode parent index (j :: rest))

/-- Modelled from the spec: `NodeStack::remove()`: "detaches the node at the current
frame, relocates the stack to a valid position (ascending if the parent becomes a
leaf-equivalent single-child node ...), and returns the detached subtree".  The node
of the top frame is detached from its parent and returned; what is left of the tree
and of the stack is given by `removeFrom`.  Removing the node of the first frame is
undefined. -/
def remove (c : TreeCursor) : Option (TreeNode × TreeCursor) :=
  match c.indices with
  | [] => none
  | [_] => none
  | _ :: index :: below =>
    match c.rootNode.nodeAt (index :: below).reverse with
    | none => none
    | some detached =>
      match removeFrom c.rootNode index below with
      | none => none
      | some (rootNode, indices) => some (detached, ⟨rootNode, indices⟩)

end TreeCursor

/-- The tree left by `NodeStack::remove()` when the node detached is child `i` of the
node at path `q`, a node that is the root or has another child. -/
def removedAt (rootNode : TreeNode) (q : List Nat) (i : Nat) : TreeNode :=
  rootNode.modifyPath (fun n => TreeNode.recalculateBoundsFromSubBounds (n.withoutChild i))
    TreeNode.recalculateBoundsFromSubBounds q

/-- The box `b` is the union of the bounds of the listed nodes, said through the
boxes that enclose it: a box encloses `b` exactly when it encloses every node of the
list. -/
def IsBoundsOf (b : Bounds) (subs : List TreeNode) : Prop :=
  ∀ x : Bounds, x.contains b = true ↔ ∀ d ∈ subs, x.contains d.bounds = true

/-- The number of leaves of a subtree that hold the object. -/
def TreeNode.countObject (obj : Nat) (t : TreeNode) : Nat :=
  (TreeNode.leaves t).countP (fun l => decide (l.object = obj))

namespace TreeNode

mutual
/-- The group invariant of a subtree below `k` group heads: every leaf is reached
with exactly one group head on the way, the `k` above counted in. -/
def headsOk : Nat → TreeNode → Bool
  | k, leaf _ _ g => decide (k + g.toNat = 1)
  | k, node _ subs g => headsOkList (k + g.toNat) subs
/-- Every tree of the list satisfies `headsOk k`. -/
def headsOkList : Nat → List TreeNode → Bool
  | _, [] => true
  | k, t :: ts => headsOk k t && headsOkList k ts
end

end TreeNode

/-! ## Mutation: the container -/

/-- The result of a call on a mutable tree: it returns a value, or throws, in both
cases leaving a tree behind, or its behaviour is undefined. -/
inductive Effect (α : Type) where
  | returned (value : α) (tree : BoundsTree)
  | thrown (message : String) (tree : BoundsTree)
  | undefined
deriving DecidableEq, Repr

namespace BoundsTree

/-- The method `add(TreeNode&& node)`.  After the move the source reads `node.bounds`
in a branch taken when the root has a single child. -/
def addNode (computeCost : Bounds → Int) (tree : BoundsTree) (node : TreeNode) : BoundsTree :=
  if tree.isEmpty then ⟨node⟩
  else
    let rootNode := tree.rootNode.addOutside computeCost node
    if rootNode.nodeCount = 1 then ⟨rootNode.setBounds node.bounds⟩ else ⟨rootNode⟩

/-- The method `add(Boundable* obj, const Bounds& bounds)`. -/
def add (computeCost : Bounds → Int) (tree : BoundsTree) (obj : Nat) (bounds : Bounds) : BoundsTree :=
  tree.addNode computeCost (.leaf bounds obj true)

/-- The method `find(obj, objBounds)`. -/
def find (tree : BoundsTree) (obj : Nat) (objBounds : Bounds) : Outcome TreeCursor :=
  TreeCursor.find tree.rootNode obj objBounds

/-- The method `addToExistingGroup(obj, bounds, objInGroup, objInGroupBounds)`; the
inner call is `groupNode.addInside(TreeNode(obj, bounds, false))`. -/
def addToExistingGroup (tree : BoundsTree) (obj : Nat) (bounds : Bounds) (objInGroup : Nat)
    (objInGroupBounds : Bounds) : Effect Unit :=
  match TreeCursor.find tree.rootNode objInGroup objInGroupBounds with
  | .thrown message => .thrown message tree
  | .undefined => .undefined
  | .ok iter =>
    match iter.riseUntilGroupHeadWhile with
    | none => .undefined
    | some iter =>
      let iter := iter.modifyTop (fun groupNode => groupNode.addInside (.leaf bounds obj false))
      .returned () ⟨iter.expandBoundsAllTheWayToTop.rootNode⟩

/-- The method `remove(obj, strictBounds)`. -/
def remove (tree : BoundsTree) (obj : Nat) (strictBounds : Bounds) : Effect Unit :=
  match tree.rootNode with
  | .leaf _ object isGroupHead =>
    if object = obj then .returned () ⟨.node Bounds.default [] isGroupHead⟩
    else .thrown "Attempting to remove nonexistent object!" tree
  | .node _ _ _ =>
    match TreeCursor.find tree.rootNode obj strictBounds with
    | .thrown message => .thrown message tree
    | .undefined => .undefined
    | .ok stack =>
      match stack.remove with
      | none => .undefined
      | some (_, stack) => .returned () ⟨stack.rootNode⟩

/-- The method `remove(obj)`: `remove(obj, obj->getStrictBounds())`. -/
def removeObject (getStrictBounds : Nat → Bounds) (tree : BoundsTree) (obj : Nat) : Effect Unit :=
  tree.remove obj (getStrictBounds obj)

/-- The method `grab(obj, objBounds)`.  The move constructor leaves the bounds and
the flag of the emptied root as they were. -/
def grab (tree : BoundsTree) (obj : Nat) (objBounds : Bounds) : Effect TreeNode :=
  match tree.rootNode with
  | .leaf bounds object isGroupHead =>
    if object = obj then .returned (.leaf bounds object isGroupHead) ⟨.node bounds [] isGroupHead⟩
    else .thrown "Attempting to remove nonexistent object!" tree
  | .node _ _ _ =>
    match TreeCursor.find tree.rootNode obj objBounds with
    | .thrown message => .thrown message tree
    | .undefined => .undefined
    | .ok iter =>
      match iter.remove with
      | none => .undefined
      | some (result, iter) => .returned result ⟨iter.rootNode⟩

/-- The method `grabGroupFor(obj, objBounds)`. -/
def grabGroupFor (tree : BoundsTree) (obj : Nat) (objBounds : Bounds) : Effect TreeNode :=
  match tree.rootNode with
  | .leaf bounds object isGroupHead =>
    if object = obj then .returned (.leaf bounds object isGroupHead) ⟨.node bounds [] isGroupHead⟩
    else .thrown "Attempting to remove nonexistent object!" tree
  | .node _ _ _ =>
    match TreeCursor.find tree.rootNode obj objBounds with
    | .thrown message => .thrown message tree
    | .undefined => .undefined
    | .ok iter =>
      match iter.riseUntilGroupHeadWhile with
      | none => .undefined
      | some iter =>
        match iter.remove with
        | none => .undefined
        | some (result, iter) => .returned result ⟨iter.rootNode⟩

/-- The method `updateObjectBounds(obj, oldBounds)`; `getStrictBounds` gives the
current bounds of every object.  The assertion `!isEmpty()` failing is undefined. -/
def updateObjectBounds (getStrictBounds : Nat → Bounds) (tree : BoundsTree) (obj : Nat)
    (oldBounds : Bounds) : Effect Unit :=
  if tree.isEmpty then .undefined
  else
    match TreeCursor.find tree.rootNode obj oldBounds with
    | .thrown message => .thrown message tree
    | .undefined => .undefined
    | .ok stack =>
      let stack := stack.modifyTop (fun n => n.setBounds (getStrictBounds obj))
      let stack := stack.pop
      .returned () ⟨stack.updateBoundsAllTheWayToTop.rootNode⟩

/-- The method `updateObjectGroupBounds(objInGroup, objOldBounds)`. -/
def updateObjectGroupBounds (getStrictBounds : Nat → Bounds) (tree : BoundsTree) (objInGroup : Nat)
    (objOldBounds : Bounds) : Effect Unit :=
  if tree.isEmpty then .undefined
  else
    match TreeCursor.find tree.rootNode objInGroup objOldBounds with
    | .thrown message => .thrown message tree
    | .undefined => .undefined
    | .ok stack =>
      match stack.riseUntilGroupHeadWhile with
      | none => .undefined
      | some stack =>
        let stack := stack.modifyTop (TreeNode.refreshLeafBounds getStrictBounds)
        let stack := stack.modifyTop TreeNode.recalculateBoundsRecursive
        let stack := stack.pop
        .returned () ⟨stack.updateBoundsAllTheWayToTop.rootNode⟩

end BoundsTree

namespace TreeNode

mutual
/-- Every internal node of the subtree has at least two children: the shape the
insertions build and the collapse of single-child nodes keeps. -/
def branchesTwo : TreeNode → Bool
  | leaf _ _ _ => true
  | node _ subs _ => decide (2 ≤ subs.length) && branchesTwoList subs
/-- Every tree of the list satisfies `branchesTwo`. -/
def branchesTwoList : List TreeNode → Bool
  | [] => true
  | t :: ts => branchesTwo t && branchesTwoList ts
end

end TreeNode

/-- The tree is empty or none of its internal nodes has fewer than two children. -/
def BoundsTree.Compact (tree : BoundsTree) : Prop :=
  tree.isEmpty = true ∨ tree.rootNode.branchesTwo = true

/-- The tree is empty or its root bounds are the union of the bounds of all leaves. -/
def BoundsTree.RootIsUnionOfLeaves (tree : BoundsTree) : Prop :=
  tree.isEmpty = true ∨
    IsUnionOf tree.rootNode.bounds ((TreeNode.leaves tree.rootNode).map TreeNode.bounds)

/-- The trees reachable from the empty tree by `add(obj, bounds)`,
`addToExistingGroup(obj, bounds, objInGroup, objInGroupBounds)` and `remove` calls
that return. -/
inductive Reachable (computeCost : Bounds → Int) : BoundsTree → Prop where
  | empty : Reachable computeCost BoundsTree.empty
  | add (tree : BoundsTree) (obj : Nat) (bounds : Bounds) :
      Reachable computeCost tree → Reachable computeCost (tree.add computeCost obj bounds)
  | addToExistingGroup (tree tree' : BoundsTree) (obj : Nat) (bounds : Bounds) (objInGroup : Nat)
      (objInGroupBounds : Bounds) :
      Reachable computeCost tree →
      tree.addToExistingGroup obj bounds objInGroup objInGroupBounds = .returned () tree' →
      Reachable computeCost tree'
  | remove (tree tree' : BoundsTree) (obj : Nat) (strictBounds : Bounds) :
      Reachable computeCost tree →
      tree.remove obj strictBounds = .returned () tree' →
      Reachable computeCost tree'

/-! ## Counting, maintenance and the empty tree -/

namespace TreeNode

mutual
/-- Modelled from the spec: `getNumberOfObjectsInNode`, whose body is in the missing
`boundsTree.cpp`: "the count of leaves reachable" in the node. -/
def getNumberOfObjectsInNode : TreeNode → Nat
  | leaf _ _ _ => 1
  | node _ subs _ => getNumberOfObjectsInList subs
/-- The count of leaves in a list of subtrees. -/
def getNumberOfObjectsInList : List TreeNode → Nat
  | [] => 0
  | t :: ts => getNumberOfObjectsInNode t + getNumberOfObjectsInList ts
end

/-- The number of leaves of a subtree whose object satisfies `p`. -/
def countLeaves (p : Nat → Bool) (t : TreeNode) : Nat :=
  (leaves t).countP (fun l => p l.object)

mutual
/-- No internal node of the subtree has more than `MAX_BRANCHES` children. -/
def branchesBounded : TreeNode → Bool
  | leaf _ _ _ => true
  | node _ subs _ => decide (subs.length ≤ MAX_BRANCHES) && branchesBoundedList subs
/-- Every tree of the list satisfies `branchesBounded`. -/
def branchesBoundedList : List TreeNode → Bool
  | [] => true
  | t :: ts => branchesBounded t && branchesBoundedList ts
end

end TreeNode

namespace BoundsTree

/-- The method `getNumberOfObjects()`. -/
def getNumberOfObjects (tree : BoundsTree) : Nat :=
  if tree.isEmpty then 0 else tree.rootNode.getNumberOfObjectsInNode

/-- The method `improveStructure()`; `TreeNode::improveStructure`, whose body is in
the missing `boundsTree.cpp`, is the parameter `improve`. -/
def improveStructure (improve : TreeNode → TreeNode) (tree : BoundsTree) : BoundsTree :=
  if !tree.isEmpty then ⟨improve tree.rootNode⟩ else tree

/-- The method `recalculateBounds()`.  The loop over `*this` writes
`obj->getStrictBounds()` into every leaf it visits, which on a well-formed tree is
every leaf; `recalculateBoundsRecursive()` follows. -/
def recalculateBounds (getStrictBounds : Nat → Bounds) (tree : BoundsTree) : BoundsTree :=
  if tree.isEmpty then tree
  else ⟨(tree.rootNode.refreshLeafBounds getStrictBounds).recalculateBoundsRecursive⟩

end BoundsTree

/-! ## The world layer of `world.cpp` -/

/-- The members of a `Part` that `world.cpp` reads (the class is declared outside the
sources at hand): its address, which the trees store as `object`, the pointer
`parent` (the address of a `Physical`, 0 for `nullptr`), the flag `isTerrainPart`
and the value of `getStrictBounds()`. -/
structure Part where
  address : Nat
  parent : Nat
  isTerrainPart : Bool
  strictBounds : Bounds
deriving DecidableEq, Repr

/-- The members of a `Physical` that `world.cpp` reads (declared outside the sources
at hand): its address, the pointer `mainPhysical`, `rigidBody.mainPart`,
`rigidBody.parts` and `childPhysicals`, the connected physicals held by value. -/
inductive Physical where
  | mk (address : Nat) (mainPhysical : Nat) (mainPart : Part) (parts : List Part)
      (childPhysicals : List Physical)
deriving Repr

mutual
/-- Decidable equality of physicals. -/
def Physical.decEq : (a b : Physical) → Decidable (a = b)
  | .mk a m p ps cs, .mk a' m' p' ps' cs' =>
    match Physical.decEqList cs cs' with
    | isTrue hs =>
      if h : a = a' ∧ m = m' ∧ p = p' ∧ ps = ps' then
        isTrue (by rcases h with ⟨rfl, rfl, rfl, rfl⟩; subst hs; rfl)
      else isFalse (by intro e; cases e; exact h ⟨rfl, rfl, rfl, rfl⟩)
    | isFalse hs => isFalse (by intro e; cases e; exact hs rfl)
/-- Decidable equality of lists of physicals. -/
def Physical.decEqList : (a b : List Physical) → Decidable (a = b)
  | [], [] => isTrue rfl
  | [], _ :: _ => isFalse (by intro e; cases e)
  | _ :: _, [] => isFalse (by intro e; cases e)
  | x :: xs, y :: ys =>
    match Physical.decEq x y, Physical.decEqList xs ys with
    | isTrue h1, isTrue h2 => isTrue (by subst h1; subst h2; rfl)
    | isFalse h1, _ => isFalse (by intro e; cases e; exact h1 rfl)
    | _, isFalse h2 => isFalse (by intro e; cases e; exact h2 rfl)
end

instance : DecidableEq Physical := Physical.decEq

namespace Physical

/-- The address of the physical. -/
def address : Physical → Nat
  | mk a _ _ _ _ => a

/-- The member `mainPhysical`. -/
def mainPhysical : Physical → Nat
  | mk _ m _ _ _ => m

/-- The member `rigidBody.mainPart`, which `getMainPart()` returns. -/
def mainPart : Physical → Part
  | mk _ _ p _ _ => p

/-- The member `rigidBody.parts`. -/
def parts : Physical → List Part
  | mk _ _ _ ps _ => ps

/-- The member `childPhysicals`. -/
def childPhysicals : Physical → List Physical
  | mk _ _ _ _ cs => cs

/-- The parts that `for(const Part& part : phys->rigidBody)` runs over: the main part
and the attached parts. -/
def rigidBody (phys : Physical) : List Part := phys.mainPart :: phys.parts

mutual
/-- The physical and every physical connected below it. -/
def hierarchy : Physical → List Physical
  | mk a m p ps cs => mk a m p ps cs :: hierarchyList cs
/-- The hierarchies of a list of physicals. -/
def hierarchyList : List Physical → List Physical
  | [] => []
  | c :: cs => hierarchy c ++ hierarchyList cs
end

end Physical

mutual
/-- The function `isPhysicalValid(phys, mainPhys)`. -/
def isPhysicalValid : Physical → Nat → Bool
  | .mk address mainPhysical mainPart parts childPhysicals, mainPhys =>
    if mainPhysical ≠ mainPhys then false
    else if (mainPart :: parts).any (fun part => decide (part.parent ≠ address)) then false
    else isConnectedPhysicalsValid childPhysicals mainPhys
/-- The loop over `phys->childPhysicals`, each tested by `isConnectedPhysicalValid`,
which calls `isPhysicalValid`. -/
def isConnectedPhysicalsValid : List Physical → Nat → Bool
  | [], _ => true
  | subPhys :: rest, mainPhys =>
    if !isPhysicalValid subPhys mainPhys then false
    else isConnectedPhysicalsValid rest mainPhys
end

/-- A `MotorizedPhysical`: a `Physical` with the pointer `world` (0 for `nullptr`). -/
structure MotorizedPhysical where
  world : Nat
  physical : Physical
deriving DecidableEq, Repr

/-- The members of `WorldPrototype` that `world.cpp` handles; `physicals` holds what
the stored pointers point to, and `address` is `this`. -/
structure WorldPrototype where
  address : Nat
  objectTree : BoundsTree
  terrainTree : BoundsTree
  physicals : List MotorizedPhysical
  objectCount : Nat
deriving DecidableEq, Repr

/-- The result of a method of the world: it returns, throws, stops at a failed
`assert`, or is undefined. -/
inductive WorldOutcome where
  | returned (world : WorldPrototype)
  | thrown (message : String)
  | aborted
  | undefined
deriving DecidableEq, Repr

/-- The loop of `isValid()` over `iterPhysicals()`: `false` when it returns `false`. -/
def isValidPhysicals (world : Nat) : List MotorizedPhysical → Bool
  | [] => true
  | phys :: rest =>
    if phys.world ≠ world then false
    else if !isPhysicalValid phys.physical phys.physical.address then false
    else isValidPhysicals world rest

namespace WorldPrototype

/-- The method `isValid()`. -/
def isValid (w : WorldPrototype) : Outcome Bool :=
  if !isValidPhysicals w.address w.physicals then .ok false
  else
    match treeValidCheck w.objectTree with
    | .thrown message => .thrown message
    | .undefined => .undefined
    | .ok _ =>
      match treeValidCheck w.terrainTree with
      | .thrown message => .thrown message
      | .undefined => .undefined
      | .ok _ => .ok true

/-- The macro `ASSERT_VALID`, followed by the rest of the method; `debug` says that
`NDEBUG` is not defined. -/
def assertValid (debug : Bool) (w : WorldPrototype) (rest : WorldOutcome) : WorldOutcome :=
  if debug then
    match w.isValid with
    | .ok true => rest
    | .ok false => .thrown "World not valid!"
    | .thrown message => .thrown message
    | .undefined => .undefined
  else rest

/-- The macro `ASSERT_TREE_VALID(tree)`, followed by the rest of the method. -/
def assertTreeValid (debug : Bool) (tree : BoundsTree) (rest : WorldOutcome) : WorldOutcome :=
  if debug then
    match treeValidCheck tree with
    | .ok _ => rest
    | .thrown message => .thrown message
    | .undefined => .undefined
  else rest

/-- The method `getTreeForPart(part)`. -/
def getTreeForPart (w : WorldPrototype) (part : Part) : BoundsTree :=
  if part.isTerrainPart then w.terrainTree else w.objectTree

end WorldPrototype

mutual
/-- The function `addToNode(nodeToAddTo, physicalToAdd)`. -/
def addToNode (nodeToAddTo : TreeNode) : Physical → TreeNode
  | .mk _ _ mainPart parts childPhysicals =>
    addToNodeList
      (parts.foldl (fun n p => n.addInside (.leaf p.strictBounds p.address false))
        (nodeToAddTo.addInside (.leaf mainPart.strictBounds mainPart.address false)))
      childPhysicals
/-- The loop over `childPhysicals`, each added by `addToNode`. -/
def addToNodeList (nodeToAddTo : TreeNode) : List Physical → TreeNode
  | [] => nodeToAddTo
  | conPhys :: rest => addToNodeList (addToNode nodeToAddTo conPhys) rest
end

/-- The function `createNodeFor(phys)`. -/
def createNodeFor (phys : Physical) : TreeNode :=
  addToNodeList
    (phys.parts.foldl (fun n p => n.addInside (.leaf p.strictBounds p.address false))
      (.leaf phys.mainPart.strictBounds phys.mainPart.address true))
    phys.childPhysicals

namespace WorldPrototype

/-- The method `addPart(part)`.  `mainPhysical` is what `part->parent->mainPhysical`
points to once `part->ensureHasParent()` has run, and
`getNumberOfPartsInThisAndChildren` the method of that name; both are declared
outside the sources at hand.  The warning logged when the physical is in this world
already leaves no trace in the state. -/
def addPart (computeCost : Bounds → Int) (debug : Bool)
    (getNumberOfPartsInThisAndChildren : Physical → Nat) (w : WorldPrototype)
    (mainPhysical : MotorizedPhysical) : WorldOutcome :=
  assertValid debug w
    (if mainPhysical.world = w.address then
      assertValid debug w (.returned w)
    else
      let w' : WorldPrototype :=
        ⟨w.address, w.objectTree.addNode computeCost (createNodeFor mainPhysical.physical),
          w.terrainTree, w.physicals ++ [⟨w.address, mainPhysical.physical⟩],
          w.objectCount + getNumberOfPartsInThisAndChildren mainPhysical.physical⟩
      assertValid debug w' (.returned w'))

/-- The continuation of a method of the world after a call on the object tree. -/
def afterObjectTree (debug : Bool) (w : WorldPrototype) : Effect Unit → WorldOutcome
  | .returned _ tree =>
    assertValid debug ⟨w.address, tree, w.terrainTree, w.physicals, w.objectCount⟩
      (.returned ⟨w.address, tree, w.terrainTree, w.physicals, w.objectCount⟩)
  | .thrown message _ => .thrown message
  | .undefined => .undefined

/-- The method `setPartCFrame(part, newCFrame)`.  `part` is read before the move;
`getStrictBounds` gives the bounds of every part once
`part->parent->setPartCFrame(part, newCFrame)` has moved the physical, a call that is
undefined for a part whose `parent` is `nullptr`. -/
def setPartCFrame (debug : Bool) (getStrictBounds : Nat → Bounds) (w : WorldPrototype)
    (part : Part) : WorldOutcome :=
  if part.parent = 0 then .undefined
  else
    afterObjectTree debug w
      (w.objectTree.updateObjectGroupBounds getStrictBounds part.address part.strictBounds)

/-- The method `updatePartBounds(updatedPart, oldBounds)`. -/
def updatePartBounds (debug : Bool) (getStrictBounds : Nat → Bounds) (w : WorldPrototype)
    (updatedPart : Part) (oldBounds : Bounds) : WorldOutcome :=
  afterObjectTree debug w
    (w.objectTree.updateObjectBounds getStrictBounds updatedPart.address oldBounds)

/-- The method `updatePartGroupBounds(mainPart, oldMainPartBounds)`. -/
def updatePartGroupBounds (debug : Bool) (getStrictBounds : Nat → Bounds) (w : WorldPrototype)
    (mainPart : Part) (oldMainPartBounds : Bounds) : WorldOutcome :=
  afterObjectTree debug w
    (w.objectTree.updateObjectGroupBounds getStrictBounds mainPart.address oldMainPartBounds)

end WorldPrototype

/-- The method `findGroupFor(obj, objBounds)` of the bounds tree. -/
def BoundsTree.findGroupFor (tree : BoundsTree) (obj : Nat) (objBounds : Bounds) :
    Outcome TreeCursor :=
  match TreeCursor.find tree.rootNode obj objBounds with
  | .thrown message => .thrown message
  | .undefined => .undefined
  | .ok iter =>
    match iter.riseUntilGroupHeadWhile with
    | none => .undefined
    | some iter => .ok iter

/-! ### The iterator over a tree that is being changed -/

namespace TreeIterator

/-- The stack over `rootNode` whose frames carry the indices of the given frames. -/
def ofFrames (rootNode : TreeNode) (s : NodeStack) : TreeCursor :=
  ⟨rootNode, s.map (fun f => f.index)⟩

/-- The constructor `TreeIterator(TreeNode& rootNode)`, which is that of
`ConstTreeIterator`. -/
def new (rootNode : TreeNode) : Option TreeCursor :=
  match ConstTreeIterator.new rootNode with
  | none => none
  | some s => some (ofFrames rootNode s)

/-- The method `operator++`, inherited from `ConstTreeIterator`. -/
def increment (c : TreeCursor) : Option TreeCursor :=
  match ConstTreeIterator.increment c.frames with
  | none => none
  | some s => some (ofFrames c.rootNode s)

/-- The method `remove()`, inherited from `ConstTreeIterator`: `NodeStack::remove()`
and, when `top >= stack`, `delveDown()`. -/
def remove (c : TreeCursor) : Option (TreeNode × TreeCursor) :=
  match c.remove with
  | none => none
  | some (result, c') =>
    match c'.indices with
    | [] => some (result, c')
    | _ :: _ =>
      match ConstTreeIterator.delveDown c'.frames with
      | none => none
      | some s => some (result, ofFrames c'.rootNode s)

end TreeIterator

/-- The loop of `splitPhysical` over `TreeIterator iter(*node)`: a visited leaf whose
part belongs to the new physical is removed and passed to `newNode.addInside`, past
any other the iterator moves on.  The result is the node iterated over and `newNode`
as the loop leaves them; the first argument bounds the number of iterations. -/
def splitLoop (belongs : Nat → Bool) : Nat → TreeCursor → TreeNode → Option (TreeNode × TreeNode)
  | 0, iter, newNode =>
    match iter.indices with
    | [] => some (iter.rootNode, newNode)
    | _ :: _ => none
  | fuel + 1, iter, newNode =>
    match iter.indices with
    | [] => some (iter.rootNode, newNode)
    | _ :: _ =>
      match iter.topNode? with
      | none => none
      | some objectNode =>
        if !objectNode.isLeafNode then none
        else if belongs objectNode.object then
          match TreeIterator.remove iter with
          | none => none
          | some (removed, iter) => splitLoop belongs fuel iter (newNode.addInside removed)
        else
          match TreeIterator.increment iter with
          | none => none
          | some iter => splitLoop belongs fuel iter newNode

/-- The list `physicals` once `mergePhysicals` has taken the pointer to the physical
at `address` out: the first entry that matches is overwritten with the last one and
the last one dropped.  `none` when no entry matches. -/
def removePhysical (physicals : List MotorizedPhysical) (address : Nat) :
    Option (List MotorizedPhysical) :=
  match physicals.findIdx? (fun item => decide (item.physical.address = address)),
    physicals.getLast? with
  | some index, some last => some ((physicals.set index last).dropLast)
  | _, _ => none

/-- The calls of `splitPhysical` on the object tree, from `findGroupFor` to `add`.
`belongs` tells of a part, by its address, whether `part->parent->mainPhysical` is the
new physical; `fuel` bounds the iterations of the loop. -/
def BoundsTree.splitGroup (computeCost : Bounds → Int) (belongs : Nat → Bool) (fuel : Nat)
    (tree : BoundsTree) (mainPart : Nat) (mainPartBounds : Bounds) : Effect Unit :=
  match tree.findGroupFor mainPart mainPartBounds with
  | .thrown message => .thrown message tree
  | .undefined => .undefined
  | .ok stack =>
    match tree.grab mainPart mainPartBounds with
    | .thrown message tree => .thrown message tree
    | .undefined => .undefined
    | .returned newNode tree =>
      if !newNode.isGroupHead then
        match tree.rootNode.nodeAt stack.path with
        | none => .undefined
        | some node =>
          match TreeIterator.new node with
          | none => .undefined
          | some iter =>
            match splitLoop belongs fuel iter (newNode.setGroupHead true) with
            | none => .undefined
            | some (node, newNode) =>
              let stack : TreeCursor :=
                ⟨tree.rootNode.modifyPath (fun _ => node) id stack.path, stack.indices⟩
              .returned ()
                (BoundsTree.addNode computeCost ⟨stack.updateBoundsAllTheWayToTop.rootNode⟩ newNode)
      else .returned () (tree.addNode computeCost newNode)

namespace WorldPrototype

/-- The method `splitPhysical(mainPhysical, newlySplitPhysical)`.  `mainPhysicalOf`
follows `part->parent->mainPhysical` from the address of a part to the address of a
physical; `fuel` bounds the iterations of the loop. -/
def splitPhysical (computeCost : Bounds → Int) (debug : Bool) (mainPhysicalOf : Nat → Nat)
    (fuel : Nat) (w : WorldPrototype) (mainPhysical newlySplitPhysical : MotorizedPhysical) :
    WorldOutcome :=
  if debug && decide (mainPhysical.world ≠ w.address) then .aborted
  else if debug && decide (newlySplitPhysical.world ≠ 0) then .aborted
  else
    assertTreeValid debug w.objectTree
      (match w.objectTree.splitGroup computeCost
          (fun part => decide (mainPhysicalOf part = newlySplitPhysical.physical.address)) fuel
          newlySplitPhysical.physical.mainPart.address
          newlySplitPhysical.physical.mainPart.strictBounds with
      | .thrown message _ => .thrown message
      | .undefined => .undefined
      | .returned _ tree =>
        assertTreeValid debug tree
          (.returned ⟨w.address, tree, w.terrainTree,
            w.physicals ++ [⟨w.address, newlySplitPhysical.physical⟩], w.objectCount⟩))

/-- The calls of `mergePhysicals` on the object tree, up to
`stack.expandBoundsAllTheWayToTop()`: the group of the second physical, grabbed from
the tree when `inWorld` and made by `createNodeFor` otherwise, is passed to
`addInside` of the group node of the first. -/
def mergeGroups (tree : BoundsTree) (inWorld : Bool) (firstPhysical secondPhysical : Physical) :
    Effect Unit :=
  let addGroup : BoundsTree → TreeNode → Effect Unit := fun tree groupNode =>
    match tree.findGroupFor firstPhysical.mainPart.address firstPhysical.mainPart.strictBounds with
    | .thrown message => .thrown message tree
    | .undefined => .undefined
    | .ok stack =>
      let stack := stack.modifyTop (fun group => group.addInside groupNode)
      .returned () ⟨stack.expandBoundsAllTheWayToTop.rootNode⟩
  if inWorld then
    match tree.grabGroupFor secondPhysical.mainPart.address
        secondPhysical.mainPart.strictBounds with
    | .thrown message tree => .thrown message tree
    | .undefined => .undefined
    | .returned groupNode tree => addGroup tree groupNode
  else addGroup tree (createNodeFor secondPhysical)

/-- The method `mergePhysicals(firstPhysical, secondPhysical)`. -/
def mergePhysicals (debug : Bool) (w : WorldPrototype)
    (firstPhysical secondPhysical : MotorizedPhysical) : WorldOutcome :=
  if debug && decide (firstPhysical.world ≠ w.address) then .aborted
  else
    let finish : List MotorizedPhysical → Effect Unit → WorldOutcome := fun physicals merged =>
      match merged with
      | .thrown message _ => .thrown message
      | .undefined => .undefined
      | .returned _ tree =>
        assertTreeValid debug tree
          (if debug then .aborted
          else .returned ⟨w.address, tree, w.terrainTree, physicals, w.objectCount⟩)
    if secondPhysical.world ≠ 0 then
      if debug && decide (secondPhysical.world ≠ w.address) then .aborted
      else
        match removePhysical w.physicals secondPhysical.physical.address with
        | none => .thrown "No physical found to remove!"
        | some physicals =>
          finish physicals
            (mergeGroups w.objectTree true firstPhysical.physical secondPhysical.physical)
    else
      finish w.physicals
        (mergeGroups w.objectTree false firstPhysical.physical secondPhysical.physical)

end WorldPrototype

/-- The back-references of the world as the specification lists them: every
registered motorized physical names this world, every physical of its hierarchy,
itself included, names it as `mainPhysical`, and every part of the rigid body of
each such physical names that physical as `parent`. -/
def WorldPrototype.BackReferencesMatch (w : WorldPrototype) : Prop :=
  ∀ m ∈ w.physicals, m.world = w.address ∧
    ∀ phys ∈ m.physical.hierarchy, phys.mainPhysical = m.physical.address ∧
      ∀ part ∈ phys.rigidBody, part.parent = phys.address

/-! ## The worlds of the examples -/

/-- The physical at address 100 with the parts 1 and 4. -/
def examplePhysicalA : Physical :=
  .mk 100 100 ⟨1, 100, false, cube 0 1⟩ [⟨4, 100, false, cube 3 4⟩] []

/-- The physical at address 200 with the parts 2 and 3, split from the one at 100. -/
def examplePhysicalB : Physical :=
  .mk 200 200 ⟨2, 200, false, cube 1 2⟩ [⟨3, 200, false, cube 2 3⟩] []

/-- The owner of every part after the split: parts 2 and 3 belong to the physical at
200, every other part to the one at 100. -/
def exampleMainPhysicalOf : Nat → Nat :=
  fun part => if part = 2 ∨ part = 3 then 200 else 100

/-- The world at address 9 before the split: one group with the parts 1, 4, 2, 3. -/
def joinedWorld : WorldPrototype :=
  ⟨9, ⟨.node (cube 0 4)
      [.leaf (cube 0 1) 1 false, .leaf (cube 3 4) 4 false, .leaf (cube 1 2) 2 false,
        .leaf (cube 2 3) 3 false] true⟩,
    BoundsTree.empty, [⟨9, examplePhysicalA⟩], 4⟩

/-- The world after the split: the group of the parts 1, 4 and the group of the
parts 2, 3. -/
def splitWorld : WorldPrototype :=
  ⟨9, ⟨.node (cube 0 4)
      [.node (cube 0 4) [.leaf (cube 0 1) 1 false, .leaf (cube 3 4) 4 false] true,
        .node (cube 1 3) [.leaf (cube 1 2) 2 false, .leaf (cube 2 3) 3 false] true] false⟩,
    BoundsTree.empty, [⟨9, examplePhysicalA⟩, ⟨9, examplePhysicalB⟩], 4⟩

/-- A world with part 2 in the object tree and the terrain part 7 in the terrain
tree. -/
def terrainWorld : WorldPrototype :=
  ⟨9, singleLeafTree, ⟨.leaf (cube 0 1) 7 true⟩, [], 2⟩

/-- The terrain part 7. -/
def terrainPart : Part := ⟨7, 0, true, cube 0 1⟩

/-- The object tree the merge of the example leaves: the parts 2, 3 in a node that is
not a group head, below the group head of the parts 1, 4. -/
def mergedTree : BoundsTree :=
  ⟨.node (cube 0 4)
    [.leaf (cube 0 1) 1 false, .leaf (cube 3 4) 4 false,
      .node (cube 1 3) [.leaf (cube 1 2) 2 false, .leaf (cube 2 3) 3 false] false] true⟩

/-- The object tree with the group of the parts 1, 4 alone. -/
def groupATree : BoundsTree :=
  ⟨.node (cube 0 4) [.leaf (cube 0 1) 1 false, .leaf (cube 3 4) 4 false] true⟩

/-! ## Positions in depth-first order -/

namespace TreeNode

/-- The leaves that come after the node at the end of a path, in left-to-right
depth-first order. -/
def leavesAfter : TreeNode → List Nat → List TreeNode
  | _, [] => []
  | leaf _ _ _, _ :: _ => []
  | node _ subs _, i :: p =>
    match subs[i]? with
    | none => []
    | some c => leavesAfter c p ++ leavesList (subs.drop (i + 1))

/-- The objects held by the leaves of a subtree, in left-to-right depth-first order. -/
def objects (t : TreeNode) : List Nat := (leaves t).map object

end TreeNode

/-- The frames are those of a stack over the tree: the node of every frame is reached
from the root by the indices of the frames below it. -/
def Consistent (rootNode : TreeNode) (s : NodeStack) : Prop :=
  TreeCursor.framesOf rootNode (s.map (fun f => f.index)) = s

/-- What an iterator over the tree has still to visit when its top frame, over an
internal node, stands before the child at its index. -/
def pendingFrom (rootNode : TreeNode) : List Nat → List TreeNode
  | [] => []
  | i :: below =>
    match rootNode.nodeAt below.reverse with
    | none => []
    | some n =>
      (if n.isLeafNode then [n] else TreeNode.leavesList (n.subTrees.drop i)) ++
        rootNode.leavesAfter below.reverse

/-- The indices `NodeStack::remove()` leaves when the parent was collapsed into a
child that has been visited: the frame of the parent is dropped and the frame below
advanced, rising while a frame is at its end. -/
def TreeCursor.relocatePast (rootNode : TreeNode) : List Nat → List Nat
  | [] => []
  | j :: rest => TreeCursor.riseUntilAvailableLoop rootNode (j + 1) rest

/-! ## The collision matrix of the layers -/

/-- Modelled from the spec: the type of the member `colissionMatrix`, declared in
`world.h`, which is not among the sources: "a symmetric boolean relation over layer
indices".  The entries `(row, col)` with `col ≤ row` are stored row by row, so that
`get(row, col)` and `get(col, row)` name one entry. -/
structure SymmetricMatrix where
  size : Nat
  data : List Bool
deriving DecidableEq, Repr

namespace SymmetricMatrix

/-- Modelled from the spec: the place of the entry `(row, col)` in the storage. -/
def index (row col : Nat) : Nat :=
  if col ≤ row then row * (row + 1) / 2 + col else col * (col + 1) / 2 + row

/-- Modelled from the spec: the constructor `colissionMatrix(size)`; the storage
holds whatever it held before, given by `uninitialised`. -/
def new (size : Nat) (uninitialised : Nat → Bool) : SymmetricMatrix :=
  ⟨size, (List.range (size * (size + 1) / 2)).map uninitialised⟩

/-- Modelled from the spec: a read of `get(row, col)`; `none` outside the matrix. -/
def get? (m : SymmetricMatrix) (row col : Nat) : Option Bool :=
  if row < m.size ∧ col < m.size then m.data[index row col]? else none

/-- Modelled from the spec: the assignment `get(row, col) = value`. -/
def set (m : SymmetricMatrix) (row col : Nat) (value : Bool) : SymmetricMatrix :=
  ⟨m.size, m.data.set (index row col) value⟩

end SymmetricMatrix

/-- The member `colissionMatrix` as the constructor `WorldPrototype(deltaT)` leaves
it. -/
def WorldPrototype.colissionMatrix (uninitialised : Nat → Bool) : SymmetricMatrix :=
  (((SymmetricMatrix.new 2 uninitialised).set 0 0 true).set 1 0 true).set 1 1 false

/-! ## The nodes `createNodeFor` passes to `addInside` -/

mutual
/-- The arguments of the calls of `addInside` that `addToNode(nodeToAddTo, physicalToAdd)`
makes, its own and those of the calls of `addToNode` below it, in order. -/
def addToNodeInserted : Physical → List TreeNode
  | .mk _ _ mainPart parts childPhysicals =>
    (TreeNode.leaf mainPart.strictBounds mainPart.address false ::
      parts.map (fun p => TreeNode.leaf p.strictBounds p.address false)) ++
      addToNodeListInserted childPhysicals
/-- The arguments of the calls of `addInside` made in the loop over `childPhysicals`. -/
def addToNodeListInserted : List Physical → List TreeNode
  | [] => []
  | conPhys :: rest => addToNodeInserted conPhys ++ addToNodeListInserted rest
end

/-- The arguments of the calls of `addInside` that `createNodeFor(phys)` makes, its
own and those of `addToNode`, in order. -/
def createNodeForInserted (phys : Physical) : List TreeNode :=
  phys.parts.map (fun p => TreeNode.leaf p.strictBounds p.address false) ++
    addToNodeListInserted phys.childPhysicals

/-- The parts of the hierarchy of a physical as the specification lists them: the
main part and the attached parts of the physical, then those of every physical
connected below it. -/
def Physical.hierarchyParts (phys : Physical) : List Part :=
  (phys.hierarchy.map Physical.rigidBody).flatten

/-! ## The positions an iterator passes through -/

/-- The iterator after the constructor `ConstTreeIterator(rootNode)` and `count` calls
of `operator++`. -/
def ConstTreeIterator.after (rootNode : TreeNode) : Nat → Option NodeStack
  | 0 => ConstTreeIterator.new rootNode
  | count + 1 =>
    match ConstTreeIterator.after rootNode count with
    | none => none
    | some s => ConstTreeIterator.increment s

/-- The iterator after the constructor `FilteredTreeIterator(rootNode, filter)` and
`count` calls of `operator++`. -/
def FilteredTreeIterator.after (filter : TreeNode → Bool) (fuel : Nat) (rootNode : TreeNode) :
    Nat → Option NodeStack
  | 0 => FilteredTreeIterator.new filter fuel rootNode
  | count + 1 =>
    match FilteredTreeIterator.after filter fuel rootNode count with
    | none => none
    | some s => FilteredTreeIterator.increment filter fuel s

namespace NodeStack

/-- The first frame holds the root and every frame above it holds the child of the
frame below it at the index recorded there. -/
def linked (rootNode : TreeNode) : NodeStack → Bool
  | [] => true
  | f :: rest =>
    match rest with
    | [] => decide (f.node = rootNode)
    | below :: _ => decide (below.node.child? below.index = some f.node) && linked rootNode rest

/-- The child indices recorded in the frames below the top, from the first frame up:
the way from the root to the node of the top frame. -/
def path (s : NodeStack) : List Nat := (s.tail.map (fun f => f.index)).reverse

/-- Every frame above the first holds a node the filter accepts. -/
def acceptedAbove (filter : TreeNode → Bool) : NodeStack → Bool
  | [] => true
  | f :: rest =>
    match rest with
    | [] => true
    | _ :: _ => filter f.node && acceptedAbove filter rest

end NodeStack

namespace TreeNode

/-- The filter accepts every node that a path passes below its start, the node at the
end included, and the path stays in the tree. -/
def acceptedPath (filter : TreeNode → Bool) : TreeNode → List Nat → Bool
  | _, [] => true
  | t, i :: p =>
    match t.child? i with
    | none => false
    | some c => filter c && acceptedPath filter c p

mutual
/-- The paths from a node to the leaves below it, in left-to-right depth-first
order. -/
def leafPaths : TreeNode → List (List Nat)
  | leaf _ _ _ => [[]]
  | node _ subs _ => leafPathsList subs 0
/-- The paths to the leaves below a list of children, the first of which has the
given index. -/
def leafPathsList : List TreeNode → Nat → List (List Nat)
  | [], _ => []
  | t :: ts, i => (leafPaths t).map (fun p => i :: p) ++ leafPathsList ts (i + 1)
end

end TreeNode

namespace FilteredTreeIterator

/-- The nodes `delveDownFiltered()` passes to `filter`, in order: the loop of
`delveDownFilteredLoop` with the argument of every call recorded. -/
def delveDownFilteredTested (filter : TreeNode → Bool) : Nat → NodeStack → List TreeNode
  | _, [] => []
  | 0, _ :: _ => []
  | fuel + 1, top :: rest =>
    match top.node.child? top.index with
    | none => []
    | some nextNode =>
      if MAX_HEIGHT ≤ rest.length + 1 then []
      else if filter nextNode then
        if nextNode.isLeafNode then [nextNode]
        else nextNode :: delveDownFilteredTested filter fuel (⟨nextNode, 0⟩ :: top :: rest)
      else
        match riseWhileFull ⟨top.node, top.index + 1⟩ rest with
        | [] => [nextNode]
        | top' :: rest' => nextNode :: delveDownFilteredTested filter fuel (top' :: rest')

/-- The nodes the constructor passes to `filter`. -/
def newTested (filter : TreeNode → Bool) (fuel : Nat) (rootNode : TreeNode) : List TreeNode :=
  if rootNode.nodeCount = 0 then []
  else if !rootNode.isLeafNode then delveDownFilteredTested filter fuel (NodeStack.ofRoot rootNode)
  else []

/-- The nodes `operator++` passes to `filter`. -/
def incrementTested (filter : TreeNode → Bool) (fuel : Nat) : NodeStack → List TreeNode
  | [] => []
  | _ :: rest =>
    match ConstTreeIterator.riseUntilAvailable rest with
    | [] => []
    | top :: rest' => delveDownFilteredTested filter fuel (top :: rest')

/-- The nodes passed to `filter` in the course of
`for (; it != IteratorEnd(); ++it)`. -/
def visitTested (filter : TreeNode → Bool) (fuel : Nat) : Nat → NodeStack → List TreeNode
  | _, [] => []
  | 0, _ :: _ => []
  | steps + 1, top :: rest =>
    incrementTested filter fuel (top :: rest) ++
      (match increment filter fuel (top :: rest) with
      | none => []
      | some s => visitTested filter fuel steps s)

end FilteredTreeIterator

/-- The nodes passed to `filter` by a loop over `iterFiltered(filter)`, the
constructor included. -/
def BoundsTree.iterFilteredTested (t : BoundsTree) (filter : TreeNode → Bool) (fuel steps : Nat) :
    List TreeNode :=
  FilteredTreeIterator.newTested filter fuel t.rootNode ++
    (match FilteredTreeIterator.new filter fuel t.rootNode with
    | none => []
    | some s => FilteredTreeIterator.visitTested filter fuel steps s)

/-- The struct `DoNothingFilter`: `operator()(const TreeNode&)` returns `true`. -/
def DoNothingFilter : TreeNode → Bool := fun _ => true

/-! ## The depth of the stack -/

/-- The loop of `delveDown()` as the source writes it, which compares `top` with
nothing: the frames it writes, were the array `stack` long enough for them. -/
def ConstTreeIterator.delveDownUnchecked : Nat → NodeStack → Option NodeStack
  | _, [] => none
  | 0, _ :: _ => none
  | fuel + 1, top :: rest =>
    if top.node.isLeafNode then some (top :: rest)
    else
      match top.node.child? top.index with
      | none => none
      | some nextNode => delveDownUnchecked fuel (⟨nextNode, 0⟩ :: top :: rest)

mutual
/-- Number of nodes on the way from a node down the first children to a leaf. -/
def TreeNode.leftDepth : TreeNode → Nat
  | .leaf _ _ _ => 1
  | .node _ subs _ => TreeNode.leftDepthList subs + 1
/-- The `leftDepth` of the first tree of a list. -/
def TreeNode.leftDepthList : List TreeNode → Nat
  | [] => 0
  | t :: _ => TreeNode.leftDepth t
end

/-- The number of frames a descent from the top frame, into the child at its index or
a later one, can come to use. -/
def descentNeeds (top : TreeStackElement) (rest : NodeStack) : Nat :=
  TreeNode.heightList (top.node.subTrees.drop top.index) + rest.length + 1

/-- The number of frames the rest of the traversal can come to use once the top frame
is left: for every frame, what a descent into a later child needs. -/
def framesNeeded : NodeStack → Nat
  | [] => 0
  | f :: rest => Max.max (descentNeeds ⟨f.node, f.index + 1⟩ rest) (framesNeeded rest)

/-- A tree that is one path: `nodes + 1` nodes, each internal node with one child. -/
def TreeNode.chain : Nat → TreeNode
  | 0 => .leaf Bounds.default 1 true
  | nodes + 1 => .node Bounds.default [TreeNode.chain nodes] false

/-- The physical at 300 with the parts 5 and 6, the physical at 400 with the part 8
connected below it, and the physical at 500 with the parts 9 and 10 below that. -/
def examplePhysicalC : Physical :=
  .mk 300 300 ⟨5, 300, false, cube 0 1⟩ [⟨6, 300, false, cube 1 2⟩]
    [.mk 400 300 ⟨8, 400, false, cube 2 3⟩ []
      [.mk 500 300 ⟨9, 500, false, cube 3 4⟩ [⟨10, 500, false, cube 4 5⟩] []]]

/-- The node `outer` is `inner` below a chain of internal nodes with a single child
each: what `NodeStack::remove()` takes out of the tree when it detaches `inner`. -/
inductive TreeNode.Wraps : TreeNode → TreeNode → Prop where
  | refl (d : TreeNode) : TreeNode.Wraps d d
  | step (b : Bounds) (g : Bool) (c d : TreeNode) :
      TreeNode.Wraps c d → TreeNode.Wraps (.node b [c] g) d

namespace TreeNode

mutual
/-- The groups of a subtree: for every group head that has no group head above it, the
objects of the leaves below it, itself included when it is a leaf. -/
def groups : TreeNode → List (List Nat)
  | leaf _ o g => if g then [[o]] else []
  | node _ subs g => if g then [(leavesList subs).map object] else groupsList subs
/-- The groups of the trees of a list. -/
def groupsList : List TreeNode → List (List Nat)
  | [] => []
  | t :: ts => groups t ++ groupsList ts
end

/-- The group membership of a subtree up to its layout: the groups as sets of objects
with multiplicity, in no order. -/
def groupSets (t : TreeNode) : Multiset (Multiset Nat) :=
  Multiset.ofList ((groups t).map Multiset.ofList)

mutual
/-- No node of the subtree is marked as a group head. -/
def noGroupHead : TreeNode → Bool
  | leaf _ _ g => !g
  | node _ subs g => !g && noGroupHeadList subs
/-- No node of the trees of the list is marked as a group head. -/
def noGroupHeadList : List TreeNode → Bool
  | [] => true
  | t :: ts => noGroupHead t && noGroupHeadList ts
end

/-- No node on the way from this node along the path is marked as a group head, the
node the path ends at left aside. -/
def unflaggedAlong : TreeNode → List Nat → Bool
  | _, [] => true
  | leaf _ _ g, _ :: _ => !g
  | node _ subs g, j :: q =>
    !g && (match subs[j]? with
      | none => true
      | some c => unflaggedAlong c q)

end TreeNode

/-! ## Theorems -/

open TreeNode

theorem TreeNode.height_pos (t : TreeNode) : 1 ≤ t.height := by
  cases t <;> simp [height]

theorem TreeNode.height_le_heightList {c : TreeNode} {subs : List TreeNode} (h : c ∈ subs) :
    c.height ≤ heightList subs := by
  induction subs with
  | nil => cases h
  | cons a as ih =>
    simp only [heightList]
    rcases List.mem_cons.1 h with rfl | h
    · exact le_max_left _ _
    · exact le_trans (ih h) (le_max_right _ _)

theorem TreeNode.branchesOk_of_mem {c : TreeNode} {subs : List TreeNode}
    (hs : branchesOkList subs = true) (h : c ∈ subs) : c.branchesOk = true := by
  induction subs with
  | nil => cases h
  | cons a as ih =>
    simp only [branchesOkList, Bool.and_eq_true] at hs
    rcases List.mem_cons.1 h with rfl | h
    · exact hs.1
    · exact ih hs.2 h

theorem TreeNode.leavesList_append (xs ys : List TreeNode) :
    leavesList (xs ++ ys) = leavesList xs ++ leavesList ys := by
  induction xs with
  | nil => simp [leavesList]
  | cons a as ih => simp [leavesList, ih]

theorem TreeNode.leavesList_drop {subs : List TreeNode} {i : Nat} {c : TreeNode}
    (h : subs[i]? = some c) :
    leavesList (subs.drop i) = leaves c ++ leavesList (subs.drop (i + 1)) := by
  induction subs generalizing i with
  | nil => simp at h
  | cons a as ih =>
    cases i with
    | zero =>
      simp at h
      subst h
      simp [leavesList]
    | succ j =>
      simp at h
      simpa using ih h

theorem TreeNode.leaves_of_isLeafNode {t : TreeNode} (h : t.isLeafNode = true) : leaves t = [t] := by
  cases t with
  | leaf b o g => simp [leaves]
  | node b s g => simp [isLeafNode] at h

theorem ConstTreeIterator.delveDownLoop_push (fuel : Nat) (n : TreeNode) (i : Nat)
    (rest : NodeStack) (c : TreeNode) (hleaf : n.isLeafNode = false)
    (hc : n.child? i = some c) (hroom : ¬ MAX_HEIGHT ≤ rest.length + 1) :
    ConstTreeIterator.delveDownLoop (fuel + 1) (⟨n, i⟩ :: rest) =
      ConstTreeIterator.delveDownLoop fuel (⟨c, 0⟩ :: ⟨n, i⟩ :: rest) := by
  simp [ConstTreeIterator.delveDownLoop, hleaf, hc, hroom]

/-- Descending from a fresh frame for a well-formed subtree stops at its first leaf. -/
theorem ConstTreeIterator.delveDownLoop_spec (fuel : Nat) :
    ∀ (c : TreeNode) (s : NodeStack), c.branchesOk = true → c.height ≤ fuel →
      c.height + s.length ≤ MAX_HEIGHT → StackOk s →
      ∃ l s', ConstTreeIterator.delveDownLoop fuel (⟨c, 0⟩ :: s) = some (⟨l, 0⟩ :: s') ∧
        l.isLeafNode = true ∧ StackOk s' ∧ leaves c ++ restLeaves s = l :: restLeaves s' := by
  induction fuel with
  | zero =>
    intro c s _ hf _ _
    have := c.height_pos
    omega
  | succ fuel ih =>
    intro c s hb hf hh hs
    cases c with
    | leaf b o g =>
      exact ⟨.leaf b o g, s, by simp [ConstTreeIterator.delveDownLoop, isLeafNode], rfl, hs,
        by simp [leaves]⟩
    | node b subs g =>
      simp only [branchesOk, Bool.and_eq_true, decide_eq_true_eq] at hb
      obtain ⟨⟨hlen, _⟩, hbl⟩ := hb
      cases subs with
      | nil => simp at hlen
      | cons c0 cs =>
        have hc0 : c0.height ≤ heightList (c0 :: cs) := height_le_heightList (List.mem_cons_self _ _)
        have hc0pos := c0.height_pos
        simp only [height] at hf hh
        have hroom : ¬ (MAX_HEIGHT ≤ s.length + 1) := by omega
        have hok : StackOk (⟨.node b (c0 :: cs) g, 0⟩ :: s) := by
          refine ⟨⟨rfl, by simp [subTrees], hbl, ?_⟩, hs⟩
          simp only [subTrees]; omega
        obtain ⟨l, s', h1, h2, h3, h4⟩ := ih c0 (⟨.node b (c0 :: cs) g, 0⟩ :: s)
          (branchesOk_of_mem hbl (List.mem_cons_self _ _)) (by omega)
          (by simp only [List.length_cons]; omega) hok
        refine ⟨l, s', ?_, h2, h3, ?_⟩
        · simp [ConstTreeIterator.delveDownLoop, isLeafNode, child?, subTrees, hroom, h1]
        · rw [← h4]
          simp [leaves, leavesList, restLeaves, subTrees]

/-- One `++` from a leaf either exhausts the iterator, when nothing is left, or
stops at the next leaf in depth-first order. -/
theorem ConstTreeIterator.increment_spec (top : TreeStackElement) :
    ∀ (s : NodeStack), StackOk s →
      ∃ r, ConstTreeIterator.increment (top :: s) = some r ∧
        ((r = [] ∧ restLeaves s = []) ∨
         ∃ l s', r = ⟨l, 0⟩ :: s' ∧ l.isLeafNode = true ∧ StackOk s' ∧
           restLeaves s = l :: restLeaves s') := by
  intro s
  induction s with
  | nil =>
    intro _
    exact ⟨[], by simp [ConstTreeIterator.increment, ConstTreeIterator.riseUntilAvailable], Or.inl ⟨rfl, rfl⟩⟩
  | cons f rest ih =>
    intro hs
    obtain ⟨⟨hleaf, hidx, hbl, hh⟩, hrest⟩ := hs
    obtain ⟨fnode, fidx⟩ := f
    cases fnode with
    | leaf b o g => simp [isLeafNode] at hleaf
    | node b subs g =>
      simp only [subTrees] at hidx hbl hh
      by_cases hfull : fidx + 1 = subs.length
      · obtain ⟨r, hr, hcase⟩ := ih hrest
        refine ⟨r, ?_, ?_⟩
        · simp only [ConstTreeIterator.increment, ConstTreeIterator.riseUntilAvailable, nodeCount, hfull, if_true] at hr ⊢
          exact hr
        · have hdrop : List.drop (fidx + 1) subs = [] := by
            rw [hfull]; exact List.drop_length _
          simpa [restLeaves, subTrees, hdrop, leavesList] using hcase
      · have hlt : fidx + 1 < subs.length := by omega
        obtain ⟨c, hc⟩ : ∃ c, subs[fidx + 1]? = some c := ⟨subs[fidx + 1], by simp [hlt]⟩
        have hmem : c ∈ subs := List.getElem?_mem hc
        have hch := height_le_heightList hmem
        have hcpos := c.height_pos
        have hroom : ¬ (MAX_HEIGHT ≤ rest.length + 1) := by omega
        have hok : StackOk (⟨.node b subs g, fidx + 1⟩ :: rest) :=
          ⟨⟨rfl, by simpa [subTrees] using hlt, hbl, by simpa [subTrees] using hh⟩, hrest⟩
        obtain ⟨l, s', h1, h2, h3, h4⟩ := ConstTreeIterator.delveDownLoop_spec MAX_HEIGHT c
          (⟨.node b subs g, fidx + 1⟩ :: rest) (branchesOk_of_mem hbl hmem) (by omega)
          (by simp only [List.length_cons]; omega) hok
        refine ⟨⟨l, 0⟩ :: s', ?_, Or.inr ⟨l, s', rfl, h2, h3, ?_⟩⟩
        · simp only [ConstTreeIterator.increment, ConstTreeIterator.riseUntilAvailable, nodeCount,
            hfull, if_false, ConstTreeIterator.delveDown]
          rw [ConstTreeIterator.delveDownLoop_push MAX_HEIGHT (.node b subs g) (fidx + 1) rest c rfl hc hroom, h1]
        · rw [← h4]
          simp [restLeaves, subTrees, leavesList_drop hc]

/-- Iterating from a leaf frame visits that leaf and then the leaves still to come. -/
theorem ConstTreeIterator.visit_spec (fuel : Nat) :
    ∀ (l : TreeNode) (i : Nat) (s : NodeStack), StackOk s → (restLeaves s).length < fuel →
      ConstTreeIterator.visit fuel (⟨l, i⟩ :: s) = some (l :: restLeaves s) := by
  induction fuel with
  | zero => intro l i s _ h; omega
  | succ fuel ih =>
    intro l i s hs hlen
    obtain ⟨r, hr, hcase⟩ := ConstTreeIterator.increment_spec ⟨l, i⟩ s hs
    rcases hcase with ⟨rfl, hnil⟩ | ⟨l', s', rfl, _, hs', hrest⟩
    · cases fuel <;> simp [ConstTreeIterator.visit, hr, hnil]
    · have hlen' : (restLeaves s').length < fuel := by
        rw [hrest] at hlen; simp at hlen; omega
      simp [ConstTreeIterator.visit, hr, ih l' 0 s' hs' hlen', hrest]

/-- C1. For every tree whose internal nodes all have between 1 and `MAX_BRANCHES`
children and whose root-to-leaf paths have at most `MAX_HEIGHT` nodes, the loop
`for (it = begin(); it != end(); ++it)` runs to the end (given room for as many
increments as there are leaves) and visits exactly the leaves of the tree, each
once, in left-to-right depth-first order. -/
theorem C1_unfiltered_iteration_visits_leaves (t : BoundsTree) (fuel : Nat)
    (hwf : t.rootNode.WellFormed) (hfuel : (leaves t.rootNode).length ≤ fuel) :
    t.isEmpty = false ∧ t.iterate fuel = some (leaves t.rootNode) := by
  obtain ⟨root⟩ := t
  obtain ⟨hb, hh⟩ := hwf
  simp only at hb hh hfuel
  have hne : root.nodeCount ≠ 0 := by
    cases root with
    | leaf b o g => simp [nodeCount, LEAF_NODE_SIGNIFIER]
    | node b subs g =>
      simp only [branchesOk, Bool.and_eq_true, decide_eq_true_eq] at hb
      simp only [nodeCount]; omega
  refine ⟨by simp [BoundsTree.isEmpty, hne], ?_⟩
  obtain ⟨l, s', h1, _, h3, h4⟩ := ConstTreeIterator.delveDownLoop_spec (MAX_HEIGHT + 1) root []
    hb (by omega) (by simpa using hh) trivial
  simp only [restLeaves, List.append_nil] at h4
  have hlen : (restLeaves s').length < fuel := by
    rw [h4] at hfuel; simp at hfuel; omega
  simp [BoundsTree.iterate, ConstTreeIterator.new, hne, NodeStack.ofRoot, ConstTreeIterator.delveDown,
    h1, ConstTreeIterator.visit_spec fuel l 0 s' h3 hlen, h4]


/-- C1, at the example tree: the three leaves are visited in order. -/
theorem C1_unfiltered_iteration_visits_leaves_witness :
    queryTree.rootNode.WellFormed ∧ (leaves queryTree.rootNode).length ≤ 3 ∧
      queryTree.isEmpty = false ∧ queryTree.iterate 3 = some (leaves queryTree.rootNode) :=
  ⟨by decide, by decide,
    C1_unfiltered_iteration_visits_leaves queryTree 3 (by decide) (by decide)⟩

/-! ### The filtered iterator -/

theorem TreeNode.subTrees_node (b : Bounds) (subs : List TreeNode) (g : Bool) :
    (TreeNode.node b subs g).subTrees = subs := rfl

theorem TreeNode.size_pos (t : TreeNode) : 1 ≤ t.size := by
  cases t <;> simp [size]

theorem TreeNode.sizeList_drop {subs : List TreeNode} {i : Nat} {c : TreeNode}
    (h : subs[i]? = some c) :
    sizeList (subs.drop i) = size c + sizeList (subs.drop (i + 1)) := by
  induction subs generalizing i with
  | nil => simp at h
  | cons a as ih =>
    cases i with
    | zero =>
      simp at h
      subst h
      simp [sizeList]
    | succ j =>
      simp at h
      simpa using ih h

theorem TreeNode.filteredLeavesList_drop (filter : TreeNode → Bool) {subs : List TreeNode}
    {i : Nat} {c : TreeNode} (h : subs[i]? = some c) :
    filteredLeavesList filter (subs.drop i) =
      filteredLeaves filter c ++ filteredLeavesList filter (subs.drop (i + 1)) := by
  induction subs generalizing i with
  | nil => simp at h
  | cons a as ih =>
    cases i with
    | zero =>
      simp at h
      subst h
      simp [filteredLeavesList]
    | succ j =>
      simp at h
      simpa using ih h

/-- The inner rise loop of the filtered descent keeps what is pending: it either
leaves the stack, when nothing is pending, or stops at a frame with a child to try. -/
theorem FilteredTreeIterator.riseWhileFull_spec (filter : TreeNode → Bool) :
    ∀ (rest : NodeStack) (n : TreeNode) (j : Nat), StackOk rest →
      n.isLeafNode = false → j ≤ n.subTrees.length → branchesOkList n.subTrees = true →
      heightList n.subTrees + rest.length + 1 ≤ MAX_HEIGHT →
      (FilteredTreeIterator.riseWhileFull ⟨n, j⟩ rest = [] ∧
        filteredLeavesList filter (n.subTrees.drop j) ++ restFiltered filter rest = [] ∧
        sizeList (n.subTrees.drop j) + restSize rest = 0) ∨
      ∃ top' rest', FilteredTreeIterator.riseWhileFull ⟨n, j⟩ rest = top' :: rest' ∧
        StackOk (top' :: rest') ∧
        filteredLeavesList filter (n.subTrees.drop j) ++ restFiltered filter rest =
          filteredLeavesList filter (top'.node.subTrees.drop top'.index) ++ restFiltered filter rest' ∧
        sizeList (n.subTrees.drop j) + restSize rest =
          sizeList (top'.node.subTrees.drop top'.index) + restSize rest' := by
  intro rest
  induction rest with
  | nil =>
    intro n j _ hleaf hj hbl hh
    cases n with
    | leaf b o g => simp [isLeafNode] at hleaf
    | node b subs g =>
      simp only [subTrees] at hj hbl hh ⊢
      by_cases hfull : j = subs.length
      · left
        subst hfull
        simp [FilteredTreeIterator.riseWhileFull, nodeCount, filteredLeavesList, restFiltered,
          sizeList, restSize]
      · right
        refine ⟨⟨.node b subs g, j⟩, [], ?_, ?_, rfl, rfl⟩
        · simp [FilteredTreeIterator.riseWhileFull, nodeCount, hfull]
        · exact ⟨⟨rfl, by simp only [subTrees]; omega, hbl, by simpa [subTrees] using hh⟩, trivial⟩
  | cons below rest ih =>
    intro n j hs hleaf hj hbl hh
    cases n with
    | leaf b o g => simp [isLeafNode] at hleaf
    | node b subs g =>
      simp only [subTrees] at hj hbl hh ⊢
      by_cases hfull : j = subs.length
      · subst hfull
        obtain ⟨⟨hbleaf, hbidx, hbbl, hbh⟩, hrest⟩ := hs
        have := ih below.node (below.index + 1) hrest hbleaf (by omega) hbbl hbh
        simpa [FilteredTreeIterator.riseWhileFull, nodeCount, filteredLeavesList, restFiltered,
          sizeList, restSize] using this
      · right
        refine ⟨⟨.node b subs g, j⟩, below :: rest, ?_, ?_, rfl, rfl⟩
        · simp [FilteredTreeIterator.riseWhileFull, nodeCount, hfull]
        · exact ⟨⟨rfl, by simp only [subTrees]; omega, hbl, by simpa [subTrees] using hh⟩, hs⟩

/-- The filtered descent, started at a frame with a child to try, stops at the first
leaf the pruned traversal has still to reach, or leaves the stack when there is none. -/
theorem FilteredTreeIterator.delveDownFilteredLoop_spec (filter : TreeNode → Bool) (fuel : Nat) :
    ∀ (top : TreeStackElement) (rest : NodeStack), StackOk (top :: rest) →
      sizeList (top.node.subTrees.drop top.index) + restSize rest ≤ fuel →
      ∃ r, FilteredTreeIterator.delveDownFilteredLoop filter fuel (top :: rest) = some r ∧
        ((r = [] ∧
          filteredLeavesList filter (top.node.subTrees.drop top.index) ++ restFiltered filter rest = []) ∨
         ∃ l s', r = ⟨l, 0⟩ :: s' ∧ l.isLeafNode = true ∧ StackOk s' ∧
           filteredLeavesList filter (top.node.subTrees.drop top.index) ++ restFiltered filter rest =
             l :: restFiltered filter s' ∧
           restSize s' < sizeList (top.node.subTrees.drop top.index) + restSize rest) := by
  induction fuel with
  | zero =>
    intro top rest hs hf
    obtain ⟨⟨_, hidx, _, _⟩, _⟩ := hs
    obtain ⟨c, hc⟩ : ∃ c, top.node.subTrees[top.index]? = some c :=
      ⟨top.node.subTrees[top.index], by simp [hidx]⟩
    rw [sizeList_drop hc] at hf
    have := c.size_pos
    omega
  | succ fuel ih =>
    intro top rest hs hf
    have hs0 := hs
    obtain ⟨⟨hleaf, hidx, hbl, hh⟩, hrest⟩ := hs
    obtain ⟨n, idx⟩ := top
    simp only at hleaf hidx hbl hh hf ⊢
    obtain ⟨c, hc⟩ : ∃ c, n.subTrees[idx]? = some c := ⟨n.subTrees[idx], by simp [hidx]⟩
    have hmem : c ∈ n.subTrees := List.getElem?_mem hc
    have hch := height_le_heightList hmem
    have hcpos := c.height_pos
    have hcb := branchesOk_of_mem hbl hmem
    have hroom : ¬ (MAX_HEIGHT ≤ rest.length + 1) := by omega
    rw [sizeList_drop hc] at hf ⊢
    rw [filteredLeavesList_drop filter hc]
    by_cases hfc : filter c = true
    · cases c with
      | leaf b o g =>
        refine ⟨⟨.leaf b o g, 0⟩ :: ⟨n, idx⟩ :: rest, ?_, Or.inr ⟨.leaf b o g, ⟨n, idx⟩ :: rest, rfl, rfl, hs0, ?_, ?_⟩⟩
        · simp [FilteredTreeIterator.delveDownFilteredLoop, child?, hc, hroom, hfc, isLeafNode]
        · simp [filteredLeaves, hfc, restFiltered]
        · simp [restSize, size]
      | node b' subs' g' =>
        simp only [branchesOk, Bool.and_eq_true, decide_eq_true_eq] at hcb
        obtain ⟨⟨hlen, _⟩, hbl'⟩ := hcb
        simp only [height] at hch
        have hok : StackOk (⟨.node b' subs' g', 0⟩ :: ⟨n, idx⟩ :: rest) := by
          refine ⟨⟨rfl, by simp only [subTrees_node]; omega, hbl', ?_⟩, hs0⟩
          simp only [subTrees_node, List.length_cons]; omega
        obtain ⟨r, hr, hcase⟩ := ih ⟨.node b' subs' g', 0⟩ (⟨n, idx⟩ :: rest) hok
          (by simp only [subTrees_node, List.drop_zero, restSize]; simp only [size] at hf; omega)
        refine ⟨r, ?_, ?_⟩
        · simp [FilteredTreeIterator.delveDownFilteredLoop, child?, hc, hroom, hfc, isLeafNode, hr]
        · simp only [subTrees_node, List.drop_zero, restFiltered, restSize] at hcase
          simp only [filteredLeaves, hfc, if_true, size, List.append_assoc]
          rcases hcase with ⟨h1, h2⟩ | ⟨l, s', h1, h2, h3, h4, h5⟩
          · exact Or.inl ⟨h1, h2⟩
          · exact Or.inr ⟨l, s', h1, h2, h3, h4, by omega⟩
    · have hrej : filteredLeaves filter c = [] := by
        cases c <;> simp [filteredLeaves, hfc]
      have hcs := c.size_pos
      rcases FilteredTreeIterator.riseWhileFull_spec filter rest n (idx + 1) hrest hleaf (by omega) hbl hh with
        ⟨h1, h2, _⟩ | ⟨top', rest', h1, h2, h3, h4⟩
      · refine ⟨[], ?_, Or.inl ⟨rfl, ?_⟩⟩
        · simp [FilteredTreeIterator.delveDownFilteredLoop, child?, hc, hroom, hfc, h1]
        · simpa [hrej] using h2
      · obtain ⟨r, hr, hcase⟩ := ih top' rest' h2 (by omega)
        refine ⟨r, ?_, ?_⟩
        · simp [FilteredTreeIterator.delveDownFilteredLoop, child?, hc, hroom, hfc, h1, hr]
        · rw [hrej, List.nil_append, h3]
          rcases hcase with ⟨h5, h6⟩ | ⟨l, s', h5, h6, h7, h8, h9⟩
          · exact Or.inl ⟨h5, h6⟩
          · exact Or.inr ⟨l, s', h5, h6, h7, h8, by omega⟩

/-- The rise loop of `operator++` keeps what the filtered traversal has pending. -/
theorem ConstTreeIterator.riseUntilAvailable_filtered (filter : TreeNode → Bool) :
    ∀ (s : NodeStack), StackOk s →
      (ConstTreeIterator.riseUntilAvailable s = [] ∧ restFiltered filter s = [] ∧ restSize s = 0) ∨
      ∃ top' rest', ConstTreeIterator.riseUntilAvailable s = top' :: rest' ∧
        StackOk (top' :: rest') ∧
        restFiltered filter s =
          filteredLeavesList filter (top'.node.subTrees.drop top'.index) ++ restFiltered filter rest' ∧
        restSize s = sizeList (top'.node.subTrees.drop top'.index) + restSize rest' := by
  intro s
  induction s with
  | nil => intro _; left; simp [ConstTreeIterator.riseUntilAvailable, restFiltered, restSize]
  | cons f rest ih =>
    intro hs
    obtain ⟨⟨hleaf, hidx, hbl, hh⟩, hrest⟩ := hs
    obtain ⟨n, idx⟩ := f
    cases n with
    | leaf b o g => simp [isLeafNode] at hleaf
    | node b subs g =>
      simp only [subTrees_node] at hidx hbl hh
      by_cases hfull : idx + 1 = subs.length
      · have hdrop : List.drop (idx + 1) subs = [] := by
          rw [hfull]; exact List.drop_length _
        simpa [ConstTreeIterator.riseUntilAvailable, nodeCount, hfull, restFiltered, restSize,
          subTrees_node, hdrop, filteredLeavesList, sizeList] using ih hrest
      · right
        refine ⟨⟨.node b subs g, idx + 1⟩, rest, ?_, ?_, rfl, rfl⟩
        · simp [ConstTreeIterator.riseUntilAvailable, nodeCount, hfull]
        · exact ⟨⟨rfl, by simp only [subTrees_node]; omega, hbl, by simpa [subTrees_node] using hh⟩, hrest⟩

/-- One `++` of the filtered iterator from a leaf either exhausts it, when no
filtered leaf is left, or stops at the next one. -/
theorem FilteredTreeIterator.incrementFiltered_spec (filter : TreeNode → Bool) (fuel : Nat)
    (top : TreeStackElement) (s : NodeStack) (hs : StackOk s) (hf : restSize s ≤ fuel) :
    ∃ r, FilteredTreeIterator.increment filter fuel (top :: s) = some r ∧
      ((r = [] ∧ restFiltered filter s = []) ∨
       ∃ l s', r = ⟨l, 0⟩ :: s' ∧ l.isLeafNode = true ∧ StackOk s' ∧
         restFiltered filter s = l :: restFiltered filter s' ∧ restSize s' < restSize s) := by
  rcases ConstTreeIterator.riseUntilAvailable_filtered filter s hs with
    ⟨h1, h2, _⟩ | ⟨top', rest', h1, h2, h3, h4⟩
  · exact ⟨[], by simp [FilteredTreeIterator.increment, h1], Or.inl ⟨rfl, h2⟩⟩
  · obtain ⟨r, hr, hcase⟩ :=
      FilteredTreeIterator.delveDownFilteredLoop_spec filter fuel top' rest' h2 (by omega)
    refine ⟨r, by simp [FilteredTreeIterator.increment, h1, hr], ?_⟩
    rw [h3, h4]
    exact hcase

/-- Iterating the filtered iterator from a leaf frame visits that leaf and then the
filtered leaves still to come. -/
theorem FilteredTreeIterator.visitFiltered_spec (filter : TreeNode → Bool) (fuel : Nat) (steps : Nat) :
    ∀ (l : TreeNode) (i : Nat) (s : NodeStack), StackOk s → restSize s ≤ fuel →
      (restFiltered filter s).length < steps →
      FilteredTreeIterator.visit filter fuel steps (⟨l, i⟩ :: s) = some (l :: restFiltered filter s) := by
  induction steps with
  | zero => intro l i s _ _ h; omega
  | succ steps ih =>
    intro l i s hs hf hlen
    obtain ⟨r, hr, hcase⟩ := FilteredTreeIterator.incrementFiltered_spec filter fuel ⟨l, i⟩ s hs hf
    rcases hcase with ⟨rfl, hnil⟩ | ⟨l', s', rfl, _, hs', hrest, hsz⟩
    · cases steps <;> simp [FilteredTreeIterator.visit, hr, hnil]
    · have hlen' : (restFiltered filter s').length < steps := by
        rw [hrest] at hlen; simp at hlen; omega
      simp [FilteredTreeIterator.visit, hr, ih l' 0 s' hs' (by omega) hlen', hrest]

/-- What a loop over `iterFiltered(filter)` produces on a well-formed tree: the root
itself when it is a leaf (the filter is not consulted), otherwise the leaves reached
by the pruned descent below the root. -/
theorem BoundsTree.iterFiltered_eq (t : BoundsTree) (filter : TreeNode → Bool) (fuel steps : Nat)
    (hwf : t.rootNode.WellFormed) (hfuel : t.rootNode.size ≤ fuel)
    (hsteps : (filteredSequence filter t.rootNode).length ≤ steps) :
    t.iterFiltered filter fuel steps = some (filteredSequence filter t.rootNode) := by
  obtain ⟨root⟩ := t
  obtain ⟨hb, hh⟩ := hwf
  simp only at hb hh hfuel hsteps
  cases root with
  | leaf b o g =>
    simp only [filteredSequence, isLeafNode, if_true, List.length_singleton] at hsteps ⊢
    have := FilteredTreeIterator.visitFiltered_spec filter fuel steps (.leaf b o g) 0 [] trivial
      (by simp [restSize]) (by simp only [restFiltered, List.length_nil]; omega)
    simpa [BoundsTree.iterFiltered, FilteredTreeIterator.new, nodeCount, LEAF_NODE_SIGNIFIER,
      isLeafNode, NodeStack.ofRoot, restFiltered] using this
  | node b subs g =>
    simp only [branchesOk, Bool.and_eq_true, decide_eq_true_eq] at hb
    obtain ⟨⟨hlen, _⟩, hbl⟩ := hb
    simp only [height] at hh
    simp only [size] at hfuel
    have hne : subs.length ≠ 0 := by omega
    simp only [filteredSequence, isLeafNode, subTrees_node] at hsteps ⊢
    have hok : StackOk [⟨.node b subs g, 0⟩] :=
      ⟨⟨rfl, by simp only [subTrees_node]; omega, hbl,
        by simp only [subTrees_node, List.length_nil]; omega⟩, trivial⟩
    obtain ⟨r, hr, hcase⟩ := FilteredTreeIterator.delveDownFilteredLoop_spec filter fuel
      ⟨.node b subs g, 0⟩ [] hok (by simp only [subTrees_node, List.drop_zero, restSize]; omega)
    simp only [subTrees_node, List.drop_zero, restFiltered, List.append_nil, restSize,
      Nat.add_zero] at hcase
    rcases hcase with ⟨rfl, hnil⟩ | ⟨l, s', rfl, _, hs', hrest, hsz⟩
    · simp [BoundsTree.iterFiltered, FilteredTreeIterator.new, nodeCount, hne, isLeafNode,
        NodeStack.ofRoot, hr, FilteredTreeIterator.visit, hnil]
    · have hlen' : (restFiltered filter s').length < steps := by
        rw [hrest] at hsteps; simp at hsteps; omega
      simp [BoundsTree.iterFiltered, FilteredTreeIterator.new, nodeCount, hne, isLeafNode,
        NodeStack.ofRoot, hr, FilteredTreeIterator.visitFiltered_spec filter fuel steps l 0 s' hs' (by omega) hlen',
        hrest]

/-! ### Induction on trees, bounds -/

/-- Structural induction on a tree: a property of all leaves that passes from the
children of a node to the node holds of every tree. -/
theorem TreeNode.induction {P : TreeNode → Prop} (hleaf : ∀ b o g, P (leaf b o g))
    (hnode : ∀ b subs g, (∀ c ∈ subs, P c) → P (node b subs g)) (t : TreeNode) : P t :=
  @TreeNode.rec P (fun l => ∀ c ∈ l, P c) hleaf (fun b subs g ih => hnode b subs g ih)
    (fun c hc => by cases hc)
    (fun hd tl ih1 ih2 c hc => by
      rcases List.mem_cons.1 hc with rfl | h
      · exact ih1
      · exact ih2 c h) t

theorem Bounds.contains_iff (a b : Bounds) :
    a.contains b = true ↔
      a.min.x ≤ b.min.x ∧ a.min.y ≤ b.min.y ∧ a.min.z ≤ b.min.z ∧
      b.max.x ≤ a.max.x ∧ b.max.y ≤ a.max.y ∧ b.max.z ≤ a.max.z := by
  simp [Bounds.contains, and_assoc]

theorem Bounds.containsPoint_iff (a : Bounds) (p : Position) :
    a.containsPoint p = true ↔
      a.min.x ≤ p.x ∧ a.min.y ≤ p.y ∧ a.min.z ≤ p.z ∧
      p.x ≤ a.max.x ∧ p.y ≤ a.max.y ∧ p.z ≤ a.max.z := by
  simp [Bounds.containsPoint, and_assoc]

theorem Bounds.contains_refl (a : Bounds) : a.contains a = true := by
  simp [Bounds.contains_iff]

theorem Bounds.contains_trans {a b c : Bounds} (h1 : a.contains b = true)
    (h2 : b.contains c = true) : a.contains c = true := by
  rw [Bounds.contains_iff] at *
  omega

theorem Bounds.contains_antisymm {a b : Bounds} (h1 : a.contains b = true)
    (h2 : b.contains a = true) : a = b := by
  rw [Bounds.contains_iff] at *
  obtain ⟨⟨ax, ay, az⟩, ⟨bx, b_y, bz⟩⟩ := a
  obtain ⟨⟨cx, cy, cz⟩, ⟨dx, dy, dz⟩⟩ := b
  simp only at h1 h2
  simp only [Bounds.mk.injEq, Position.mk.injEq]
  omega

theorem Bounds.contains_union_iff (a b c : Bounds) :
    a.contains (unionOfBounds b c) = true ↔ a.contains b = true ∧ a.contains c = true := by
  simp only [Bounds.contains_iff, unionOfBounds]
  omega

theorem Bounds.union_contains_left (a b : Bounds) : (unionOfBounds a b).contains a = true := by
  simp only [Bounds.contains_iff, unionOfBounds]
  omega

theorem Bounds.union_contains_right (a b : Bounds) : (unionOfBounds a b).contains b = true := by
  simp only [Bounds.contains_iff, unionOfBounds]
  omega

theorem Bounds.containsPoint_of_contains {a b : Bounds} {p : Position}
    (h1 : a.contains b = true) (h2 : b.containsPoint p = true) : a.containsPoint p = true := by
  rw [Bounds.contains_iff] at h1
  rw [Bounds.containsPoint_iff] at *
  omega

theorem contains_foldl_union_iff (x : Bounds) (others : List TreeNode) :
    ∀ acc : Bounds,
      x.contains (others.foldl (fun acc c => unionOfBounds acc c.bounds) acc) = true ↔
        x.contains acc = true ∧ ∀ c ∈ others, x.contains c.bounds = true := by
  induction others with
  | nil => intro acc; simp
  | cons a as ih =>
    intro acc
    simp only [List.foldl_cons, ih, Bounds.contains_union_iff, List.mem_cons, forall_eq_or_imp]
    tauto

/-- A box encloses the union computed over a list of nodes exactly when it encloses
the bounds of every node of the list. -/
theorem contains_computeBoundsOfList_iff (x : Bounds) (first : TreeNode) (others : List TreeNode) :
    x.contains (computeBoundsOfList first others) = true ↔
      ∀ c ∈ first :: others, x.contains c.bounds = true := by
  simp [computeBoundsOfList, contains_foldl_union_iff]

theorem TreeNode.mem_leavesList {l : TreeNode} {subs : List TreeNode} :
    l ∈ leavesList subs ↔ ∃ c ∈ subs, l ∈ leaves c := by
  induction subs with
  | nil => simp [leavesList]
  | cons a as ih => simp [leavesList, ih]

theorem TreeNode.boundsEnclose_of_mem {c : TreeNode} {subs : List TreeNode}
    (hs : boundsEncloseList subs = true) (h : c ∈ subs) : c.boundsEnclose = true := by
  induction subs with
  | nil => cases h
  | cons a as ih =>
    simp only [boundsEncloseList, Bool.and_eq_true] at hs
    rcases List.mem_cons.1 h with rfl | h
    · exact hs.1
    · exact ih hs.2 h

theorem TreeNode.boundsConsistent_of_mem {c : TreeNode} {subs : List TreeNode}
    (hs : boundsConsistentList subs = true) (h : c ∈ subs) : c.boundsConsistent = true := by
  induction subs with
  | nil => cases h
  | cons a as ih =>
    simp only [boundsConsistentList, Bool.and_eq_true] at hs
    rcases List.mem_cons.1 h with rfl | h
    · exact hs.1
    · exact ih hs.2 h

theorem TreeNode.boundsEncloseList_iff {subs : List TreeNode} :
    boundsEncloseList subs = true ↔ ∀ c ∈ subs, c.boundsEnclose = true := by
  induction subs with
  | nil => simp [boundsEncloseList]
  | cons a as ih => simp [boundsEncloseList, ih]

/-- A bounds-consistent tree is one whose internal nodes enclose their children. -/
theorem TreeNode.boundsEnclose_of_boundsConsistent (t : TreeNode) :
    t.boundsConsistent = true → t.boundsEnclose = true := by
  induction t using TreeNode.induction with
  | hleaf b o g => intro _; simp [boundsEnclose]
  | hnode b subs g ih =>
    intro h
    simp only [boundsConsistent, Bool.and_eq_true] at h
    obtain ⟨hb, hl⟩ := h
    simp only [boundsEnclose, Bool.and_eq_true, List.all_eq_true, boundsEncloseList_iff]
    refine ⟨?_, fun c hc => ih c hc (boundsConsistent_of_mem hl hc)⟩
    cases subs with
    | nil => intro c hc; cases hc
    | cons first others =>
      simp only [decide_eq_true_eq] at hb
      intro c hc
      have := (contains_computeBoundsOfList_iff (computeBoundsOfList first others) first others).1
        (Bounds.contains_refl _) c hc
      rw [hb]; exact this

/-- In a tree whose nodes enclose their children, every node encloses each leaf below it. -/
theorem TreeNode.contains_leaf_bounds (t : TreeNode) :
    t.boundsEnclose = true → ∀ l ∈ leaves t, t.bounds.contains l.bounds = true := by
  induction t using TreeNode.induction with
  | hleaf b o g =>
    intro _ l hl
    simp only [leaves, List.mem_singleton] at hl
    subst hl
    exact Bounds.contains_refl _
  | hnode b subs g ih =>
    intro h l hl
    simp only [boundsEnclose, Bool.and_eq_true, List.all_eq_true] at h
    simp only [leaves, mem_leavesList] at hl
    obtain ⟨c, hc, hlc⟩ := hl
    exact Bounds.contains_trans (h.1 c hc) (ih c hc (boundsEnclose_of_mem h.2 hc) l hlc)

theorem TreeNode.filteredLeavesList_eq_filter (filter : TreeNode → Bool) (subs : List TreeNode)
    (h : ∀ c ∈ subs, filteredLeaves filter c = (leaves c).filter filter) :
    filteredLeavesList filter subs = (leavesList subs).filter filter := by
  induction subs with
  | nil => simp [filteredLeavesList, leavesList]
  | cons a as ih =>
    simp only [filteredLeavesList, leavesList, List.filter_append]
    rw [h a (List.mem_cons_self _ _), ih (fun c hc => h c (List.mem_cons_of_mem _ hc))]

/-- Under the monotonicity contract, on a tree whose nodes enclose their children,
pruning loses nothing: the pruned descent reaches exactly the accepted leaves. -/
theorem TreeNode.filteredLeaves_eq_filter (filter : TreeNode → Bool) (hmono : FilterMonotone filter)
    (t : TreeNode) : t.boundsEnclose = true → filteredLeaves filter t = (leaves t).filter filter := by
  induction t using TreeNode.induction with
  | hleaf b o g =>
    intro _
    by_cases h : filter (.leaf b o g) = true <;> simp [filteredLeaves, leaves, h]
  | hnode b subs g ih =>
    intro henc
    have hsub : boundsEncloseList subs = true := by
      simp only [boundsEnclose, Bool.and_eq_true] at henc; exact henc.2
    have hlist := filteredLeavesList_eq_filter filter subs
      (fun c hc => ih c hc (boundsEnclose_of_mem hsub hc))
    by_cases h : filter (.node b subs g) = true
    · simp [filteredLeaves, leaves, h, hlist]
    · have hempty : filteredLeaves filter (.node b subs g) = [] := by
        simp [filteredLeaves, h]
      rw [hempty]
      symm
      simp only [leaves]
      rw [List.filter_eq_nil_iff]
      intro l hl hfl
      exact h (hmono l (.node b subs g) (contains_leaf_bounds _ henc l (by simpa [leaves] using hl)) hfl)

/-- On a tree whose nodes enclose their children and under the monotonicity
contract, the filtered sequence below an internal root is the accepted leaves. -/
theorem filteredSequence_eq_filter (filter : TreeNode → Bool) (hmono : FilterMonotone filter)
    (b : Bounds) (subs : List TreeNode) (g : Bool) (henc : (TreeNode.node b subs g).boundsEnclose = true) :
    filteredSequence filter (.node b subs g) = (leaves (.node b subs g)).filter filter := by
  have hsub : boundsEncloseList subs = true := by
    simp only [boundsEnclose, Bool.and_eq_true] at henc; exact henc.2
  simp only [filteredSequence, isLeafNode, subTrees_node, leaves]
  exact filteredLeavesList_eq_filter filter subs
    (fun c hc => filteredLeaves_eq_filter filter hmono c (boundsEnclose_of_mem hsub hc))

theorem pointFilter_monotone (p : Position) : FilterMonotone (pointFilter p) := by
  intro a b hab ha
  exact Bounds.containsPoint_of_contains hab ha

/-! ### Filtered queries -/

/-- C2. On a well-formed tree whose internal nodes enclose their children, for a
filter obeying the monotonicity contract, the loop over `iterFiltered(filter)` runs to
the end and every leaf the filter accepts is among the visited nodes: no false
negatives. -/
theorem C2_filtered_iteration_no_false_negatives (t : BoundsTree) (filter : TreeNode → Bool)
    (fuel steps : Nat) (hwf : t.rootNode.WellFormed) (henc : t.rootNode.boundsEnclose = true)
    (hmono : FilterMonotone filter) (hfuel : t.rootNode.size ≤ fuel)
    (hsteps : (leaves t.rootNode).length ≤ steps) :
    ∃ visited, t.iterFiltered filter fuel steps = some visited ∧
      ∀ l ∈ leaves t.rootNode, filter l = true → l ∈ visited := by
  obtain ⟨root⟩ := t
  simp only at hwf henc hfuel hsteps ⊢
  cases root with
  | leaf b o g =>
    refine ⟨[.leaf b o g], ?_, ?_⟩
    · exact BoundsTree.iterFiltered_eq ⟨.leaf b o g⟩ filter fuel steps hwf hfuel
        (by simpa [filteredSequence, isLeafNode, leaves] using hsteps)
    · intro l hl _
      simpa [leaves] using hl
  | node b subs g =>
    have heq := filteredSequence_eq_filter filter hmono b subs g henc
    refine ⟨(leaves (.node b subs g)).filter filter, ?_, ?_⟩
    · rw [← heq]
      exact BoundsTree.iterFiltered_eq ⟨.node b subs g⟩ filter fuel steps hwf hfuel
        (by rw [heq]; exact le_trans (List.length_filter_le _ _) hsteps)
    · intro l hl hf
      exact List.mem_filter.2 ⟨hl, hf⟩

/-- C2, at the example tree with the point filter. -/
theorem C2_filtered_iteration_no_false_negatives_witness :
    queryTree.rootNode.WellFormed ∧ queryTree.rootNode.boundsEnclose = true ∧
      FilterMonotone (pointFilter queryPoint) ∧
      ∃ visited, queryTree.iterFiltered (pointFilter queryPoint) 4 3 = some visited ∧
        ∀ l ∈ leaves queryTree.rootNode, pointFilter queryPoint l = true → l ∈ visited :=
  ⟨by decide, by decide, pointFilter_monotone queryPoint,
    C2_filtered_iteration_no_false_negatives queryTree (pointFilter queryPoint) 4 3
      (by decide) (by decide) (pointFilter_monotone queryPoint) (by decide) (by decide)⟩

/-- C3, as stated, fails on a single-object tree: the root leaf `(2,2,2)-(3,3,3)` is
produced by the point query at `(0.5,0.5,0.5)` although its bounds do not contain the
point, because the filter is never applied to the root. -/
theorem C3_point_query_counterexample :
    singleLeafTree.rootNode.WellFormed ∧ singleLeafTree.rootNode.boundsConsistent = true ∧
      (leaves singleLeafTree.rootNode).length = 1 ∧
      singleLeafTree.iterFiltered (pointFilter queryPoint) 1 1 = some [.leaf (cube 2 3) 2 true] ∧
      (cube 2 3).containsPoint queryPoint = false ∧
      (leaves singleLeafTree.rootNode).filter (pointFilter queryPoint) = [] := by
  decide

/-- C3, amended. On a well-formed bounds-consistent tree whose root is an internal
node, the loop over `iterFiltered` with the filter "the node's bounds contain P"
produces exactly the leaves whose bounds contain P, in depth-first order. -/
theorem C3_point_query_exact_below_internal_root (t : BoundsTree) (p : Position)
    (fuel steps : Nat) (hwf : t.rootNode.WellFormed) (hcons : t.rootNode.boundsConsistent = true)
    (hroot : t.rootNode.isLeafNode = false) (hfuel : t.rootNode.size ≤ fuel)
    (hsteps : (leaves t.rootNode).length ≤ steps) :
    t.iterFiltered (pointFilter p) fuel steps =
      some ((leaves t.rootNode).filter (fun l => l.bounds.containsPoint p)) := by
  obtain ⟨root⟩ := t
  simp only at hwf hcons hroot hfuel hsteps ⊢
  cases root with
  | leaf b o g => simp [isLeafNode] at hroot
  | node b subs g =>
    have heq := filteredSequence_eq_filter (pointFilter p) (pointFilter_monotone p) b subs g
      (boundsEnclose_of_boundsConsistent _ hcons)
    have := BoundsTree.iterFiltered_eq ⟨.node b subs g⟩ (pointFilter p) fuel steps hwf hfuel
      (by rw [heq]; exact le_trans (List.length_filter_le _ _) hsteps)
    rw [this, heq]
    rfl

/-- C3, amended, at the example of the claim: the query at `(0.5,0.5,0.5)` gives the
first and the third leaf, not the second. -/
theorem C3_point_query_exact_below_internal_root_witness :
    queryTree.rootNode.WellFormed ∧ queryTree.rootNode.boundsConsistent = true ∧
      queryTree.rootNode.isLeafNode = false ∧
      queryTree.iterFiltered (pointFilter queryPoint) 4 3 =
        some [.leaf (cube 0 1) 1 true, .leaf (cube 0 5) 3 true] :=
  ⟨by decide, by decide, by decide,
    (C3_point_query_exact_below_internal_root queryTree queryPoint 4 3
      (by decide) (by decide) (by decide) (by decide) (by decide)).trans (by decide)⟩

/-! ### The tree validity check -/

/-- The union computed from the first child on is the least box enclosing all children. -/
theorem isUnionOf_iff (b : Bounds) (first : TreeNode) (others : List TreeNode) :
    IsUnionOf b ((first :: others).map TreeNode.bounds) ↔ b = computeBoundsOfList first others := by
  have hmap : ∀ x : Bounds, (∀ c ∈ (first :: others).map TreeNode.bounds, x.contains c = true) ↔
      ∀ c ∈ first :: others, x.contains c.bounds = true := by
    intro x
    simp only [List.mem_map, forall_exists_index, and_imp, forall_apply_eq_imp_iff₂]
  constructor
  · rintro ⟨h1, h2⟩
    apply Bounds.contains_antisymm
    · exact (contains_computeBoundsOfList_iff b first others).2 ((hmap b).1 h1)
    · apply h2
      exact (hmap _).2 ((contains_computeBoundsOfList_iff _ first others).1 (Bounds.contains_refl _))
  · rintro rfl
    refine ⟨(hmap _).2 ((contains_computeBoundsOfList_iff _ first others).1 (Bounds.contains_refl _)), ?_⟩
    intro b' hb'
    exact (contains_computeBoundsOfList_iff b' first others).2 ((hmap b').1 hb')

theorem TreeNode.hasChildren_of_mem {c : TreeNode} {subs : List TreeNode}
    (hs : hasChildrenList subs = true) (h : c ∈ subs) : c.hasChildren = true := by
  induction subs with
  | nil => cases h
  | cons a as ih =>
    simp only [hasChildrenList, Bool.and_eq_true] at hs
    rcases List.mem_cons.1 h with rfl | h
    · exact hs.1
    · exact ih hs.2 h

theorem TreeNode.boundsConsistentList_iff {subs : List TreeNode} :
    boundsConsistentList subs = true ↔ ∀ c ∈ subs, c.boundsConsistent = true := by
  induction subs with
  | nil => simp [boundsConsistentList]
  | cons a as ih => simp [boundsConsistentList, ih]

theorem TreeNode.boundsAreUnionsList_iff {subs : List TreeNode} :
    boundsAreUnionsList subs ↔ ∀ c ∈ subs, c.boundsAreUnions := by
  induction subs with
  | nil => simp [boundsAreUnionsList]
  | cons a as ih => simp [boundsAreUnionsList, ih]

/-- On trees without childless internal nodes the computed consistency check decides
that every internal node's bounds are the union of its children's bounds. -/
theorem TreeNode.boundsConsistent_iff_boundsAreUnions (t : TreeNode) :
    t.hasChildren = true → (t.boundsConsistent = true ↔ t.boundsAreUnions) := by
  induction t using TreeNode.induction with
  | hleaf b o g => intro _; simp [boundsConsistent, boundsAreUnions]
  | hnode b subs g ih =>
    intro h
    simp only [hasChildren, Bool.and_eq_true, decide_eq_true_eq] at h
    obtain ⟨hlen, hl⟩ := h
    have hsub : (∀ c ∈ subs, c.boundsConsistent = true) ↔ ∀ c ∈ subs, c.boundsAreUnions :=
      forall₂_congr (fun c hc => ih c hc (hasChildren_of_mem hl hc))
    cases subs with
    | nil => simp at hlen
    | cons first others =>
      simp only [boundsConsistent, boundsAreUnions, Bool.and_eq_true, decide_eq_true_eq,
        boundsConsistentList_iff, boundsAreUnionsList_iff, isUnionOf_iff, hsub]

theorem recursiveTreeValidCheckList_ok_iff (subs : List TreeNode) (passed : Bool) :
    recursiveTreeValidCheckList subs passed = .ok () ↔
      ∀ c ∈ subs, recursiveTreeValidCheck c passed = .ok () := by
  induction subs with
  | nil => simp [recursiveTreeValidCheckList]
  | cons a as ih =>
    simp only [recursiveTreeValidCheckList, List.mem_cons, forall_eq_or_imp]
    cases h : recursiveTreeValidCheck a passed with
    | ok v => simp [ih]
    | thrown m => simp
    | undefined => simp

theorem TreeNode.mem_rootPathsList {p : List TreeNode} {subs : List TreeNode} :
    p ∈ rootPathsList subs ↔ ∃ c ∈ subs, p ∈ rootPaths c := by
  induction subs with
  | nil => simp [rootPathsList]
  | cons a as ih => simp [rootPathsList, ih]

/-- A tree without childless internal nodes has a root-to-leaf path. -/
theorem TreeNode.exists_rootPath (t : TreeNode) : t.hasChildren = true → ∃ p, p ∈ rootPaths t := by
  induction t using TreeNode.induction with
  | hleaf b o g => intro _; exact ⟨[.leaf b o g], by simp [rootPaths]⟩
  | hnode b subs g ih =>
    intro h
    simp only [hasChildren, Bool.and_eq_true, decide_eq_true_eq] at h
    obtain ⟨hlen, hl⟩ := h
    cases subs with
    | nil => simp at hlen
    | cons first others =>
      obtain ⟨q, hq⟩ := ih first (List.mem_cons_self _ _) (hasChildren_of_mem hl (List.mem_cons_self _ _))
      refine ⟨.node b (first :: others) g :: q, ?_⟩
      simp only [rootPaths, List.mem_map]
      exact ⟨q, mem_rootPathsList.2 ⟨first, List.mem_cons_self _ _, hq⟩, rfl⟩

theorem TreeNode.rootPaths_node_count (b : Bounds) (subs : List TreeNode) (g : Bool) (k : Nat) :
    (∀ p ∈ rootPaths (.node b subs g), p.countP TreeNode.isGroupHead + k = 1) ↔
      ∀ c ∈ subs, ∀ q ∈ rootPaths c, q.countP TreeNode.isGroupHead + (g.toNat + k) = 1 := by
  have hcount : ∀ q : List TreeNode, (TreeNode.node b subs g :: q).countP TreeNode.isGroupHead =
      q.countP TreeNode.isGroupHead + g.toNat := by
    intro q
    cases g <;> simp [List.countP_cons, isGroupHead]
  constructor
  · intro hp c hc q hq
    have hmem : TreeNode.node b subs g :: q ∈ rootPaths (.node b subs g) := by
      simp only [rootPaths, List.mem_map]
      exact ⟨q, mem_rootPathsList.2 ⟨c, hc, hq⟩, rfl⟩
    have := hp _ hmem
    rw [hcount] at this
    omega
  · intro hp p hpm
    simp only [rootPaths, List.mem_map] at hpm
    obtain ⟨q, hq, rfl⟩ := hpm
    obtain ⟨c, hc, hqc⟩ := mem_rootPathsList.1 hq
    have := hp c hc q hqc
    rw [hcount]
    omega

/-- The check started with the flag `passed` succeeds exactly on bounds-consistent
subtrees whose every path holds one group head, counting one for `passed`. -/
theorem recursiveTreeValidCheck_ok_iff (t : TreeNode) :
    t.hasChildren = true → ∀ passed : Bool,
      (recursiveTreeValidCheck t passed = .ok () ↔
        t.boundsConsistent = true ∧
          ∀ p ∈ rootPaths t, p.countP TreeNode.isGroupHead + passed.toNat = 1) := by
  induction t using TreeNode.induction with
  | hleaf b o g =>
    intro _ passed
    cases passed <;> cases g <;>
      simp [recursiveTreeValidCheck, boundsConsistent, rootPaths, isGroupHead, List.countP_cons]
  | hnode b subs g ih =>
    intro h passed
    have hpath := exists_rootPath _ h
    simp only [hasChildren, Bool.and_eq_true, decide_eq_true_eq] at h
    obtain ⟨hlen, hl⟩ := h
    have hpaths := rootPaths_node_count b subs g
    by_cases hdouble : (passed && g) = true
    · have hthrow : recursiveTreeValidCheck (.node b subs g) passed =
          .thrown "Another group head found below one!" := by
        simp [recursiveTreeValidCheck, hdouble]
      simp only [Bool.and_eq_true] at hdouble
      obtain ⟨rfl, rfl⟩ := hdouble
      obtain ⟨p, hp⟩ := hpath
      rw [hthrow]
      constructor
      · intro hcontra; cases hcontra
      · rintro ⟨_, hall⟩
        have := hall p hp
        simp only [rootPaths, List.mem_map] at hp
        obtain ⟨q, _, rfl⟩ := hp
        simp [List.countP_cons, isGroupHead] at this
    · cases subs with
      | nil => simp at hlen
      | cons first others =>
        have hsub : (∀ c ∈ first :: others,
            recursiveTreeValidCheck c (g || passed) = .ok ()) ↔
            ∀ c ∈ first :: others, c.boundsConsistent = true ∧
              ∀ q ∈ rootPaths c, q.countP TreeNode.isGroupHead + (g || passed).toNat = 1 :=
          forall₂_congr (fun c hc => ih c hc (hasChildren_of_mem hl hc) (g || passed))
        have hnat : (g || passed).toNat = g.toNat + passed.toNat := by
          cases g <;> cases passed <;> simp at hdouble ⊢
        rw [hpaths passed.toNat]
        by_cases hb : b = computeBoundsOfList first others
        · have hcheck : recursiveTreeValidCheck (.node b (first :: others) g) passed =
              recursiveTreeValidCheckList (first :: others) (g || passed) := by
            simp only [recursiveTreeValidCheck, hdouble, List.head?_cons, List.tail_cons]
            simp [hb, computeBoundsOfList]
          rw [hcheck, recursiveTreeValidCheckList_ok_iff, hsub, hnat]
          simp only [boundsConsistent, Bool.and_eq_true, decide_eq_true_eq, boundsConsistentList_iff]
          constructor
          · intro hall
            exact ⟨⟨hb, fun c hc => (hall c hc).1⟩, fun c hc => (hall c hc).2⟩
          · rintro ⟨⟨_, h1⟩, h2⟩ c hc
            exact ⟨h1 c hc, h2 c hc⟩
        · have hcheck : recursiveTreeValidCheck (.node b (first :: others) g) passed =
              .thrown "A node in the tree does not have valid bounds!" := by
            have hb' : ¬ List.foldl (fun acc c => unionOfBounds acc c.bounds) first.bounds others = b :=
              fun e => hb e.symm
            simp only [recursiveTreeValidCheck, hdouble, List.head?_cons, List.tail_cons]
            simp [hb']
          rw [hcheck]
          constructor
          · intro hcontra; cases hcontra
          · rintro ⟨hc, _⟩
            simp only [boundsConsistent, Bool.and_eq_true, decide_eq_true_eq] at hc
            exact absurd hc.1 hb

/-- C4. On a tree in which every internal node has at least one child,
`recursiveTreeValidCheck(root, false)`, and with it `treeValidCheck`, completes
without throwing exactly when every internal node's bounds are the union of its
children's bounds and every root-to-leaf path holds exactly one group head. -/
theorem C4_tree_valid_check_iff (tree : BoundsTree) (h : tree.rootNode.hasChildren = true) :
    tree.isEmpty = false ∧
    treeValidCheck tree = recursiveTreeValidCheck tree.rootNode false ∧
    (recursiveTreeValidCheck tree.rootNode false = .ok () ↔
      tree.rootNode.boundsAreUnions ∧ tree.rootNode.OneGroupHeadPerPath) := by
  obtain ⟨root⟩ := tree
  simp only at h ⊢
  have hne : BoundsTree.isEmpty ⟨root⟩ = false := by
    cases root with
    | leaf b o g => simp [BoundsTree.isEmpty, nodeCount, LEAF_NODE_SIGNIFIER]
    | node b subs g =>
      simp only [hasChildren, Bool.and_eq_true, decide_eq_true_eq] at h
      simp only [BoundsTree.isEmpty, nodeCount, decide_eq_false_iff_not]
      omega
  refine ⟨hne, by simp [treeValidCheck, hne], ?_⟩
  rw [recursiveTreeValidCheck_ok_iff root h false, boundsConsistent_iff_boundsAreUnions root h]
  simp [OneGroupHeadPerPath]

/-- C4, at the example tree, which passes the check. -/
theorem C4_tree_valid_check_iff_witness :
    queryTree.rootNode.hasChildren = true ∧ treeValidCheck queryTree = .ok () ∧
      queryTree.rootNode.boundsAreUnions ∧ queryTree.rootNode.OneGroupHeadPerPath :=
  have h := C4_tree_valid_check_iff queryTree (by decide)
  ⟨by decide, by decide, h.2.2.1 (by decide)⟩

/-! ### Insertion of a single object -/

/-- C7. `add(obj, bounds)` hands to insertion the leaf `TreeNode(obj, bounds, true)`:
a leaf with that object, those bounds and the group-head flag set; on an empty tree
the root becomes exactly that leaf and the tree is no longer empty. -/
theorem C7_add_inserts_group_head_leaf (computeCost : Bounds → Int) (tree : BoundsTree)
    (obj : Nat) (bounds : Bounds) :
    tree.add computeCost obj bounds = tree.addNode computeCost (.leaf bounds obj true) ∧
    (TreeNode.leaf bounds obj true).isLeafNode = true ∧
    (TreeNode.leaf bounds obj true).object = obj ∧
    (TreeNode.leaf bounds obj true).bounds = bounds ∧
    (TreeNode.leaf bounds obj true).isGroupHead = true ∧
    (tree.isEmpty = true →
      (tree.add computeCost obj bounds).rootNode = .leaf bounds obj true ∧
      (tree.add computeCost obj bounds).rootNode.isLeafNode = true ∧
      (tree.add computeCost obj bounds).isEmpty = false) := by
  refine ⟨rfl, rfl, rfl, rfl, rfl, ?_⟩
  intro hempty
  have hadd : tree.add computeCost obj bounds = ⟨.leaf bounds obj true⟩ := by
    simp only [BoundsTree.add, BoundsTree.addNode, hempty, if_true]
  rw [hadd]
  exact ⟨rfl, rfl, by simp [BoundsTree.isEmpty, nodeCount, LEAF_NODE_SIGNIFIER]⟩

/-- C7, on the freshly constructed tree. -/
theorem C7_add_inserts_group_head_leaf_witness :
    BoundsTree.empty.isEmpty = true ∧
    (BoundsTree.empty.add (fun _ => 0) 7 (cube 0 1)).rootNode = .leaf (cube 0 1) 7 true ∧
    (BoundsTree.empty.add (fun _ => 0) 7 (cube 0 1)).isEmpty = false :=
  have h := (C7_add_inserts_group_head_leaf (fun _ => 0) BoundsTree.empty 7 (cube 0 1)).2.2.2.2.2
    (by decide)
  ⟨by decide, h.1, h.2.2⟩

/-! ### Paths and the search for an object -/

theorem TreeNode.nodeAt_nil (t : TreeNode) : t.nodeAt [] = some t := by
  cases t <;> rfl

theorem TreeNode.nodeAt_cons_node (b : Bounds) (subs : List TreeNode) (g : Bool) (i : Nat)
    (p : List Nat) (c : TreeNode) (hc : subs[i]? = some c) :
    (TreeNode.node b subs g).nodeAt (i :: p) = c.nodeAt p := by
  simp [nodeAt, child?, subTrees, hc]

theorem TreeNode.nodeAt_cons_eq_some {t : TreeNode} {i : Nat} {p : List Nat} {n : TreeNode}
    (h : t.nodeAt (i :: p) = some n) :
    ∃ b subs g c, t = .node b subs g ∧ subs[i]? = some c ∧ c.nodeAt p = some n := by
  cases t with
  | leaf b o g => simp [nodeAt, child?, subTrees] at h
  | node b subs g =>
    simp only [nodeAt, child?, subTrees] at h
    cases hc : subs[i]? with
    | none => simp [hc] at h
    | some c =>
      simp only [hc] at h
      exact ⟨b, subs, g, c, rfl, hc, h⟩

theorem TreeNode.findPathList_some (prune : Bool) (obj : Nat) (hint : Bounds) (subs : List TreeNode) :
    ∀ (i : Nat) (p : List Nat), findPathList prune obj hint i subs = some p →
      ∃ j q c, p = (i + j) :: q ∧ subs[j]? = some c ∧ findPath prune obj hint c = some q := by
  induction subs with
  | nil => intro i p h; simp [findPathList] at h
  | cons a as ih =>
    intro i p h
    simp only [findPathList] at h
    have hrest : findPathList prune obj hint (i + 1) as = some p →
        ∃ j q c, p = (i + j) :: q ∧ (a :: as)[j]? = some c ∧ findPath prune obj hint c = some q := by
      intro h'
      obtain ⟨j, q, c, h1, h2, h3⟩ := ih (i + 1) p h'
      exact ⟨j + 1, q, c, by rw [h1]; congr 1; omega, by simpa using h2, h3⟩
    split at h
    · cases hf : findPath prune obj hint a with
      | some q =>
        simp only [hf, Option.some.injEq] at h
        exact ⟨0, q, a, by simp [← h], by simp, hf⟩
      | none =>
        simp only [hf] at h
        exact hrest h
    · exact hrest h

/-- A successful search ends at a leaf holding the object. -/
theorem TreeNode.findPath_some (prune : Bool) (obj : Nat) (hint : Bounds) (t : TreeNode) :
    ∀ p, findPath prune obj hint t = some p →
      ∃ b g, t.nodeAt p = some (.leaf b obj g) := by
  induction t using TreeNode.induction with
  | hleaf b o g =>
    intro p h
    simp only [findPath] at h
    split at h
    · next ho =>
      simp only [Option.some.injEq] at h
      subst h; subst ho
      exact ⟨b, g, rfl⟩
    · cases h
  | hnode b subs g ih =>
    intro p h
    simp only [findPath] at h
    obtain ⟨j, q, c, h1, h2, h3⟩ := findPathList_some prune obj hint subs 0 p h
    obtain ⟨b', g', h4⟩ := ih c (List.getElem?_mem h2) q h3
    refine ⟨b', g', ?_⟩
    rw [h1, Nat.zero_add, nodeAt_cons_node b subs g j q c h2, h4]

/-- A node reached by a path and being a leaf is one of the leaves of the tree. -/
theorem TreeNode.mem_leaves_of_nodeAt (p : List Nat) :
    ∀ (t : TreeNode) (b : Bounds) (o : Nat) (g : Bool), t.nodeAt p = some (.leaf b o g) →
      TreeNode.leaf b o g ∈ leaves t := by
  induction p with
  | nil =>
    intro t b o g h
    rw [nodeAt_nil] at h
    cases h
    simp [leaves]
  | cons i p ih =>
    intro t b o g h
    obtain ⟨b', subs, g', c, rfl, hc, hn⟩ := nodeAt_cons_eq_some h
    simp only [leaves, mem_leavesList]
    exact ⟨c, List.getElem?_mem hc, ih c b o g hn⟩

theorem TreeNode.findPathList_none_iff (obj : Nat) (hint : Bounds) (subs : List TreeNode) :
    ∀ i : Nat, findPathList false obj hint i subs = none ↔
      ∀ c ∈ subs, findPath false obj hint c = none := by
  induction subs with
  | nil => intro i; simp [findPathList]
  | cons a as ih =>
    intro i
    simp only [findPathList, Bool.not_false, Bool.true_or, if_true, List.mem_cons, forall_eq_or_imp]
    cases hf : findPath false obj hint a with
    | some q => simp
    | none => simp [ih (i + 1)]

/-- The search without pruning fails exactly when no leaf holds the object. -/
theorem TreeNode.findPath_none_iff (obj : Nat) (hint : Bounds) (t : TreeNode) :
    findPath false obj hint t = none ↔ ∀ l ∈ leaves t, l.object ≠ obj := by
  induction t using TreeNode.induction with
  | hleaf b o g =>
    simp only [findPath, leaves, List.mem_singleton, forall_eq, object]
    by_cases h : o = obj <;> simp [h]
  | hnode b subs g ih =>
    simp only [findPath, findPathList_none_iff, leaves, mem_leavesList]
    constructor
    · rintro h l ⟨c, hc, hl⟩
      exact (ih c hc).1 (h c hc) l hl
    · intro h c hc
      exact (ih c hc).2 (fun l hl => h l ⟨c, hc, hl⟩)

/-- The search of `NodeStack(rootNode, obj, bounds)` either throws, when no leaf holds
the object, or returns a stack over the unchanged tree whose top frame is a leaf
holding the object. -/
theorem TreeCursor.search_cases (rootNode : TreeNode) (obj : Nat) (hint : Bounds) :
    (TreeCursor.search rootNode obj hint = .thrown "object not found" ∧
      ∀ l ∈ leaves rootNode, l.object ≠ obj) ∨
    ∃ p b g, TreeCursor.search rootNode obj hint = .ok ⟨rootNode, 0 :: p.reverse⟩ ∧
      rootNode.nodeAt p = some (.leaf b obj g) := by
  cases h1 : findPath true obj hint rootNode with
  | some p =>
    obtain ⟨b, g, hn⟩ := findPath_some true obj hint rootNode p h1
    exact Or.inr ⟨p, b, g, by simp [TreeCursor.search, h1], hn⟩
  | none =>
    cases h2 : findPath false obj hint rootNode with
    | some p =>
      obtain ⟨b, g, hn⟩ := findPath_some false obj hint rootNode p h2
      exact Or.inr ⟨p, b, g, by simp [TreeCursor.search, h1, h2], hn⟩
    | none =>
      exact Or.inl ⟨by simp [TreeCursor.search, h1, h2], (findPath_none_iff obj hint rootNode).1 h2⟩

/-- On a tree whose paths fit the stack the constructor `NodeStack(rootNode, obj,
bounds)` is its search. -/
theorem TreeCursor.find_eq_search {rootNode : TreeNode} (h : rootNode.height ≤ MAX_HEIGHT)
    (obj : Nat) (hint : Bounds) :
    TreeCursor.find rootNode obj hint = TreeCursor.search rootNode obj hint := by
  simp [TreeCursor.find, Nat.not_lt.2 h]

/-- The constructor `NodeStack(rootNode, obj, bounds)` is undefined on a tree with a
path longer than the stack; on every other tree it throws, when no leaf holds the
object, or returns a stack over the unchanged tree whose top frame is a leaf holding
the object. -/
theorem TreeCursor.find_cases (rootNode : TreeNode) (obj : Nat) (hint : Bounds) :
    (MAX_HEIGHT < rootNode.height ∧ TreeCursor.find rootNode obj hint = .undefined) ∨
    (rootNode.height ≤ MAX_HEIGHT ∧
      TreeCursor.find rootNode obj hint = .thrown "object not found" ∧
      ∀ l ∈ leaves rootNode, l.object ≠ obj) ∨
    (rootNode.height ≤ MAX_HEIGHT ∧
      ∃ p b g, TreeCursor.find rootNode obj hint = .ok ⟨rootNode, 0 :: p.reverse⟩ ∧
        rootNode.nodeAt p = some (.leaf b obj g)) := by
  by_cases h : MAX_HEIGHT < rootNode.height
  · exact Or.inl ⟨h, by simp [TreeCursor.find, h]⟩
  · have h1 := Nat.not_lt.1 h
    rw [TreeCursor.find_eq_search h1]
    rcases TreeCursor.search_cases rootNode obj hint with hs | hs
    · exact Or.inr (Or.inl ⟨h1, hs⟩)
    · exact Or.inr (Or.inr ⟨h1, hs⟩)

/-- Within the height bound the constructor `NodeStack(rootNode, obj, bounds)` either
throws, when no leaf holds the object, or returns a stack over the unchanged tree
whose top frame is a leaf holding the object. -/
theorem TreeCursor.find_cases_of_height {rootNode : TreeNode} (h : rootNode.height ≤ MAX_HEIGHT)
    (obj : Nat) (hint : Bounds) :
    (TreeCursor.find rootNode obj hint = .thrown "object not found" ∧
      ∀ l ∈ leaves rootNode, l.object ≠ obj) ∨
    ∃ p b g, TreeCursor.find rootNode obj hint = .ok ⟨rootNode, 0 :: p.reverse⟩ ∧
      rootNode.nodeAt p = some (.leaf b obj g) := by
  rw [TreeCursor.find_eq_search h]
  exact TreeCursor.search_cases rootNode obj hint

theorem TreeNode.nodeAt_append (q : List Nat) :
    ∀ (t : TreeNode) (r : List Nat), t.nodeAt (q ++ r) = (t.nodeAt q).bind (fun n => n.nodeAt r) := by
  induction q with
  | nil => intro t r; simp [nodeAt_nil]
  | cons i q ih =>
    intro t r
    simp only [List.cons_append, nodeAt]
    cases t.child? i with
    | none => simp
    | some c => simp [ih c r]

theorem TreeNode.nodeAt_concat_eq_some {t : TreeNode} {q : List Nat} {i : Nat} {n : TreeNode}
    (h : t.nodeAt (q ++ [i]) = some n) :
    ∃ parent, t.nodeAt q = some parent ∧ parent.child? i = some n := by
  rw [nodeAt_append] at h
  cases hq : t.nodeAt q with
  | none => simp [hq] at h
  | some parent =>
    simp only [hq, Option.some_bind, nodeAt] at h
    cases hc : parent.child? i with
    | none => simp [hc] at h
    | some c =>
      simp only [hc, nodeAt_nil] at h
      exact ⟨parent, rfl, by rw [← h]; exact hc⟩

theorem TreeNode.Wraps.inner {x : TreeNode} {b : Bounds} {g : Bool} {d : TreeNode}
    (h : Wraps x (.node b [d] g)) : Wraps x d := by
  generalize hy : TreeNode.node b [d] g = y at h
  induction h with
  | refl y => subst hy; exact .step b g d d (.refl d)
  | step b1 g1 c y _ ih => exact .step b1 g1 c d (ih hy)

theorem TreeNode.Wraps.leaves_eq {x d : TreeNode} (h : Wraps x d) : leaves x = leaves d := by
  induction h with
  | refl d => rfl
  | step b g c d _ ih => simp [leaves, leavesList, ih]

theorem TreeNode.Wraps.countLeaves_eq {x d : TreeNode} (h : Wraps x d) (p : Nat → Bool) :
    countLeaves p x = countLeaves p d := by
  simp [countLeaves, h.leaves_eq]

theorem TreeNode.Wraps.countObject_eq {x d : TreeNode} (h : Wraps x d) (obj : Nat) :
    countObject obj x = countObject obj d := by
  simp [countObject, h.leaves_eq]

theorem TreeNode.Wraps.of_leaf {x : TreeNode} {b : Bounds} {o : Nat} {g : Bool}
    (h : Wraps (.leaf b o g) x) : x = .leaf b o g := by
  cases h
  rfl

/-- The tree left when child `i` of the node at `below` is detached and that node
stays. -/
theorem TreeCursor.detach_fst (rootNode parent : TreeNode) (i : Nat) (below : List Nat) :
    (TreeCursor.detach rootNode parent i below).1 = removedAt rootNode below.reverse i := rfl

/-- The removal of a child detaches it together with the chain of single-child nodes
above it: the tree left is the tree without child `i'` of the node at `q'`, which is
the root or has another child, and what was below that child is the node detached
under nodes with a single child each. -/
theorem TreeCursor.removeFrom_spec (rootNode : TreeNode) :
    ∀ (below : List Nat) (i : Nat) (d : TreeNode),
      rootNode.nodeAt (below.reverse ++ [i]) = some d →
      ∃ q' i' d' indices,
        TreeCursor.removeFrom rootNode i below = some (removedAt rootNode q' i', indices) ∧
        rootNode.nodeAt (q' ++ [i']) = some d' ∧ Wraps d' d ∧
        (q' = [] ∨ ∃ parent', rootNode.nodeAt q' = some parent' ∧ parent'.nodeCount ≠ 1) := by
  intro below
  induction below with
  | nil =>
    intro i d h
    obtain ⟨parent, hp, hc⟩ := nodeAt_concat_eq_some h
    rw [List.reverse_nil, nodeAt_nil] at hp
    cases hp
    refine ⟨[], i, d, (TreeCursor.detach rootNode rootNode i []).2, ?_, h, .refl d, Or.inl rfl⟩
    simp only [TreeCursor.removeFrom, hc]
    rfl
  | cons j rest ih =>
    intro i d h
    obtain ⟨parent, hp, hc⟩ := nodeAt_concat_eq_some h
    by_cases h1 : parent.nodeCount = 1
    · have hp' : rootNode.nodeAt (rest.reverse ++ [j]) = some parent := by
        simpa [List.reverse_cons] using hp
      obtain ⟨q', i', d', indices, hr, hn, hw, hstop⟩ := ih j parent hp'
      refine ⟨q', i', d', indices, ?_, hn, ?_, hstop⟩
      · simp only [TreeCursor.removeFrom, hp, hc, h1, if_true]
        exact hr
      · cases parent with
        | leaf b o g => simp [child?, subTrees] at hc
        | node b subs g =>
          simp only [nodeCount] at h1
          match subs, h1 with
          | [c], _ =>
            have hcd : c = d := by
              cases i with
              | zero => simpa [child?, subTrees] using hc
              | succ n => simp [child?, subTrees] at hc
            subst hcd
            exact hw.inner
    · refine ⟨(j :: rest).reverse, i, d, (TreeCursor.detach rootNode parent i (j :: rest)).2, ?_,
        h, .refl d, Or.inr ⟨parent, hp, h1⟩⟩
      simp only [TreeCursor.removeFrom, hp, hc, h1, if_false]
      rfl

/-- On a stack whose top frame is a node other than the root, `NodeStack::remove()`
returns that node and leaves the tree with the node, and the chain of single-child
nodes above it, detached. -/
theorem TreeCursor.remove_at (rootNode : TreeNode) (q : List Nat) (i k : Nat) (d : TreeNode)
    (h : rootNode.nodeAt (q ++ [i]) = some d) :
    ∃ q' i' d' indices, TreeCursor.remove ⟨rootNode, k :: i :: q.reverse⟩ =
        some (d, ⟨removedAt rootNode q' i', indices⟩) ∧
      rootNode.nodeAt (q' ++ [i']) = some d' ∧ Wraps d' d ∧
      (q' = [] ∨ ∃ parent', rootNode.nodeAt q' = some parent' ∧ parent'.nodeCount ≠ 1) := by
  have h' : rootNode.nodeAt (q.reverse.reverse ++ [i]) = some d := by simpa using h
  obtain ⟨q', i', d', indices, hr, hn, hw, hstop⟩ :=
    TreeCursor.removeFrom_spec rootNode q.reverse i d h'
  refine ⟨q', i', d', indices, ?_, hn, hw, hstop⟩
  have h2 : rootNode.nodeAt (i :: q.reverse).reverse = some d := by simpa using h
  simp only [TreeCursor.remove, h2, hr]

/-- What `remove` and `grab` do on a tree whose root is an internal node: both are
undefined when a path is longer than the stack; otherwise both throw when no leaf
holds the object, and else both detach the same leaf holding it and leave the same
tree. -/
theorem BoundsTree.remove_grab_node_cases (b : Bounds) (subs : List TreeNode) (g : Bool)
    (obj : Nat) (hint : Bounds) :
    (MAX_HEIGHT < (TreeNode.node b subs g).height ∧
      BoundsTree.remove ⟨.node b subs g⟩ obj hint = .undefined ∧
      BoundsTree.grab ⟨.node b subs g⟩ obj hint = .undefined) ∨
    ((TreeNode.node b subs g).height ≤ MAX_HEIGHT ∧
      BoundsTree.remove ⟨.node b subs g⟩ obj hint = .thrown "object not found" ⟨.node b subs g⟩ ∧
      BoundsTree.grab ⟨.node b subs g⟩ obj hint = .thrown "object not found" ⟨.node b subs g⟩ ∧
      ∀ l ∈ leaves (.node b subs g), l.object ≠ obj) ∨
    ((TreeNode.node b subs g).height ≤ MAX_HEIGHT ∧
      ∃ q i b' g' q' i' d', (TreeNode.node b subs g).nodeAt (q ++ [i]) = some (.leaf b' obj g') ∧
      (TreeNode.node b subs g).nodeAt (q' ++ [i']) = some d' ∧ Wraps d' (.leaf b' obj g') ∧
      (q' = [] ∨
        ∃ parent', (TreeNode.node b subs g).nodeAt q' = some parent' ∧ parent'.nodeCount ≠ 1) ∧
      BoundsTree.remove ⟨.node b subs g⟩ obj hint =
        .returned () ⟨removedAt (.node b subs g) q' i'⟩ ∧
      BoundsTree.grab ⟨.node b subs g⟩ obj hint =
        .returned (.leaf b' obj g') ⟨removedAt (.node b subs g) q' i'⟩) := by
  rcases TreeCursor.find_cases (.node b subs g) obj hint with
    ⟨hh, hf⟩ | ⟨hh, hf, hno⟩ | ⟨hh, p, b', g', hf, hn⟩
  · exact Or.inl ⟨hh, by simp [BoundsTree.remove, hf], by simp [BoundsTree.grab, hf]⟩
  · exact Or.inr (Or.inl ⟨hh, by simp [BoundsTree.remove, hf], by simp [BoundsTree.grab, hf], hno⟩)
  · refine Or.inr (Or.inr ⟨hh, ?_⟩)
    rcases List.eq_nil_or_concat p with rfl | ⟨q, i, rfl⟩
    · rw [nodeAt_nil] at hn
      cases hn
    · rw [List.concat_eq_append] at hn hf
      simp only [List.reverse_append, List.reverse_cons, List.reverse_nil, List.nil_append,
        List.singleton_append] at hf
      obtain ⟨q', i', d', indices, hr, hn', hw, hstop⟩ :=
        TreeCursor.remove_at (.node b subs g) q i 0 _ hn
      exact ⟨q, i, b', g', q', i', d', hn, hn', hw, hstop,
        by simp [BoundsTree.remove, hf, hr], by simp [BoundsTree.grab, hf, hr]⟩

/-! ### Removal: errors -/

/-- C8. On a tree whose paths fit the stack (`height ≤ MAX_HEIGHT`), `remove(obj,
bounds)` throws exactly when no leaf of the tree holds `obj`; a throw leaves the tree
as it was; the call is never undefined; and on a root leaf holding another object the
message is "Attempting to remove nonexistent object!". -/
theorem C8_remove_throws_iff_absent (tree : BoundsTree) (obj : Nat) (bounds : Bounds)
    (hh : tree.rootNode.height ≤ MAX_HEIGHT) :
    ((∃ message tree', tree.remove obj bounds = .thrown message tree') ↔
      ∀ l ∈ leaves tree.rootNode, l.object ≠ obj) ∧
    (∀ message tree', tree.remove obj bounds = .thrown message tree' → tree' = tree) ∧
    tree.remove obj bounds ≠ .undefined ∧
    (∀ b o g, tree.rootNode = .leaf b o g → o ≠ obj →
      tree.remove obj bounds = .thrown "Attempting to remove nonexistent object!" tree) := by
  obtain ⟨root⟩ := tree
  cases root with
  | leaf b o g =>
    by_cases ho : o = obj
    · subst ho
      simp [BoundsTree.remove, leaves, object]
    · simp [BoundsTree.remove, leaves, object, ho]
  | node b subs g =>
    rcases BoundsTree.remove_grab_node_cases b subs g obj bounds with
      ⟨hlt, _⟩ | ⟨_, hr, _, hno⟩ | ⟨_, q, i, b', g', q', i', d', hn, _, _, _, hr, _⟩
    · exact absurd hh (Nat.not_le.2 hlt)
    · simp only [hr]
      refine ⟨⟨fun _ => hno, fun _ => ⟨_, _, rfl⟩⟩, ?_, by simp, by simp⟩
      intro m t' h
      cases h
      rfl
    · simp only [hr]
      refine ⟨⟨?_, ?_⟩, by simp, by simp, by simp⟩
      · rintro ⟨m, t', h⟩
        cases h
      · intro hno
        exact absurd rfl (hno _ (mem_leaves_of_nodeAt _ _ _ _ _ hn))

/-- C8, on the single-object tree: removing an object it does not hold throws and
leaves the root as it was. -/
theorem C8_remove_throws_iff_absent_witness :
    singleLeafTree.rootNode.height ≤ MAX_HEIGHT ∧
    singleLeafTree.remove 5 (cube 2 3) =
      .thrown "Attempting to remove nonexistent object!" singleLeafTree :=
  ⟨by decide,
    (C8_remove_throws_iff_absent singleLeafTree 5 (cube 2 3) (by decide)).2.2.2
      (cube 2 3) 2 true rfl (by decide)⟩

/-! ### `grab` against `remove` -/

/-- C9, as stated, fails on a single-object tree: `remove` resets the bounds of the
emptied root to `Bounds()`, `grab` leaves the bounds of the detached leaf in it, so
the two trees left differ (both are empty). -/
theorem C9_grab_remove_counterexample :
    singleLeafTree.grab 2 (cube 2 3) =
      .returned (.leaf (cube 2 3) 2 true) ⟨.node (cube 2 3) [] true⟩ ∧
    singleLeafTree.remove 2 (cube 2 3) = .returned () ⟨.node Bounds.default [] true⟩ ∧
    (⟨.node (cube 2 3) [] true⟩ : BoundsTree) ≠ ⟨.node Bounds.default [] true⟩ := by
  decide

/-- C9, amended. `grab` throws exactly when `remove` throws, with the same message
and the tree unchanged.  When `grab` returns, its result is a leaf of the tree holding
`obj` (with the bounds and flag it had there) and `remove` returns too; on a tree
whose root is an internal node the two trees left are equal; on a single-object tree
both are empty, `remove` leaving `Bounds()` in the root and `grab` the bounds of the
leaf.  On a single-object tree `grabGroupFor` is `grab`. -/
theorem C9_grab_refines_remove (tree : BoundsTree) (obj : Nat) (bounds : Bounds) :
    (∀ message tree', tree.grab obj bounds = .thrown message tree' ↔
      tree.remove obj bounds = .thrown message tree') ∧
    (∀ d tree', tree.grab obj bounds = .returned d tree' →
      d.isLeafNode = true ∧ d.object = obj ∧ d ∈ leaves tree.rootNode ∧
      ∃ tree'', tree.remove obj bounds = .returned () tree'' ∧
        (tree.rootNode.isLeafNode = false → tree'' = tree') ∧
        (tree.rootNode.isLeafNode = true →
          tree'.isEmpty = true ∧ tree''.isEmpty = true ∧
          tree'.rootNode = .node d.bounds [] d.isGroupHead ∧
          tree''.rootNode = .node Bounds.default [] d.isGroupHead)) ∧
    (tree.rootNode.isLeafNode = true → tree.grabGroupFor obj bounds = tree.grab obj bounds) := by
  obtain ⟨root⟩ := tree
  cases root with
  | leaf b o g =>
    by_cases ho : o = obj
    · subst ho
      refine ⟨by simp [BoundsTree.grab, BoundsTree.remove], ?_, fun _ => rfl⟩
      intro d t' h
      simp only [BoundsTree.grab, if_true, Effect.returned.injEq] at h
      obtain ⟨rfl, rfl⟩ := h
      refine ⟨rfl, rfl, by simp [leaves], ⟨.node Bounds.default [] g⟩, by simp [BoundsTree.remove], ?_, ?_⟩
      · intro hl; simp [isLeafNode] at hl
      · intro _
        exact ⟨by simp [BoundsTree.isEmpty, nodeCount], by simp [BoundsTree.isEmpty, nodeCount], rfl, rfl⟩
    · refine ⟨by simp [BoundsTree.grab, BoundsTree.remove, ho], ?_, fun _ => rfl⟩
      intro d t' h
      simp [BoundsTree.grab, ho] at h
  | node b subs g =>
    rcases BoundsTree.remove_grab_node_cases b subs g obj bounds with
      ⟨_, hr, hg⟩ | ⟨_, hr, hg, _⟩ | ⟨_, q, i, b', g', q', i', d', hn, _, _, _, hr, hg⟩
    · simp only [hr, hg]
      refine ⟨by simp, ?_, ?_⟩
      · intro d t' h; cases h
      · intro hl; simp [isLeafNode] at hl
    · simp only [hr, hg]
      refine ⟨?_, ?_, ?_⟩
      · intro m t'
        constructor <;> (intro h; cases h; rfl)
      · intro d t' h; cases h
      · intro hl; simp [isLeafNode] at hl
    · simp only [hr, hg]
      refine ⟨by simp, ?_, ?_⟩
      · intro d t' h
        simp only [Effect.returned.injEq] at h
        obtain ⟨rfl, rfl⟩ := h
        refine ⟨rfl, rfl, mem_leaves_of_nodeAt _ _ _ _ _ hn, _, rfl, fun _ => rfl, ?_⟩
        intro hl; simp [isLeafNode] at hl
      · intro hl; simp [isLeafNode] at hl

/-- C9, amended, on the single-object tree: `grab` returns the leaf and both calls
leave an empty tree. -/
theorem C9_grab_refines_remove_witness :
    singleLeafTree.grab 2 (cube 2 3) =
      .returned (.leaf (cube 2 3) 2 true) ⟨.node (cube 2 3) [] true⟩ ∧
    ∃ tree'', singleLeafTree.remove 2 (cube 2 3) = .returned () tree'' ∧ tree''.isEmpty = true :=
  have h := (C9_grab_refines_remove singleLeafTree 2 (cube 2 3)).2.1
    (.leaf (cube 2 3) 2 true) ⟨.node (cube 2 3) [] true⟩ (by decide)
  ⟨by decide, h.2.2.2.elim (fun t ht => ⟨t, ht.1, (ht.2.2 (by decide)).2.1⟩)⟩

/-! ### Counting the leaves that hold an object -/

theorem sum_map_set_add {α : Type} (f : α → Nat) (l : List α) :
    ∀ (i : Nat) (c c' : α), l[i]? = some c →
      ((l.set i c').map f).sum + f c = (l.map f).sum + f c' := by
  induction l with
  | nil => intro i c c' h; simp at h
  | cons a as ih =>
    intro i c c' h
    cases i with
    | zero =>
      simp at h
      subst h
      simp only [List.set_cons_zero, List.map_cons, List.sum_cons]
      omega
    | succ j =>
      simp at h
      have := ih j c c' h
      simp only [List.set_cons_succ, List.map_cons, List.sum_cons]
      omega

theorem sum_map_eraseIdx_add {α : Type} (f : α → Nat) (l : List α) :
    ∀ (i : Nat) (c : α), l[i]? = some c → ((l.eraseIdx i).map f).sum + f c = (l.map f).sum := by
  induction l with
  | nil => intro i c h; simp at h
  | cons a as ih =>
    intro i c h
    cases i with
    | zero =>
      simp at h
      subst h
      simp only [List.eraseIdx_cons_zero, List.map_cons, List.sum_cons]
      omega
    | succ j =>
      simp at h
      have := ih j c h
      simp only [List.eraseIdx_cons_succ, List.map_cons, List.sum_cons]
      omega

theorem TreeNode.countP_leavesList (obj : Nat) (subs : List TreeNode) :
    (leavesList subs).countP (fun l => decide (l.object = obj)) =
      (subs.map (countObject obj)).sum := by
  induction subs with
  | nil => simp [leavesList]
  | cons a as ih => simp [leavesList, List.countP_append, ih, countObject]

theorem TreeNode.countObject_node (obj : Nat) (b : Bounds) (subs : List TreeNode) (g : Bool) :
    countObject obj (.node b subs g) = (subs.map (countObject obj)).sum := by
  simp only [countObject, leaves]
  exact countP_leavesList obj subs

theorem TreeNode.countObject_leaf (obj : Nat) (b : Bounds) (o : Nat) (g : Bool) :
    countObject obj (.leaf b o g) = if o = obj then 1 else 0 := by
  by_cases h : o = obj <;> simp [countObject, leaves, object, h]

theorem TreeNode.countObject_setBounds (obj : Nat) (t : TreeNode) (b : Bounds) :
    countObject obj (t.setBounds b) = countObject obj t := by
  cases t with
  | leaf b' o g => simp [setBounds, countObject_leaf]
  | node b' subs g => simp [setBounds, countObject_node]

theorem TreeNode.countObject_setGroupHead (obj : Nat) (t : TreeNode) (g : Bool) :
    countObject obj (t.setGroupHead g) = countObject obj t := by
  cases t with
  | leaf b' o g' => simp [setGroupHead, countObject_leaf]
  | node b' subs g' => simp [setGroupHead, countObject_node]

theorem TreeNode.countObject_recalculateBoundsFromSubBounds (obj : Nat) (t : TreeNode) :
    countObject obj t.recalculateBoundsFromSubBounds = countObject obj t := by
  cases t with
  | leaf b' o g' => rfl
  | node b' subs g' =>
    cases subs with
    | nil => rfl
    | cons first others => simp [recalculateBoundsFromSubBounds, countObject_node]

theorem TreeNode.countObject_pos_iff (obj : Nat) (t : TreeNode) :
    0 < countObject obj t ↔ ∃ l ∈ leaves t, l.object = obj := by
  simp [countObject, List.countP_pos_iff]

theorem TreeNode.countObject_eq_zero_iff (obj : Nat) (t : TreeNode) :
    countObject obj t = 0 ↔ ∀ l ∈ leaves t, l.object ≠ obj := by
  simp [countObject, List.countP_eq_zero]

/-- Rewriting the node at the end of a path changes the count of an object in the
tree by what it changes in that node, when the rewriting of the ancestors keeps it. -/
theorem TreeNode.countObject_modifyPath (obj : Nat) (atTarget onAncestor : TreeNode → TreeNode)
    (hanc : ∀ n, countObject obj (onAncestor n) = countObject obj n) (k : Nat) (q : List Nat) :
    ∀ (t target : TreeNode), t.nodeAt q = some target →
      countObject obj (atTarget target) + k = countObject obj target →
      countObject obj (t.modifyPath atTarget onAncestor q) + k = countObject obj t := by
  induction q with
  | nil =>
    intro t target h hk
    rw [nodeAt_nil] at h
    cases h
    cases t <;> exact hk
  | cons i q ih =>
    intro t target h hk
    obtain ⟨b, subs, g, c, rfl, hc, hn⟩ := nodeAt_cons_eq_some h
    have hrec := ih c target hn hk
    have hset := sum_map_set_add (countObject obj) subs i c
      (c.modifyPath atTarget onAncestor q) hc
    simp only [modifyPath, hc, hanc, countObject_node]
    omega

/-- Detaching a child takes its count of an object out of the node. -/
theorem TreeNode.countObject_withoutChild (obj : Nat) (b : Bounds) (subs : List TreeNode)
    (g : Bool) (i : Nat) (d : TreeNode) (hd : subs[i]? = some d) :
    countObject obj ((TreeNode.node b subs g).withoutChild i) + countObject obj d =
      countObject obj (.node b subs g) := by
  have herase := sum_map_eraseIdx_add (countObject obj) subs i d hd
  rw [countObject_node, ← herase]
  congr 1
  simp only [withoutChild]
  split
  · next r hr =>
    simp [hr, countObject_setGroupHead]
  · simp [countObject_node]

/-- The tree left by `NodeStack::remove()` holds an object as often as the tree
before, less the count in the detached node. -/
theorem countObject_removedAt (obj : Nat) (rootNode : TreeNode) (q : List Nat) (i : Nat)
    (d : TreeNode) (h : rootNode.nodeAt (q ++ [i]) = some d) :
    countObject obj (removedAt rootNode q i) + countObject obj d = countObject obj rootNode := by
  obtain ⟨parent, hp, hc⟩ := nodeAt_concat_eq_some h
  apply countObject_modifyPath obj _ _ (countObject_recalculateBoundsFromSubBounds obj)
    (countObject obj d) q rootNode parent hp
  rw [countObject_recalculateBoundsFromSubBounds]
  cases parent with
  | leaf b o g => simp [child?, subTrees] at hc
  | node b subs g => exact countObject_withoutChild obj b subs g i d hc

/-! ### Insertion -/

theorem TreeNode.bestChildFrom_lt (computeCost : Bounds → Int) (newBounds : Bounds)
    (cs : List TreeNode) :
    ∀ (bestIndex : Nat) (bestCost : Int) (i : Nat), bestIndex < i →
      bestChildFrom computeCost newBounds bestIndex bestCost i cs < i + cs.length := by
  induction cs with
  | nil => intro bi bc i h; simpa [bestChildFrom] using h
  | cons c cs ih =>
    intro bi bc i h
    simp only [bestChildFrom, List.length_cons]
    split
    · have := ih i (additionCost computeCost c.bounds newBounds) (i + 1) (by omega)
      omega
    · have := ih bi bc (i + 1) (by omega)
      omega

/-- The insertion policy picks an existing child. -/
theorem TreeNode.bestChildIndex_lt (computeCost : Bounds → Int) (newBounds : Bounds)
    (subs : List TreeNode) (h : subs ≠ []) :
    bestChildIndex computeCost newBounds subs < subs.length := by
  cases subs with
  | nil => exact absurd rfl h
  | cons c cs =>
    have := bestChildFrom_lt computeCost newBounds cs 0
      (additionCost computeCost c.bounds newBounds) 1 (by omega)
    simp only [bestChildIndex, List.length_cons]
    omega

theorem TreeNode.addOutsideAt_eq_set (computeCost : Bounds → Int) (newNode : TreeNode)
    (subs : List TreeNode) :
    ∀ (i : Nat) (c : TreeNode), subs[i]? = some c →
      addOutsideAt computeCost i subs newNode = subs.set i (addOutside computeCost c newNode) := by
  induction subs with
  | nil => intro i c h; simp at h
  | cons a as ih =>
    intro i c h
    cases i with
    | zero =>
      simp at h
      subst h
      simp [addOutsideAt]
    | succ j =>
      simp at h
      simp [addOutsideAt, ih j c h]

/-- What `addOutside` does on a full node that is not a group head. -/
theorem TreeNode.addOutside_full (computeCost : Bounds → Int) (newNode : TreeNode) (b : Bounds)
    (subs : List TreeNode) (hfull : ¬ subs.length < MAX_BRANCHES) :
    ∃ i c, subs[i]? = some c ∧
      addOutside computeCost (.node b subs false) newNode =
        .node (unionOfBounds b newNode.bounds) (subs.set i (addOutside computeCost c newNode)) false := by
  have hne : subs ≠ [] := by
    intro h; subst h; simp [MAX_BRANCHES] at hfull
  have hlt := bestChildIndex_lt computeCost newNode.bounds subs hne
  obtain ⟨c, hc⟩ : ∃ c, subs[bestChildIndex computeCost newNode.bounds subs]? = some c :=
    ⟨subs[bestChildIndex computeCost newNode.bounds subs], by simp [hlt]⟩
  refine ⟨bestChildIndex computeCost newNode.bounds subs, c, hc, ?_⟩
  simp only [addOutside, hfull, if_false, Bool.false_eq_true]
  rw [addOutsideAt_eq_set computeCost newNode subs _ c hc]

/-- The outcome of `addOutside`, case by case. -/
theorem TreeNode.addOutside_cases (computeCost : Bounds → Int) (newNode : TreeNode) (t : TreeNode) :
    (addOutside computeCost t newNode =
        .node (unionOfBounds t.bounds newNode.bounds) [t, newNode] false ∧
      (t.isLeafNode = true ∨ t.isGroupHead = true)) ∨
    (∃ b subs, t = .node b subs false ∧ subs.length < MAX_BRANCHES ∧
      addOutside computeCost t newNode =
        .node (unionOfBounds b newNode.bounds) (subs ++ [newNode]) false) ∨
    (∃ b subs i c, t = .node b subs false ∧ ¬ subs.length < MAX_BRANCHES ∧ subs[i]? = some c ∧
      addOutside computeCost t newNode =
        .node (unionOfBounds b newNode.bounds) (subs.set i (addOutside computeCost c newNode)) false) := by
  cases t with
  | leaf b o g => exact Or.inl ⟨by simp [addOutside, bounds], Or.inl rfl⟩
  | node b subs g =>
    cases g with
    | true => exact Or.inl ⟨by simp [addOutside, bounds], Or.inr rfl⟩
    | false =>
      by_cases hfull : subs.length < MAX_BRANCHES
      · exact Or.inr (Or.inl ⟨b, subs, rfl, hfull, by simp [addOutside, hfull]⟩)
      · obtain ⟨i, c, hc, h⟩ := addOutside_full computeCost newNode b subs hfull
        exact Or.inr (Or.inr ⟨b, subs, i, c, rfl, hfull, hc, h⟩)

/-- After `addOutside` the tree holds every object as often as before, plus its count
in the added node. -/
theorem TreeNode.countObject_addOutside (computeCost : Bounds → Int) (obj : Nat)
    (newNode : TreeNode) (t : TreeNode) :
    countObject obj (addOutside computeCost t newNode) =
      countObject obj t + countObject obj newNode := by
  induction t using TreeNode.induction with
  | hleaf b o g => simp [addOutside, countObject_node]
  | hnode b subs g ih =>
    rcases addOutside_cases computeCost newNode (.node b subs g) with
      ⟨h, _⟩ | ⟨b', subs', ht, _, h⟩ | ⟨b', subs', i, c, ht, _, hc, h⟩
    · rw [h]; simp [countObject_node]
    · cases ht
      rw [h]; simp [countObject_node]
    · cases ht
      rw [h]
      have hset := sum_map_set_add (countObject obj) subs i c (addOutside computeCost c newNode) hc
      have := ih c (List.getElem?_mem hc)
      simp only [countObject_node]
      omega

/-- After `add(node)` the tree holds every object as often as before, plus its count
in the added node. -/
theorem BoundsTree.countObject_addNode (computeCost : Bounds → Int) (obj : Nat)
    (tree : BoundsTree) (node : TreeNode) :
    countObject obj (tree.addNode computeCost node).rootNode =
      countObject obj tree.rootNode + countObject obj node := by
  obtain ⟨root⟩ := tree
  by_cases hempty : BoundsTree.isEmpty ⟨root⟩ = true
  · have hroot : countObject obj root = 0 := by
      cases root with
      | leaf b o g => simp [BoundsTree.isEmpty, nodeCount, LEAF_NODE_SIGNIFIER] at hempty
      | node b subs g =>
        simp only [BoundsTree.isEmpty, nodeCount, decide_eq_true_eq, List.length_eq_zero] at hempty
        subst hempty
        simp [countObject_node]
    simp [BoundsTree.addNode, hempty, hroot]
  · simp only [BoundsTree.addNode, hempty, Bool.false_eq_true, if_false]
    split <;> simp [countObject_setBounds, countObject_addOutside]

/-! ### Round trip -/

/-! ### Bounds consistency under mutation -/

theorem Bounds.eq_of_contains_iff {a b : Bounds}
    (h : ∀ x : Bounds, x.contains a = true ↔ x.contains b = true) : a = b :=
  Bounds.contains_antisymm ((h a).1 (Bounds.contains_refl a)) ((h b).2 (Bounds.contains_refl b))

theorem isBoundsOf_cons_iff (b : Bounds) (first : TreeNode) (others : List TreeNode) :
    IsBoundsOf b (first :: others) ↔ b = computeBoundsOfList first others := by
  constructor
  · intro h
    apply Bounds.eq_of_contains_iff
    intro x
    rw [h x, contains_computeBoundsOfList_iff]
  · rintro rfl x
    exact contains_computeBoundsOfList_iff x first others

theorem IsBoundsOf.unique {a b : Bounds} {subs : List TreeNode} (ha : IsBoundsOf a subs)
    (hb : IsBoundsOf b subs) : a = b :=
  Bounds.eq_of_contains_iff (fun x => (ha x).trans (hb x).symm)

/-- A node with children is bounds-consistent exactly when its bounds are the union
of its children's bounds and every child is bounds-consistent. -/
theorem TreeNode.boundsConsistent_node_iff (b : Bounds) (subs : List TreeNode) (g : Bool)
    (hne : subs ≠ []) :
    (TreeNode.node b subs g).boundsConsistent = true ↔
      IsBoundsOf b subs ∧ ∀ c ∈ subs, c.boundsConsistent = true := by
  cases subs with
  | nil => exact absurd rfl hne
  | cons first others =>
    simp only [boundsConsistent, Bool.and_eq_true, decide_eq_true_eq, boundsConsistentList_iff,
      isBoundsOf_cons_iff]

theorem TreeNode.boundsConsistent_children {b : Bounds} {subs : List TreeNode} {g : Bool}
    (h : (TreeNode.node b subs g).boundsConsistent = true) :
    ∀ c ∈ subs, c.boundsConsistent = true := by
  simp only [boundsConsistent, Bool.and_eq_true] at h
  exact boundsConsistentList_iff.1 h.2

theorem TreeNode.boundsConsistent_setGroupHead (t : TreeNode) (g : Bool) :
    (t.setGroupHead g).boundsConsistent = t.boundsConsistent := by
  cases t <;> simp [setGroupHead, boundsConsistent]

/-- Recomputing the bounds of a node whose children are bounds-consistent makes the
node bounds-consistent. -/
theorem TreeNode.boundsConsistent_recalculate (t : TreeNode)
    (h : ∀ c ∈ t.subTrees, c.boundsConsistent = true) :
    t.recalculateBoundsFromSubBounds.boundsConsistent = true := by
  cases t with
  | leaf b o g => simp [recalculateBoundsFromSubBounds, boundsConsistent]
  | node b subs g =>
    cases subs with
    | nil => simp [recalculateBoundsFromSubBounds, boundsConsistent, boundsConsistentList]
    | cons first others =>
      simp only [recalculateBoundsFromSubBounds]
      rw [boundsConsistent_node_iff _ _ _ (by simp)]
      exact ⟨(isBoundsOf_cons_iff _ first others).2 rfl, h⟩

theorem TreeNode.subTrees_consistent_of_consistent (t : TreeNode)
    (h : t.boundsConsistent = true) : ∀ c ∈ t.subTrees, c.boundsConsistent = true := by
  cases t with
  | leaf b o g => intro c hc; simp [subTrees] at hc
  | node b subs g => exact boundsConsistent_children h

/-- Composition of two rewritings along a path, the first of which leaves the
ancestors alone. -/
theorem TreeNode.modifyPath_modifyPath (f1 f2 onAncestor : TreeNode → TreeNode) (r : List Nat)
    (q : List Nat) :
    ∀ t : TreeNode, (t.modifyPath f1 id (q ++ r)).modifyPath f2 onAncestor q =
      t.modifyPath (fun n => f2 (n.modifyPath f1 id r)) onAncestor q := by
  induction q with
  | nil => intro t; cases t <;> simp [modifyPath]
  | cons j q ih =>
    intro t
    cases t with
    | leaf b o g => simp [modifyPath]
    | node b subs g =>
      cases hc : subs[j]? with
      | none => simp [modifyPath, hc]
      | some c =>
        have hj : j < subs.length := by
          rcases List.getElem?_eq_some.1 hc with ⟨hj, _⟩
          exact hj
        simp [modifyPath, hc, hj, ih c]

theorem TreeNode.nodeAt_modifyPath (f : TreeNode → TreeNode) (q : List Nat) :
    ∀ (t target : TreeNode), t.nodeAt q = some target →
      (t.modifyPath f id q).nodeAt q = some (f target) := by
  induction q with
  | nil =>
    intro t target h
    rw [nodeAt_nil] at h
    cases h
    cases t <;> simp [modifyPath, nodeAt_nil]
  | cons j q ih =>
    intro t target h
    obtain ⟨b, subs, g, c, rfl, hc, hn⟩ := nodeAt_cons_eq_some h
    have hj : j < subs.length := by
      rcases List.getElem?_eq_some.1 hc with ⟨hj, _⟩
      exact hj
    simp only [modifyPath, hc, id]
    rw [nodeAt_cons_node _ _ _ j q (c.modifyPath f id q) (by simp [hj])]
    exact ih c target hn

/-- Rewriting along a path with the ancestors' bounds recomputed keeps a tree
bounds-consistent when the rewritten target is. -/
theorem TreeNode.boundsConsistent_modifyPath_recalculate (atTarget : TreeNode → TreeNode)
    (q : List Nat) :
    ∀ t : TreeNode, t.boundsConsistent = true →
      (∀ target, t.nodeAt q = some target → target.boundsConsistent = true →
        (atTarget target).boundsConsistent = true) →
      (t.modifyPath atTarget recalculateBoundsFromSubBounds q).boundsConsistent = true := by
  induction q with
  | nil =>
    intro t ht h
    have := h t (nodeAt_nil t) ht
    cases t <;> simpa [modifyPath] using this
  | cons j q ih =>
    intro t ht h
    cases t with
    | leaf b o g => simpa [modifyPath] using ht
    | node b subs g =>
      cases hc : subs[j]? with
      | none => simpa [modifyPath, hc] using ht
      | some c =>
        simp only [modifyPath, hc]
        apply boundsConsistent_recalculate
        intro d hd
        simp only [subTrees_node] at hd
        have hch := boundsConsistent_children ht
        rcases List.mem_or_eq_of_mem_set hd with hmem | rfl
        · exact hch d hmem
        · apply ih c (hch c (List.getElem?_mem hc))
          intro target htarget
          exact h target (by rw [nodeAt_cons_node b subs g j q c hc]; exact htarget)

theorem TreeNode.subTrees_withoutChild_consistent (t : TreeNode) (i : Nat)
    (h : t.boundsConsistent = true) :
    ∀ c ∈ (t.withoutChild i).subTrees, c.boundsConsistent = true := by
  cases t with
  | leaf b o g => intro c hc; simp [withoutChild, subTrees] at hc
  | node b subs g =>
    have hch := boundsConsistent_children h
    simp only [withoutChild]
    split
    · next r hr =>
      have hr' : r ∈ subs := List.mem_of_mem_eraseIdx (by rw [hr]; simp)
      apply subTrees_consistent_of_consistent
      rw [boundsConsistent_setGroupHead]
      exact hch r hr'
    · intro c hc
      exact hch c (List.mem_of_mem_eraseIdx hc)

/-- The tree left by `NodeStack::remove()` is bounds-consistent when the tree was. -/
theorem boundsConsistent_removedAt (rootNode : TreeNode) (q : List Nat) (i : Nat)
    (h : rootNode.boundsConsistent = true) : (removedAt rootNode q i).boundsConsistent = true := by
  apply boundsConsistent_modifyPath_recalculate _ q rootNode h
  intro target _ htarget
  exact boundsConsistent_recalculate _ (subTrees_withoutChild_consistent target i htarget)

theorem TreeNode.recalculateBoundsRecursiveList_eq_map (subs : List TreeNode) :
    recalculateBoundsRecursiveList subs = subs.map recalculateBoundsRecursive := by
  induction subs with
  | nil => rfl
  | cons a as ih => simp [recalculateBoundsRecursiveList, ih]

/-- The recursive recomputation leaves a bounds-consistent subtree. -/
theorem TreeNode.boundsConsistent_recalculateBoundsRecursive (t : TreeNode) :
    t.recalculateBoundsRecursive.boundsConsistent = true := by
  induction t using TreeNode.induction with
  | hleaf b o g => simp [recalculateBoundsRecursive, boundsConsistent]
  | hnode b subs g ih =>
    simp only [recalculateBoundsRecursive]
    apply boundsConsistent_recalculate
    intro c hc
    simp only [subTrees_node, recalculateBoundsRecursiveList_eq_map, List.mem_map] at hc
    obtain ⟨d, hd, rfl⟩ := hc
    exact ih d hd

theorem TreeCursor.modifyTop_modifyTop (f1 f2 : TreeNode → TreeNode) (c : TreeCursor) :
    (c.modifyTop f1).modifyTop f2 = c.modifyTop (fun n => f2 (f1 n)) := by
  obtain ⟨root, indices⟩ := c
  cases indices with
  | nil => rfl
  | cons k below =>
    simp only [TreeCursor.modifyTop, TreeCursor.path, List.tail_cons]
    have := modifyPath_modifyPath f1 f2 id [] below.reverse root
    simp only [List.append_nil] at this
    rw [this]
    have hfun : (fun n : TreeNode => f2 (n.modifyPath f1 id [])) = fun n => f2 (f1 n) := by
      funext n
      cases n <;> simp [modifyPath]
    rw [hfun]

/-- The tree after a write through the top frame, `top--` and
`updateBoundsAllTheWayToTop()`. -/
theorem TreeCursor.boundsConsistent_modifyTop_pop_update (rootNode : TreeNode) (indices : List Nat)
    (f : TreeNode → TreeNode) (hroot : rootNode.boundsConsistent = true)
    (hf : ∀ top, (⟨rootNode, indices⟩ : TreeCursor).topNode? = some top →
      top.boundsConsistent = true → (f top).boundsConsistent = true) :
    ((TreeCursor.modifyTop f ⟨rootNode, indices⟩).pop.updateBoundsAllTheWayToTop).rootNode.boundsConsistent
      = true := by
  cases indices with
  | nil => simpa [TreeCursor.modifyTop, TreeCursor.pop, TreeCursor.updateBoundsAllTheWayToTop] using hroot
  | cons k below =>
    cases below with
    | nil =>
      have := hf rootNode (by simp [TreeCursor.topNode?, nodeAt_nil]) hroot
      cases rootNode <;>
        simpa [TreeCursor.modifyTop, TreeCursor.pop, TreeCursor.updateBoundsAllTheWayToTop,
          TreeCursor.path, modifyPath] using this
    | cons i below =>
      simp only [TreeCursor.modifyTop, TreeCursor.pop, TreeCursor.updateBoundsAllTheWayToTop,
        TreeCursor.path, List.tail_cons, List.reverse_cons]
      rw [modifyPath_modifyPath]
      apply boundsConsistent_modifyPath_recalculate _ _ rootNode hroot
      intro parent hparent hpc
      apply boundsConsistent_recalculate
      cases parent with
      | leaf b o g => intro c hc; simp [modifyPath, subTrees] at hc
      | node b subs g =>
        have hch := boundsConsistent_children hpc
        cases hc : subs[i]? with
        | none => simpa [modifyPath, hc, subTrees_node] using hch
        | some c =>
          have htop : (⟨rootNode, k :: i :: below⟩ : TreeCursor).topNode? = some c := by
            simp only [TreeCursor.topNode?, List.reverse_cons]
            rw [nodeAt_append, hparent]
            simp [nodeAt, child?, subTrees, hc]
          have hfc := hf c htop (hch c (List.getElem?_mem hc))
          have hmod : (TreeNode.node b subs g).modifyPath f id [i] = .node b (subs.set i (f c)) g := by
            cases c <;> simp [modifyPath, hc]
          rw [hmod]
          intro d hd
          simp only [subTrees_node] at hd
          rcases List.mem_or_eq_of_mem_set hd with hmem | rfl
          · exact hch d hmem
          · exact hfc

theorem isBoundsOf_pair (a b : TreeNode) : IsBoundsOf (unionOfBounds a.bounds b.bounds) [a, b] := by
  intro x
  simp [Bounds.contains_union_iff]

theorem isBoundsOf_append {b : Bounds} {subs : List TreeNode} (h : IsBoundsOf b subs) (n : TreeNode) :
    IsBoundsOf (unionOfBounds b n.bounds) (subs ++ [n]) := by
  intro x
  rw [Bounds.contains_union_iff, h x]
  simp only [List.mem_append, List.mem_singleton]
  constructor
  · rintro ⟨h1, h2⟩ d (hd | rfl)
    · exact h1 d hd
    · exact h2
  · intro hall
    exact ⟨fun d hd => hall d (Or.inl hd), hall n (Or.inr rfl)⟩

theorem forall_mem_set_contains (x e : Bounds) (subs : List TreeNode) :
    ∀ (i : Nat) (c c' : TreeNode), subs[i]? = some c → c'.bounds = unionOfBounds c.bounds e →
      ((∀ d ∈ subs.set i c', x.contains d.bounds = true) ↔
        (∀ d ∈ subs, x.contains d.bounds = true) ∧ x.contains e = true) := by
  induction subs with
  | nil => intro i c c' h; simp at h
  | cons a as ih =>
    intro i c c' h hb
    cases i with
    | zero =>
      simp at h
      subst h
      simp only [List.set_cons_zero, List.mem_cons, forall_eq_or_imp, hb, Bounds.contains_union_iff]
      tauto
    | succ j =>
      simp at h
      simp only [List.set_cons_succ, List.mem_cons, forall_eq_or_imp, ih j c c' h hb]
      tauto

theorem isBoundsOf_set {b e : Bounds} {subs : List TreeNode} (h : IsBoundsOf b subs) (i : Nat)
    (c c' : TreeNode) (hc : subs[i]? = some c) (hb : c'.bounds = unionOfBounds c.bounds e) :
    IsBoundsOf (unionOfBounds b e) (subs.set i c') := by
  intro x
  rw [Bounds.contains_union_iff, h x, forall_mem_set_contains x e subs i c c' hc hb]

theorem Bounds.union_absorb (a b : Bounds) :
    unionOfBounds a (unionOfBounds a b) = unionOfBounds a b := by
  apply Bounds.eq_of_contains_iff
  intro x
  simp only [Bounds.contains_union_iff]
  tauto

theorem TreeNode.addOutside_bounds (computeCost : Bounds → Int) (newNode t : TreeNode) :
    (addOutside computeCost t newNode).bounds = unionOfBounds t.bounds newNode.bounds := by
  rcases addOutside_cases computeCost newNode t with
    ⟨h, _⟩ | ⟨b, subs, rfl, _, h⟩ | ⟨b, subs, i, c, rfl, _, _, h⟩ <;> rw [h] <;> rfl

theorem TreeNode.isBoundsOf_of_consistent {b : Bounds} {subs : List TreeNode} {g : Bool}
    (h : (TreeNode.node b subs g).boundsConsistent = true) (hne : subs ≠ []) : IsBoundsOf b subs :=
  ((boundsConsistent_node_iff b subs g hne).1 h).1

/-- `addOutside` keeps a tree without childless internal nodes bounds-consistent. -/
theorem TreeNode.boundsConsistent_addOutside (computeCost : Bounds → Int) (newNode : TreeNode)
    (hnew : newNode.boundsConsistent = true) (t : TreeNode) :
    t.hasChildren = true → t.boundsConsistent = true →
      (addOutside computeCost t newNode).boundsConsistent = true := by
  induction t using TreeNode.induction with
  | hleaf b o g =>
    intro _ ht
    simp only [addOutside]
    rw [boundsConsistent_node_iff _ _ _ (by simp)]
    refine ⟨isBoundsOf_pair (.leaf b o g) newNode, ?_⟩
    intro c hc
    simp only [List.mem_cons, List.mem_singleton, List.not_mem_nil, or_false] at hc
    rcases hc with rfl | rfl
    · exact ht
    · exact hnew
  | hnode b subs g ih =>
    intro hch ht
    simp only [hasChildren, Bool.and_eq_true, decide_eq_true_eq] at hch
    have hne : subs ≠ [] := by
      intro h; subst h; simp at hch
    rcases addOutside_cases computeCost newNode (.node b subs g) with
      ⟨h, _⟩ | ⟨b', subs', heq, _, h⟩ | ⟨b', subs', i, c, heq, _, hc, h⟩
    · rw [h, boundsConsistent_node_iff _ _ _ (by simp)]
      refine ⟨isBoundsOf_pair (.node b subs g) newNode, ?_⟩
      intro c hc
      simp only [List.mem_cons, List.mem_singleton, List.not_mem_nil, or_false] at hc
      rcases hc with rfl | rfl
      · exact ht
      · exact hnew
    · cases heq
      rw [h, boundsConsistent_node_iff _ _ _ (by simp)]
      refine ⟨isBoundsOf_append (isBoundsOf_of_consistent ht hne) newNode, ?_⟩
      intro c hc
      simp only [List.mem_append, List.mem_singleton] at hc
      rcases hc with hc | rfl
      · exact boundsConsistent_children ht c hc
      · exact hnew
    · cases heq
      have hne' : subs.set i (addOutside computeCost c newNode) ≠ [] := by
        intro hnil
        have := congrArg List.length hnil
        simp at this
        exact hne this
      rw [h, boundsConsistent_node_iff _ _ _ hne']
      refine ⟨isBoundsOf_set (isBoundsOf_of_consistent ht hne) i c _ hc
        (addOutside_bounds computeCost newNode c), ?_⟩
      intro d hd
      rcases List.mem_or_eq_of_mem_set hd with hmem | rfl
      · exact boundsConsistent_children ht d hmem
      · exact ih c (List.getElem?_mem hc) (hasChildren_of_mem hch.2 (List.getElem?_mem hc))
          (boundsConsistent_children ht c (List.getElem?_mem hc))

/-- After `addOutside` on a node that has a child the result has at least two. -/
theorem TreeNode.nodeCount_addOutside_ne_one (computeCost : Bounds → Int) (newNode t : TreeNode)
    (h : t.nodeCount ≠ 0) : (addOutside computeCost t newNode).nodeCount ≠ 1 := by
  rcases addOutside_cases computeCost newNode t with
    ⟨he, _⟩ | ⟨b, subs, rfl, _, he⟩ | ⟨b, subs, i, c, rfl, hfull, _, he⟩
  · rw [he]; simp [nodeCount]
  · rw [he]
    simp only [nodeCount] at h
    simp only [nodeCount, List.length_append, List.length_singleton]
    omega
  · rw [he]
    simp only [nodeCount, List.length_set]
    simp only [MAX_BRANCHES] at hfull
    omega

/-- The method `add(node)` on a non-empty tree is `addOutside` at the root. -/
theorem BoundsTree.addNode_of_not_isEmpty (computeCost : Bounds → Int) (tree : BoundsTree)
    (node : TreeNode) (h : tree.isEmpty = false) :
    tree.addNode computeCost node = ⟨tree.rootNode.addOutside computeCost node⟩ := by
  have hne : tree.rootNode.nodeCount ≠ 0 := by
    simpa [BoundsTree.isEmpty] using h
  simp [BoundsTree.addNode, h, nodeCount_addOutside_ne_one computeCost node tree.rootNode hne]

theorem BoundsTree.addNode_of_isEmpty (computeCost : Bounds → Int) (tree : BoundsTree)
    (node : TreeNode) (h : tree.isEmpty = true) : tree.addNode computeCost node = ⟨node⟩ := by
  simp [BoundsTree.addNode, h]

theorem TreeNode.bounds_setGroupHead (t : TreeNode) (g : Bool) :
    (t.setGroupHead g).bounds = t.bounds := by
  cases t <;> rfl

/-- A node that is not a group head is stored by `addInside` as it is. -/
theorem TreeNode.setGroupHead_of_eq {t : TreeNode} {g : Bool} (h : t.isGroupHead = g) :
    t.setGroupHead g = t := by
  cases t <;> simp_all [setGroupHead, isGroupHead]

/-- The three shapes `addInside` builds, in terms of the node it stores. -/
theorem TreeNode.addInside_cases (t newNode : TreeNode) :
    ∃ stored, stored = newNode.setGroupHead false ∧
      ((∃ b o, t = .leaf b o t.isGroupHead ∧
          t.addInside newNode =
            .node (unionOfBounds b stored.bounds) [.leaf b o false, stored] t.isGroupHead) ∨
       (∃ b subs, t = .node b subs t.isGroupHead ∧ subs.length < MAX_BRANCHES ∧
          t.addInside newNode =
            .node (unionOfBounds b stored.bounds) (subs ++ [stored]) t.isGroupHead) ∨
       (∃ b subs, t = .node b subs t.isGroupHead ∧ ¬ subs.length < MAX_BRANCHES ∧
          t.addInside newNode =
            .node (unionOfBounds b stored.bounds) [.node b subs false, stored] t.isGroupHead)) := by
  refine ⟨_, rfl, ?_⟩
  rw [bounds_setGroupHead]
  cases t with
  | leaf b o g => exact Or.inl ⟨b, o, rfl, rfl⟩
  | node b subs g =>
    by_cases h : subs.length < MAX_BRANCHES
    · exact Or.inr (Or.inl ⟨b, subs, rfl, h, by simp [addInside, h, isGroupHead]⟩)
    · exact Or.inr (Or.inr ⟨b, subs, rfl, h, by simp [addInside, h, isGroupHead]⟩)

theorem TreeNode.addInside_bounds (t newNode : TreeNode) :
    (t.addInside newNode).bounds = unionOfBounds t.bounds newNode.bounds := by
  cases t with
  | leaf b o g => rfl
  | node b subs g =>
    simp only [addInside]
    split <;> rfl

/-- `addInside` keeps a subtree without childless internal nodes bounds-consistent. -/
theorem TreeNode.boundsConsistent_addInside (t newNode : TreeNode)
    (hnew : newNode.boundsConsistent = true) (hch : t.hasChildren = true)
    (ht : t.boundsConsistent = true) : (t.addInside newNode).boundsConsistent = true := by
  obtain ⟨stored, hs, hcases⟩ := addInside_cases t newNode
  have hstored : stored.boundsConsistent = true := by
    rw [hs, boundsConsistent_setGroupHead]; exact hnew
  rcases hcases with ⟨b, o, ht0, heq⟩ | ⟨b, subs, ht0, hlt, heq⟩ | ⟨b, subs, ht0, hlt, heq⟩
  · rw [heq, boundsConsistent_node_iff _ _ _ (by simp)]
    refine ⟨isBoundsOf_pair (.leaf b o false) stored, ?_⟩
    intro c hc
    simp only [List.mem_cons, List.mem_singleton, List.not_mem_nil, or_false] at hc
    rcases hc with rfl | rfl
    · rfl
    · exact hstored
  all_goals
    rw [ht0] at hch ht
    simp only [hasChildren, Bool.and_eq_true, decide_eq_true_eq] at hch
    have hne : subs ≠ [] := by
      intro h; subst h; simp at hch
    have hb := isBoundsOf_of_consistent ht hne
    have hchildren := boundsConsistent_children ht
    rw [heq, boundsConsistent_node_iff _ _ _ (by simp)]
  · refine ⟨isBoundsOf_append hb stored, ?_⟩
    intro c hc
    simp only [List.mem_append, List.mem_singleton] at hc
    rcases hc with hc | rfl
    · exact hchildren c hc
    · exact hstored
  · refine ⟨isBoundsOf_pair (.node b subs false) stored, ?_⟩
    intro c hc
    simp only [List.mem_cons, List.mem_singleton, List.not_mem_nil, or_false] at hc
    rcases hc with rfl | rfl
    · exact (boundsConsistent_node_iff b subs false hne).2 ⟨hb, hchildren⟩
    · exact hstored

theorem TreeNode.hasChildren_nodeAt (q : List Nat) :
    ∀ (t target : TreeNode), t.hasChildren = true → t.nodeAt q = some target →
      target.hasChildren = true := by
  induction q with
  | nil =>
    intro t target h hn
    rw [nodeAt_nil] at hn
    cases hn
    exact h
  | cons j q ih =>
    intro t target h hn
    obtain ⟨b, subs, g, c, rfl, hc, hn'⟩ := nodeAt_cons_eq_some hn
    simp only [hasChildren, Bool.and_eq_true] at h
    exact ih c target (hasChildren_of_mem h.2 (List.getElem?_mem hc)) hn'

theorem TreeNode.boundsConsistent_nodeAt (q : List Nat) :
    ∀ (t target : TreeNode), t.boundsConsistent = true → t.nodeAt q = some target →
      target.boundsConsistent = true := by
  induction q with
  | nil =>
    intro t target h hn
    rw [nodeAt_nil] at hn
    cases hn
    exact h
  | cons j q ih =>
    intro t target h hn
    obtain ⟨b, subs, g, c, rfl, hc, hn'⟩ := nodeAt_cons_eq_some hn
    exact ih c target (boundsConsistent_children h c (List.getElem?_mem hc)) hn'

/-- Rewriting the node at the end of a path so that its bounds grow by a box, and
uniting that box into the bounds of every ancestor, keeps the tree bounds-consistent. -/
theorem TreeNode.boundsConsistent_modifyPath_expand (atTarget : TreeNode → TreeNode) (e : Bounds)
    (q : List Nat) :
    ∀ (t target : TreeNode), t.boundsConsistent = true → t.nodeAt q = some target →
      (atTarget target).boundsConsistent = true →
      (atTarget target).bounds = unionOfBounds target.bounds e →
      (t.modifyPath atTarget (fun n => n.setBounds (unionOfBounds n.bounds e)) q).boundsConsistent
        = true ∧
      (t.modifyPath atTarget (fun n => n.setBounds (unionOfBounds n.bounds e)) q).bounds =
        unionOfBounds t.bounds e := by
  induction q with
  | nil =>
    intro t target ht hn h1 h2
    rw [nodeAt_nil] at hn
    cases hn
    cases t <;> exact ⟨h1, h2⟩
  | cons j q ih =>
    intro t target ht hn h1 h2
    obtain ⟨b, subs, g, c, rfl, hc, hn'⟩ := nodeAt_cons_eq_some hn
    have hne : subs ≠ [] := by
      intro h; subst h; simp at hc
    obtain ⟨hc1, hc2⟩ := ih c target (boundsConsistent_children ht c (List.getElem?_mem hc)) hn' h1 h2
    have hmod : (TreeNode.node b subs g).modifyPath atTarget
        (fun n => n.setBounds (unionOfBounds n.bounds e)) (j :: q) =
        .node (unionOfBounds b e) (subs.set j (c.modifyPath atTarget
          (fun n => n.setBounds (unionOfBounds n.bounds e)) q)) g := by
      simp only [modifyPath, hc]
      rfl
    rw [hmod]
    refine ⟨?_, rfl⟩
    have hne' : subs.set j (c.modifyPath atTarget
        (fun n => n.setBounds (unionOfBounds n.bounds e)) q) ≠ [] := by
      intro hnil
      have := congrArg List.length hnil
      simp at this
      exact hne this
    rw [boundsConsistent_node_iff _ _ _ hne']
    refine ⟨isBoundsOf_set (isBoundsOf_of_consistent ht hne) j c _ hc hc2, ?_⟩
    intro d hd
    rcases List.mem_or_eq_of_mem_set hd with hmem | rfl
    · exact boundsConsistent_children ht d hmem
    · exact hc1

/-- The ascent to the group head stops at a frame of the stack whose node is a group
head. -/
theorem TreeCursor.riseUntilGroupHeadLoop_some (rootNode : TreeNode) (indices : List Nat) :
    ∀ result, TreeCursor.riseUntilGroupHeadLoop rootNode indices = some result →
      ∃ i below dropped n, result = i :: below ∧ indices = dropped ++ i :: below ∧
        rootNode.nodeAt below.reverse = some n ∧ n.isGroupHead = true := by
  induction indices with
  | nil => intro r h; simp [TreeCursor.riseUntilGroupHeadLoop] at h
  | cons i below ih =>
    intro r h
    simp only [TreeCursor.riseUntilGroupHeadLoop] at h
    cases hn : rootNode.nodeAt below.reverse with
    | none => simp [hn] at h
    | some n =>
      simp only [hn] at h
      by_cases hg : n.isGroupHead = true
      · simp only [hg, if_true, Option.some.injEq] at h
        exact ⟨i, below, [], n, h.symm, rfl, hn, hg⟩
      · simp only [hg, Bool.false_eq_true, if_false] at h
        obtain ⟨i', below', dropped, n', h1, h2, h3, h4⟩ := ih r h
        exact ⟨i', below', i :: dropped, n', h1, by simp [h2], h3, h4⟩

/-- The tree after `addInside` at the top frame followed by
`expandBoundsAllTheWayToTop()`. -/
theorem TreeCursor.boundsConsistent_addInside_expand (rootNode : TreeNode) (i : Nat)
    (below : List Nat) (target newNode : TreeNode) (hroot : rootNode.boundsConsistent = true)
    (hch : rootNode.hasChildren = true) (hnew : newNode.boundsConsistent = true)
    (htarget : rootNode.nodeAt below.reverse = some target) :
    ((TreeCursor.modifyTop (fun groupNode => groupNode.addInside newNode)
      ⟨rootNode, i :: below⟩).expandBoundsAllTheWayToTop).rootNode.boundsConsistent = true := by
  have htop : (TreeCursor.modifyTop (fun groupNode => groupNode.addInside newNode)
      ⟨rootNode, i :: below⟩).topNode? = some (target.addInside newNode) := by
    simp only [TreeCursor.modifyTop, TreeCursor.topNode?, TreeCursor.path, List.tail_cons]
    exact nodeAt_modifyPath _ _ rootNode target htarget
  simp only [TreeCursor.expandBoundsAllTheWayToTop, htop]
  simp only [TreeCursor.modifyTop, TreeCursor.path, List.tail_cons]
  have hcomp := modifyPath_modifyPath (fun groupNode => groupNode.addInside newNode) id
    (fun n => n.setBounds (unionOfBounds n.bounds (target.addInside newNode).bounds)) []
    below.reverse rootNode
  simp only [List.append_nil] at hcomp
  rw [hcomp]
  have hfun : (fun n : TreeNode => id (n.modifyPath (fun groupNode => groupNode.addInside newNode) id []))
      = fun groupNode => groupNode.addInside newNode := by
    funext n
    cases n <;> simp [modifyPath]
  rw [hfun]
  refine (boundsConsistent_modifyPath_expand _ _ below.reverse rootNode target hroot htarget
    (boundsConsistent_addInside target newNode hnew (hasChildren_nodeAt _ _ _ hch htarget)
      (boundsConsistent_nodeAt _ _ _ hroot htarget)) ?_).1
  rw [addInside_bounds, Bounds.union_absorb]

/-- The tree after `addInside` at the top frame followed by
`expandBoundsAllTheWayToTop()`, as one rewriting along the path of the top frame. -/
theorem TreeCursor.addInside_expand_rootNode (rootNode : TreeNode) (i : Nat) (below : List Nat)
    (target newNode : TreeNode) (htarget : rootNode.nodeAt below.reverse = some target) :
    ((TreeCursor.modifyTop (fun groupNode => groupNode.addInside newNode)
      ⟨rootNode, i :: below⟩).expandBoundsAllTheWayToTop).rootNode =
    rootNode.modifyPath (fun groupNode => groupNode.addInside newNode)
      (fun n => n.setBounds (unionOfBounds n.bounds (target.addInside newNode).bounds))
      below.reverse := by
  have htop : (TreeCursor.modifyTop (fun groupNode => groupNode.addInside newNode)
      ⟨rootNode, i :: below⟩).topNode? = some (target.addInside newNode) := by
    simp only [TreeCursor.modifyTop, TreeCursor.topNode?, TreeCursor.path, List.tail_cons]
    exact nodeAt_modifyPath _ _ rootNode target htarget
  simp only [TreeCursor.expandBoundsAllTheWayToTop, htop]
  simp only [TreeCursor.modifyTop, TreeCursor.path, List.tail_cons]
  have hcomp := modifyPath_modifyPath (fun groupNode => groupNode.addInside newNode) id
    (fun n => n.setBounds (unionOfBounds n.bounds (target.addInside newNode).bounds)) []
    below.reverse rootNode
  simp only [List.append_nil] at hcomp
  rw [hcomp]
  have hfun : (fun n : TreeNode => id (n.modifyPath (fun groupNode => groupNode.addInside newNode) id []))
      = fun groupNode => groupNode.addInside newNode := by
    funext n
    cases n <;> simp [modifyPath]
  rw [hfun]

/-- In a bounds-consistent tree without childless internal nodes a box encloses the
bounds of a node exactly when it encloses the bounds of every leaf below it. -/
theorem TreeNode.contains_bounds_iff_leaves (t : TreeNode) :
    t.hasChildren = true → t.boundsConsistent = true →
      ∀ x : Bounds, x.contains t.bounds = true ↔ ∀ l ∈ leaves t, x.contains l.bounds = true := by
  induction t using TreeNode.induction with
  | hleaf b o g => intro _ _ x; simp [leaves]
  | hnode b subs g ih =>
    intro hch ht x
    simp only [hasChildren, Bool.and_eq_true, decide_eq_true_eq] at hch
    have hne : subs ≠ [] := by
      intro h; subst h; simp at hch
    rw [show (TreeNode.node b subs g).bounds = b from rfl, isBoundsOf_of_consistent ht hne x]
    simp only [leaves, mem_leavesList]
    constructor
    · rintro h l ⟨c, hc, hl⟩
      exact (ih c hc (hasChildren_of_mem hch.2 hc) (boundsConsistent_children ht c hc) x).1 (h c hc) l hl
    · intro h c hc
      exact (ih c hc (hasChildren_of_mem hch.2 hc) (boundsConsistent_children ht c hc) x).2
        (fun l hl => h l ⟨c, hc, hl⟩)

/-- In a bounds-consistent tree without childless internal nodes the root bounds are
the union of all leaf bounds. -/
theorem TreeNode.isUnionOf_leaf_bounds (t : TreeNode) (hch : t.hasChildren = true)
    (ht : t.boundsConsistent = true) : IsUnionOf t.bounds ((leaves t).map TreeNode.bounds) := by
  have h := contains_bounds_iff_leaves t hch ht
  constructor
  · intro c hc
    simp only [List.mem_map] at hc
    obtain ⟨l, hl, rfl⟩ := hc
    exact (h t.bounds).1 (Bounds.contains_refl _) l hl
  · intro b' hb'
    exact (h b').2 (fun l hl => hb' _ (List.mem_map.2 ⟨l, hl, rfl⟩))

/-! ### Trees whose internal nodes have at least two children -/

theorem TreeNode.branchesTwoList_iff (subs : List TreeNode) :
    branchesTwoList subs = true ↔ ∀ c ∈ subs, branchesTwo c = true := by
  induction subs with
  | nil => simp [branchesTwoList]
  | cons a as ih => simp [branchesTwoList, ih]

theorem TreeNode.branchesTwo_node_iff (b : Bounds) (subs : List TreeNode) (g : Bool) :
    branchesTwo (.node b subs g) = true ↔ 2 ≤ subs.length ∧ ∀ c ∈ subs, branchesTwo c = true := by
  simp [branchesTwo, branchesTwoList_iff]

theorem TreeNode.hasChildren_of_branchesTwo (t : TreeNode) :
    branchesTwo t = true → hasChildren t = true := by
  induction t using TreeNode.induction with
  | hleaf b o g => intro _; rfl
  | hnode b subs g ih =>
    intro h
    rw [branchesTwo_node_iff] at h
    simp only [hasChildren, Bool.and_eq_true, decide_eq_true_eq]
    refine ⟨by omega, ?_⟩
    have : ∀ l : List TreeNode, (∀ c ∈ l, hasChildren c = true) → hasChildrenList l = true := by
      intro l
      induction l with
      | nil => intro _; rfl
      | cons a as iha =>
        intro hl
        simp only [hasChildrenList, Bool.and_eq_true]
        exact ⟨hl a (List.mem_cons_self _ _), iha (fun c hc => hl c (List.mem_cons_of_mem _ hc))⟩
    exact this subs (fun c hc => ih c hc (h.2 c hc))

theorem TreeNode.branchesTwo_setBounds (t : TreeNode) (b : Bounds) :
    branchesTwo (t.setBounds b) = branchesTwo t := by
  cases t <;> simp [setBounds, branchesTwo]

theorem TreeNode.branchesTwo_setGroupHead (t : TreeNode) (g : Bool) :
    branchesTwo (t.setGroupHead g) = branchesTwo t := by
  cases t <;> simp [setGroupHead, branchesTwo]

theorem TreeNode.branchesTwo_recalculateBoundsFromSubBounds (t : TreeNode) :
    branchesTwo t.recalculateBoundsFromSubBounds = branchesTwo t := by
  cases t with
  | leaf b o g => rfl
  | node b subs g =>
    cases subs with
    | nil => rfl
    | cons first others => simp [recalculateBoundsFromSubBounds, branchesTwo]

/-- Rewriting along a path keeps every internal node at two children or more when the
rewriting of the target does and the rewriting of the ancestors keeps the children. -/
theorem TreeNode.branchesTwo_modifyPath (atTarget onAncestor : TreeNode → TreeNode)
    (hanc : ∀ n, branchesTwo (onAncestor n) = branchesTwo n) (q : List Nat) :
    ∀ t : TreeNode, branchesTwo t = true →
      (∀ target, t.nodeAt q = some target → branchesTwo target = true →
        branchesTwo (atTarget target) = true) →
      branchesTwo (t.modifyPath atTarget onAncestor q) = true := by
  induction q with
  | nil =>
    intro t ht h
    have := h t (nodeAt_nil t) ht
    cases t <;> simpa [modifyPath] using this
  | cons j q ih =>
    intro t ht h
    cases t with
    | leaf b o g => simpa [modifyPath] using ht
    | node b subs g =>
      cases hc : subs[j]? with
      | none => simpa [modifyPath, hc] using ht
      | some c =>
        simp only [modifyPath, hc, hanc]
        rw [branchesTwo_node_iff] at ht ⊢
        refine ⟨by simpa using ht.1, ?_⟩
        intro d hd
        rcases List.mem_or_eq_of_mem_set hd with hmem | rfl
        · exact ht.2 d hmem
        · apply ih c (ht.2 c (List.getElem?_mem hc))
          intro target htarget
          exact h target (by rw [nodeAt_cons_node b subs g j q c hc]; exact htarget)

theorem TreeNode.branchesTwo_withoutChild (t : TreeNode) (i : Nat) (h : branchesTwo t = true) :
    branchesTwo (t.withoutChild i) = true := by
  cases t with
  | leaf b o g => simpa [withoutChild] using h
  | node b subs g =>
    rw [branchesTwo_node_iff] at h
    simp only [withoutChild]
    split
    · next r hr =>
      have hr' : r ∈ subs := List.mem_of_mem_eraseIdx (by rw [hr]; simp)
      rw [branchesTwo_setGroupHead]
      exact h.2 r hr'
    · next hnot =>
      rw [branchesTwo_node_iff]
      refine ⟨?_, fun c hc => h.2 c (List.mem_of_mem_eraseIdx hc)⟩
      have hlen := List.length_eraseIdx subs i
      by_contra hlt
      have hshort : (subs.eraseIdx i).length ≤ 1 := by omega
      cases hsub : subs.eraseIdx i with
      | nil =>
        rw [hsub] at hlen
        simp only [List.length_nil] at hlen
        split at hlen <;> omega
      | cons a as =>
        cases as with
        | nil => exact hnot a hsub
        | cons a' as' =>
          rw [hsub] at hshort
          simp at hshort

theorem branchesTwo_removedAt (rootNode : TreeNode) (q : List Nat) (i : Nat)
    (h : branchesTwo rootNode = true) : branchesTwo (removedAt rootNode q i) = true := by
  apply branchesTwo_modifyPath _ _ branchesTwo_recalculateBoundsFromSubBounds q rootNode h
  intro target _ htarget
  rw [branchesTwo_recalculateBoundsFromSubBounds]
  exact branchesTwo_withoutChild target i htarget

theorem TreeNode.branchesTwo_addOutside (computeCost : Bounds → Int) (newNode : TreeNode)
    (hnew : branchesTwo newNode = true) (t : TreeNode) :
    branchesTwo t = true → branchesTwo (addOutside computeCost t newNode) = true := by
  induction t using TreeNode.induction with
  | hleaf b o g =>
    intro ht
    simp only [addOutside]
    rw [branchesTwo_node_iff]
    refine ⟨by simp, ?_⟩
    intro c hc
    simp only [List.mem_cons, List.mem_singleton, List.not_mem_nil, or_false] at hc
    rcases hc with rfl | rfl
    · exact ht
    · exact hnew
  | hnode b subs g ih =>
    intro ht
    rcases addOutside_cases computeCost newNode (.node b subs g) with
      ⟨h, _⟩ | ⟨b', subs', heq, _, h⟩ | ⟨b', subs', i, c, heq, _, hc, h⟩
    · rw [h, branchesTwo_node_iff]
      refine ⟨by simp, ?_⟩
      intro c hc
      simp only [List.mem_cons, List.mem_singleton, List.not_mem_nil, or_false] at hc
      rcases hc with rfl | rfl
      · exact ht
      · exact hnew
    · cases heq
      rw [branchesTwo_node_iff] at ht
      rw [h, branchesTwo_node_iff]
      refine ⟨by simp only [List.length_append, List.length_singleton]; omega, ?_⟩
      intro d hd
      simp only [List.mem_append, List.mem_singleton] at hd
      rcases hd with hd | rfl
      · exact ht.2 d hd
      · exact hnew
    · cases heq
      rw [branchesTwo_node_iff] at ht
      rw [h, branchesTwo_node_iff]
      refine ⟨by simpa using ht.1, ?_⟩
      intro d hd
      rcases List.mem_or_eq_of_mem_set hd with hmem | rfl
      · exact ht.2 d hmem
      · exact ih c (List.getElem?_mem hc) (ht.2 c (List.getElem?_mem hc))

theorem TreeNode.branchesTwo_addInside (t newNode : TreeNode) (hnew : branchesTwo newNode = true)
    (ht : branchesTwo t = true) : branchesTwo (t.addInside newNode) = true := by
  cases t with
  | leaf b o g =>
    simp only [addInside]
    rw [branchesTwo_node_iff]
    refine ⟨by simp, ?_⟩
    intro c hc
    simp only [List.mem_cons, List.mem_singleton, List.not_mem_nil, or_false] at hc
    rcases hc with rfl | rfl
    · rfl
    · exact (by rw [branchesTwo_setGroupHead]; exact hnew)
  | node b subs g =>
    rw [branchesTwo_node_iff] at ht
    simp only [addInside]
    split
    · rw [branchesTwo_node_iff]
      refine ⟨by simp only [List.length_append, List.length_singleton]; omega, ?_⟩
      intro d hd
      simp only [List.mem_append, List.mem_singleton] at hd
      rcases hd with hd | rfl
      · exact ht.2 d hd
      · exact (by rw [branchesTwo_setGroupHead]; exact hnew)
    · rw [branchesTwo_node_iff]
      refine ⟨by simp, ?_⟩
      intro c hc
      simp only [List.mem_cons, List.mem_singleton, List.not_mem_nil, or_false] at hc
      rcases hc with rfl | rfl
      · exact (branchesTwo_node_iff b subs false).2 ht
      · exact (by rw [branchesTwo_setGroupHead]; exact hnew)

theorem TreeNode.refreshLeafBoundsList_eq_map (getStrictBounds : Nat → Bounds)
    (subs : List TreeNode) :
    refreshLeafBoundsList getStrictBounds subs = subs.map (refreshLeafBounds getStrictBounds) := by
  induction subs with
  | nil => rfl
  | cons a as ih => simp [refreshLeafBoundsList, ih]

theorem TreeNode.branchesTwo_refreshLeafBounds (getStrictBounds : Nat → Bounds) (t : TreeNode) :
    branchesTwo t = true → branchesTwo (refreshLeafBounds getStrictBounds t) = true := by
  induction t using TreeNode.induction with
  | hleaf b o g => intro _; rfl
  | hnode b subs g ih =>
    intro h
    rw [branchesTwo_node_iff] at h
    simp only [refreshLeafBounds, refreshLeafBoundsList_eq_map]
    rw [branchesTwo_node_iff]
    refine ⟨by simpa using h.1, ?_⟩
    intro c hc
    simp only [List.mem_map] at hc
    obtain ⟨d, hd, rfl⟩ := hc
    exact ih d hd (h.2 d hd)

theorem TreeNode.branchesTwo_recalculateBoundsRecursive (t : TreeNode) :
    branchesTwo t = true → branchesTwo t.recalculateBoundsRecursive = true := by
  induction t using TreeNode.induction with
  | hleaf b o g => intro _; rfl
  | hnode b subs g ih =>
    intro h
    rw [branchesTwo_node_iff] at h
    simp only [recalculateBoundsRecursive, branchesTwo_recalculateBoundsFromSubBounds,
      recalculateBoundsRecursiveList_eq_map]
    rw [branchesTwo_node_iff]
    refine ⟨by simpa using h.1, ?_⟩
    intro c hc
    simp only [List.mem_map] at hc
    obtain ⟨d, hd, rfl⟩ := hc
    exact ih d hd (h.2 d hd)

/-- The tree after a write through the top frame, `top--` and
`updateBoundsAllTheWayToTop()` keeps every internal node at two children or more when
the write does. -/
theorem TreeCursor.branchesTwo_modifyTop_pop_update (rootNode : TreeNode) (indices : List Nat)
    (f : TreeNode → TreeNode) (hroot : branchesTwo rootNode = true)
    (hf : ∀ n, branchesTwo n = true → branchesTwo (f n) = true) :
    branchesTwo
      ((TreeCursor.modifyTop f ⟨rootNode, indices⟩).pop.updateBoundsAllTheWayToTop).rootNode
      = true := by
  cases indices with
  | nil => simpa [TreeCursor.modifyTop, TreeCursor.pop, TreeCursor.updateBoundsAllTheWayToTop] using hroot
  | cons k below =>
    cases below with
    | nil =>
      have := hf rootNode hroot
      cases rootNode <;>
        simpa [TreeCursor.modifyTop, TreeCursor.pop, TreeCursor.updateBoundsAllTheWayToTop,
          TreeCursor.path, modifyPath] using this
    | cons i below =>
      simp only [TreeCursor.modifyTop, TreeCursor.pop, TreeCursor.updateBoundsAllTheWayToTop,
        TreeCursor.path, List.tail_cons, List.reverse_cons]
      rw [modifyPath_modifyPath]
      apply branchesTwo_modifyPath _ _ branchesTwo_recalculateBoundsFromSubBounds _ rootNode hroot
      intro parent _ hparent
      rw [branchesTwo_recalculateBoundsFromSubBounds]
      exact branchesTwo_modifyPath f id (fun _ => rfl) [i] parent hparent (fun n _ hn => hf n hn)

/-- On a bounds-consistent tree (empty, or without childless internal nodes) each of
the five mutating operations, when it returns, leaves a bounds-consistent tree. -/
theorem BoundsTree.boundsConsistent_preserved (computeCost : Bounds → Int)
    (getStrictBounds : Nat → Bounds) (tree : BoundsTree)
    (hcons : tree.rootNode.boundsConsistent = true)
    (hwf : tree.isEmpty = true ∨ tree.rootNode.hasChildren = true) :
    (∀ obj bounds, (tree.add computeCost obj bounds).rootNode.boundsConsistent = true) ∧
    (∀ obj bounds objInGroup objInGroupBounds tree',
      tree.addToExistingGroup obj bounds objInGroup objInGroupBounds = .returned () tree' →
      tree'.rootNode.boundsConsistent = true) ∧
    (∀ obj strictBounds tree', tree.remove obj strictBounds = .returned () tree' →
      tree'.rootNode.boundsConsistent = true) ∧
    (∀ obj oldBounds tree', tree.updateObjectBounds getStrictBounds obj oldBounds = .returned () tree' →
      tree'.rootNode.boundsConsistent = true) ∧
    (∀ obj oldBounds tree',
      tree.updateObjectGroupBounds getStrictBounds obj oldBounds = .returned () tree' →
      tree'.rootNode.boundsConsistent = true) := by
  refine ⟨?_, ?_, ?_, ?_, ?_⟩
  · intro obj bounds
    by_cases hempty : tree.isEmpty = true
    · rw [BoundsTree.add, BoundsTree.addNode_of_isEmpty _ _ _ hempty]
      rfl
    · have hne : tree.isEmpty = false := by simpa using hempty
      rw [BoundsTree.add, BoundsTree.addNode_of_not_isEmpty _ _ _ hne]
      exact boundsConsistent_addOutside computeCost (.leaf bounds obj true) rfl tree.rootNode
        (hwf.resolve_left hempty) hcons
  · intro obj bounds objInGroup objInGroupBounds tree' h
    rcases TreeCursor.find_cases tree.rootNode objInGroup objInGroupBounds with
      ⟨_, hf⟩ | ⟨_, hf, _⟩ | ⟨_, p, b', g', hf, hn⟩
    · simp [BoundsTree.addToExistingGroup, hf] at h
    · simp [BoundsTree.addToExistingGroup, hf] at h
    · have hch : tree.rootNode.hasChildren = true := by
        rcases hwf with hempty | hch
        · obtain ⟨root⟩ := tree
          cases root with
          | leaf b o g => rfl
          | node b subs g =>
            simp only [BoundsTree.isEmpty, nodeCount, decide_eq_true_eq, List.length_eq_zero] at hempty
            subst hempty
            cases p with
            | nil => rw [nodeAt_nil] at hn; cases hn
            | cons j q => simp [nodeAt, child?, subTrees] at hn
        · exact hch
      simp only [BoundsTree.addToExistingGroup, hf, TreeCursor.riseUntilGroupHeadWhile] at h
      cases hrise : TreeCursor.riseUntilGroupHeadLoop tree.rootNode (0 :: p.reverse) with
      | none => simp [hrise] at h
      | some indices =>
        obtain ⟨i, below, dropped, n, rfl, _, hnode, _⟩ :=
          TreeCursor.riseUntilGroupHeadLoop_some _ _ _ hrise
        simp only [hrise, Effect.returned.injEq, true_and] at h
        rw [← h]
        exact TreeCursor.boundsConsistent_addInside_expand tree.rootNode i below n
          (.leaf bounds obj false) hcons hch rfl hnode
  · intro obj strictBounds tree' h
    obtain ⟨root⟩ := tree
    cases root with
    | leaf b o g =>
      simp only [BoundsTree.remove] at h
      split at h
      · simp only [Effect.returned.injEq, true_and] at h
        rw [← h]
        rfl
      · cases h
    | node b subs g =>
      rcases BoundsTree.remove_grab_node_cases b subs g obj strictBounds with
        ⟨_, hr, _⟩ | ⟨_, hr, _, _⟩ |
        ⟨_, q, i, b', g', q', i', d', hn, hn', hw, hstop, hr, _⟩
      · rw [hr] at h; cases h
      · rw [hr] at h; cases h
      · rw [hr] at h
        simp only [Effect.returned.injEq, true_and] at h
        rw [← h]
        exact boundsConsistent_removedAt _ q' i' hcons
  · intro obj oldBounds tree' h
    simp only [BoundsTree.updateObjectBounds] at h
    split at h
    · cases h
    · rcases TreeCursor.find_cases tree.rootNode obj oldBounds with
        ⟨_, hf⟩ | ⟨_, hf, _⟩ | ⟨_, p, b', g', hf, hn⟩
      · simp [hf] at h
      · simp [hf] at h
      · simp only [hf, Effect.returned.injEq, true_and] at h
        rw [← h]
        apply TreeCursor.boundsConsistent_modifyTop_pop_update _ _ _ hcons
        intro top htop _
        simp only [TreeCursor.topNode?, List.reverse_reverse, hn, Option.some.injEq] at htop
        rw [← htop]
        rfl
  · intro obj oldBounds tree' h
    simp only [BoundsTree.updateObjectGroupBounds] at h
    split at h
    · cases h
    · rcases TreeCursor.find_cases tree.rootNode obj oldBounds with
        ⟨_, hf⟩ | ⟨_, hf, _⟩ | ⟨_, p, b', g', hf, hn⟩
      · simp [hf] at h
      · simp [hf] at h
      · simp only [hf, TreeCursor.riseUntilGroupHeadWhile] at h
        cases hrise : TreeCursor.riseUntilGroupHeadLoop tree.rootNode (0 :: p.reverse) with
        | none => simp [hrise] at h
        | some indices =>
          simp only [hrise, Effect.returned.injEq, true_and, TreeCursor.modifyTop_modifyTop] at h
          rw [← h]
          apply TreeCursor.boundsConsistent_modifyTop_pop_update _ _ _ hcons
          intro top _ _
          exact boundsConsistent_recalculateBoundsRecursive _


theorem BoundsTree.isEmpty_eq_false_of_nodeAt_leaf (tree : BoundsTree) (p : List Nat) (b : Bounds)
    (o : Nat) (g : Bool) (h : tree.rootNode.nodeAt p = some (.leaf b o g)) :
    tree.isEmpty = false := by
  obtain ⟨root⟩ := tree
  cases root with
  | leaf b' o' g' => simp [BoundsTree.isEmpty, nodeCount, LEAF_NODE_SIGNIFIER]
  | node b' subs g' =>
    cases p with
    | nil => rw [nodeAt_nil] at h; cases h
    | cons j q =>
      obtain ⟨_, subs', _, c, heq, hc, _⟩ := nodeAt_cons_eq_some h
      cases heq
      have hne : subs ≠ [] := by
        intro hnil; subst hnil; simp at hc
      simp only [BoundsTree.isEmpty, nodeCount, decide_eq_false_iff_not, List.length_eq_zero]
      exact hne

/-- Each of the five mutating operations, when it returns, leaves a tree that is
empty or has no internal node with fewer than two children, if the tree was one. -/
theorem BoundsTree.compact_preserved (computeCost : Bounds → Int)
    (getStrictBounds : Nat → Bounds) (tree : BoundsTree) (hc : tree.Compact) :
    (∀ obj bounds, (tree.add computeCost obj bounds).Compact) ∧
    (∀ obj bounds objInGroup objInGroupBounds tree',
      tree.addToExistingGroup obj bounds objInGroup objInGroupBounds = .returned () tree' →
      tree'.Compact) ∧
    (∀ obj strictBounds tree', tree.remove obj strictBounds = .returned () tree' → tree'.Compact) ∧
    (∀ obj oldBounds tree', tree.updateObjectBounds getStrictBounds obj oldBounds = .returned () tree' →
      tree'.Compact) ∧
    (∀ obj oldBounds tree',
      tree.updateObjectGroupBounds getStrictBounds obj oldBounds = .returned () tree' →
      tree'.Compact) := by
  have htwo : tree.isEmpty = false → branchesTwo tree.rootNode = true := by
    intro hne
    rcases hc with hempty | h
    · rw [hempty] at hne; cases hne
    · exact h
  refine ⟨?_, ?_, ?_, ?_, ?_⟩
  · intro obj bounds
    right
    by_cases hempty : tree.isEmpty = true
    · rw [BoundsTree.add, BoundsTree.addNode_of_isEmpty _ _ _ hempty]
      rfl
    · have hne : tree.isEmpty = false := by simpa using hempty
      rw [BoundsTree.add, BoundsTree.addNode_of_not_isEmpty _ _ _ hne]
      exact branchesTwo_addOutside computeCost (.leaf bounds obj true) rfl tree.rootNode (htwo hne)
  · intro obj bounds objInGroup objInGroupBounds tree' h
    rcases TreeCursor.find_cases tree.rootNode objInGroup objInGroupBounds with
      ⟨_, hf⟩ | ⟨_, hf, _⟩ | ⟨_, p, b', g', hf, hn⟩
    · simp [BoundsTree.addToExistingGroup, hf] at h
    · simp [BoundsTree.addToExistingGroup, hf] at h
    · have hroot := htwo (BoundsTree.isEmpty_eq_false_of_nodeAt_leaf tree p b' objInGroup g' hn)
      simp only [BoundsTree.addToExistingGroup, hf, TreeCursor.riseUntilGroupHeadWhile] at h
      cases hrise : TreeCursor.riseUntilGroupHeadLoop tree.rootNode (0 :: p.reverse) with
      | none => simp [hrise] at h
      | some indices =>
        obtain ⟨i, below, dropped, n, rfl, _, hnode, _⟩ :=
          TreeCursor.riseUntilGroupHeadLoop_some _ _ _ hrise
        simp only [hrise, Effect.returned.injEq, true_and] at h
        right
        rw [← h, TreeCursor.addInside_expand_rootNode tree.rootNode i below n _ hnode]
        apply branchesTwo_modifyPath _ _ (fun m => branchesTwo_setBounds m _) below.reverse
          tree.rootNode hroot
        intro target _ htarget
        exact branchesTwo_addInside target (.leaf bounds obj false) rfl htarget
  · intro obj strictBounds tree' h
    cases htree : tree with
    | mk root =>
      rw [htree] at h htwo
      cases root with
      | leaf b o g =>
        simp only [BoundsTree.remove] at h
        split at h
        · simp only [Effect.returned.injEq, true_and] at h
          rw [← h]
          left
          rfl
        · cases h
      | node b subs g =>
        rcases BoundsTree.remove_grab_node_cases b subs g obj strictBounds with
          ⟨_, hr, _⟩ | ⟨_, hr, _, _⟩ |
          ⟨_, q, i, b', g', q', i', d', hn, hn', hw, hstop, hr, _⟩
        · rw [hr] at h; cases h
        · rw [hr] at h; cases h
        · rw [hr] at h
          simp only [Effect.returned.injEq, true_and] at h
          rw [← h]
          right
          exact branchesTwo_removedAt _ q' i'
            (htwo (BoundsTree.isEmpty_eq_false_of_nodeAt_leaf ⟨.node b subs g⟩ _ b' obj g' hn))
  · intro obj oldBounds tree' h
    simp only [BoundsTree.updateObjectBounds] at h
    split at h
    · cases h
    · next hne =>
      rcases TreeCursor.find_cases tree.rootNode obj oldBounds with
        ⟨_, hf⟩ | ⟨_, hf, _⟩ | ⟨_, p, b', g', hf, hn⟩
      · simp [hf] at h
      · simp [hf] at h
      · simp only [hf, Effect.returned.injEq, true_and] at h
        rw [← h]
        right
        exact TreeCursor.branchesTwo_modifyTop_pop_update _ _ _ (htwo (by simpa using hne))
          (fun n hn' => by rw [branchesTwo_setBounds]; exact hn')
  · intro obj oldBounds tree' h
    simp only [BoundsTree.updateObjectGroupBounds] at h
    split at h
    · cases h
    · next hne =>
      rcases TreeCursor.find_cases tree.rootNode obj oldBounds with
        ⟨_, hf⟩ | ⟨_, hf, _⟩ | ⟨_, p, b', g', hf, hn⟩
      · simp [hf] at h
      · simp [hf] at h
      · simp only [hf, TreeCursor.riseUntilGroupHeadWhile] at h
        cases hrise : TreeCursor.riseUntilGroupHeadLoop tree.rootNode (0 :: p.reverse) with
        | none => simp [hrise] at h
        | some indices =>
          simp only [hrise, Effect.returned.injEq, true_and, TreeCursor.modifyTop_modifyTop] at h
          rw [← h]
          right
          exact TreeCursor.branchesTwo_modifyTop_pop_update _ _ _ (htwo (by simpa using hne))
            (fun n hn' => branchesTwo_recalculateBoundsRecursive _
              (branchesTwo_refreshLeafBounds getStrictBounds n hn'))

/-! ### The group invariant -/

theorem TreeNode.headsOkList_iff (k : Nat) (subs : List TreeNode) :
    headsOkList k subs = true ↔ ∀ c ∈ subs, headsOk k c = true := by
  induction subs with
  | nil => simp [headsOkList]
  | cons a as ih => simp [headsOkList, ih]

/-- The computed group invariant says that every root-to-leaf path holds exactly one
group head, the `k` heads above counted in. -/
theorem TreeNode.headsOk_iff_rootPaths (t : TreeNode) :
    ∀ k : Nat, headsOk k t = true ↔
      ∀ p ∈ rootPaths t, p.countP TreeNode.isGroupHead + k = 1 := by
  induction t using TreeNode.induction with
  | hleaf b o g =>
    intro k
    cases g <;> simp [headsOk, rootPaths, isGroupHead, List.countP_cons]
  | hnode b subs g ih =>
    intro k
    rw [rootPaths_node_count, headsOk, headsOkList_iff]
    constructor
    · intro h c hc q hq
      have := (ih c hc (k + g.toNat)).1 (h c hc) q hq
      omega
    · intro h c hc
      apply (ih c hc (k + g.toNat)).2
      intro q hq
      have := h c hc q hq
      omega

theorem TreeNode.headsOk_setBounds (k : Nat) (t : TreeNode) (b : Bounds) :
    headsOk k (t.setBounds b) = headsOk k t := by
  cases t <;> simp [setBounds, headsOk]

theorem TreeNode.headsOk_recalculateBoundsFromSubBounds (k : Nat) (t : TreeNode) :
    headsOk k t.recalculateBoundsFromSubBounds = headsOk k t := by
  cases t with
  | leaf b o g => rfl
  | node b subs g =>
    cases subs with
    | nil => rfl
    | cons first others => simp [recalculateBoundsFromSubBounds, headsOk]

/-- Below two or more group heads the invariant can only hold of a subtree without
leaves, and then it holds below any number of heads. -/
theorem TreeNode.headsOk_of_two_le (t : TreeNode) :
    ∀ k k' : Nat, 2 ≤ k → headsOk k t = true → headsOk k' t = true := by
  induction t using TreeNode.induction with
  | hleaf b o g =>
    intro k k' hk h
    simp only [headsOk, decide_eq_true_eq] at h
    omega
  | hnode b subs g ih =>
    intro k k' hk h
    simp only [headsOk, headsOkList_iff] at h ⊢
    intro c hc
    exact ih c hc (k + g.toNat) (k' + g.toNat) (by omega) (h c hc)

/-- Rewriting along a path keeps the group invariant when the rewriting of the target
does and the rewriting of the ancestors does not touch flags or children. -/
theorem TreeNode.headsOk_modifyPath (atTarget onAncestor : TreeNode → TreeNode)
    (hanc : ∀ k n, headsOk k (onAncestor n) = headsOk k n) (q : List Nat) :
    ∀ (t : TreeNode) (k : Nat), headsOk k t = true →
      (∀ target k', t.nodeAt q = some target → headsOk k' target = true →
        headsOk k' (atTarget target) = true) →
      headsOk k (t.modifyPath atTarget onAncestor q) = true := by
  induction q with
  | nil =>
    intro t k ht h
    have := h t k (nodeAt_nil t) ht
    cases t <;> simpa [modifyPath] using this
  | cons j q ih =>
    intro t k ht h
    cases t with
    | leaf b o g => simpa [modifyPath] using ht
    | node b subs g =>
      cases hc : subs[j]? with
      | none => simpa [modifyPath, hc] using ht
      | some c =>
        simp only [modifyPath, hc, hanc]
        simp only [headsOk, headsOkList_iff] at ht ⊢
        intro d hd
        rcases List.mem_or_eq_of_mem_set hd with hmem | rfl
        · exact ht d hmem
        · apply ih c (k + g.toNat) (ht c (List.getElem?_mem hc))
          intro target k' htarget
          exact h target k' (by rw [nodeAt_cons_node b subs g j q c hc]; exact htarget)

/-- Detaching a child, with the collapse of a node left with a single child, keeps
the group invariant. -/
theorem TreeNode.headsOk_withoutChild (t : TreeNode) (i k : Nat) (h : headsOk k t = true) :
    headsOk k (t.withoutChild i) = true := by
  cases t with
  | leaf b o g => simpa [withoutChild] using h
  | node b subs g =>
    simp only [headsOk, headsOkList_iff] at h
    simp only [withoutChild]
    split
    · next r hr =>
      have hr' : r ∈ subs := List.mem_of_mem_eraseIdx (by rw [hr]; simp)
      have hrk := h r hr'
      cases r with
      | leaf b' o' g' =>
        simp only [headsOk, decide_eq_true_eq] at hrk
        simp only [setGroupHead, isGroupHead, headsOk, decide_eq_true_eq]
        cases g <;> cases g' <;> simp at hrk ⊢ <;> omega
      | node b' subs' g' =>
        simp only [setGroupHead, isGroupHead]
        cases g with
        | false => simpa [headsOk] using hrk
        | true =>
          cases g' with
          | false => simpa [headsOk] using hrk
          | true =>
            simp only [headsOk, Bool.toNat_true, Bool.or_self] at hrk ⊢
            rw [headsOkList_iff] at hrk ⊢
            intro c hc
            exact headsOk_of_two_le c (k + 1 + 1) (k + 1) (by omega) (hrk c hc)
    · simp only [headsOk, headsOkList_iff]
      intro c hc
      exact h c (List.mem_of_mem_eraseIdx hc)

/-- The tree left by `NodeStack::remove()` keeps the group invariant. -/
theorem headsOk_removedAt (rootNode : TreeNode) (q : List Nat) (i : Nat)
    (h : headsOk 0 rootNode = true) : headsOk 0 (removedAt rootNode q i) = true := by
  apply headsOk_modifyPath _ _ headsOk_recalculateBoundsFromSubBounds q rootNode 0 h
  intro target k' _ htarget
  rw [headsOk_recalculateBoundsFromSubBounds]
  exact headsOk_withoutChild target i k' htarget

/-- `addOutside` of a node that satisfies the group invariant keeps it. -/
theorem TreeNode.headsOk_addOutside (computeCost : Bounds → Int) (newNode : TreeNode)
    (hnew : headsOk 0 newNode = true) (t : TreeNode) :
    headsOk 0 t = true → headsOk 0 (addOutside computeCost t newNode) = true := by
  induction t using TreeNode.induction with
  | hleaf b o g =>
    intro ht
    simp only [addOutside, headsOk, headsOkList, Bool.toNat_false, Nat.add_zero, Bool.and_true,
      Bool.and_eq_true]
    exact ⟨ht, hnew⟩
  | hnode b subs g ih =>
    intro ht
    rcases addOutside_cases computeCost newNode (.node b subs g) with
      ⟨h, _⟩ | ⟨b', subs', heq, _, h⟩ | ⟨b', subs', i, c, heq, _, hc, h⟩
    · rw [h]
      simp only [headsOk, headsOkList, Bool.toNat_false, Nat.add_zero, Bool.and_true,
        Bool.and_eq_true]
      exact ⟨ht, hnew⟩
    · cases heq
      rw [h]
      simp only [headsOk, Bool.toNat_false, Nat.add_zero, headsOkList_iff] at ht ⊢
      intro d hd
      simp only [List.mem_append, List.mem_singleton] at hd
      rcases hd with hd | rfl
      · exact ht d hd
      · exact hnew
    · cases heq
      rw [h]
      simp only [headsOk, Bool.toNat_false, Nat.add_zero, headsOkList_iff] at ht ⊢
      intro d hd
      rcases List.mem_or_eq_of_mem_set hd with hmem | rfl
      · exact ht d hmem
      · exact ih c (List.getElem?_mem hc) (ht c (List.getElem?_mem hc))

/-- A subtree that satisfies the invariant below `k` heads and has a leaf at the end
of some path lies below at most one head, itself counted. -/
theorem TreeNode.heads_le_one_of_leaf (r : List Nat) :
    ∀ (t : TreeNode) (k : Nat) (b : Bounds) (o : Nat) (g : Bool), headsOk k t = true →
      t.nodeAt r = some (.leaf b o g) → k + t.isGroupHead.toNat ≤ 1 := by
  induction r with
  | nil =>
    intro t k b o g ht hn
    rw [nodeAt_nil] at hn
    cases hn
    simp only [headsOk, decide_eq_true_eq] at ht
    simp only [isGroupHead]
    omega
  | cons j r ih =>
    intro t k b o g ht hn
    obtain ⟨b', subs, g', c, rfl, hc, hn'⟩ := nodeAt_cons_eq_some hn
    simp only [headsOk, headsOkList_iff] at ht
    have := ih c (k + g'.toNat) b o g (ht c (List.getElem?_mem hc)) hn'
    simp only [isGroupHead]
    omega

/-- The group invariant of the node `addInside` builds is that of the receiver
together with that of the node stored, which has the flag of the receiver above it. -/
theorem TreeNode.headsOk_addInside_eq (t newNode : TreeNode) (k : Nat) :
    headsOk k (t.addInside newNode) =
      (headsOk k t && headsOk (k + t.isGroupHead.toNat) (newNode.setGroupHead false)) := by
  rw [Bool.eq_iff_iff]
  cases t with
  | leaf b o g =>
    simp [addInside, headsOk, headsOkList, isGroupHead]
  | node b subs g =>
    simp only [addInside]
    split
    · simp only [headsOk, headsOkList_iff, isGroupHead, Bool.and_eq_true, List.mem_append,
        List.mem_singleton]
      constructor
      · intro h
        exact ⟨fun c hc => h c (Or.inl hc), h _ (Or.inr rfl)⟩
      · rintro ⟨h1, h2⟩ c (hc | rfl)
        · exact h1 c hc
        · exact h2
    · simp [headsOk, headsOkList, isGroupHead]

/-- `addInside` of a leaf that is not a group head, at a group head below no other
head, keeps the group invariant. -/
theorem TreeNode.headsOk_addInside (t : TreeNode) (b : Bounds) (o : Nat)
    (hg : t.isGroupHead = true) (ht : headsOk 0 t = true) :
    headsOk 0 (t.addInside (.leaf b o false)) = true := by
  rw [headsOk_addInside_eq, ht, hg]
  simp [setGroupHead, headsOk]

/-- The ascent to the group head stops at a frame whose node is a group head and
lies on the path of the frame the ascent started from. -/
theorem TreeCursor.riseUntilGroupHeadLoop_path (rootNode : TreeNode) (indices : List Nat) :
    ∀ result, TreeCursor.riseUntilGroupHeadLoop rootNode indices = some result →
      ∃ i below n r, result = i :: below ∧ rootNode.nodeAt below.reverse = some n ∧
        n.isGroupHead = true ∧ indices.tail.reverse = below.reverse ++ r := by
  induction indices with
  | nil => intro res h; simp [TreeCursor.riseUntilGroupHeadLoop] at h
  | cons i below ih =>
    intro res h
    simp only [TreeCursor.riseUntilGroupHeadLoop] at h
    cases hn : rootNode.nodeAt below.reverse with
    | none => simp [hn] at h
    | some n =>
      simp only [hn] at h
      by_cases hg : n.isGroupHead = true
      · simp only [hg, if_true, Option.some.injEq] at h
        exact ⟨i, below, n, [], h.symm, hn, hg, by simp⟩
      · simp only [hg, Bool.false_eq_true, if_false] at h
        obtain ⟨i', below', n', r, h1, h2, h3, h4⟩ := ih res h
        cases below with
        | nil => simp [TreeCursor.riseUntilGroupHeadLoop] at h
        | cons j rest =>
          refine ⟨i', below', n', r ++ [j], h1, h2, h3, ?_⟩
          simp only [List.tail_cons] at h4 ⊢
          rw [List.reverse_cons, h4, List.append_assoc]

/-- Every reachable tree satisfies the computed group invariant. -/
theorem Reachable.headsOk_root (computeCost : Bounds → Int) (tree : BoundsTree)
    (h : Reachable computeCost tree) : TreeNode.headsOk 0 tree.rootNode = true := by
  induction h with
  | empty => rfl
  | add tree obj bounds _ ih =>
    by_cases hempty : tree.isEmpty = true
    · rw [BoundsTree.add, BoundsTree.addNode_of_isEmpty _ _ _ hempty]
      rfl
    · have hne : tree.isEmpty = false := by simpa using hempty
      rw [BoundsTree.add, BoundsTree.addNode_of_not_isEmpty _ _ _ hne]
      exact headsOk_addOutside computeCost (.leaf bounds obj true) rfl tree.rootNode ih
  | addToExistingGroup tree tree' obj bounds objInGroup objInGroupBounds _ hcall ih =>
    rcases TreeCursor.find_cases tree.rootNode objInGroup objInGroupBounds with
      ⟨_, hf⟩ | ⟨_, hf, _⟩ | ⟨_, p, b', g', hf, hn⟩
    · simp [BoundsTree.addToExistingGroup, hf] at hcall
    · simp [BoundsTree.addToExistingGroup, hf] at hcall
    · simp only [BoundsTree.addToExistingGroup, hf, TreeCursor.riseUntilGroupHeadWhile] at hcall
      cases hrise : TreeCursor.riseUntilGroupHeadLoop tree.rootNode (0 :: p.reverse) with
      | none => simp [hrise] at hcall
      | some indices =>
        obtain ⟨i, below, n, r, rfl, hnode, hhead, hpath⟩ :=
          TreeCursor.riseUntilGroupHeadLoop_path _ _ _ hrise
        simp only [hrise, Effect.returned.injEq, true_and] at hcall
        rw [← hcall, TreeCursor.addInside_expand_rootNode tree.rootNode i below n _ hnode]
        apply headsOk_modifyPath _ _ (fun k m => headsOk_setBounds k m _) below.reverse
          tree.rootNode 0 ih
        intro target k' htarget hk'
        rw [hnode] at htarget
        cases htarget
        have hleaf : n.nodeAt r = some (.leaf b' objInGroup g') := by
          simp only [List.tail_cons, List.reverse_reverse] at hpath
          rw [hpath, nodeAt_append, hnode] at hn
          simpa using hn
        have hle := heads_le_one_of_leaf r n k' b' objInGroup g' hk' hleaf
        rw [hhead] at hle
        have hk0 : k' = 0 := by
          simp only [Bool.toNat_true] at hle
          omega
        subst hk0
        exact headsOk_addInside n bounds obj hhead hk'
  | remove tree tree' obj strictBounds _ hcall ih =>
    obtain ⟨root⟩ := tree
    cases root with
    | leaf b o g =>
      simp only [BoundsTree.remove] at hcall
      split at hcall
      · simp only [Effect.returned.injEq, true_and] at hcall
        rw [← hcall]
        rfl
      · cases hcall
    | node b subs g =>
      rcases BoundsTree.remove_grab_node_cases b subs g obj strictBounds with
        ⟨_, hr, _⟩ | ⟨_, hr, _, _⟩ |
        ⟨_, q, i, b', g', q', i', d', hn, hn', hw, hstop, hr, _⟩
      · rw [hr] at hcall; cases hcall
      · rw [hr] at hcall; cases hcall
      · rw [hr] at hcall
        simp only [Effect.returned.injEq, true_and] at hcall
        rw [← hcall]
        exact headsOk_removedAt _ q' i' ih

/-- C6. In every tree reachable from the empty tree by `add(obj, bounds)`,
`addToExistingGroup(obj, bounds, objInGroup, objInGroupBounds)` and `remove` calls
that return, every root-to-leaf path holds exactly one node with
`isGroupHead = true`. -/
theorem C6_group_invariant_reachable (computeCost : Bounds → Int) (tree : BoundsTree)
    (h : Reachable computeCost tree) : tree.rootNode.OneGroupHeadPerPath := by
  intro p hp
  have := (headsOk_iff_rootPaths tree.rootNode 0).1 (Reachable.headsOk_root computeCost tree h) p hp
  simpa using this

/-- C6, at the end-to-end scenario: the group of three members is reached by one
`add` and two `addToExistingGroup` calls, and every root-to-leaf path of it holds one
group head. -/
theorem C6_group_invariant_reachable_witness :
    Reachable (fun _ => 0) groupTree ∧ groupTree.rootNode.OneGroupHeadPerPath :=
  have h : Reachable (fun _ => 0) groupTree :=
    Reachable.addToExistingGroup
      ⟨.node (cube 0 2) [.leaf (cube 0 1) 1 false, .leaf (cube 1 2) 2 false] true⟩ groupTree
      3 (cube 2 3) 1 (cube 0 1)
      (Reachable.addToExistingGroup (BoundsTree.empty.add (fun _ => 0) 1 (cube 0 1))
        ⟨.node (cube 0 2) [.leaf (cube 0 1) 1 false, .leaf (cube 1 2) 2 false] true⟩
        2 (cube 1 2) 1 (cube 0 1)
        (Reachable.add BoundsTree.empty 1 (cube 0 1) Reachable.empty) (by decide))
      (by decide)
  ⟨h, C6_group_invariant_reachable (fun _ => 0) groupTree h⟩

/-! ### Counting leaves -/

theorem TreeNode.countP_leavesList_object (p : Nat → Bool) (subs : List TreeNode) :
    (leavesList subs).countP (fun l => p l.object) = (subs.map (countLeaves p)).sum := by
  induction subs with
  | nil => simp [leavesList]
  | cons a as ih => simp [leavesList, List.countP_append, ih, countLeaves]

theorem TreeNode.countLeaves_node (p : Nat → Bool) (b : Bounds) (subs : List TreeNode) (g : Bool) :
    countLeaves p (.node b subs g) = (subs.map (countLeaves p)).sum := by
  simp only [countLeaves, leaves]
  exact countP_leavesList_object p subs

theorem TreeNode.countLeaves_leaf (p : Nat → Bool) (b : Bounds) (o : Nat) (g : Bool) :
    countLeaves p (.leaf b o g) = if p o = true then 1 else 0 := by
  by_cases h : p o = true <;> simp [countLeaves, leaves, object, h]

theorem TreeNode.countLeaves_setBounds (p : Nat → Bool) (t : TreeNode) (b : Bounds) :
    countLeaves p (t.setBounds b) = countLeaves p t := by
  cases t with
  | leaf b' o g => simp [setBounds, countLeaves_leaf]
  | node b' subs g => simp [setBounds, countLeaves_node]

theorem TreeNode.countLeaves_setGroupHead (p : Nat → Bool) (t : TreeNode) (g : Bool) :
    countLeaves p (t.setGroupHead g) = countLeaves p t := by
  cases t with
  | leaf b' o g' => simp [setGroupHead, countLeaves_leaf]
  | node b' subs g' => simp [setGroupHead, countLeaves_node]

theorem TreeNode.countLeaves_recalculateBoundsFromSubBounds (p : Nat → Bool) (t : TreeNode) :
    countLeaves p t.recalculateBoundsFromSubBounds = countLeaves p t := by
  cases t with
  | leaf b' o g' => rfl
  | node b' subs g' =>
    cases subs with
    | nil => rfl
    | cons first others => simp [recalculateBoundsFromSubBounds, countLeaves_node]

/-- Rewriting the node at the end of a path changes the count of leaves in the tree
by what it changes in that node, when the rewriting of the ancestors keeps it. -/
theorem TreeNode.countLeaves_modifyPath (p : Nat → Bool) (atTarget onAncestor : TreeNode → TreeNode)
    (hanc : ∀ n, countLeaves p (onAncestor n) = countLeaves p n) (k : Nat) (q : List Nat) :
    ∀ (t target : TreeNode), t.nodeAt q = some target →
      countLeaves p (atTarget target) + k = countLeaves p target →
      countLeaves p (t.modifyPath atTarget onAncestor q) + k = countLeaves p t := by
  induction q with
  | nil =>
    intro t target h hk
    rw [nodeAt_nil] at h
    cases h
    cases t <;> exact hk
  | cons i q ih =>
    intro t target h hk
    obtain ⟨b, subs, g, c, rfl, hc, hn⟩ := nodeAt_cons_eq_some h
    have hrec := ih c target hn hk
    have hset := sum_map_set_add (countLeaves p) subs i c
      (c.modifyPath atTarget onAncestor q) hc
    simp only [modifyPath, hc, hanc, countLeaves_node]
    omega

theorem TreeNode.countLeaves_withoutChild (p : Nat → Bool) (b : Bounds) (subs : List TreeNode)
    (g : Bool) (i : Nat) (d : TreeNode) (hd : subs[i]? = some d) :
    countLeaves p ((TreeNode.node b subs g).withoutChild i) + countLeaves p d =
      countLeaves p (.node b subs g) := by
  have herase := sum_map_eraseIdx_add (countLeaves p) subs i d hd
  rw [countLeaves_node, ← herase]
  congr 1
  simp only [withoutChild]
  split
  · next r hr =>
    simp [hr, countLeaves_setGroupHead]
  · simp [countLeaves_node]

/-- The tree left by `NodeStack::remove()` has the leaves of the tree before, less
those of the detached node. -/
theorem countLeaves_removedAt (p : Nat → Bool) (rootNode : TreeNode) (q : List Nat) (i : Nat)
    (d : TreeNode) (h : rootNode.nodeAt (q ++ [i]) = some d) :
    countLeaves p (removedAt rootNode q i) + countLeaves p d = countLeaves p rootNode := by
  obtain ⟨parent, hp, hc⟩ := nodeAt_concat_eq_some h
  apply countLeaves_modifyPath p _ _ (countLeaves_recalculateBoundsFromSubBounds p)
    (countLeaves p d) q rootNode parent hp
  rw [countLeaves_recalculateBoundsFromSubBounds]
  cases parent with
  | leaf b o g => simp [child?, subTrees] at hc
  | node b subs g => exact countLeaves_withoutChild p b subs g i d hc

theorem TreeNode.countLeaves_addOutside (computeCost : Bounds → Int) (p : Nat → Bool)
    (newNode : TreeNode) (t : TreeNode) :
    countLeaves p (addOutside computeCost t newNode) = countLeaves p t + countLeaves p newNode := by
  induction t using TreeNode.induction with
  | hleaf b o g => simp [addOutside, countLeaves_node]
  | hnode b subs g ih =>
    rcases addOutside_cases computeCost newNode (.node b subs g) with
      ⟨h, _⟩ | ⟨b', subs', ht, _, h⟩ | ⟨b', subs', i, c, ht, _, hc, h⟩
    · rw [h]; simp [countLeaves_node]
    · cases ht
      rw [h]; simp [countLeaves_node]
    · cases ht
      rw [h]
      have hset := sum_map_set_add (countLeaves p) subs i c (addOutside computeCost c newNode) hc
      have := ih c (List.getElem?_mem hc)
      simp only [countLeaves_node]
      omega

theorem TreeNode.countLeaves_addInside (p : Nat → Bool) (t newNode : TreeNode) :
    countLeaves p (t.addInside newNode) = countLeaves p t + countLeaves p newNode := by
  cases t with
  | leaf b o g => simp [addInside, countLeaves_node, countLeaves_leaf, countLeaves_setGroupHead]
  | node b subs g =>
    simp only [addInside]
    split <;> simp [countLeaves_node, countLeaves_setGroupHead]

theorem TreeNode.countLeaves_true (t : TreeNode) :
    countLeaves (fun _ => true) t = (leaves t).length := by
  simp [countLeaves]

theorem TreeNode.getNumberOfObjectsInList_eq (subs : List TreeNode) :
    getNumberOfObjectsInList subs = (subs.map getNumberOfObjectsInNode).sum := by
  induction subs with
  | nil => rfl
  | cons a as ih => simp [getNumberOfObjectsInList, ih]

theorem TreeNode.length_leavesList (subs : List TreeNode) :
    (leavesList subs).length = (subs.map (fun c => (leaves c).length)).sum := by
  induction subs with
  | nil => rfl
  | cons a as ih => simp [leavesList, ih]

/-- The modelled count of objects in a node is its number of leaves. -/
theorem TreeNode.getNumberOfObjectsInNode_eq (t : TreeNode) :
    t.getNumberOfObjectsInNode = (leaves t).length := by
  induction t using TreeNode.induction with
  | hleaf b o g => rfl
  | hnode b subs g ih =>
    simp only [getNumberOfObjectsInNode, getNumberOfObjectsInList_eq, leaves, length_leavesList]
    congr 1
    exact List.map_congr_left ih

/-- The method `getNumberOfObjects()` returns the number of leaves of the tree. -/
theorem BoundsTree.getNumberOfObjects_eq (tree : BoundsTree) :
    tree.getNumberOfObjects = (leaves tree.rootNode).length := by
  obtain ⟨root⟩ := tree
  by_cases hempty : BoundsTree.isEmpty ⟨root⟩ = true
  · cases root with
    | leaf b o g => simp [BoundsTree.isEmpty, nodeCount, LEAF_NODE_SIGNIFIER] at hempty
    | node b subs g =>
      simp only [BoundsTree.isEmpty, nodeCount, decide_eq_true_eq, List.length_eq_zero] at hempty
      subst hempty
      simp [BoundsTree.getNumberOfObjects, BoundsTree.isEmpty, nodeCount, leaves, leavesList]
  · simp [BoundsTree.getNumberOfObjects, hempty, getNumberOfObjectsInNode_eq]

/-! ### Trees whose internal nodes have at most `MAX_BRANCHES` children -/

theorem TreeNode.branchesBoundedList_iff (subs : List TreeNode) :
    branchesBoundedList subs = true ↔ ∀ c ∈ subs, branchesBounded c = true := by
  induction subs with
  | nil => simp [branchesBoundedList]
  | cons a as ih => simp [branchesBoundedList, ih]

theorem TreeNode.branchesBounded_node_iff (b : Bounds) (subs : List TreeNode) (g : Bool) :
    branchesBounded (.node b subs g) = true ↔
      subs.length ≤ MAX_BRANCHES ∧ ∀ c ∈ subs, branchesBounded c = true := by
  simp [branchesBounded, branchesBoundedList_iff]

theorem TreeNode.branchesOkList_iff (subs : List TreeNode) :
    branchesOkList subs = true ↔ ∀ c ∈ subs, branchesOk c = true := by
  induction subs with
  | nil => simp [branchesOkList]
  | cons a as ih => simp [branchesOkList, ih]

/-- Between two and `MAX_BRANCHES` children everywhere is within the bounds of a
well-formed tree. -/
theorem TreeNode.branchesOk_of_branchesTwo (t : TreeNode) :
    branchesTwo t = true → branchesBounded t = true → branchesOk t = true := by
  induction t using TreeNode.induction with
  | hleaf b o g => intro _ _; rfl
  | hnode b subs g ih =>
    intro h2 h4
    rw [branchesTwo_node_iff] at h2
    rw [branchesBounded_node_iff] at h4
    simp only [branchesOk, Bool.and_eq_true, decide_eq_true_eq, branchesOkList_iff]
    exact ⟨⟨by omega, h4.1⟩, fun c hc => ih c hc (h2.2 c hc) (h4.2 c hc)⟩

theorem TreeNode.branchesBounded_setBounds (t : TreeNode) (b : Bounds) :
    branchesBounded (t.setBounds b) = branchesBounded t := by
  cases t <;> simp [setBounds, branchesBounded]

theorem TreeNode.branchesBounded_setGroupHead (t : TreeNode) (g : Bool) :
    branchesBounded (t.setGroupHead g) = branchesBounded t := by
  cases t <;> simp [setGroupHead, branchesBounded]

theorem TreeNode.branchesBounded_recalculateBoundsFromSubBounds (t : TreeNode) :
    branchesBounded t.recalculateBoundsFromSubBounds = branchesBounded t := by
  cases t with
  | leaf b o g => rfl
  | node b subs g =>
    cases subs with
    | nil => rfl
    | cons first others => simp [recalculateBoundsFromSubBounds, branchesBounded]

theorem TreeNode.branchesBounded_modifyPath (atTarget onAncestor : TreeNode → TreeNode)
    (hanc : ∀ n, branchesBounded (onAncestor n) = branchesBounded n) (q : List Nat) :
    ∀ t : TreeNode, branchesBounded t = true →
      (∀ target, t.nodeAt q = some target → branchesBounded target = true →
        branchesBounded (atTarget target) = true) →
      branchesBounded (t.modifyPath atTarget onAncestor q) = true := by
  induction q with
  | nil =>
    intro t ht h
    have := h t (nodeAt_nil t) ht
    cases t <;> simpa [modifyPath] using this
  | cons j q ih =>
    intro t ht h
    cases t with
    | leaf b o g => simpa [modifyPath] using ht
    | node b subs g =>
      cases hc : subs[j]? with
      | none => simpa [modifyPath, hc] using ht
      | some c =>
        simp only [modifyPath, hc, hanc]
        rw [branchesBounded_node_iff] at ht ⊢
        refine ⟨by simpa using ht.1, ?_⟩
        intro d hd
        rcases List.mem_or_eq_of_mem_set hd with hmem | rfl
        · exact ht.2 d hmem
        · apply ih c (ht.2 c (List.getElem?_mem hc))
          intro target htarget
          exact h target (by rw [nodeAt_cons_node b subs g j q c hc]; exact htarget)

theorem TreeNode.branchesBounded_withoutChild (t : TreeNode) (i : Nat)
    (h : branchesBounded t = true) : branchesBounded (t.withoutChild i) = true := by
  cases t with
  | leaf b o g => simpa [withoutChild] using h
  | node b subs g =>
    rw [branchesBounded_node_iff] at h
    simp only [withoutChild]
    split
    · next r hr =>
      have hr' : r ∈ subs := List.mem_of_mem_eraseIdx (by rw [hr]; simp)
      rw [branchesBounded_setGroupHead]
      exact h.2 r hr'
    · rw [branchesBounded_node_iff]
      refine ⟨?_, fun c hc => h.2 c (List.mem_of_mem_eraseIdx hc)⟩
      have hlen := List.length_eraseIdx subs i
      split at hlen <;> omega

theorem branchesBounded_removedAt (rootNode : TreeNode) (q : List Nat) (i : Nat)
    (h : branchesBounded rootNode = true) : branchesBounded (removedAt rootNode q i) = true := by
  apply branchesBounded_modifyPath _ _ branchesBounded_recalculateBoundsFromSubBounds q rootNode h
  intro target _ htarget
  rw [branchesBounded_recalculateBoundsFromSubBounds]
  exact branchesBounded_withoutChild target i htarget

theorem TreeNode.branchesBounded_pair (b : Bounds) (x y : TreeNode) (g : Bool)
    (hx : branchesBounded x = true) (hy : branchesBounded y = true) :
    branchesBounded (.node b [x, y] g) = true := by
  rw [branchesBounded_node_iff]
  refine ⟨by simp [MAX_BRANCHES], ?_⟩
  intro c hc
  simp only [List.mem_cons, List.mem_singleton, List.not_mem_nil, or_false] at hc
  rcases hc with rfl | rfl
  · exact hx
  · exact hy

theorem TreeNode.branchesBounded_addOutside (computeCost : Bounds → Int) (newNode : TreeNode)
    (hnew : branchesBounded newNode = true) (t : TreeNode) :
    branchesBounded t = true → branchesBounded (addOutside computeCost t newNode) = true := by
  induction t using TreeNode.induction with
  | hleaf b o g =>
    intro ht
    simp only [addOutside]
    exact branchesBounded_pair _ _ _ _ ht hnew
  | hnode b subs g ih =>
    intro ht
    rcases addOutside_cases computeCost newNode (.node b subs g) with
      ⟨h, _⟩ | ⟨b', subs', heq, hlt, h⟩ | ⟨b', subs', i, c, heq, _, hc, h⟩
    · rw [h]
      exact branchesBounded_pair _ _ _ _ ht hnew
    · cases heq
      rw [branchesBounded_node_iff] at ht
      rw [h, branchesBounded_node_iff]
      refine ⟨by simp only [List.length_append, List.length_singleton]; omega, ?_⟩
      intro d hd
      simp only [List.mem_append, List.mem_singleton] at hd
      rcases hd with hd | rfl
      · exact ht.2 d hd
      · exact hnew
    · cases heq
      rw [branchesBounded_node_iff] at ht
      rw [h, branchesBounded_node_iff]
      refine ⟨by simpa using ht.1, ?_⟩
      intro d hd
      rcases List.mem_or_eq_of_mem_set hd with hmem | rfl
      · exact ht.2 d hmem
      · exact ih c (List.getElem?_mem hc) (ht.2 c (List.getElem?_mem hc))

theorem TreeNode.branchesBounded_addInside (t newNode : TreeNode)
    (hnew : branchesBounded newNode = true) (ht : branchesBounded t = true) :
    branchesBounded (t.addInside newNode) = true := by
  have hnew : branchesBounded (newNode.setGroupHead false) = true := by
    rw [branchesBounded_setGroupHead]; exact hnew
  cases t with
  | leaf b o g =>
    simp only [addInside]
    exact branchesBounded_pair _ _ _ _ rfl hnew
  | node b subs g =>
    simp only [addInside]
    split
    · next hlt =>
      rw [branchesBounded_node_iff] at ht
      rw [branchesBounded_node_iff]
      refine ⟨by simp only [List.length_append, List.length_singleton]; omega, ?_⟩
      intro d hd
      simp only [List.mem_append, List.mem_singleton] at hd
      rcases hd with hd | rfl
      · exact ht.2 d hd
      · exact hnew
    · apply branchesBounded_pair _ _ _ _ _ hnew
      rw [branchesBounded_node_iff] at ht ⊢
      exact ht

/-! ### Cardinality -/

theorem BoundsTree.countLeaves_addNode (computeCost : Bounds → Int) (p : Nat → Bool)
    (tree : BoundsTree) (node : TreeNode) :
    countLeaves p (tree.addNode computeCost node).rootNode =
      countLeaves p tree.rootNode + countLeaves p node := by
  obtain ⟨root⟩ := tree
  by_cases hempty : BoundsTree.isEmpty ⟨root⟩ = true
  · have hroot : countLeaves p root = 0 := by
      cases root with
      | leaf b o g => simp [BoundsTree.isEmpty, nodeCount, LEAF_NODE_SIGNIFIER] at hempty
      | node b subs g =>
        simp only [BoundsTree.isEmpty, nodeCount, decide_eq_true_eq, List.length_eq_zero] at hempty
        subst hempty
        simp [countLeaves_node]
    simp [BoundsTree.addNode, hempty, hroot]
  · simp only [BoundsTree.addNode, hempty, Bool.false_eq_true, if_false]
    split <;> simp [countLeaves_setBounds, countLeaves_addOutside]

/-- A returning `remove(obj, bounds)` leaves a tree with the leaves of the tree
before, less one whose object satisfies `p` exactly when `obj` does. -/
theorem BoundsTree.countLeaves_remove (p : Nat → Bool) (tree tree' : BoundsTree) (obj : Nat)
    (strictBounds : Bounds) (h : tree.remove obj strictBounds = .returned () tree') :
    countLeaves p tree'.rootNode + (if p obj = true then 1 else 0) =
      countLeaves p tree.rootNode := by
  obtain ⟨root⟩ := tree
  cases root with
  | leaf b o g =>
    simp only [BoundsTree.remove] at h
    split at h
    · next ho =>
      simp only [Effect.returned.injEq, true_and] at h
      rw [← h, ho]
      simp [countLeaves_node, countLeaves_leaf]
    · cases h
  | node b subs g =>
    rcases BoundsTree.remove_grab_node_cases b subs g obj strictBounds with
      ⟨_, hr, _⟩ | ⟨_, hr, _, _⟩ |
      ⟨_, q, i, b', g', q', i', d', hn, hn', hw, hstop, hr, _⟩
    · rw [hr] at h; cases h
    · rw [hr] at h; cases h
    · rw [hr] at h
      simp only [Effect.returned.injEq, true_and] at h
      rw [← h]
      have := countLeaves_removedAt p (.node b subs g) q' i' _ hn'
      rw [hw.countLeaves_eq, countLeaves_leaf] at this
      exact this

/-- Every reachable tree is empty or has no internal node with fewer than two
children. -/
theorem Reachable.compact (computeCost : Bounds → Int) (tree : BoundsTree)
    (h : Reachable computeCost tree) : tree.Compact := by
  induction h with
  | empty => exact Or.inl rfl
  | add tree obj bounds _ ih =>
    exact (BoundsTree.compact_preserved computeCost (fun _ => Bounds.default) tree ih).1 obj bounds
  | addToExistingGroup tree tree' obj bounds objInGroup objInGroupBounds _ hcall ih =>
    exact (BoundsTree.compact_preserved computeCost (fun _ => Bounds.default) tree ih).2.1
      obj bounds objInGroup objInGroupBounds tree' hcall
  | remove tree tree' obj strictBounds _ hcall ih =>
    exact (BoundsTree.compact_preserved computeCost (fun _ => Bounds.default) tree ih).2.2.1
      obj strictBounds tree' hcall

/-- No internal node of a reachable tree has more than `MAX_BRANCHES` children. -/
theorem Reachable.branchesBounded_root (computeCost : Bounds → Int) (tree : BoundsTree)
    (h : Reachable computeCost tree) : branchesBounded tree.rootNode = true := by
  induction h with
  | empty => rfl
  | add tree obj bounds _ ih =>
    by_cases hempty : tree.isEmpty = true
    · rw [BoundsTree.add, BoundsTree.addNode_of_isEmpty _ _ _ hempty]
      rfl
    · have hne : tree.isEmpty = false := by simpa using hempty
      rw [BoundsTree.add, BoundsTree.addNode_of_not_isEmpty _ _ _ hne]
      exact branchesBounded_addOutside computeCost (.leaf bounds obj true) rfl tree.rootNode ih
  | addToExistingGroup tree tree' obj bounds objInGroup objInGroupBounds _ hcall ih =>
    rcases TreeCursor.find_cases tree.rootNode objInGroup objInGroupBounds with
      ⟨_, hf⟩ | ⟨_, hf, _⟩ | ⟨_, p, b', g', hf, hn⟩
    · simp [BoundsTree.addToExistingGroup, hf] at hcall
    · simp [BoundsTree.addToExistingGroup, hf] at hcall
    · simp only [BoundsTree.addToExistingGroup, hf, TreeCursor.riseUntilGroupHeadWhile] at hcall
      cases hrise : TreeCursor.riseUntilGroupHeadLoop tree.rootNode (0 :: p.reverse) with
      | none => simp [hrise] at hcall
      | some indices =>
        obtain ⟨i, below, dropped, n, rfl, _, hnode, _⟩ :=
          TreeCursor.riseUntilGroupHeadLoop_some _ _ _ hrise
        simp only [hrise, Effect.returned.injEq, true_and] at hcall
        rw [← hcall, TreeCursor.addInside_expand_rootNode tree.rootNode i below n _ hnode]
        apply branchesBounded_modifyPath _ _ (fun m => branchesBounded_setBounds m _) below.reverse
          tree.rootNode ih
        intro target _ htarget
        exact branchesBounded_addInside target (.leaf bounds obj false) rfl htarget
  | remove tree tree' obj strictBounds _ hcall ih =>
    obtain ⟨root⟩ := tree
    cases root with
    | leaf b o g =>
      simp only [BoundsTree.remove] at hcall
      split at hcall
      · simp only [Effect.returned.injEq, true_and] at hcall
        rw [← hcall]
        rfl
      · cases hcall
    | node b subs g =>
      rcases BoundsTree.remove_grab_node_cases b subs g obj strictBounds with
        ⟨_, hr, _⟩ | ⟨_, hr, _, _⟩ |
        ⟨_, q, i, b', g', q', i', d', hn, hn', hw, hstop, hr, _⟩
      · rw [hr] at hcall; cases hcall
      · rw [hr] at hcall; cases hcall
      · rw [hr] at hcall
        simp only [Effect.returned.injEq, true_and] at hcall
        rw [← hcall]
        exact branchesBounded_removedAt _ q' i' ih

/-- The loop `for (it = begin(); it != end(); ++it)` over a tree that is empty or
well-formed runs to the end and visits the leaves of the tree. -/
theorem BoundsTree.iterate_eq_leaves (t : BoundsTree) (fuel : Nat)
    (hwf : t.isEmpty = true ∨ t.rootNode.WellFormed) (hfuel : (leaves t.rootNode).length ≤ fuel) :
    t.iterate fuel = some (leaves t.rootNode) := by
  obtain ⟨root⟩ := t
  by_cases hempty : BoundsTree.isEmpty ⟨root⟩ = true
  · cases root with
    | leaf b o g => simp [BoundsTree.isEmpty, nodeCount, LEAF_NODE_SIGNIFIER] at hempty
    | node b subs g =>
      simp only [BoundsTree.isEmpty, nodeCount, decide_eq_true_eq, List.length_eq_zero] at hempty
      subst hempty
      cases fuel <;>
        simp [BoundsTree.iterate, ConstTreeIterator.new, nodeCount, NodeStack.ofRoot,
          ConstTreeIterator.visit, leaves, leavesList]
  · rcases hwf with h | ⟨hb, hh⟩
    · exact absurd h hempty
    · simp only at hb hh hfuel
      have hne : root.nodeCount ≠ 0 := by simpa [BoundsTree.isEmpty] using hempty
      obtain ⟨l, s', h1, _, h3, h4⟩ := ConstTreeIterator.delveDownLoop_spec (MAX_HEIGHT + 1) root []
        hb (by omega) (by simpa using hh) trivial
      simp only [restLeaves, List.append_nil] at h4
      have hlen : (restLeaves s').length < fuel := by
        rw [h4] at hfuel; simp at hfuel; omega
      simp [BoundsTree.iterate, ConstTreeIterator.new, hne, NodeStack.ofRoot,
        ConstTreeIterator.delveDown, h1, ConstTreeIterator.visit_spec fuel l 0 s' h3 hlen, h4]

/-- C11. `getNumberOfObjects()` is 0 on the empty tree, grows by one with each `add`
and shrinks by one with each returning `remove`; and on every tree reached from the
empty tree by `add`, `addToExistingGroup` and returning `remove` calls whose
root-to-leaf paths fit the stack of `MAX_HEIGHT` frames, the loop from `begin()` to
`end()` runs to the end and visits as many positions as `getNumberOfObjects()`
returns. -/
theorem C11_number_of_objects_is_traversal_count (computeCost : Bounds → Int) :
    BoundsTree.empty.getNumberOfObjects = 0 ∧
    (∀ (tree : BoundsTree) (obj : Nat) (bounds : Bounds),
      (tree.add computeCost obj bounds).getNumberOfObjects = tree.getNumberOfObjects + 1) ∧
    (∀ (tree tree' : BoundsTree) (obj : Nat) (bounds : Bounds),
      tree.remove obj bounds = .returned () tree' →
      tree'.getNumberOfObjects + 1 = tree.getNumberOfObjects) ∧
    (∀ tree : BoundsTree, Reachable computeCost tree → tree.rootNode.height ≤ MAX_HEIGHT →
      ∃ visited, tree.iterate tree.getNumberOfObjects = some visited ∧
        visited.length = tree.getNumberOfObjects) := by
  refine ⟨rfl, ?_, ?_, ?_⟩
  · intro tree obj bounds
    have := BoundsTree.countLeaves_addNode computeCost (fun _ => true) tree (.leaf bounds obj true)
    simp only [countLeaves_true, leaves, List.length_singleton] at this
    rw [BoundsTree.getNumberOfObjects_eq, BoundsTree.getNumberOfObjects_eq]
    exact this
  · intro tree tree' obj bounds h
    have := BoundsTree.countLeaves_remove (fun _ => true) tree tree' obj bounds h
    simp only [countLeaves_true, if_true] at this
    rw [BoundsTree.getNumberOfObjects_eq, BoundsTree.getNumberOfObjects_eq]
    exact this
  · intro tree hreach hheight
    have hwf : tree.isEmpty = true ∨ tree.rootNode.WellFormed := by
      rcases Reachable.compact computeCost tree hreach with h | h
      · exact Or.inl h
      · exact Or.inr ⟨branchesOk_of_branchesTwo _ h
          (Reachable.branchesBounded_root computeCost tree hreach), hheight⟩
    refine ⟨leaves tree.rootNode, ?_, (BoundsTree.getNumberOfObjects_eq tree).symm⟩
    exact BoundsTree.iterate_eq_leaves tree _ hwf (by rw [BoundsTree.getNumberOfObjects_eq])

/-! ### Updating the bounds of one object -/

theorem le_sum_map_of_getElem? {α : Type} (f : α → Nat) (l : List α) (i : Nat) (c : α)
    (h : l[i]? = some c) : f c ≤ (l.map f).sum := by
  have := sum_map_eraseIdx_add f l i c h
  omega

theorem add_le_sum_map_of_getElem? {α : Type} (f : α → Nat) (l : List α) :
    ∀ (i j : Nat) (c d : α), l[i]? = some c → l[j]? = some d → i ≠ j →
      f c + f d ≤ (l.map f).sum := by
  induction l with
  | nil => intro i j c d h; simp at h
  | cons a as ih =>
    intro i j c d hi hj hne
    cases i with
    | zero =>
      cases j with
      | zero => exact absurd rfl hne
      | succ j =>
        simp only [List.getElem?_cons_zero, Option.some.injEq] at hi
        simp only [List.getElem?_cons_succ] at hj
        subst hi
        have := le_sum_map_of_getElem? f as j d hj
        simp only [List.map_cons, List.sum_cons]
        omega
    | succ i =>
      simp only [List.getElem?_cons_succ] at hi
      cases j with
      | zero =>
        simp only [List.getElem?_cons_zero, Option.some.injEq] at hj
        subst hj
        have := le_sum_map_of_getElem? f as i c hi
        simp only [List.map_cons, List.sum_cons]
        omega
      | succ j =>
        simp only [List.getElem?_cons_succ] at hj
        have := ih i j c d hi hj (by omega)
        simp only [List.map_cons, List.sum_cons]
        omega

theorem TreeNode.countObject_pos_of_nodeAt (obj : Nat) (t : TreeNode) (p : List Nat) (b : Bounds)
    (g : Bool) (h : t.nodeAt p = some (.leaf b obj g)) : 0 < countObject obj t :=
  (countObject_pos_iff obj t).2 ⟨_, mem_leaves_of_nodeAt p t b obj g h, rfl⟩

/-- In a tree that holds an object in a single leaf, one path leads to it. -/
theorem TreeNode.path_unique_of_countObject_eq_one (obj : Nat) (p : List Nat) :
    ∀ (t : TreeNode) (p' : List Nat) (b b' : Bounds) (g g' : Bool), countObject obj t = 1 →
      t.nodeAt p = some (.leaf b obj g) → t.nodeAt p' = some (.leaf b' obj g') → p = p' := by
  induction p with
  | nil =>
    intro t p' b b' g g' _ h h'
    rw [nodeAt_nil] at h
    cases h
    cases p' with
    | nil => rfl
    | cons j q' => simp [nodeAt, child?, subTrees] at h'
  | cons i q ih =>
    intro t p' b b' g g' hcount h h'
    obtain ⟨bn, subs, gn, c, rfl, hc, hn⟩ := nodeAt_cons_eq_some h
    cases p' with
    | nil => rw [nodeAt_nil] at h'; cases h'
    | cons j q' =>
      obtain ⟨bn', subs', gn', c', heq, hc', hn'⟩ := nodeAt_cons_eq_some h'
      cases heq
      have hpos := countObject_pos_of_nodeAt obj c q b g hn
      have hpos' := countObject_pos_of_nodeAt obj c' q' b' g' hn'
      rw [countObject_node] at hcount
      by_cases hij : i = j
      · subst hij
        rw [hc] at hc'
        cases hc'
        have hle := le_sum_map_of_getElem? (countObject obj) subs i c hc
        rw [ih c q' b b' g g' (by omega) hn hn']
      · have := add_le_sum_map_of_getElem? (countObject obj) subs i j c c' hc hc' hij
        omega

theorem TreeNode.nodeAt_recalculateBoundsFromSubBounds_cons (t : TreeNode) (i : Nat)
    (q : List Nat) : t.recalculateBoundsFromSubBounds.nodeAt (i :: q) = t.nodeAt (i :: q) := by
  cases t with
  | leaf b o g => rfl
  | node b subs g =>
    cases subs with
    | nil => rfl
    | cons first others => simp [recalculateBoundsFromSubBounds, nodeAt, child?, subTrees]

/-- The node at the end of a path after a rewriting along it that recomputes the
bounds of the ancestors. -/
theorem TreeNode.nodeAt_modifyPath_recalculate (f : TreeNode → TreeNode) (q : List Nat) :
    ∀ (t target : TreeNode), t.nodeAt q = some target →
      (t.modifyPath f recalculateBoundsFromSubBounds q).nodeAt q = some (f target) := by
  induction q with
  | nil =>
    intro t target h
    rw [nodeAt_nil] at h
    cases h
    cases t <;> simp [modifyPath, nodeAt_nil]
  | cons j q ih =>
    intro t target h
    obtain ⟨b, subs, g, c, rfl, hc, hn⟩ := nodeAt_cons_eq_some h
    have hj : j < subs.length := (List.getElem?_eq_some.1 hc).1
    simp only [modifyPath, hc, nodeAt_recalculateBoundsFromSubBounds_cons]
    simp [nodeAt, child?, subTrees, hj, ih c target hn]

theorem TreeNode.recalculateBoundsFromSubBounds_node_bounds (b b' : Bounds)
    (subs : List TreeNode) (g : Bool) :
    recalculateBoundsFromSubBounds (.node b subs g) =
      recalculateBoundsFromSubBounds (.node b' subs g) →
    (TreeNode.node b subs g).recalculateBoundsFromSubBounds.recalculateBoundsFromSubBounds =
      (TreeNode.node b subs g).recalculateBoundsFromSubBounds := by
  intro _
  cases subs with
  | nil => rfl
  | cons first others => simp [recalculateBoundsFromSubBounds]

/-- Writing the same bounds into the node at the end of a path and recomputing the
ancestors a second time changes nothing. -/
theorem TreeNode.modifyPath_setBounds_recalculate_idem (nb : Bounds) (q : List Nat) :
    ∀ (t target : TreeNode), t.nodeAt q = some target →
      (t.modifyPath (fun n => n.setBounds nb) recalculateBoundsFromSubBounds q).modifyPath
          (fun n => n.setBounds nb) recalculateBoundsFromSubBounds q =
        t.modifyPath (fun n => n.setBounds nb) recalculateBoundsFromSubBounds q := by
  induction q with
  | nil =>
    intro t target _
    cases t <;> simp [modifyPath, setBounds]
  | cons j q ih =>
    intro t target h
    obtain ⟨b, subs, g, c, rfl, hc, hn⟩ := nodeAt_cons_eq_some h
    have hj : j < subs.length := (List.getElem?_eq_some.1 hc).1
    have hrec := ih c target hn
    simp only [modifyPath, hc]
    cases hsub : subs.set j (c.modifyPath (fun n => n.setBounds nb)
        recalculateBoundsFromSubBounds q) with
    | nil =>
      have : (subs.set j (c.modifyPath (fun n => n.setBounds nb)
          recalculateBoundsFromSubBounds q)).length = 0 := by rw [hsub]; rfl
      rw [List.length_set] at this
      omega
    | cons first others =>
      have hget : (first :: others)[j]? = some (c.modifyPath (fun n => n.setBounds nb)
          recalculateBoundsFromSubBounds q) := by
        rw [← hsub]; simp [hj]
      have hset : (first :: others).set j (c.modifyPath (fun n => n.setBounds nb)
          recalculateBoundsFromSubBounds q) = first :: others := by
        rw [← hsub]; simp
      simp only [recalculateBoundsFromSubBounds, modifyPath, hget, hrec, hset]

theorem TreeNode.modifyPath_concat (f g : TreeNode → TreeNode) (i : Nat) (q : List Nat) :
    ∀ (t c : TreeNode), t.nodeAt (q ++ [i]) = some c →
      t.modifyPath f g (q ++ [i]) = t.modifyPath (fun n => g (n.modifyPath f id [i])) g q := by
  induction q with
  | nil =>
    intro t c h
    obtain ⟨b, subs, gn, c', rfl, hc, _⟩ := nodeAt_cons_eq_some h
    simp [modifyPath, hc]
  | cons j q ih =>
    intro t c h
    obtain ⟨b, subs, gn, c', rfl, hc, hn⟩ := nodeAt_cons_eq_some h
    have hrec := ih c' c hn
    simp only [List.cons_append, modifyPath, hc]
    exact congrArg (fun x => g (node b (subs.set j x) gn)) hrec

/-- The tree after a write through the top frame of the stack that `find` returns,
`top--` and `updateBoundsAllTheWayToTop()`. -/
theorem TreeCursor.modifyTop_pop_update_rootNode (rootNode : TreeNode) (p : List Nat)
    (f : TreeNode → TreeNode) (target : TreeNode) (h : rootNode.nodeAt p = some target) :
    ((TreeCursor.modifyTop f ⟨rootNode, 0 :: p.reverse⟩).pop.updateBoundsAllTheWayToTop).rootNode =
      rootNode.modifyPath f recalculateBoundsFromSubBounds p := by
  rcases List.eq_nil_or_concat p with rfl | ⟨q, i, rfl⟩
  · cases rootNode <;>
      simp [TreeCursor.modifyTop, TreeCursor.pop, TreeCursor.updateBoundsAllTheWayToTop,
        TreeCursor.path, modifyPath]
  · rw [List.concat_eq_append] at h ⊢
    rw [modifyPath_concat f _ i q rootNode target h]
    simp only [List.reverse_append, List.reverse_cons, List.reverse_nil, List.nil_append,
      List.singleton_append, TreeCursor.modifyTop, TreeCursor.pop,
      TreeCursor.updateBoundsAllTheWayToTop, TreeCursor.path, List.tail_cons, List.reverse_reverse]
    have := modifyPath_modifyPath f recalculateBoundsFromSubBounds recalculateBoundsFromSubBounds
      [i] q rootNode
    simpa using this

/-- C11, at the tree left by adding objects 1 and 2 to the empty tree. -/
theorem C11_number_of_objects_is_traversal_count_witness :
    Reachable (fun _ => 0)
        ((BoundsTree.empty.add (fun _ => 0) 1 (cube 0 1)).add (fun _ => 0) 2 (cube 1 2)) ∧
      ((BoundsTree.empty.add (fun _ => 0) 1 (cube 0 1)).add (fun _ => 0) 2
        (cube 1 2)).rootNode.height ≤ MAX_HEIGHT ∧
      ∃ visited,
        ((BoundsTree.empty.add (fun _ => 0) 1 (cube 0 1)).add (fun _ => 0) 2 (cube 1 2)).iterate
            ((BoundsTree.empty.add (fun _ => 0) 1 (cube 0 1)).add (fun _ => 0) 2
              (cube 1 2)).getNumberOfObjects = some visited ∧
          visited.length =
            ((BoundsTree.empty.add (fun _ => 0) 1 (cube 0 1)).add (fun _ => 0) 2
              (cube 1 2)).getNumberOfObjects :=
  have h : Reachable (fun _ => 0)
      ((BoundsTree.empty.add (fun _ => 0) 1 (cube 0 1)).add (fun _ => 0) 2 (cube 1 2)) :=
    Reachable.add _ 2 (cube 1 2) (Reachable.add BoundsTree.empty 1 (cube 0 1) Reachable.empty)
  ⟨h, by decide,
    (C11_number_of_objects_is_traversal_count (fun _ => 0)).2.2.2 _ h (by decide)⟩

/-! ### The empty tree -/

/-- C13. The tree the default constructor builds is empty, and on every empty tree
`improveStructure()` and `recalculateBounds()` return the tree as it was and
`getNumberOfObjects()` returns 0. -/
theorem C13_empty_tree_is_first_class (improve : TreeNode → TreeNode)
    (getStrictBounds : Nat → Bounds) :
    BoundsTree.empty.isEmpty = true ∧
    ∀ tree : BoundsTree, tree.isEmpty = true →
      tree.improveStructure improve = tree ∧
      tree.recalculateBounds getStrictBounds = tree ∧
      tree.getNumberOfObjects = 0 := by
  refine ⟨rfl, ?_⟩
  intro tree h
  simp [BoundsTree.improveStructure, BoundsTree.recalculateBounds, BoundsTree.getNumberOfObjects, h]

/-- C13, at the tree left by removing the only object of a single-leaf tree. -/
theorem C13_empty_tree_is_first_class_witness :
    BoundsTree.isEmpty ⟨.node Bounds.default [] true⟩ = true ∧
      BoundsTree.improveStructure (fun n => n.setGroupHead false) ⟨.node Bounds.default [] true⟩ =
        ⟨.node Bounds.default [] true⟩ ∧
      BoundsTree.recalculateBounds (fun _ => cube 0 1) ⟨.node Bounds.default [] true⟩ =
        ⟨.node Bounds.default [] true⟩ ∧
      BoundsTree.getNumberOfObjects ⟨.node Bounds.default [] true⟩ = 0 :=
  ⟨by decide, (C13_empty_tree_is_first_class (fun n => n.setGroupHead false) (fun _ => cube 0 1)).2
    ⟨.node Bounds.default [] true⟩ (by decide)⟩

/-! ### Termination of the filtered iteration -/

theorem TreeNode.length_filteredLeaves_le (filter : TreeNode → Bool) (t : TreeNode) :
    (filteredLeaves filter t).length ≤ (leaves t).length := by
  induction t using TreeNode.induction with
  | hleaf b o g =>
    simp only [filteredLeaves, leaves]
    split <;> simp
  | hnode b subs g ih =>
    have hlist : ∀ l : List TreeNode,
        (∀ c ∈ l, (filteredLeaves filter c).length ≤ (leaves c).length) →
        (filteredLeavesList filter l).length ≤ (leavesList l).length := by
      intro l
      induction l with
      | nil => intro _; simp [filteredLeavesList, leavesList]
      | cons a as iha =>
        intro hl
        have h1 := hl a (List.mem_cons_self _ _)
        have h2 := iha (fun c hc => hl c (List.mem_cons_of_mem _ hc))
        simp only [filteredLeavesList, leavesList, List.length_append]
        omega
    simp only [filteredLeaves, leaves]
    split
    · exact hlist subs ih
    · simp

theorem TreeNode.length_filteredLeavesList_le (filter : TreeNode → Bool) (subs : List TreeNode) :
    (filteredLeavesList filter subs).length ≤ (leavesList subs).length := by
  induction subs with
  | nil => simp [filteredLeavesList, leavesList]
  | cons a as ih =>
    have := length_filteredLeaves_le filter a
    simp only [filteredLeavesList, leavesList, List.length_append]
    omega

theorem length_filteredSequence_le (filter : TreeNode → Bool) (rootNode : TreeNode) :
    (filteredSequence filter rootNode).length ≤ (leaves rootNode).length := by
  cases rootNode with
  | leaf b o g => simp [filteredSequence, isLeafNode, leaves]
  | node b subs g =>
    simpa [filteredSequence, isLeafNode, leaves, subTrees_node] using
      length_filteredLeavesList_le filter subs

/-- C15. On every well-formed tree and for every filter, the construction of the
filtered iterator ends (within as many iterations of the loop of `delveDownFiltered`
as the tree has nodes), every `operator++` of the loop to `end()` ends, and the
iterator is at `end()` after at most as many increments as the tree has leaves. -/
theorem C15_filtered_iteration_terminates (t : BoundsTree) (filter : TreeNode → Bool)
    (hwf : t.rootNode.WellFormed) :
    ∃ s visited, FilteredTreeIterator.new filter t.rootNode.size t.rootNode = some s ∧
      FilteredTreeIterator.visit filter t.rootNode.size (leaves t.rootNode).length s = some visited ∧
      visited.length ≤ (leaves t.rootNode).length := by
  have h := BoundsTree.iterFiltered_eq t filter t.rootNode.size (leaves t.rootNode).length hwf
    (Nat.le_refl _) (length_filteredSequence_le filter t.rootNode)
  simp only [BoundsTree.iterFiltered] at h
  cases hnew : FilteredTreeIterator.new filter t.rootNode.size t.rootNode with
  | none => simp [hnew] at h
  | some s =>
    simp only [hnew] at h
    exact ⟨s, _, rfl, h, length_filteredSequence_le filter t.rootNode⟩

/-- C15, at the example tree with the point filter. -/
theorem C15_filtered_iteration_terminates_witness :
    queryTree.rootNode.WellFormed ∧
      ∃ s visited, FilteredTreeIterator.new (pointFilter queryPoint) queryTree.rootNode.size
          queryTree.rootNode = some s ∧
        FilteredTreeIterator.visit (pointFilter queryPoint) queryTree.rootNode.size
          (leaves queryTree.rootNode).length s = some visited ∧
        visited.length ≤ (leaves queryTree.rootNode).length :=
  ⟨by decide, C15_filtered_iteration_terminates queryTree (pointFilter queryPoint) (by decide)⟩

/-! ### The validity check of the world -/

/-- Structural induction on a physical: a property that passes from the connected
physicals of a physical to the physical holds of every physical. -/
theorem Physical.hierarchy_induction {P : Physical → Prop}
    (hmk : ∀ a m p ps cs, (∀ c ∈ cs, P c) → P (.mk a m p ps cs)) (phys : Physical) : P phys :=
  @Physical.rec P (fun l => ∀ c ∈ l, P c) (fun a m p ps cs ih => hmk a m p ps cs ih)
    (fun c hc => by cases hc)
    (fun hd tl ih1 ih2 c hc => by
      rcases List.mem_cons.1 hc with rfl | h
      · exact ih1
      · exact ih2 c h) phys

theorem isConnectedPhysicalsValid_iff (mainPhys : Nat) (cs : List Physical) :
    isConnectedPhysicalsValid cs mainPhys = true ↔ ∀ c ∈ cs, isPhysicalValid c mainPhys = true := by
  induction cs with
  | nil => simp [isConnectedPhysicalsValid]
  | cons c cs ih =>
    simp only [isConnectedPhysicalsValid, List.mem_cons, forall_eq_or_imp, ← ih]
    cases isPhysicalValid c mainPhys <;> simp

theorem Physical.mem_hierarchyList (q : Physical) (cs : List Physical) :
    q ∈ Physical.hierarchyList cs ↔ ∃ c ∈ cs, q ∈ c.hierarchy := by
  induction cs with
  | nil => simp [Physical.hierarchyList]
  | cons c cs ih => simp [Physical.hierarchyList, ih]

/-- The function `isPhysicalValid` returns `true` exactly when every physical of the
hierarchy names `mainPhys` and is named by every part of its rigid body. -/
theorem isPhysicalValid_iff (mainPhys : Nat) (phys : Physical) :
    isPhysicalValid phys mainPhys = true ↔
      ∀ q ∈ phys.hierarchy, q.mainPhysical = mainPhys ∧
        ∀ part ∈ q.rigidBody, part.parent = q.address := by
  induction phys using Physical.hierarchy_induction with
  | hmk a m p ps cs ih =>
    have hchildren : isConnectedPhysicalsValid cs mainPhys = true ↔
        ∀ c ∈ cs, ∀ q ∈ c.hierarchy, q.mainPhysical = mainPhys ∧
          ∀ part ∈ q.rigidBody, part.parent = q.address := by
      rw [isConnectedPhysicalsValid_iff]
      exact ⟨fun h c hc => (ih c hc).1 (h c hc), fun h c hc => (ih c hc).2 (h c hc)⟩
    have hparts : ((p :: ps).any (fun part => decide (part.parent ≠ a))) = false ↔
        ∀ part ∈ p :: ps, part.parent = a := by
      simp [List.any_eq_false]
    have hmem : ∀ q, q ∈ (Physical.mk a m p ps cs).hierarchy ↔
        q = Physical.mk a m p ps cs ∨ ∃ c ∈ cs, q ∈ c.hierarchy := by
      intro q
      simp [Physical.hierarchy, Physical.mem_hierarchyList]
    constructor
    · intro h q hq
      simp only [isPhysicalValid] at h
      split at h
      · cases h
      · next hm =>
        split at h
        · cases h
        · next hp =>
          have hm' : m = mainPhys := by simpa using hm
          have hp' : ((p :: ps).any (fun part => decide (part.parent ≠ a))) = false := by
            simpa using hp
          rcases (hmem q).1 hq with rfl | ⟨c, hc, hqc⟩
          · exact ⟨hm', hparts.1 hp'⟩
          · exact hchildren.1 h c hc q hqc
    · intro h
      have hself := h _ ((hmem _).2 (Or.inl rfl))
      have hm : m = mainPhys := hself.1
      have hp' : ((p :: ps).any (fun part => decide (part.parent ≠ a))) = false :=
        hparts.2 hself.2
      have hc : isConnectedPhysicalsValid cs mainPhys = true :=
        hchildren.2 (fun c hc q hq => h q ((hmem q).2 (Or.inr ⟨c, hc, hq⟩)))
      simp only [isPhysicalValid, hm, ne_eq, not_true_eq_false, if_false, hp',
        Bool.false_eq_true, hc]

theorem isValidPhysicals_iff (world : Nat) (physicals : List MotorizedPhysical) :
    isValidPhysicals world physicals = true ↔
      ∀ m ∈ physicals, m.world = world ∧
        isPhysicalValid m.physical m.physical.address = true := by
  induction physicals with
  | nil => simp [isValidPhysicals]
  | cons m ms ih =>
    simp only [isValidPhysicals, List.mem_cons, forall_eq_or_imp, ← ih]
    by_cases hw : m.world = world
    · cases hv : isPhysicalValid m.physical m.physical.address <;> simp [hw]
    · simp [hw]

/-- The loop of `isValid()` completes exactly when the back-references match. -/
theorem WorldPrototype.isValidPhysicals_iff_backReferencesMatch (w : WorldPrototype) :
    isValidPhysicals w.address w.physicals = true ↔ w.BackReferencesMatch := by
  rw [isValidPhysicals_iff]
  constructor
  · intro h m hm
    exact ⟨(h m hm).1, (isPhysicalValid_iff _ _).1 (h m hm).2⟩
  · intro h m hm
    exact ⟨(h m hm).1, (isPhysicalValid_iff _ _).2 (h m hm).2⟩

/-- C20. When `treeValidCheck` passes on both trees, `isValid()` returns `true`
exactly when every registered motorized physical names this world, every physical of
its hierarchy, itself included, names it as `mainPhysical`, and every part of the
rigid body of each such physical names that physical as `parent`; otherwise it
returns `false`. -/
theorem C20_is_valid_iff_back_references_match (w : WorldPrototype)
    (hobject : treeValidCheck w.objectTree = .ok ())
    (hterrain : treeValidCheck w.terrainTree = .ok ()) :
    (w.isValid = .ok true ↔ w.BackReferencesMatch) ∧
    (¬ w.BackReferencesMatch → w.isValid = .ok false) := by
  have hiff := WorldPrototype.isValidPhysicals_iff_backReferencesMatch w
  by_cases h : isValidPhysicals w.address w.physicals = true
  · have hvalid : w.isValid = .ok true := by
      simp [WorldPrototype.isValid, h, hobject, hterrain]
    exact ⟨⟨fun _ => hiff.1 h, fun _ => hvalid⟩, fun hn => absurd (hiff.1 h) hn⟩
  · have hvalid : w.isValid = .ok false := by
      simp [WorldPrototype.isValid, h]
    refine ⟨⟨fun ht => ?_, fun hb => absurd (hiff.2 hb) h⟩, fun _ => hvalid⟩
    rw [hvalid] at ht
    cases ht

/-- C20, at the world of the example after the split. -/
theorem C20_is_valid_iff_back_references_match_witness :
    treeValidCheck splitWorld.objectTree = .ok () ∧
      treeValidCheck splitWorld.terrainTree = .ok () ∧
      (splitWorld.isValid = .ok true ↔ splitWorld.BackReferencesMatch) ∧
      (¬ splitWorld.BackReferencesMatch → splitWorld.isValid = .ok false) :=
  ⟨by decide, by decide,
    C20_is_valid_iff_back_references_match splitWorld (by decide) (by decide)⟩

/-! ### Duplicate insertion -/

/-- C14, counterexample: object 2 is in the single-leaf tree, `add` of it returns a
tree that holds it twice; and `addPart` for a part of the physical at 100, which is
in the world at 9 already, returns that world. -/
theorem C14_duplicate_insertion_counterexample :
    countObject 2 singleLeafTree.rootNode = 1 ∧
      countObject 2 (singleLeafTree.add (fun _ => 0) 2 (cube 2 3)).rootNode = 2 ∧
      (⟨9, examplePhysicalA⟩ : MotorizedPhysical) ∈ joinedWorld.physicals ∧
      joinedWorld.addPart (fun _ => 0) true (fun _ => 2) ⟨9, examplePhysicalA⟩ =
        .returned joinedWorld := by
  decide

/-- C14, amended. Inserting again is not an error: `add` of an object returns a tree
that holds the object once more than before, whether or not it was there; and
`addPart` of a part whose main physical names this world already returns the world
as it was (in a debug build, when the world is valid). -/
theorem C14_duplicate_insertion_is_accepted (computeCost : Bounds → Int) :
    (∀ (tree : BoundsTree) (obj : Nat) (bounds : Bounds),
      countObject obj (tree.add computeCost obj bounds).rootNode =
        countObject obj tree.rootNode + 1) ∧
    (∀ (debug : Bool) (getNumberOfPartsInThisAndChildren : Physical → Nat) (w : WorldPrototype)
      (mainPhysical : MotorizedPhysical), mainPhysical.world = w.address →
      (debug = true → w.isValid = .ok true) →
      w.addPart computeCost debug getNumberOfPartsInThisAndChildren mainPhysical =
        .returned w) := by
  constructor
  · intro tree obj bounds
    rw [BoundsTree.add, BoundsTree.countObject_addNode]
    simp [countObject_leaf]
  · intro debug n w mainPhysical hworld hvalid
    cases debug with
    | false => simp [WorldPrototype.addPart, WorldPrototype.assertValid, hworld]
    | true => simp [WorldPrototype.addPart, WorldPrototype.assertValid, hworld, hvalid rfl]

/-- C14, amended, at the examples. -/
theorem C14_duplicate_insertion_is_accepted_witness :
    (⟨9, examplePhysicalA⟩ : MotorizedPhysical).world = joinedWorld.address ∧
      joinedWorld.isValid = .ok true ∧
      joinedWorld.addPart (fun _ => 0) true (fun _ => 2) ⟨9, examplePhysicalA⟩ =
        .returned joinedWorld :=
  ⟨rfl, by decide,
    (C14_duplicate_insertion_is_accepted (fun _ => 0)).2 true (fun _ => 2) joinedWorld
      ⟨9, examplePhysicalA⟩ rfl (fun _ => by decide)⟩

/-! ### The tree a bounds update goes to -/

/-- C19, counterexample: the terrain part 7 is held by the terrain tree, which
`getTreeForPart` selects, and the notifications of a move search the object tree for
it and throw: `updatePartBounds` and `updatePartGroupBounds` for the part as
`addTerrainPart` takes it, without a parent, and `setPartCFrame`, which is undefined
for such a part, for the same part with a parent. -/
theorem C19_terrain_part_counterexample :
    countObject 7 terrainWorld.terrainTree.rootNode = 1 ∧
      terrainWorld.getTreeForPart terrainPart = terrainWorld.terrainTree ∧
      terrainWorld.getTreeForPart ⟨7, 300, true, cube 0 1⟩ = terrainWorld.terrainTree ∧
      terrainWorld.setPartCFrame true (fun _ => cube 4 5) terrainPart = .undefined ∧
      terrainWorld.setPartCFrame true (fun _ => cube 4 5) ⟨7, 300, true, cube 0 1⟩ =
        .thrown "object not found" ∧
      terrainWorld.updatePartBounds true (fun _ => cube 4 5) terrainPart (cube 0 1) =
        .thrown "object not found" ∧
      terrainWorld.updatePartGroupBounds true (fun _ => cube 4 5) terrainPart (cube 0 1) =
        .thrown "object not found" := by
  decide

theorem WorldPrototype.afterObjectTree_returned (debug : Bool) (w w' : WorldPrototype)
    (e : Effect Unit) (h : afterObjectTree debug w e = .returned w') :
    e = .returned () w'.objectTree ∧ w'.terrainTree = w.terrainTree := by
  cases e with
  | returned u tree =>
    simp only [afterObjectTree, assertValid] at h
    split at h
    · split at h
      · cases h; exact ⟨rfl, rfl⟩
      all_goals cases h
    · cases h; exact ⟨rfl, rfl⟩
  | thrown message tree => cases h
  | undefined => cases h

/-- C19, amended. A move notified through `setPartCFrame`, `updatePartBounds` or
`updatePartGroupBounds` applies the bounds update to the object tree and leaves the
terrain tree as it was; the object tree is the tree `getTreeForPart` selects for the
parts with `isTerrainPart` false; where assertions are compiled out the notification
returns whenever the update of the object tree does (for `setPartCFrame`, of a part
with a parent). -/
theorem C19_bounds_updates_go_to_object_tree (debug : Bool) (getStrictBounds : Nat → Bounds)
    (w w' : WorldPrototype) (part : Part) (oldBounds : Bounds) :
    (w.setPartCFrame debug getStrictBounds part = .returned w' →
      w.objectTree.updateObjectGroupBounds getStrictBounds part.address part.strictBounds =
        .returned () w'.objectTree ∧ w'.terrainTree = w.terrainTree) ∧
    (w.updatePartBounds debug getStrictBounds part oldBounds = .returned w' →
      w.objectTree.updateObjectBounds getStrictBounds part.address oldBounds =
        .returned () w'.objectTree ∧ w'.terrainTree = w.terrainTree) ∧
    (w.updatePartGroupBounds debug getStrictBounds part oldBounds = .returned w' →
      w.objectTree.updateObjectGroupBounds getStrictBounds part.address oldBounds =
        .returned () w'.objectTree ∧ w'.terrainTree = w.terrainTree) ∧
    (part.isTerrainPart = false → w.getTreeForPart part = w.objectTree) ∧
    (∀ tree, part.parent ≠ 0 →
      w.objectTree.updateObjectGroupBounds getStrictBounds part.address part.strictBounds =
        .returned () tree →
      w.setPartCFrame false getStrictBounds part =
        .returned ⟨w.address, tree, w.terrainTree, w.physicals, w.objectCount⟩) ∧
    (∀ tree, w.objectTree.updateObjectBounds getStrictBounds part.address oldBounds =
        .returned () tree →
      w.updatePartBounds false getStrictBounds part oldBounds =
        .returned ⟨w.address, tree, w.terrainTree, w.physicals, w.objectCount⟩) ∧
    (∀ tree, w.objectTree.updateObjectGroupBounds getStrictBounds part.address oldBounds =
        .returned () tree →
      w.updatePartGroupBounds false getStrictBounds part oldBounds =
        .returned ⟨w.address, tree, w.terrainTree, w.physicals, w.objectCount⟩) := by
  refine ⟨?_, ?_, ?_, ?_, ?_, ?_, ?_⟩
  rotate_left 4
  · intro tree hp h
    simp [WorldPrototype.setPartCFrame, hp, h, WorldPrototype.afterObjectTree,
      WorldPrototype.assertValid]
  · intro tree h
    simp [WorldPrototype.updatePartBounds, h, WorldPrototype.afterObjectTree,
      WorldPrototype.assertValid]
  · intro tree h
    simp [WorldPrototype.updatePartGroupBounds, h, WorldPrototype.afterObjectTree,
      WorldPrototype.assertValid]
  · intro h
    unfold WorldPrototype.setPartCFrame at h
    split at h
    · cases h
    · exact WorldPrototype.afterObjectTree_returned debug w w' _ h
  · exact WorldPrototype.afterObjectTree_returned debug w w' _
  · exact WorldPrototype.afterObjectTree_returned debug w w' _
  · intro h
    simp [WorldPrototype.getTreeForPart, h]

/-- C19, amended, at the world of the example after the split: part 3 moves to
`(5,5,5)-(6,6,6)`. -/
theorem C19_bounds_updates_go_to_object_tree_witness :
    splitWorld.updatePartBounds true
        (fun part => if part = 3 then cube 5 6 else if part = 2 then cube 1 2
          else if part = 1 then cube 0 1 else cube 3 4)
        ⟨3, 200, false, cube 5 6⟩ (cube 2 3) =
      .returned ⟨9, ⟨.node (cube 0 6)
          [.node (cube 0 4) [.leaf (cube 0 1) 1 false, .leaf (cube 3 4) 4 false] true,
            .node (cube 1 6) [.leaf (cube 1 2) 2 false, .leaf (cube 5 6) 3 false] true] false⟩,
        BoundsTree.empty, [⟨9, examplePhysicalA⟩, ⟨9, examplePhysicalB⟩], 4⟩ ∧
    splitWorld.objectTree.updateObjectBounds
        (fun part => if part = 3 then cube 5 6 else if part = 2 then cube 1 2
          else if part = 1 then cube 0 1 else cube 3 4) 3 (cube 2 3) =
      .returned () ⟨.node (cube 0 6)
          [.node (cube 0 4) [.leaf (cube 0 1) 1 false, .leaf (cube 3 4) 4 false] true,
            .node (cube 1 6) [.leaf (cube 1 2) 2 false, .leaf (cube 5 6) 3 false] true] false⟩ :=
  have h : splitWorld.updatePartBounds true
        (fun part => if part = 3 then cube 5 6 else if part = 2 then cube 1 2
          else if part = 1 then cube 0 1 else cube 3 4)
        ⟨3, 200, false, cube 5 6⟩ (cube 2 3) =
      .returned ⟨9, ⟨.node (cube 0 6)
          [.node (cube 0 4) [.leaf (cube 0 1) 1 false, .leaf (cube 3 4) 4 false] true,
            .node (cube 1 6) [.leaf (cube 1 2) 2 false, .leaf (cube 5 6) 3 false] true] false⟩,
        BoundsTree.empty, [⟨9, examplePhysicalA⟩, ⟨9, examplePhysicalB⟩], 4⟩ := by decide
  ⟨h, ((C19_bounds_updates_go_to_object_tree true _ splitWorld _ ⟨3, 200, false, cube 5 6⟩
    (cube 2 3)).2.1 h).1⟩

/-! ### Positions of a stack in depth-first order -/

theorem TreeNode.child?_node (b : Bounds) (subs : List TreeNode) (g : Bool) (i : Nat) :
    (TreeNode.node b subs g).child? i = subs[i]? := rfl

theorem TreeNode.eq_node_of_child? {n c : TreeNode} {i : Nat} (h : n.child? i = some c) :
    ∃ b subs g, n = .node b subs g ∧ subs[i]? = some c := by
  cases n with
  | leaf b o g => simp [child?, subTrees] at h
  | node b subs g => exact ⟨b, subs, g, rfl, h⟩

theorem TreeNode.nodeAt_concat (t : TreeNode) (q : List Nat) (i : Nat) (n : TreeNode)
    (h : t.nodeAt q = some n) : t.nodeAt (q ++ [i]) = n.child? i := by
  rw [nodeAt_append, h]
  simp only [Option.some_bind, nodeAt]
  cases n.child? i <;> simp [nodeAt_nil]

/-- The leaves after a child are those after its later siblings and then those after
its parent. -/
theorem TreeNode.leavesAfter_concat (q : List Nat) :
    ∀ (t n c : TreeNode) (j : Nat), t.nodeAt q = some n → n.child? j = some c →
      t.leavesAfter (q ++ [j]) = leavesList (n.subTrees.drop (j + 1)) ++ t.leavesAfter q := by
  induction q with
  | nil =>
    intro t n c j h hc
    rw [nodeAt_nil] at h
    cases h
    obtain ⟨b, subs, g, rfl, hs⟩ := eq_node_of_child? hc
    simp [leavesAfter, hs, subTrees]
  | cons i q ih =>
    intro t n c j h hc
    obtain ⟨b, subs, g, c0, rfl, hc0, hn⟩ := nodeAt_cons_eq_some h
    have hrec := ih c0 n c j hn hc
    simp only [List.cons_append, leavesAfter, hc0]
    exact (congrArg (fun l => l ++ leavesList (subs.drop (i + 1))) hrec).trans
      (List.append_assoc _ _ _)

theorem TreeNode.height_nodeAt (q : List Nat) :
    ∀ (t n : TreeNode), t.nodeAt q = some n → n.height + q.length ≤ t.height := by
  induction q with
  | nil =>
    intro t n h
    rw [nodeAt_nil] at h
    cases h
    simp
  | cons i q ih =>
    intro t n h
    obtain ⟨b, subs, g, c, rfl, hc, hn⟩ := nodeAt_cons_eq_some h
    have h1 := ih c n hn
    have h2 := height_le_heightList (List.getElem?_mem hc)
    simp only [height, List.length_cons]
    omega

theorem TreeNode.branchesOk_nodeAt (q : List Nat) :
    ∀ (t n : TreeNode), t.branchesOk = true → t.nodeAt q = some n → n.branchesOk = true := by
  induction q with
  | nil =>
    intro t n ht h
    rw [nodeAt_nil] at h
    cases h
    exact ht
  | cons i q ih =>
    intro t n ht h
    obtain ⟨b, subs, g, c, rfl, hc, hn⟩ := nodeAt_cons_eq_some h
    simp only [branchesOk, Bool.and_eq_true] at ht
    exact ih c n (branchesOk_of_mem ht.2 (List.getElem?_mem hc)) hn

theorem TreeCursor.framesOf_cons (rootNode : TreeNode) (i : Nat) (below : List Nat) (n : TreeNode)
    (h : rootNode.nodeAt below.reverse = some n) :
    TreeCursor.framesOf rootNode (i :: below) = ⟨n, i⟩ :: TreeCursor.framesOf rootNode below := by
  simp [TreeCursor.framesOf, h]

/-- The frames over a list of indices that lead to a node of the tree: they carry
these indices, what they leave to visit are the leaves after that node, and in a
well-formed tree they are as the iterator needs them. -/
theorem TreeCursor.framesOf_spec (rootNode : TreeNode) (below : List Nat) :
    ∀ x : TreeNode, rootNode.nodeAt below.reverse = some x →
      (TreeCursor.framesOf rootNode below).map (fun f => f.index) = below ∧
      restLeaves (TreeCursor.framesOf rootNode below) = rootNode.leavesAfter below.reverse ∧
      (rootNode.branchesOk = true → rootNode.height ≤ MAX_HEIGHT →
        StackOk (TreeCursor.framesOf rootNode below)) := by
  induction below with
  | nil =>
    intro x _
    simp [TreeCursor.framesOf, restLeaves, leavesAfter, StackOk]
  | cons j rest ih =>
    intro x h
    rw [List.reverse_cons] at h
    obtain ⟨n, hn, hc⟩ := nodeAt_concat_eq_some h
    obtain ⟨h1, h2, h3⟩ := ih n hn
    rw [TreeCursor.framesOf_cons rootNode j rest n hn]
    refine ⟨by simp [h1], ?_, ?_⟩
    · simp only [restLeaves, h2, List.reverse_cons]
      rw [leavesAfter_concat rest.reverse rootNode n x j hn hc]
    · intro hb hh
      obtain ⟨b, subs, g, rfl, hs⟩ := eq_node_of_child? hc
      have hbn := branchesOk_nodeAt rest.reverse rootNode _ hb hn
      have hhn := height_nodeAt rest.reverse rootNode _ hn
      have hlen : (TreeCursor.framesOf rootNode rest).length = rest.length := by
        have := congrArg List.length h1
        simpa using this
      simp only [branchesOk, Bool.and_eq_true] at hbn
      simp only [height, List.length_reverse] at hhn
      refine ⟨⟨rfl, ?_, hbn.2, ?_⟩, h3 hb hh⟩
      · exact (List.getElem?_eq_some.1 hs).1
      · simp only [subTrees_node, hlen]
        omega

theorem Consistent.nil (rootNode : TreeNode) : Consistent rootNode [] := rfl

theorem consistent_cons_iff (rootNode : TreeNode) (f : TreeStackElement) (rest : NodeStack) :
    Consistent rootNode (f :: rest) ↔
      rootNode.nodeAt (rest.map (fun f => f.index)).reverse = some f.node ∧
        Consistent rootNode rest := by
  simp only [Consistent, List.map_cons, TreeCursor.framesOf]
  cases h : rootNode.nodeAt (rest.map (fun f => f.index)).reverse with
  | none => simp
  | some n =>
    obtain ⟨fn, fi⟩ := f
    simp only [List.cons.injEq, TreeStackElement.mk.injEq, and_true, Option.some.injEq]

theorem TreeCursor.framesOf_consistent (rootNode : TreeNode) (below : List Nat) (x : TreeNode)
    (h : rootNode.nodeAt below.reverse = some x) :
    Consistent rootNode (TreeCursor.framesOf rootNode below) := by
  have := (TreeCursor.framesOf_spec rootNode below x h).1
  simp only [Consistent, this]

theorem Consistent.push {rootNode : TreeNode} {top : TreeStackElement} {rest : NodeStack}
    (h : Consistent rootNode (top :: rest)) {c : TreeNode} (hc : top.node.child? top.index = some c)
    (k : Nat) : Consistent rootNode (⟨c, k⟩ :: top :: rest) := by
  rw [consistent_cons_iff]
  refine ⟨?_, h⟩
  have htop := ((consistent_cons_iff rootNode top rest).1 h).1
  simp only [List.map_cons, List.reverse_cons]
  rw [nodeAt_concat rootNode _ top.index top.node htop]
  exact hc

theorem Consistent.delveDownLoop {rootNode : TreeNode} (fuel : Nat) :
    ∀ (s s' : NodeStack), Consistent rootNode s →
      ConstTreeIterator.delveDownLoop fuel s = some s' → Consistent rootNode s' := by
  induction fuel with
  | zero =>
    intro s s' _ h
    cases s <;> simp [ConstTreeIterator.delveDownLoop] at h
  | succ fuel ih =>
    intro s s' hs h
    cases s with
    | nil => simp [ConstTreeIterator.delveDownLoop] at h
    | cons top rest =>
      simp only [ConstTreeIterator.delveDownLoop] at h
      split at h
      · cases h; exact hs
      · cases hc : top.node.child? top.index with
        | none => simp [hc] at h
        | some c =>
          simp only [hc] at h
          split at h
          · cases h
          · exact ih _ s' (hs.push hc 0) h

theorem Consistent.riseUntilAvailable {rootNode : TreeNode} :
    ∀ s : NodeStack, Consistent rootNode s →
      Consistent rootNode (ConstTreeIterator.riseUntilAvailable s) := by
  intro s
  induction s with
  | nil => intro h; exact h
  | cons top rest ih =>
    intro h
    simp only [ConstTreeIterator.riseUntilAvailable]
    have hrest := ((consistent_cons_iff rootNode top rest).1 h)
    split
    · exact ih hrest.2
    · rw [consistent_cons_iff]
      exact hrest

theorem Consistent.increment {rootNode : TreeNode} (s s' : NodeStack) (hs : Consistent rootNode s)
    (h : ConstTreeIterator.increment s = some s') : Consistent rootNode s' := by
  cases s with
  | nil => simp [ConstTreeIterator.increment] at h
  | cons top rest =>
    have hrest := ((consistent_cons_iff rootNode top rest).1 hs).2
    have hrise := Consistent.riseUntilAvailable rest hrest
    simp only [ConstTreeIterator.increment] at h
    split at h
    · cases h; exact Consistent.nil rootNode
    · next top' rest' heq =>
      rw [heq] at hrise
      exact Consistent.delveDownLoop _ _ s' hrise h

theorem restLeaves_of_consistent (rootNode : TreeNode) (s : NodeStack) (x : TreeNode)
    (hs : Consistent rootNode s)
    (hx : rootNode.nodeAt (s.map (fun f => f.index)).reverse = some x) :
    restLeaves s = rootNode.leavesAfter (s.map (fun f => f.index)).reverse := by
  have := (TreeCursor.framesOf_spec rootNode (s.map (fun f => f.index)) x hx).2.1
  rw [hs] at this
  exact this

/-- One `++` of the iterator over a well-formed tree, from a leaf: the iterator is
exhausted when no leaf comes after it, and otherwise stands at the next leaf. -/
theorem TreeIterator.increment_next (rootNode : TreeNode) (t : Nat) (below : List Nat)
    (l : TreeNode) (hb : rootNode.branchesOk = true) (hh : rootNode.height ≤ MAX_HEIGHT)
    (hl : rootNode.nodeAt below.reverse = some l) :
    ∃ c', TreeIterator.increment ⟨rootNode, t :: below⟩ = some c' ∧ c'.rootNode = rootNode ∧
      ((c'.indices = [] ∧ rootNode.leavesAfter below.reverse = []) ∨
       ∃ t' below' l', c'.indices = t' :: below' ∧ rootNode.nodeAt below'.reverse = some l' ∧
         l'.isLeafNode = true ∧
         rootNode.leavesAfter below.reverse = l' :: rootNode.leavesAfter below'.reverse) := by
  obtain ⟨h1, h2, h3⟩ := TreeCursor.framesOf_spec rootNode below l hl
  have hs0 := h3 hb hh
  have hframes : (⟨rootNode, t :: below⟩ : TreeCursor).frames =
      ⟨l, t⟩ :: TreeCursor.framesOf rootNode below := by
    simp [TreeCursor.frames, TreeCursor.framesOf, hl]
  have hcons : Consistent rootNode (⟨l, t⟩ :: TreeCursor.framesOf rootNode below) := by
    rw [consistent_cons_iff]
    exact ⟨by rw [h1]; exact hl, TreeCursor.framesOf_consistent rootNode below l hl⟩
  obtain ⟨r, hr, hcase⟩ := ConstTreeIterator.increment_spec ⟨l, t⟩ _ hs0
  have hcr := Consistent.increment _ r hcons hr
  refine ⟨TreeIterator.ofFrames rootNode r, by simp [TreeIterator.increment, hframes, hr], rfl, ?_⟩
  rcases hcase with ⟨rfl, hnil⟩ | ⟨l', s', rfl, hleaf, _, hrest⟩
  · left
    exact ⟨rfl, by rw [← h2]; exact hnil⟩
  · right
    obtain ⟨hl', hcs'⟩ := (consistent_cons_iff rootNode _ s').1 hcr
    refine ⟨0, s'.map (fun f => f.index), l', by simp [TreeIterator.ofFrames], hl', hleaf, ?_⟩
    rw [← h2, hrest, restLeaves_of_consistent rootNode s' l' hcs' hl']

theorem pendingFrom_cons (rootNode : TreeNode) (i : Nat) (below : List Nat) (n : TreeNode)
    (h : rootNode.nodeAt below.reverse = some n) :
    pendingFrom rootNode (i :: below) =
      (if n.isLeafNode then [n] else leavesList (n.subTrees.drop i)) ++
        rootNode.leavesAfter below.reverse := by
  simp [pendingFrom, h]

/-- The rise loop keeps what is left to visit, and stops at a frame that stands
before one of the children of its node, unless nothing is left. -/
theorem TreeCursor.riseUntilAvailableLoop_spec (rootNode : TreeNode) (below : List Nat) :
    ∀ (i : Nat) (n : TreeNode), rootNode.nodeAt below.reverse = some n → n.isLeafNode = false →
      i ≤ n.nodeCount →
      pendingFrom rootNode (TreeCursor.riseUntilAvailableLoop rootNode i below) =
          pendingFrom rootNode (i :: below) ∧
        (TreeCursor.riseUntilAvailableLoop rootNode i below = [] ∨
          ∃ i' below' n', TreeCursor.riseUntilAvailableLoop rootNode i below = i' :: below' ∧
            rootNode.nodeAt below'.reverse = some n' ∧ n'.isLeafNode = false ∧
            i' < n'.nodeCount) := by
  induction below with
  | nil =>
    intro i n h hleaf hi
    simp only [List.reverse_nil, nodeAt_nil, Option.some.injEq] at h
    subst h
    simp only [TreeCursor.riseUntilAvailableLoop]
    split
    · next heq =>
      refine ⟨?_, Or.inl rfl⟩
      cases rootNode with
      | leaf b o g => simp [isLeafNode] at hleaf
      | node b subs g =>
        simp only [nodeCount] at heq
        simp [pendingFrom, nodeAt_nil, isLeafNode, subTrees, heq, leavesList, leavesAfter]
    · next hne =>
      exact ⟨rfl, Or.inr ⟨i, [], rootNode, rfl, by simp [nodeAt_nil], hleaf, by omega⟩⟩
  | cons j rest ih =>
    intro i n h hleaf hi
    simp only [TreeCursor.riseUntilAvailableLoop, h]
    split
    · next heq =>
      have h' := h
      rw [List.reverse_cons] at h'
      obtain ⟨gp, hgp, hc⟩ := nodeAt_concat_eq_some h'
      obtain ⟨b, subs, g, rfl, hs⟩ := eq_node_of_child? hc
      have hj : j < subs.length := (List.getElem?_eq_some.1 hs).1
      obtain ⟨hp, hcase⟩ := ih (j + 1) (.node b subs g) hgp rfl (by simp only [nodeCount]; omega)
      refine ⟨?_, hcase⟩
      rw [hp, pendingFrom_cons rootNode (j + 1) rest _ hgp, pendingFrom_cons rootNode i (j :: rest) n h]
      cases n with
      | leaf b' o' g' => simp [isLeafNode] at hleaf
      | node b' subs' g' =>
        simp only [nodeCount] at heq
        simp only [isLeafNode, Bool.false_eq_true, if_false, subTrees_node, heq, List.drop_length,
          leavesList, List.nil_append, List.reverse_cons]
        rw [leavesAfter_concat rest.reverse rootNode _ _ j hgp hc]
        rfl
    · next hne =>
      exact ⟨rfl, Or.inr ⟨i, j :: rest, n, rfl, h, hleaf, by omega⟩⟩

/-- The descent from a frame that stands at a leaf, or before a child of an internal
node, stops at the first of the leaves left to visit. -/
theorem TreeIterator.delveDown_pending (rootNode : TreeNode) (i : Nat) (below : List Nat)
    (n : TreeNode) (hb : rootNode.branchesOk = true) (hh : rootNode.height ≤ MAX_HEIGHT)
    (hn : rootNode.nodeAt below.reverse = some n)
    (hi : n.isLeafNode = false → i < n.nodeCount) :
    ∃ s, ConstTreeIterator.delveDown (TreeCursor.framesOf rootNode (i :: below)) = some s ∧
      ∃ t' below' l', s.map (fun f => f.index) = t' :: below' ∧
        rootNode.nodeAt below'.reverse = some l' ∧ l'.isLeafNode = true ∧
        l' :: rootNode.leavesAfter below'.reverse = pendingFrom rootNode (i :: below) := by
  obtain ⟨h1, h2, _⟩ := TreeCursor.framesOf_spec rootNode below n hn
  rw [TreeCursor.framesOf_cons rootNode i below n hn, pendingFrom_cons rootNode i below n hn]
  cases n with
  | leaf b o g =>
    refine ⟨⟨.leaf b o g, i⟩ :: TreeCursor.framesOf rootNode below,
      by simp [ConstTreeIterator.delveDown, ConstTreeIterator.delveDownLoop, isLeafNode],
      i, below, .leaf b o g, by simp [h1], hn, rfl, by simp [isLeafNode]⟩
  | node b subs g =>
    have hi' : i < subs.length := hi rfl
    have hget : subs[i]? = some (subs.get ⟨i, hi'⟩) := by simp
    have hc : (TreeNode.node b subs g).child? i = some (subs.get ⟨i, hi'⟩) := hget
    have hvalid : rootNode.nodeAt (i :: below).reverse = some (subs.get ⟨i, hi'⟩) := by
      rw [List.reverse_cons, nodeAt_concat rootNode _ i _ hn]
      exact hc
    obtain ⟨k1, _, k3⟩ := TreeCursor.framesOf_spec rootNode (i :: below) _ hvalid
    have hstack := k3 hb hh
    rw [TreeCursor.framesOf_cons rootNode i below _ hn] at hstack k1
    have hheight := height_nodeAt _ rootNode _ hvalid
    simp only [List.length_reverse, List.length_cons] at hheight
    have hcpos := (subs.get ⟨i, hi'⟩).height_pos
    have hlen : (TreeCursor.framesOf rootNode below).length = below.length := by
      have := congrArg List.length h1
      simpa using this
    have hroom : ¬ MAX_HEIGHT ≤ (TreeCursor.framesOf rootNode below).length + 1 := by
      rw [hlen]; omega
    have hbc := branchesOk_nodeAt _ rootNode _ hb hvalid
    obtain ⟨l', s'', e1, e2, _, e4⟩ := ConstTreeIterator.delveDownLoop_spec MAX_HEIGHT
      (subs.get ⟨i, hi'⟩) (⟨.node b subs g, i⟩ :: TreeCursor.framesOf rootNode below) hbc
      (by omega) (by simp only [List.length_cons, hlen]; omega) hstack
    have hcons0 : Consistent rootNode (⟨.node b subs g, i⟩ :: TreeCursor.framesOf rootNode below) := by
      have := TreeCursor.framesOf_consistent rootNode (i :: below) _ hvalid
      rwa [TreeCursor.framesOf_cons rootNode i below _ hn] at this
    have hcons := Consistent.delveDownLoop MAX_HEIGHT _ _ (hcons0.push hc 0) e1
    obtain ⟨hl', hcs''⟩ := (consistent_cons_iff rootNode _ s'').1 hcons
    refine ⟨⟨l', 0⟩ :: s'', ?_, 0, s''.map (fun f => f.index), l', by simp, hl', e2, ?_⟩
    · rw [ConstTreeIterator.delveDown,
        ConstTreeIterator.delveDownLoop_push MAX_HEIGHT (.node b subs g) i
          (TreeCursor.framesOf rootNode below) (subs.get ⟨i, hi'⟩) rfl hc hroom]
      exact e1
    · rw [← restLeaves_of_consistent rootNode s'' l' hcs'' hl', ← e4]
      simp only [restLeaves, isLeafNode, Bool.false_eq_true, if_false, subTrees_node, h2,
        leavesList_drop hget, List.append_assoc]

/-! ### The tree after a removal -/

theorem TreeNode.recalculateBoundsFromSubBounds_node (b : Bounds) (subs : List TreeNode) (g : Bool) :
    ∃ b', recalculateBoundsFromSubBounds (.node b subs g) = .node b' subs g := by
  cases subs with
  | nil => exact ⟨b, rfl⟩
  | cons first others => exact ⟨_, rfl⟩

theorem TreeNode.height_setGroupHead (t : TreeNode) (g : Bool) :
    (t.setGroupHead g).height = t.height := by
  cases t <;> rfl

theorem TreeNode.height_recalculateBoundsFromSubBounds (t : TreeNode) :
    t.recalculateBoundsFromSubBounds.height = t.height := by
  cases t with
  | leaf b o g => rfl
  | node b subs g =>
    obtain ⟨b', hb'⟩ := recalculateBoundsFromSubBounds_node b subs g
    rw [hb']
    rfl

theorem TreeNode.leaves_setGroupHead (t : TreeNode) (g : Bool) :
    (leaves (t.setGroupHead g)).map object = (leaves t).map object := by
  cases t <;> simp [setGroupHead, leaves, object]

theorem TreeNode.leaves_recalculateBoundsFromSubBounds (t : TreeNode) :
    leaves t.recalculateBoundsFromSubBounds = leaves t := by
  cases t with
  | leaf b o g => rfl
  | node b subs g =>
    obtain ⟨b', hb'⟩ := recalculateBoundsFromSubBounds_node b subs g
    rw [hb']
    rfl

theorem TreeNode.leavesAfter_recalculateBoundsFromSubBounds (t : TreeNode) (q : List Nat) :
    t.recalculateBoundsFromSubBounds.leavesAfter q = t.leavesAfter q := by
  cases t with
  | leaf b o g => rfl
  | node b subs g =>
    obtain ⟨b', hb'⟩ := recalculateBoundsFromSubBounds_node b subs g
    rw [hb']
    cases q <;> rfl

theorem TreeNode.heightList_le_of_forall (subs : List TreeNode) (k : Nat)
    (h : ∀ c ∈ subs, c.height ≤ k) : heightList subs ≤ k := by
  induction subs with
  | nil => simp [heightList]
  | cons a as ih =>
    simp only [heightList]
    exact max_le (h a (List.mem_cons_self _ _)) (ih (fun c hc => h c (List.mem_cons_of_mem _ hc)))

theorem TreeNode.heightList_set_le (subs : List TreeNode) (i : Nat) (c c' : TreeNode)
    (hc : subs[i]? = some c) (h : c'.height ≤ c.height) :
    heightList (subs.set i c') ≤ heightList subs := by
  apply heightList_le_of_forall
  intro d hd
  rcases List.mem_or_eq_of_mem_set hd with hmem | rfl
  · exact height_le_heightList hmem
  · exact le_trans h (height_le_heightList (List.getElem?_mem hc))

theorem TreeNode.heightList_eraseIdx_le (subs : List TreeNode) (i : Nat) :
    heightList (subs.eraseIdx i) ≤ heightList subs := by
  apply heightList_le_of_forall
  intro d hd
  exact height_le_heightList (List.mem_of_mem_eraseIdx hd)

theorem TreeNode.height_withoutChild_le (t : TreeNode) (i : Nat) :
    (t.withoutChild i).height ≤ t.height := by
  cases t with
  | leaf b o g => simp [withoutChild]
  | node b subs g =>
    simp only [withoutChild]
    split
    · next r hr =>
      have hr' : r ∈ subs := List.mem_of_mem_eraseIdx (by rw [hr]; simp)
      have := height_le_heightList hr'
      rw [height_setGroupHead]
      simp only [height]
      omega
    · have := heightList_eraseIdx_le subs i
      simp only [height]
      omega

/-- Rewriting along a path does not make the tree higher when the rewriting of the
target does not and the rewriting of the ancestors keeps the height. -/
theorem TreeNode.height_modifyPath_le (atTarget onAncestor : TreeNode → TreeNode)
    (hanc : ∀ n, (onAncestor n).height = n.height)
    (htarget : ∀ n, (atTarget n).height ≤ n.height) (q : List Nat) :
    ∀ t : TreeNode, (t.modifyPath atTarget onAncestor q).height ≤ t.height := by
  induction q with
  | nil =>
    intro t
    cases t <;> exact htarget _
  | cons j q ih =>
    intro t
    cases t with
    | leaf b o g => simp [modifyPath]
    | node b subs g =>
      cases hc : subs[j]? with
      | none => simp [modifyPath, hc]
      | some c =>
        simp only [modifyPath, hc, hanc, height]
        have := heightList_set_le subs j c _ hc (ih c)
        omega

theorem height_removedAt_le (rootNode : TreeNode) (q : List Nat) (i : Nat) :
    (removedAt rootNode q i).height ≤ rootNode.height := by
  apply height_modifyPath_le _ _ height_recalculateBoundsFromSubBounds
  intro n
  rw [height_recalculateBoundsFromSubBounds]
  exact height_withoutChild_le n i

/-- Rewriting along a path, with the bounds of the ancestors recomputed, keeps the
leaves that come after the end of the path. -/
theorem TreeNode.leavesAfter_modifyPath (atTarget : TreeNode → TreeNode) (q : List Nat) :
    ∀ t : TreeNode,
      (t.modifyPath atTarget recalculateBoundsFromSubBounds q).leavesAfter q = t.leavesAfter q := by
  induction q with
  | nil => intro t; simp [leavesAfter]
  | cons j q ih =>
    intro t
    cases t with
    | leaf b o g => simp [modifyPath]
    | node b subs g =>
      cases hc : subs[j]? with
      | none => simp [modifyPath, hc]
      | some c =>
        have hj : j < subs.length := (List.getElem?_eq_some.1 hc).1
        simp only [modifyPath, hc, leavesAfter_recalculateBoundsFromSubBounds, leavesAfter]
        simp [hj, ih c, List.drop_set_of_lt]

/-- Rising from a frame and descending again: nothing is left and the stack is
exhausted, or the descent stops at the first of the leaves left to visit. -/
theorem TreeIterator.rise_delveDown (rootNode : TreeNode) (i : Nat) (below : List Nat)
    (n : TreeNode) (hb : rootNode.branchesOk = true) (hh : rootNode.height ≤ MAX_HEIGHT)
    (hn : rootNode.nodeAt below.reverse = some n) (hleaf : n.isLeafNode = false)
    (hi : i ≤ n.nodeCount) :
    (TreeCursor.riseUntilAvailableLoop rootNode i below = [] ∧
        pendingFrom rootNode (i :: below) = []) ∨
      ∃ i' rest s, TreeCursor.riseUntilAvailableLoop rootNode i below = i' :: rest ∧
        ConstTreeIterator.delveDown (TreeCursor.framesOf rootNode (i' :: rest)) = some s ∧
        ∃ t' below' l', s.map (fun f => f.index) = t' :: below' ∧
          rootNode.nodeAt below'.reverse = some l' ∧ l'.isLeafNode = true ∧
          l' :: rootNode.leavesAfter below'.reverse = pendingFrom rootNode (i :: below) := by
  obtain ⟨hp, hcase⟩ := TreeCursor.riseUntilAvailableLoop_spec rootNode below i n hn hleaf hi
  rcases hcase with hnil | ⟨i', rest, n', hr, hn', hleaf', hi'⟩
  · left
    rw [hnil] at hp
    exact ⟨hnil, by rw [← hp]; rfl⟩
  · right
    obtain ⟨s, hs, t', below', l', h1, h2, h3, h4⟩ :=
      TreeIterator.delveDown_pending rootNode i' rest n' hb hh hn' (fun _ => hi')
    rw [hr] at hp
    exact ⟨i', rest, s, hr, hs, t', below', l', h1, h2, h3, by rw [h4, hp]⟩

theorem drop_eraseIdx_self {α : Type} (l : List α) (i : Nat) :
    (l.eraseIdx i).drop i = l.drop (i + 1) := by
  induction l generalizing i with
  | nil => simp
  | cons a as ih =>
    cases i with
    | zero => simp
    | succ j => simp [ih j]

theorem TreeNode.branchesTwo_nodeAt (q : List Nat) :
    ∀ (t target : TreeNode), t.branchesTwo = true → t.nodeAt q = some target →
      target.branchesTwo = true := by
  induction q with
  | nil =>
    intro t target h hn
    rw [nodeAt_nil] at hn
    cases hn
    exact h
  | cons j q ih =>
    intro t target h hn
    obtain ⟨b, subs, g, c, rfl, hc, hn'⟩ := nodeAt_cons_eq_some hn
    rw [branchesTwo_node_iff] at h
    exact ih c target (h.2 c (List.getElem?_mem hc)) hn'

theorem TreeNode.leaves_eq_ite (t : TreeNode) :
    (if t.isLeafNode then [t] else leavesList (t.subTrees.drop 0)) = leaves t := by
  cases t <;> simp [isLeafNode, leaves, subTrees]

/-- The stack `NodeStack::remove()` leaves, spelled out. -/
theorem TreeCursor.remove_eq (rootNode : TreeNode) (t i : Nat) (below : List Nat)
    (parent d : TreeNode) (hp : rootNode.nodeAt below.reverse = some parent)
    (hc : parent.child? i = some d) (hnc : parent.nodeCount ≠ 1) :
    TreeCursor.remove ⟨rootNode, t :: i :: below⟩ =
      some (d, ⟨removedAt rootNode below.reverse i,
        if parent.nodeCount = 2 then
          if i = 0 then 0 :: below
          else TreeCursor.relocatePast (removedAt rootNode below.reverse i) below
        else TreeCursor.riseUntilAvailableLoop (removedAt rootNode below.reverse i) i below⟩) := by
  have hd : rootNode.nodeAt (i :: below).reverse = some d := by
    rw [List.reverse_cons, nodeAt_append, hp]
    simp only [Option.some_bind, nodeAt, hc, nodeAt_nil]
  cases below with
  | nil =>
    rw [List.reverse_nil, nodeAt_nil] at hp
    cases hp
    simp only [TreeCursor.remove, hd, TreeCursor.removeFrom, hc, TreeCursor.detach, removedAt,
      decide_eq_true_eq]
    rfl
  | cons j rest =>
    simp only [TreeCursor.remove, hd, TreeCursor.removeFrom, hp, hc, hnc, if_false,
      TreeCursor.detach, removedAt, decide_eq_true_eq]
    rfl

/-- Past a node all of whose leaves have been visited: nothing is left and the stack
is exhausted, or the descent stops at the first of the leaves after the node. -/
theorem TreeIterator.relocatePast_delveDown (rootNode : TreeNode) (below : List Nat)
    (n : TreeNode) (hb : rootNode.branchesOk = true) (hh : rootNode.height ≤ MAX_HEIGHT)
    (hn : rootNode.nodeAt below.reverse = some n) :
    (TreeCursor.relocatePast rootNode below = [] ∧ rootNode.leavesAfter below.reverse = []) ∨
      ∃ i' rest s, TreeCursor.relocatePast rootNode below = i' :: rest ∧
        ConstTreeIterator.delveDown (TreeCursor.framesOf rootNode (i' :: rest)) = some s ∧
        ∃ t' below' l', s.map (fun f => f.index) = t' :: below' ∧
          rootNode.nodeAt below'.reverse = some l' ∧ l'.isLeafNode = true ∧
          l' :: rootNode.leavesAfter below'.reverse = rootNode.leavesAfter below.reverse := by
  cases below with
  | nil => exact Or.inl ⟨rfl, by simp [leavesAfter]⟩
  | cons j rest =>
    rw [List.reverse_cons] at hn ⊢
    obtain ⟨gp, hgp, hgc⟩ := nodeAt_concat_eq_some hn
    obtain ⟨bg, subsg, gg, rfl, hsg⟩ := eq_node_of_child? hgc
    have hj : j < subsg.length := (List.getElem?_eq_some.1 hsg).1
    have hpend : pendingFrom rootNode ((j + 1) :: rest) =
        rootNode.leavesAfter (rest.reverse ++ [j]) := by
      rw [pendingFrom_cons _ (j + 1) rest _ hgp, leavesAfter_concat rest.reverse _ _ _ j hgp hgc]
      simp [isLeafNode]
    simp only [TreeCursor.relocatePast]
    rcases TreeIterator.rise_delveDown _ (j + 1) rest _ hb hh hgp rfl
        (by simp only [nodeCount]; omega) with
      ⟨hnil, hpnil⟩ | ⟨i', rest', s, hr, hs', t', below', l', e1, e2, e3, e4⟩
    · exact Or.inl ⟨hnil, by rw [← hpend, hpnil]⟩
    · exact Or.inr ⟨i', rest', s, hr, hs', t', below', l', e1, e2, e3, by rw [e4, hpend]⟩

/-- The method `remove()` of the iterator, from a leaf other than the root of a tree
whose internal nodes have between two and `MAX_BRANCHES` children: the leaf is
detached, and the iterator is exhausted when no leaf came after it and otherwise
stands at the leaf that came next. -/
theorem TreeIterator.remove_next (rootNode : TreeNode) (t i : Nat) (below : List Nat)
    (l : TreeNode) (h2 : rootNode.branchesTwo = true) (h4 : rootNode.branchesBounded = true)
    (hh : rootNode.height ≤ MAX_HEIGHT) (hl : rootNode.nodeAt (i :: below).reverse = some l) :
    ∃ c', TreeIterator.remove ⟨rootNode, t :: i :: below⟩ = some (l, c') ∧
      c'.rootNode = removedAt rootNode below.reverse i ∧
      ((c'.indices = [] ∧ rootNode.leavesAfter (i :: below).reverse = []) ∨
       ∃ t' below' l', c'.indices = t' :: below' ∧ c'.rootNode.nodeAt below'.reverse = some l' ∧
         l'.isLeafNode = true ∧
         (l' :: c'.rootNode.leavesAfter below'.reverse).map object =
           (rootNode.leavesAfter (i :: below).reverse).map object) := by
  rw [List.reverse_cons] at hl ⊢
  obtain ⟨parent, hp, hc⟩ := nodeAt_concat_eq_some hl
  obtain ⟨b, subs, g, rfl, hs⟩ := eq_node_of_child? hc
  have hi : i < subs.length := (List.getElem?_eq_some.1 hs).1
  have hp2 := branchesTwo_nodeAt _ rootNode _ h2 hp
  rw [branchesTwo_node_iff] at hp2
  have hb' : (removedAt rootNode below.reverse i).branchesOk = true :=
    branchesOk_of_branchesTwo _ (branchesTwo_removedAt rootNode _ i h2)
      (branchesBounded_removedAt rootNode _ i h4)
  have hh' : (removedAt rootNode below.reverse i).height ≤ MAX_HEIGHT :=
    le_trans (height_removedAt_le rootNode _ i) hh
  have hp' : (removedAt rootNode below.reverse i).nodeAt below.reverse =
      some (recalculateBoundsFromSubBounds ((TreeNode.node b subs g).withoutChild i)) :=
    nodeAt_modifyPath_recalculate _ below.reverse rootNode _ hp
  have hafter : (removedAt rootNode below.reverse i).leavesAfter below.reverse =
      rootNode.leavesAfter below.reverse := leavesAfter_modifyPath _ below.reverse rootNode
  have hA := leavesAfter_concat below.reverse rootNode _ l i hp hc
  rw [subTrees_node] at hA
  rw [TreeIterator.remove, TreeCursor.remove_eq rootNode t i below _ l hp hc
    (by simp only [nodeCount]; omega)]
  simp only [nodeCount]
  by_cases hlen : subs.length = 2
  · -- the parent is left with one child and collapsed
    simp only [hlen, if_true]
    obtain ⟨x, y, rfl⟩ : ∃ x y, subs = [x, y] := by
      match subs, hlen with
      | [x, y], _ => exact ⟨x, y, rfl⟩
    by_cases hi0 : i = 0
    · subst hi0
      simp only [List.getElem?_cons_zero, Option.some.injEq] at hs
      subst hs
      simp only [if_true]
      have hwc : (TreeNode.node b [x, y] g).withoutChild 0 = y.setGroupHead (g || y.isGroupHead) := by
        simp [withoutChild]
      rw [hwc] at hp'
      have hbn := branchesOk_nodeAt _ _ _ hb' hp'
      obtain ⟨s, hs', t', below', l', e1, e2, e3, e4⟩ :=
        TreeIterator.delveDown_pending _ 0 below _ hb' hh' hp' (by
          intro hleaf
          cases hn : (y.setGroupHead (g || y.isGroupHead)).recalculateBoundsFromSubBounds with
          | leaf b' o' g' => rw [hn] at hleaf; simp [isLeafNode] at hleaf
          | node b' subs' g' =>
            rw [hn] at hbn
            simp only [branchesOk, Bool.and_eq_true, decide_eq_true_eq] at hbn
            simp only [nodeCount]
            omega)
      simp only [TreeCursor.frames, hs']
      refine ⟨_, rfl, rfl, Or.inr ⟨t', below', l', ?_, e2, e3, ?_⟩⟩
      · simpa [TreeIterator.ofFrames] using e1
      · simp only [TreeIterator.ofFrames]
        rw [e4, pendingFrom_cons _ 0 below _ hp', leaves_eq_ite, hafter, hA,
          leaves_recalculateBoundsFromSubBounds]
        simp [leavesList, leaves_setGroupHead]
    · have hi1 : i = 1 := by
        simp only [List.length_cons, List.length_nil] at hi
        omega
      subst hi1
      simp only [List.getElem?_cons_succ, List.getElem?_cons_zero, Option.some.injEq] at hs
      subst hs
      simp only [Nat.one_ne_zero, if_false]
      have hA' : rootNode.leavesAfter (below.reverse ++ [1]) = rootNode.leavesAfter below.reverse := by
        rw [hA]; simp [leavesList]
      rcases TreeIterator.relocatePast_delveDown _ below _ hb' hh' hp' with
        ⟨hnil, hpnil⟩ | ⟨i', rest', s, hr, hs', t', below', l', e1, e2, e3, e4⟩
      · rw [hnil]
        refine ⟨_, rfl, rfl, Or.inl ⟨rfl, ?_⟩⟩
        rw [hA', ← hafter, hpnil]
      · rw [hr]
        simp only [TreeCursor.frames, hs']
        refine ⟨_, rfl, rfl, Or.inr ⟨t', below', l', ?_, e2, e3, ?_⟩⟩
        · simpa [TreeIterator.ofFrames] using e1
        · simp only [TreeIterator.ofFrames]
          rw [e4, hA', hafter]
  · -- the parent keeps two children or more
    simp only [hlen, if_false]
    have hwc : ∃ b', recalculateBoundsFromSubBounds ((TreeNode.node b subs g).withoutChild i) =
        .node b' (subs.eraseIdx i) g := by
      simp only [withoutChild]
      split
      · next r hr =>
        have := congrArg List.length hr
        rw [List.length_eraseIdx] at this
        simp only [hi, if_true, List.length_singleton] at this
        omega
      · exact recalculateBoundsFromSubBounds_node b _ g
    obtain ⟨b', hb''⟩ := hwc
    rw [hb''] at hp'
    have hpend : pendingFrom (removedAt rootNode below.reverse i) (i :: below) =
        rootNode.leavesAfter (below.reverse ++ [i]) := by
      rw [hA, ← hafter, pendingFrom_cons _ i below _ hp']
      simp [isLeafNode, subTrees, drop_eraseIdx_self]
    rcases TreeIterator.rise_delveDown _ i below _ hb' hh' hp' rfl
        (by simp only [nodeCount, List.length_eraseIdx, hi, if_true]; omega) with
      ⟨hnil, hpnil⟩ | ⟨i', rest', s, hr, hs', t', below', l', e1, e2, e3, e4⟩
    · rw [hnil]
      refine ⟨_, rfl, rfl, Or.inl ⟨rfl, ?_⟩⟩
      rw [← hpend, hpnil]
    · rw [hr]
      simp only [TreeCursor.frames, hs']
      refine ⟨_, rfl, rfl, Or.inr ⟨t', below', l', ?_, e2, e3, ?_⟩⟩
      · simpa [TreeIterator.ofFrames] using e1
      · simp only [TreeIterator.ofFrames]
        rw [e4, hpend]

/-! ### The loop of `splitPhysical` -/

theorem splitLoop_nil (belongs : Nat → Bool) (fuel : Nat) (rootNode newNode : TreeNode) :
    splitLoop belongs fuel ⟨rootNode, []⟩ newNode = some (rootNode, newNode) := by
  cases fuel <;> rfl

theorem countP_object_of_map_eq (belongs : Nat → Bool) (xs ys : List TreeNode)
    (h : xs.map object = ys.map object) :
    xs.countP (fun x => belongs x.object) = ys.countP (fun x => belongs x.object) := by
  have h1 := List.countP_map belongs object xs
  have h2 := List.countP_map belongs object ys
  rw [h] at h1
  have : (belongs ∘ object) = (fun x : TreeNode => belongs x.object) := rfl
  rw [this] at h1 h2
  rw [← h1, ← h2]

theorem TreeNode.countLeaves_of_isLeafNode (p : Nat → Bool) (l : TreeNode)
    (h : l.isLeafNode = true) : countLeaves p l = if p l.object = true then 1 else 0 := by
  cases l with
  | leaf b o g => exact countLeaves_leaf p b o g
  | node b subs g => simp [isLeafNode] at h

/-- The loop of `splitPhysical`, started at a leaf of a tree whose internal nodes have
between two and `MAX_BRANCHES` children, that fits the stack and holds a part of
another physical, with every leaf that belongs to the new physical still to come: the
loop ends, no leaf is lost or made, no leaf that belongs to the new physical stays,
and none that does not is moved.  `J` and `K` are kept by the removals and by the
calls of `addInside`. -/
theorem splitLoop_spec (belongs : Nat → Bool) (J K L : TreeNode → Prop)
    (hJ : ∀ (rootNode : TreeNode) (q : List Nat) (i : Nat) (l : TreeNode), J rootNode →
      rootNode.nodeAt (q ++ [i]) = some l → l.isLeafNode = true →
      J (removedAt rootNode q i) ∧ L l)
    (hK : ∀ newNode l : TreeNode, K newNode → L l → l.isLeafNode = true →
      K (newNode.addInside l))
    (fuel : Nat) :
    ∀ (rootNode : TreeNode) (t : Nat) (below : List Nat) (l newNode : TreeNode),
      rootNode.branchesTwo = true → rootNode.branchesBounded = true →
      rootNode.height ≤ MAX_HEIGHT → rootNode.nodeAt below.reverse = some l →
      l.isLeafNode = true → 0 < countLeaves (fun o => !belongs o) rootNode →
      countLeaves belongs rootNode ≤
        (l :: rootNode.leavesAfter below.reverse).countP (fun x => belongs x.object) →
      (l :: rootNode.leavesAfter below.reverse).length ≤ fuel → J rootNode → K newNode →
      ∃ node' newNode', splitLoop belongs fuel ⟨rootNode, t :: below⟩ newNode =
          some (node', newNode') ∧
        (∀ p, countLeaves p node' + countLeaves p newNode' =
          countLeaves p rootNode + countLeaves p newNode) ∧
        countLeaves belongs node' = 0 ∧
        (∀ p : Nat → Bool, countLeaves (fun o => p o && !belongs o) newNode' =
          countLeaves (fun o => p o && !belongs o) newNode) ∧
        node'.branchesTwo = true ∧ node'.branchesBounded = true ∧
        node'.height ≤ rootNode.height ∧ J node' ∧ K newNode' := by
  induction fuel with
  | zero =>
    intro rootNode t below l newNode _ _ _ _ _ _ _ hfuel
    simp at hfuel
  | succ fuel ih =>
    intro rootNode t below l newNode h2 h4 hh hl hleaf hother hpend hfuel hj hk
    have htop : (⟨rootNode, t :: below⟩ : TreeCursor).topNode? = some l := by
      simp [TreeCursor.topNode?, hl]
    simp only [splitLoop, htop, hleaf, Bool.not_true, Bool.false_eq_true, if_false]
    by_cases hbel : belongs l.object = true
    · -- the leaf belongs to the new physical: it is removed
      simp only [hbel, if_true]
      cases below with
      | nil =>
        simp only [List.reverse_nil, nodeAt_nil, Option.some.injEq] at hl
        subst hl
        rw [countLeaves_of_isLeafNode _ _ hleaf] at hother
        simp [hbel] at hother
      | cons i below =>
        obtain ⟨c', hrem, hroot, hcase⟩ :=
          TreeIterator.remove_next rootNode t i below l h2 h4 hh hl
        have hl' := hl
        rw [List.reverse_cons] at hl'
        have hcount := fun p => countLeaves_removedAt p rootNode below.reverse i l hl'
        have hadd := fun p => countLeaves_addInside p newNode l
        have hlp := fun p => countLeaves_of_isLeafNode p l hleaf
        obtain ⟨hj', hL⟩ := hJ rootNode below.reverse i l hj hl' hleaf
        have hk' := hK newNode l hk hL hleaf
        have h2' := branchesTwo_removedAt rootNode below.reverse i h2
        have h4' := branchesBounded_removedAt rootNode below.reverse i h4
        have hh' := height_removedAt_le rootNode below.reverse i
        obtain ⟨S', indices'⟩ := c'
        simp only at hroot
        subst hroot
        simp only [hrem]
        have hbelneg : (!belongs l.object) = false := by simp [hbel]
        have hpend' : countLeaves belongs rootNode ≤
            (rootNode.leavesAfter (i :: below).reverse).countP (fun x => belongs x.object) + 1 := by
          simpa [List.countP_cons, hbel] using hpend
        have hnonmatch : ∀ p : Nat → Bool,
            countLeaves (fun o => p o && !belongs o) (newNode.addInside l) =
              countLeaves (fun o => p o && !belongs o) newNode := by
          intro p
          rw [hadd, hlp]
          simp [hbel]
        rcases hcase with ⟨hnil, hafter⟩ | ⟨t', below', l', hind, hl2, hleaf2, hobj⟩
        · simp only at hnil
          subst hnil
          rw [splitLoop_nil]
          refine ⟨_, _, rfl, ?_, ?_, hnonmatch, h2', h4', hh', hj', hk'⟩
          · intro p
            have := hcount p
            rw [hadd p]
            omega
          · have := hcount belongs
            rw [hlp] at this
            rw [hafter] at hpend'
            simp only [hbel, if_true, List.countP_nil] at this hpend'
            omega
        · simp only at hind hl2 hobj
          subst hind
          have hlen := congrArg List.length hobj
          simp only [List.length_map, List.length_cons] at hlen
          have hcp := countP_object_of_map_eq belongs _ _ hobj
          obtain ⟨node', newNode', e1, e2, e3, e4, e5, e6, e7, e8, e9⟩ :=
            ih (removedAt rootNode below.reverse i) t' below' l' (newNode.addInside l) h2' h4'
              (le_trans hh' hh) hl2 hleaf2
              (by
                have := hcount (fun o => !belongs o)
                rw [hlp] at this
                simp only [hbelneg, Bool.false_eq_true, if_false] at this
                omega)
              (by
                have := hcount belongs
                rw [hlp] at this
                simp only [hbel, if_true] at this
                rw [hcp]
                omega)
              (by
                simp only [List.length_cons] at hfuel ⊢
                omega)
              hj' hk'
          refine ⟨node', newNode', e1, ?_, e3, ?_, e5, e6, le_trans e7 hh', e8, e9⟩
          · intro p
            have := hcount p
            have := e2 p
            have := hadd p
            omega
          · intro p
            rw [e4 p, hnonmatch p]
    · -- the leaf belongs to another physical: the iterator moves on
      have hbel' : belongs l.object = false := by simpa using hbel
      have hpend' : countLeaves belongs rootNode ≤
          (rootNode.leavesAfter below.reverse).countP (fun x => belongs x.object) := by
        simpa [List.countP_cons, hbel'] using hpend
      simp only [hbel', Bool.false_eq_true, if_false]
      have hb := branchesOk_of_branchesTwo _ h2 h4
      obtain ⟨c', hinc, hroot, hcase⟩ := TreeIterator.increment_next rootNode t below l hb hh hl
      obtain ⟨S', indices'⟩ := c'
      simp only at hroot
      subst hroot
      simp only [hinc]
      rcases hcase with ⟨hnil, hafter⟩ | ⟨t', below', l', hind, hl2, hleaf2, hrest⟩
      · simp only at hnil
        subst hnil
        rw [splitLoop_nil]
        refine ⟨_, _, rfl, fun p => rfl, ?_, fun p => rfl, h2, h4, le_refl _, hj, hk⟩
        rw [hafter] at hpend'
        simpa using hpend'
      · simp only at hind
        subst hind
        obtain ⟨node', newNode', e1, e2, e3, e4, e5, e6, e7, e8, e9⟩ :=
          ih S' t' below' l' newNode h2 h4 hh hl2 hleaf2 hother
            (by rw [← hrest]; exact hpend')
            (by
              rw [← hrest]
              simp only [List.length_cons] at hfuel
              omega)
            hj hk
        exact ⟨node', newNode', e1, e2, e3, e4, e5, e6, e7, e8, e9⟩

/-! ### The split of a group -/

theorem TreeNode.countLeaves_split (p belongs : Nat → Bool) (t : TreeNode) :
    countLeaves p t =
      countLeaves (fun o => p o && belongs o) t + countLeaves (fun o => p o && !belongs o) t := by
  simp only [countLeaves]
  induction leaves t with
  | nil => rfl
  | cons a as ih =>
    simp only [List.countP_cons, ih]
    cases p a.object <;> cases belongs a.object <;> simp <;> omega

theorem TreeNode.countLeaves_and_eq_zero (p belongs : Nat → Bool) (t : TreeNode)
    (h : countLeaves belongs t = 0) : countLeaves (fun o => p o && belongs o) t = 0 := by
  simp only [countLeaves, List.countP_eq_zero] at h ⊢
  intro a ha
  have := h a ha
  simp only [Bool.not_eq_true] at this
  simp [this]

/-- The node at the start of the second part of a path after a rewriting along the
whole path, with the bounds of the ancestors recomputed. -/
theorem TreeNode.nodeAt_modifyPath_append (f : TreeNode → TreeNode) (q1 q2 : List Nat) :
    ∀ (t n : TreeNode), t.nodeAt q1 = some n →
      (t.modifyPath f recalculateBoundsFromSubBounds (q1 ++ q2)).nodeAt q1 =
        some (n.modifyPath f recalculateBoundsFromSubBounds q2) := by
  induction q1 with
  | nil =>
    intro t n h
    rw [nodeAt_nil] at h
    cases h
    simp [nodeAt_nil]
  | cons j q ih =>
    intro t n h
    obtain ⟨b, subs, g, c, rfl, hc, hn⟩ := nodeAt_cons_eq_some h
    have hj : j < subs.length := (List.getElem?_eq_some.1 hc).1
    simp only [List.cons_append, modifyPath, hc, nodeAt_recalculateBoundsFromSubBounds_cons]
    simp only [nodeAt, child?, subTrees_node]
    simp [hj]
    exact ih c n hn

/-- On the way from the root to a leaf of a tree that has one group head on every
path there is a group head. -/
theorem TreeNode.exists_head_prefix (p : List Nat) :
    ∀ (t : TreeNode) (b : Bounds) (o : Nat) (g : Bool), headsOk 0 t = true →
      t.nodeAt p = some (.leaf b o g) →
      ∃ q r n, p = q ++ r ∧ t.nodeAt q = some n ∧ n.isGroupHead = true := by
  induction p with
  | nil =>
    intro t b o g ht hn
    rw [nodeAt_nil] at hn
    cases hn
    simp only [headsOk, decide_eq_true_eq] at ht
    refine ⟨[], [], .leaf b o g, rfl, nodeAt_nil _, ?_⟩
    cases g <;> simp_all [isGroupHead]
  | cons j p ih =>
    intro t b o g ht hn
    obtain ⟨b', subs, g', c, rfl, hc, hn'⟩ := nodeAt_cons_eq_some hn
    cases g' with
    | true => exact ⟨[], j :: p, _, rfl, nodeAt_nil _, rfl⟩
    | false =>
      simp only [headsOk, headsOkList_iff, Bool.toNat_false, Nat.add_zero] at ht
      obtain ⟨q, r, n, h1, h2, h3⟩ := ih c b o g (ht c (List.getElem?_mem hc)) hn'
      exact ⟨j :: q, r, n, by simp [h1], by rw [nodeAt_cons_node b' subs false j q c hc]; exact h2, h3⟩

/-- The ascent to the group head finds one when the frames of the stack lead to a
node below a group head or to a group head. -/
theorem TreeCursor.riseUntilGroupHeadLoop_isSome (rootNode : TreeNode) (indices : List Nat) :
    ∀ x : TreeNode, indices ≠ [] → rootNode.nodeAt indices.tail.reverse = some x →
      (∃ q r n, indices.tail.reverse = q ++ r ∧ rootNode.nodeAt q = some n ∧
        n.isGroupHead = true) →
      ∃ result, TreeCursor.riseUntilGroupHeadLoop rootNode indices = some result := by
  induction indices with
  | nil => intro x h; exact absurd rfl h
  | cons i below ih =>
    intro x _ hx ⟨q, r, n, hqr, hn, hg⟩
    simp only [List.tail_cons] at hx hqr
    simp only [TreeCursor.riseUntilGroupHeadLoop, hx]
    by_cases hxg : x.isGroupHead = true
    · exact ⟨i :: below, by simp [hxg]⟩
    · simp only [hxg, Bool.false_eq_true, if_false]
      have hr : r ≠ [] := by
        rintro rfl
        rw [List.append_nil] at hqr
        rw [hqr, hn] at hx
        cases hx
        exact hxg hg
      cases below with
      | nil =>
        simp only [List.reverse_nil] at hqr
        have := List.append_eq_nil.1 hqr.symm
        exact absurd this.2 hr
      | cons j rest =>
        rcases List.eq_nil_or_concat r with rfl | ⟨r', k, rfl⟩
        · exact absurd rfl hr
        · rw [List.concat_eq_append, List.reverse_cons, ← List.append_assoc] at hqr
          have hsplit := List.append_inj' hqr (by simp)
          rw [List.reverse_cons] at hx
          obtain ⟨parent, hparent, _⟩ := nodeAt_concat_eq_some hx
          exact ih parent (by simp) (by simpa using hparent)
            ⟨q, r', n, by simpa using hsplit.1, hn, hg⟩

theorem TreeNode.countLeaves_nodeAt_le (p : Nat → Bool) (q : List Nat) :
    ∀ (t n : TreeNode), t.nodeAt q = some n → countLeaves p n ≤ countLeaves p t := by
  induction q with
  | nil =>
    intro t n h
    rw [nodeAt_nil] at h
    cases h
    exact le_refl _
  | cons j q ih =>
    intro t n h
    obtain ⟨b, subs, g, c, rfl, hc, hn⟩ := nodeAt_cons_eq_some h
    have h1 := ih c n hn
    have h2 := le_sum_map_of_getElem? (countLeaves p) subs j c hc
    rw [countLeaves_node]
    omega

theorem TreeNode.branchesBounded_nodeAt (q : List Nat) :
    ∀ (t target : TreeNode), t.branchesBounded = true → t.nodeAt q = some target →
      target.branchesBounded = true := by
  induction q with
  | nil =>
    intro t target h hn
    rw [nodeAt_nil] at hn
    cases hn
    exact h
  | cons j q ih =>
    intro t target h hn
    obtain ⟨b, subs, g, c, rfl, hc, hn'⟩ := nodeAt_cons_eq_some hn
    rw [branchesBounded_node_iff] at h
    exact ih c target (h.2 c (List.getElem?_mem hc)) hn'

/-- The iterator over a well-formed tree starts at the first leaf, with every leaf
still to visit. -/
theorem TreeIterator.new_first (rootNode : TreeNode) (hb : rootNode.branchesOk = true)
    (hh : rootNode.height ≤ MAX_HEIGHT) :
    ∃ t below l, TreeIterator.new rootNode = some ⟨rootNode, t :: below⟩ ∧
      rootNode.nodeAt below.reverse = some l ∧ l.isLeafNode = true ∧
      l :: rootNode.leavesAfter below.reverse = leaves rootNode := by
  have hcount : rootNode.nodeCount ≠ 0 := by
    cases rootNode with
    | leaf b o g => simp [nodeCount, LEAF_NODE_SIGNIFIER]
    | node b subs g =>
      simp only [branchesOk, Bool.and_eq_true, decide_eq_true_eq] at hb
      simp only [nodeCount]
      omega
  obtain ⟨s, hs, t, below, l, e1, e2, e3, e4⟩ :=
    TreeIterator.delveDown_pending rootNode 0 [] rootNode hb hh (nodeAt_nil _)
      (fun _ => Nat.pos_of_ne_zero hcount)
  refine ⟨t, below, l, ?_, e2, e3, ?_⟩
  · have hframes : TreeCursor.framesOf rootNode [0] = [⟨rootNode, 0⟩] := by
      simp [TreeCursor.framesOf, nodeAt_nil]
    rw [hframes] at hs
    simp [TreeIterator.new, ConstTreeIterator.new, hcount, NodeStack.ofRoot, hs,
      TreeIterator.ofFrames, e1]
  · rw [e4, pendingFrom_cons rootNode 0 [] rootNode (nodeAt_nil _), leaves_eq_ite]
    simp [leavesAfter]

/-- Below a group head, in a tree with one group head on every path, no leaf is
marked as a group head. -/
theorem TreeNode.leaf_not_head_below (r : List Nat) :
    ∀ (t : TreeNode) (k : Nat) (b : Bounds) (o : Nat) (g : Bool), headsOk k t = true → 1 ≤ k →
      t.nodeAt r = some (.leaf b o g) → g = false := by
  induction r with
  | nil =>
    intro t k b o g ht hk hn
    rw [nodeAt_nil] at hn
    cases hn
    simp only [headsOk, decide_eq_true_eq] at ht
    cases g with
    | false => rfl
    | true => simp at ht; omega
  | cons j r ih =>
    intro t k b o g ht hk hn
    obtain ⟨b', subs, g', c, rfl, hc, hn'⟩ := nodeAt_cons_eq_some hn
    simp only [headsOk, headsOkList_iff] at ht
    exact ih c (k + g'.toNat) b o g (ht c (List.getElem?_mem hc)) (by omega) hn'

theorem TreeNode.isGroupHead_recalculateBoundsFromSubBounds (t : TreeNode) :
    t.recalculateBoundsFromSubBounds.isGroupHead = t.isGroupHead := by
  cases t with
  | leaf b o g => rfl
  | node b subs g =>
    obtain ⟨b', hb'⟩ := recalculateBoundsFromSubBounds_node b subs g
    rw [hb']
    rfl

theorem TreeNode.isGroupHead_setGroupHead (t : TreeNode) (g : Bool) :
    (t.setGroupHead g).isGroupHead = g := by
  cases t <;> rfl

theorem TreeNode.isGroupHead_withoutChild (t : TreeNode) (i : Nat) (h : t.isGroupHead = true) :
    (t.withoutChild i).isGroupHead = true := by
  cases t with
  | leaf b o g => exact h
  | node b subs g =>
    simp only [isGroupHead] at h
    subst h
    simp only [withoutChild]
    split
    · simp [isGroupHead_setGroupHead]
    · rfl

theorem TreeNode.isGroupHead_modifyPath (atTarget : TreeNode → TreeNode)
    (htarget : ∀ n, n.isGroupHead = true → (atTarget n).isGroupHead = true) (q : List Nat)
    (t : TreeNode) (h : t.isGroupHead = true) :
    (t.modifyPath atTarget recalculateBoundsFromSubBounds q).isGroupHead = true := by
  cases q with
  | nil => cases t <;> exact htarget _ h
  | cons j q =>
    cases t with
    | leaf b o g => exact h
    | node b subs g =>
      cases hc : subs[j]? with
      | none => simpa [modifyPath, hc] using h
      | some c =>
        simp only [modifyPath, hc, isGroupHead_recalculateBoundsFromSubBounds]
        exact h

theorem isGroupHead_removedAt (rootNode : TreeNode) (q : List Nat) (i : Nat)
    (h : rootNode.isGroupHead = true) : (removedAt rootNode q i).isGroupHead = true := by
  apply isGroupHead_modifyPath _ _ q rootNode h
  intro n hn
  rw [isGroupHead_recalculateBoundsFromSubBounds]
  exact isGroupHead_withoutChild n i hn

theorem TreeNode.isGroupHead_addInside (t newNode : TreeNode) :
    (t.addInside newNode).isGroupHead = t.isGroupHead := by
  cases t with
  | leaf b o g => rfl
  | node b subs g =>
    simp only [addInside]
    split <;> rfl

/-- The loop of `splitPhysical` over a group that holds a part of another physical:
it ends, the parts of the new physical and no others are moved to the new node, each
once, and both the group and the new node are left as valid groups. -/
theorem splitLoop_group (belongs : Nat → Bool) (fuel : Nat) (group : TreeNode) (b0 : Bounds)
    (m : Nat) (h2 : group.branchesTwo = true) (h4 : group.branchesBounded = true)
    (hh : group.height ≤ MAX_HEIGHT) (hheads : headsOk 0 group = true)
    (hhead : group.isGroupHead = true) (hcons : group.boundsConsistent = true)
    (hother : 0 < countLeaves (fun o => !belongs o) group)
    (hfuel : (leaves group).length ≤ fuel) :
    ∃ iter node' newNode', TreeIterator.new group = some iter ∧
      splitLoop belongs fuel iter (.leaf b0 m true) = some (node', newNode') ∧
      (∀ p, countLeaves p node' + countLeaves p newNode' =
        countLeaves p group + countLeaves p (.leaf b0 m true)) ∧
      countLeaves belongs node' = 0 ∧
      (∀ p : Nat → Bool, countLeaves (fun o => p o && !belongs o) newNode' =
        countLeaves (fun o => p o && !belongs o) (.leaf b0 m true)) ∧
      node'.branchesTwo = true ∧ node'.branchesBounded = true ∧ node'.height ≤ group.height ∧
      (headsOk 0 node' = true ∧ node'.isGroupHead = true ∧ node'.boundsConsistent = true) ∧
      (headsOk 0 newNode' = true ∧ newNode'.isGroupHead = true ∧
        newNode'.boundsConsistent = true ∧ newNode'.branchesTwo = true) := by
  obtain ⟨t, below, l, hnew, hl, hleaf, hall⟩ :=
    TreeIterator.new_first group (branchesOk_of_branchesTwo _ h2 h4) hh
  have hspec := splitLoop_spec belongs
    (fun n => headsOk 0 n = true ∧ n.isGroupHead = true ∧ n.boundsConsistent = true)
    (fun n => headsOk 0 n = true ∧ n.isGroupHead = true ∧ n.boundsConsistent = true ∧
      n.branchesTwo = true)
    (fun l => l.isGroupHead = false)
    (by
      intro rootNode q i l ⟨j1, j2, j3⟩ hn hleaf
      refine ⟨⟨headsOk_removedAt rootNode q i j1, isGroupHead_removedAt rootNode q i j2,
        boundsConsistent_removedAt rootNode q i j3⟩, ?_⟩
      cases l with
      | node b subs g => simp [isLeafNode] at hleaf
      | leaf b o g =>
        cases hq : q ++ [i] with
        | nil => simp at hq
        | cons j r =>
          rw [hq] at hn
          obtain ⟨b', subs, g', c, rfl, hc, hn'⟩ := nodeAt_cons_eq_some hn
          simp only [isGroupHead] at j2
          subst j2
          simp only [headsOk, headsOkList_iff, Bool.toNat_true, Nat.zero_add] at j1
          exact leaf_not_head_below r c 1 b o g (j1 c (List.getElem?_mem hc)) (le_refl _) hn')
    (by
      intro newNode l ⟨k1, k2, k3, k4⟩ hL hleaf
      cases l with
      | node b subs g => simp [isLeafNode] at hleaf
      | leaf b o g =>
        simp only [isGroupHead] at hL
        subst hL
        exact ⟨headsOk_addInside newNode b o k2 k1, by rw [isGroupHead_addInside]; exact k2,
          boundsConsistent_addInside newNode _ rfl (hasChildren_of_branchesTwo _ k4) k3,
          branchesTwo_addInside newNode _ rfl k4⟩)
    fuel group t below l (.leaf b0 m true) h2 h4 hh hl hleaf hother
    (by rw [hall]; exact le_refl _) (by rw [hall]; exact hfuel) ⟨hheads, hhead, hcons⟩
    ⟨rfl, rfl, rfl, rfl⟩
  obtain ⟨node', newNode', e1, e2, e3, e4, e5, e6, e7, e8, e9⟩ := hspec
  exact ⟨_, node', newNode', hnew, e1, e2, e3, e4, e5, e6, e7, e8, e9⟩

/-- The stack `findGroupFor` returns in a tree with one group head on every path:
its top frame is a group head on the way to the leaf the search found, and it is the
leaf itself exactly when the leaf is marked as a group head. -/
theorem BoundsTree.findGroupFor_of_find (rootNode : TreeNode) (m : Nat) (hint : Bounds)
    (p : List Nat) (b0 : Bounds) (g0 : Bool) (hheads : headsOk 0 rootNode = true)
    (hf : TreeCursor.find rootNode m hint = .ok ⟨rootNode, 0 :: p.reverse⟩)
    (hn : rootNode.nodeAt p = some (.leaf b0 m g0)) :
    ∃ k gp r group, BoundsTree.findGroupFor ⟨rootNode⟩ m hint = .ok ⟨rootNode, k :: gp.reverse⟩ ∧
      p = gp ++ r ∧ rootNode.nodeAt gp = some group ∧ group.isGroupHead = true ∧
      (g0 = true → r = []) ∧ (g0 = false → r ≠ []) := by
  cases g0 with
  | true =>
    refine ⟨0, p, [], _, ?_, by simp, hn, rfl, ⟨fun _ => rfl, fun h => Bool.noConfusion h⟩⟩
    simp [BoundsTree.findGroupFor, hf, TreeCursor.riseUntilGroupHeadWhile,
      TreeCursor.riseUntilGroupHeadLoop, hn, isGroupHead]
  | false =>
    obtain ⟨res, hres⟩ := TreeCursor.riseUntilGroupHeadLoop_isSome rootNode (0 :: p.reverse) _
      (by simp) (by simpa using hn)
      (by simpa using exists_head_prefix p rootNode b0 m false hheads hn)
    obtain ⟨i, below, n, r, h1, h2, h3, h4⟩ :=
      TreeCursor.riseUntilGroupHeadLoop_path rootNode _ res hres
    simp only [List.tail_cons, List.reverse_reverse] at h4
    refine ⟨i, below.reverse, r, n, ?_, h4, h2, h3, ⟨fun h => Bool.noConfusion h, fun _ hr => ?_⟩⟩
    · simp [BoundsTree.findGroupFor, hf, TreeCursor.riseUntilGroupHeadWhile, hres, h1]
    · subst hr
      rw [List.append_nil] at h4
      rw [h4, h2] at hn
      cases hn
      simp [isGroupHead] at h3

/-- The method `grab` detaches the leaf the search found. -/
theorem BoundsTree.grab_of_find (rootNode : TreeNode) (m : Nat) (hint : Bounds) (q : List Nat)
    (i : Nat) (d : TreeNode)
    (hf : TreeCursor.find rootNode m hint = .ok ⟨rootNode, 0 :: (q ++ [i]).reverse⟩)
    (hn : rootNode.nodeAt (q ++ [i]) = some d) (h2 : rootNode.branchesTwo = true) :
    BoundsTree.grab ⟨rootNode⟩ m hint = .returned d ⟨removedAt rootNode q i⟩ := by
  obtain ⟨parent, hp, hc⟩ := nodeAt_concat_eq_some hn
  have hnc : parent.nodeCount ≠ 1 := by
    obtain ⟨b, subs, g, rfl, _⟩ := eq_node_of_child? hc
    have := branchesTwo_nodeAt _ rootNode _ h2 hp
    rw [branchesTwo_node_iff] at this
    simp only [nodeCount]
    omega
  have hr := TreeCursor.remove_eq rootNode 0 i q.reverse parent d (by simpa using hp) hc hnc
  rw [List.reverse_reverse] at hr
  cases rootNode with
  | leaf b o g =>
    cases q <;> simp [nodeAt, child?, subTrees] at hn
  | node b subs g =>
    simp only [List.reverse_append, List.reverse_cons, List.reverse_nil, List.nil_append,
      List.singleton_append] at hf
    simp [BoundsTree.grab, hf, hr]

theorem TreeNode.headsOk_nodeAt (q : List Nat) :
    ∀ (t n : TreeNode) (k : Nat), headsOk k t = true → t.nodeAt q = some n →
      ∃ k', headsOk k' n = true := by
  induction q with
  | nil =>
    intro t n k ht hn
    rw [nodeAt_nil] at hn
    cases hn
    exact ⟨k, ht⟩
  | cons j q ih =>
    intro t n k ht hn
    obtain ⟨b', subs, g', c, rfl, hc, hn'⟩ := nodeAt_cons_eq_some hn
    simp only [headsOk, headsOkList_iff] at ht
    exact ih c n _ (ht c (List.getElem?_mem hc)) hn'

/-- A group head that has a leaf below it or is one, in a tree with one group head on
every path, satisfies the group invariant by itself. -/
theorem TreeNode.headsOk_zero_of_head (q r : List Nat) (t n : TreeNode) (k : Nat) (b : Bounds)
    (o : Nat) (g : Bool) (ht : headsOk k t = true) (hn : t.nodeAt q = some n)
    (hhead : n.isGroupHead = true) (hleaf : n.nodeAt r = some (.leaf b o g)) :
    headsOk 0 n = true := by
  obtain ⟨k', hk'⟩ := headsOk_nodeAt q t n k ht hn
  have := heads_le_one_of_leaf r n k' b o g hk' hleaf
  rw [hhead] at this
  simp only [Bool.toNat_true] at this
  have hk0 : k' = 0 := by omega
  rw [hk0] at hk'
  exact hk'

/-- The tree after the write of a node at the end of a path and
`updateBoundsAllTheWayToTop()` from there. -/
theorem TreeCursor.write_update_rootNode (rootNode node : TreeNode) (k : Nat) (gp : List Nat) :
    (TreeCursor.updateBoundsAllTheWayToTop
        ⟨rootNode.modifyPath (fun _ => node) id gp, k :: gp.reverse⟩).rootNode =
      rootNode.modifyPath (fun _ => node.recalculateBoundsFromSubBounds)
        recalculateBoundsFromSubBounds gp := by
  simp only [TreeCursor.updateBoundsAllTheWayToTop, TreeCursor.path, List.tail_cons,
    List.reverse_reverse]
  have := modifyPath_modifyPath (fun _ => node) recalculateBoundsFromSubBounds
    recalculateBoundsFromSubBounds [] gp rootNode
  rw [List.append_nil] at this
  rw [this]
  have hfun : (fun n : TreeNode => recalculateBoundsFromSubBounds (n.modifyPath (fun _ => node) id [])) =
      (fun _ => node.recalculateBoundsFromSubBounds) := by
    funext n
    cases n <;> simp [modifyPath]
  rw [hfun]

/-- What the calls of `splitPhysical` on the object tree do, on a tree whose internal
nodes have between two and `MAX_BRANCHES` children, that fits the stack, is
bounds-consistent and has one group head on every path, when the main part of the
new physical is in the tree and its group holds a part of another physical: the new
node handed to `add` holds the parts of the group that belong to the new physical,
the group keeps the others, and both are valid groups. -/
theorem BoundsTree.splitGroup_spec (computeCost : Bounds → Int) (belongs : Nat → Bool)
    (fuel : Nat) (tree : BoundsTree) (m : Nat) (hint : Bounds)
    (h2 : tree.rootNode.branchesTwo = true) (h4 : tree.rootNode.branchesBounded = true)
    (hh : tree.rootNode.height ≤ MAX_HEIGHT) (hcons : tree.rootNode.boundsConsistent = true)
    (hheads : headsOk 0 tree.rootNode = true) (hm : 0 < countObject m tree.rootNode)
    (hbel : belongs m = true)
    (hother : ∀ q g, tree.rootNode.nodeAt q = some g → g.isGroupHead = true →
      g.isLeafNode = false → 0 < countObject m g → 0 < countLeaves (fun o => !belongs o) g)
    (hfuel : (leaves tree.rootNode).length ≤ fuel) :
    ∃ (stack : TreeCursor) (group : TreeNode) (rest : BoundsTree) (newNode : TreeNode),
      tree.findGroupFor m hint = .ok stack ∧ tree.rootNode.nodeAt stack.path = some group ∧
      group.isGroupHead = true ∧ 0 < countObject m group ∧
      tree.splitGroup computeCost belongs fuel m hint =
        .returned () (rest.addNode computeCost newNode) ∧
      (∀ p, countLeaves p newNode = countLeaves (fun o => p o && belongs o) group) ∧
      (∀ p, countLeaves p rest.rootNode + countLeaves (fun o => p o && belongs o) group =
        countLeaves p tree.rootNode) ∧
      (group.isLeafNode = false → ∃ group', rest.rootNode.nodeAt stack.path = some group' ∧
        group'.isGroupHead = true ∧
        (∀ p, countLeaves p group' = countLeaves (fun o => p o && !belongs o) group) ∧
        ∃ r i b, group.nodeAt (r ++ [i]) = some (.leaf b m false) ∧
          rest.rootNode = (removedAt tree.rootNode (stack.path ++ r) i).modifyPath
            (fun _ => group') recalculateBoundsFromSubBounds stack.path) ∧
      (rest.isEmpty = true ∨ rest.rootNode.branchesTwo = true) ∧
      rest.rootNode.boundsConsistent = true ∧ headsOk 0 rest.rootNode = true ∧
      headsOk 0 newNode = true ∧ newNode.isGroupHead = true ∧
      newNode.boundsConsistent = true ∧ newNode.branchesTwo = true := by
  obtain ⟨root⟩ := tree
  simp only at h2 h4 hh hcons hheads hm hother hfuel ⊢
  rcases TreeCursor.find_cases_of_height hh m hint with ⟨_, hno⟩ | ⟨p, b0, g0, hf, hn⟩
  · exact absurd ((countObject_eq_zero_iff m root).2 hno) (by omega)
  obtain ⟨k, gp, r, group, hfg, hp, hG, hGhead, hr1, hr2⟩ :=
    BoundsTree.findGroupFor_of_find root m hint p b0 g0 hheads hf hn
  have hleafcount : ∀ (p : Nat → Bool) (g : Bool),
      countLeaves (fun o => p o && belongs o) (.leaf b0 m g) = countLeaves p (.leaf b0 m g) := by
    intro p g
    simp [countLeaves_leaf, hbel]
  cases g0 with
  | true =>
    -- the leaf of the main part is a group by itself
    have hr := hr1 rfl
    subst hr
    rw [List.append_nil] at hp
    subst hp
    rw [hn] at hG
    cases hG
    rcases List.eq_nil_or_concat p with rfl | ⟨q, i, rfl⟩
    · rw [nodeAt_nil] at hn
      cases hn
      refine ⟨_, .leaf b0 m true, ⟨.node b0 [] true⟩, .leaf b0 m true, hfg,
        by simp [TreeCursor.path, nodeAt_nil], rfl,
        countObject_pos_of_nodeAt m _ [] b0 true (nodeAt_nil _), ?_,
        fun p => (hleafcount p true).symm, ?_, fun h => by simp [isLeafNode] at h,
        Or.inl rfl, rfl, rfl, rfl, rfl, rfl, rfl⟩
      · simp [BoundsTree.splitGroup, hfg, BoundsTree.grab, isGroupHead]
      · intro p
        rw [hleafcount p true]
        simp [countLeaves_node]
    · rw [List.concat_eq_append] at hn hf hfg
      have hgrab := BoundsTree.grab_of_find root m hint q i _ hf hn h2
      refine ⟨_, .leaf b0 m true, ⟨removedAt root q i⟩, .leaf b0 m true, hfg,
        by simpa [TreeCursor.path] using hn, rfl,
        countObject_pos_of_nodeAt m _ [] b0 true (nodeAt_nil _), ?_,
        fun p => (hleafcount p true).symm, ?_,
        fun h => by simp [isLeafNode] at h, Or.inr (branchesTwo_removedAt root q i h2),
        boundsConsistent_removedAt root q i hcons, headsOk_removedAt root q i hheads,
        rfl, rfl, rfl, rfl⟩
      · simp [BoundsTree.splitGroup, hfg, hgrab, isGroupHead]
      · intro p
        rw [hleafcount p true]
        exact countLeaves_removedAt p root q i _ hn
  | false =>
    -- the leaf of the main part is a member of a group
    have hr := hr2 rfl
    rcases List.eq_nil_or_concat r with rfl | ⟨r', i0, rfl⟩
    · exact absurd rfl hr
    rw [List.concat_eq_append] at hp
    subst hp
    rw [← List.append_assoc] at hn hf
    have hgrab := BoundsTree.grab_of_find root m hint (gp ++ r') i0 _ hf hn h2
    have hGleaf : group.nodeAt (r' ++ [i0]) = some (.leaf b0 m false) := by
      have := nodeAt_append gp root (r' ++ [i0])
      rw [← List.append_assoc, hn, hG] at this
      simpa using this.symm
    have hGint : group.isLeafNode = false := by
      cases group with
      | leaf b o g => cases r' <;> simp [nodeAt, child?, subTrees] at hGleaf
      | node b subs g => rfl
    have hG1 : (removedAt root (gp ++ r') i0).nodeAt gp = some (removedAt group r' i0) :=
      nodeAt_modifyPath_append _ gp r' root group hG
    have hG2 := branchesTwo_nodeAt gp root group h2 hG
    have hG4 := branchesBounded_nodeAt gp root group h4 hG
    have hGh := height_nodeAt gp root group hG
    have hGheads := headsOk_zero_of_head gp (r' ++ [i0]) root group 0 b0 m false hheads hG hGhead
      hGleaf
    have hGcons := boundsConsistent_nodeAt gp root group hcons hG
    have hcountG := fun p => countLeaves_removedAt p group r' i0 _ hGleaf
    have hcountR := fun p => countLeaves_removedAt p root (gp ++ r') i0 _ hn
    have hmG : 0 < countObject m group := countObject_pos_of_nodeAt m group _ b0 false hGleaf
    have hotherG := hother gp group hG hGhead hGint hmG
    have hlenG : (leaves (removedAt group r' i0)).length ≤ fuel := by
      have e1 := hcountG (fun _ => true)
      have e2 := countLeaves_nodeAt_le (fun _ => true) gp root group hG
      simp only [countLeaves_true] at e1 e2
      omega
    obtain ⟨iter, node', newNode', hnew, hloop, e2, e3, e4, e5, e6, e7, ⟨j1, j2, j3⟩,
        ⟨k1, k2, k3, k4⟩⟩ :=
      splitLoop_group belongs fuel (removedAt group r' i0) b0 m
        (branchesTwo_removedAt group r' i0 hG2) (branchesBounded_removedAt group r' i0 hG4)
        (le_trans (height_removedAt_le group r' i0) (by omega))
        (headsOk_removedAt group r' i0 hGheads) (isGroupHead_removedAt group r' i0 hGhead)
        (boundsConsistent_removedAt group r' i0 hGcons)
        (by
          have := hcountG (fun o => !belongs o)
          rw [countLeaves_leaf] at this
          simp only [hbel, Bool.not_true, Bool.false_eq_true, if_false] at this
          omega)
        hlenG
    have hrest := TreeCursor.write_update_rootNode (removedAt root (gp ++ r') i0) node' k gp
    have hnodeOut : ∀ p, countLeaves p node' =
        countLeaves (fun o => p o && !belongs o) group := by
      intro p
      have a1 := countLeaves_split p belongs node'
      have a2 := countLeaves_and_eq_zero p belongs node' e3
      have a3 := e2 (fun o => p o && !belongs o)
      have a4 := e4 p
      have a5 := hcountG (fun o => p o && !belongs o)
      rw [countLeaves_leaf] at a3 a5
      simp only [hbel, Bool.not_true, Bool.and_false, Bool.false_eq_true, if_false] at a3 a5
      have a6 : countLeaves (fun o => p o && !belongs o) (TreeNode.leaf b0 m true) = 0 := by
        simp [countLeaves_leaf, hbel]
      have a7 := countLeaves_split (fun o => p o && !belongs o) belongs node'
      have a8 := countLeaves_and_eq_zero (fun o => p o && !belongs o) belongs node' e3
      have a9 : countLeaves (fun o => (p o && !belongs o) && !belongs o) node' =
          countLeaves (fun o => p o && !belongs o) node' := by
        congr 1
        funext o
        cases p o <;> cases belongs o <;> rfl
      omega
    have hnewOut : ∀ p, countLeaves p newNode' =
        countLeaves (fun o => p o && belongs o) group := by
      intro p
      have a1 := e2 p
      have a2 := hnodeOut p
      have a3 := countLeaves_split p belongs group
      have a4 := hcountG p
      have a5 := hcountG (fun o => p o && belongs o)
      have a6 := hcountG (fun o => p o && !belongs o)
      have a7 := countLeaves_split p belongs (removedAt group r' i0)
      rw [countLeaves_leaf] at a1 a4 a5 a6
      simp only [hbel, Bool.not_true, Bool.and_false, Bool.and_true, Bool.false_eq_true,
        if_false] at a1 a4 a5 a6
      omega
    refine ⟨_, group, ⟨(removedAt root (gp ++ r') i0).modifyPath
        (fun _ => node'.recalculateBoundsFromSubBounds) recalculateBoundsFromSubBounds gp⟩,
      newNode', hfg, by simpa [TreeCursor.path] using hG, hGhead, hmG, ?_, hnewOut, ?_, ?_, ?_, ?_,
      ?_,
      k1, k2, k3, k4⟩
    · simp only [BoundsTree.splitGroup, hfg, hgrab, isGroupHead, Bool.not_false, if_true,
        TreeCursor.path, List.tail_cons, List.reverse_reverse, hG1, hnew, setGroupHead, hloop,
        hrest]
    · intro p
      have a1 := countLeaves_modifyPath p (fun _ => node'.recalculateBoundsFromSubBounds)
        recalculateBoundsFromSubBounds (countLeaves_recalculateBoundsFromSubBounds p)
        (countLeaves (fun o => p o && belongs o) (removedAt group r' i0)) gp
        (removedAt root (gp ++ r') i0) _ hG1
        (by
          rw [countLeaves_recalculateBoundsFromSubBounds, hnodeOut p]
          have b1 := countLeaves_split p belongs (removedAt group r' i0)
          have b2 := hcountG (fun o => p o && !belongs o)
          rw [countLeaves_leaf] at b2
          simp only [hbel, Bool.not_true, Bool.and_false, Bool.false_eq_true, if_false] at b2
          omega)
      have a2 := hcountR p
      have a3 := hcountG (fun o => p o && belongs o)
      rw [countLeaves_leaf] at a2 a3
      simp only [hbel, Bool.and_true] at a3
      simp only
      omega
    · intro _
      refine ⟨node'.recalculateBoundsFromSubBounds, ?_, ?_, ?_, r', i0, b0, hGleaf, ?_⟩
      · simpa [TreeCursor.path] using
          nodeAt_modifyPath_recalculate (fun _ => node'.recalculateBoundsFromSubBounds) gp
            (removedAt root (gp ++ r') i0) _ hG1
      · rw [isGroupHead_recalculateBoundsFromSubBounds]; exact j2
      · intro p
        rw [countLeaves_recalculateBoundsFromSubBounds]
        exact hnodeOut p
      · simp [TreeCursor.path]
    · right
      apply branchesTwo_modifyPath _ _ branchesTwo_recalculateBoundsFromSubBounds gp _
        (branchesTwo_removedAt root _ i0 h2)
      intro target _ _
      rw [branchesTwo_recalculateBoundsFromSubBounds]
      exact e5
    · apply boundsConsistent_modifyPath_recalculate _ gp _
        (boundsConsistent_removedAt root _ i0 hcons)
      intro target _ _
      exact boundsConsistent_recalculate _ (subTrees_consistent_of_consistent _ j3)
    · apply headsOk_modifyPath _ _ headsOk_recalculateBoundsFromSubBounds gp _ 0
        (headsOk_removedAt root _ i0 hheads)
      intro target k' htarget hk'
      rw [hG1] at htarget
      cases htarget
      rw [headsOk_recalculateBoundsFromSubBounds]
      obtain ⟨t, below, l, _, hl, hleaf, _⟩ := TreeIterator.new_first (removedAt group r' i0)
        (branchesOk_of_branchesTwo _ (branchesTwo_removedAt group r' i0 hG2)
          (branchesBounded_removedAt group r' i0 hG4))
        (le_trans (height_removedAt_le group r' i0) (by omega))
      cases l with
      | node b subs g => simp [isLeafNode] at hleaf
      | leaf b o g =>
        have := heads_le_one_of_leaf _ _ k' b o g hk' hl
        rw [isGroupHead_removedAt group r' i0 hGhead] at this
        simp only [Bool.toNat_true] at this
        have hk0 : k' = 0 := by omega
        rw [hk0]
        exact j1

/-- The check of the tree passes on a tree that is empty or has no internal node with
fewer than two children, is bounds-consistent and has one group head on every path. -/
theorem treeValidCheck_ok_of (tree : BoundsTree)
    (h2 : tree.isEmpty = true ∨ tree.rootNode.branchesTwo = true)
    (hcons : tree.rootNode.boundsConsistent = true) (hheads : headsOk 0 tree.rootNode = true) :
    treeValidCheck tree = .ok () := by
  by_cases hempty : tree.isEmpty = true
  · simp [treeValidCheck, hempty]
  · rcases h2 with h | h
    · exact absurd h hempty
    · simp only [treeValidCheck, hempty, Bool.not_false, if_true]
      rw [recursiveTreeValidCheck_ok_iff _ (hasChildren_of_branchesTwo _ h) false]
      refine ⟨hcons, ?_⟩
      simpa using (headsOk_iff_rootPaths tree.rootNode 0).1 hheads

/-- The tree after `add(node)` of a valid group to a valid tree is valid. -/
theorem BoundsTree.addNode_valid (computeCost : Bounds → Int) (tree : BoundsTree) (node : TreeNode)
    (h2 : tree.isEmpty = true ∨ tree.rootNode.branchesTwo = true)
    (hcons : tree.rootNode.boundsConsistent = true) (hheads : headsOk 0 tree.rootNode = true)
    (k1 : headsOk 0 node = true) (k3 : node.boundsConsistent = true)
    (k4 : node.branchesTwo = true) :
    treeValidCheck (tree.addNode computeCost node) = .ok () := by
  by_cases hempty : tree.isEmpty = true
  · rw [BoundsTree.addNode_of_isEmpty _ _ _ hempty]
    exact treeValidCheck_ok_of ⟨node⟩ (Or.inr k4) k3 k1
  · have hne : tree.isEmpty = false := by simpa using hempty
    rcases h2 with h | h
    · exact absurd h hempty
    · rw [BoundsTree.addNode_of_not_isEmpty _ _ _ hne]
      exact treeValidCheck_ok_of _
        (Or.inr (branchesTwo_addOutside computeCost node k4 tree.rootNode h))
        (boundsConsistent_addOutside computeCost node k3 tree.rootNode
          (hasChildren_of_branchesTwo _ h) hcons)
        (headsOk_addOutside computeCost node k1 tree.rootNode hheads)

/-- The node handed to `addOutside` is a subtree of the result. -/
theorem TreeNode.addOutside_contains (computeCost : Bounds → Int) (newNode : TreeNode)
    (t : TreeNode) : ∃ q, (addOutside computeCost t newNode).nodeAt q = some newNode := by
  induction t using TreeNode.induction with
  | hleaf b o g => exact ⟨[1], by simp [addOutside, nodeAt, child?, subTrees]⟩
  | hnode b subs g ih =>
    rcases addOutside_cases computeCost newNode (.node b subs g) with
      ⟨h, _⟩ | ⟨b', subs', heq, _, h⟩ | ⟨b', subs', i, c, heq, _, hc, h⟩
    · exact ⟨[1], by rw [h]; simp [nodeAt, child?, subTrees]⟩
    · cases heq
      exact ⟨[subs.length], by rw [h]; simp [nodeAt, child?, subTrees]⟩
    · cases heq
      obtain ⟨q, hq⟩ := ih c (List.getElem?_mem hc)
      have hi : i < subs.length := (List.getElem?_eq_some.1 hc).1
      refine ⟨i :: q, ?_⟩
      rw [h]
      simp [nodeAt, child?, subTrees, hi, hq]

/-- A group head of the tree is a subtree of the result of `addOutside`. -/
theorem TreeNode.addOutside_keeps_head (computeCost : Bounds → Int) (newNode : TreeNode)
    (t : TreeNode) :
    ∀ (q : List Nat) (g : TreeNode), t.nodeAt q = some g → g.isGroupHead = true →
      ∃ q', (addOutside computeCost t newNode).nodeAt q' = some g := by
  induction t using TreeNode.induction with
  | hleaf b o g0 =>
    intro q g hq _
    exact ⟨0 :: q, by simpa [addOutside, nodeAt, child?, subTrees] using hq⟩
  | hnode b subs g0 ih =>
    intro q g hq hg
    rcases addOutside_cases computeCost newNode (.node b subs g0) with
      ⟨h, _⟩ | ⟨b', subs', heq, _, h⟩ | ⟨b', subs', i, c, heq, _, hc, h⟩
    · refine ⟨0 :: q, ?_⟩
      rw [h]
      simpa [nodeAt, child?, subTrees] using hq
    · cases heq
      cases q with
      | nil =>
        rw [nodeAt_nil] at hq
        cases hq
        simp [isGroupHead] at hg
      | cons j r =>
        obtain ⟨b1, subs, g1, c1, heq1, hc1, hn1⟩ := nodeAt_cons_eq_some hq
        cases heq1
        have hj : j < subs.length := (List.getElem?_eq_some.1 hc1).1
        refine ⟨j :: r, ?_⟩
        rw [h]
        have : (subs ++ [newNode])[j]? = some c1 := by
          rw [List.getElem?_append_left hj]
          exact hc1
        simp [nodeAt, child?, subTrees, this, hn1]
    · cases heq
      cases q with
      | nil =>
        rw [nodeAt_nil] at hq
        cases hq
        simp [isGroupHead] at hg
      | cons j r =>
        obtain ⟨b1, subs, g1, c1, heq1, hc1, hn1⟩ := nodeAt_cons_eq_some hq
        cases heq1
        have hi : i < subs.length := (List.getElem?_eq_some.1 hc).1
        by_cases hji : j = i
        · subst hji
          rw [hc] at hc1
          cases hc1
          obtain ⟨q', hq'⟩ := ih c (List.getElem?_mem hc) r g hn1 hg
          refine ⟨j :: q', ?_⟩
          rw [h]
          simp [nodeAt, child?, subTrees, hi, hq']
        · refine ⟨j :: r, ?_⟩
          rw [h]
          have : (subs.set i (addOutside computeCost c newNode))[j]? = some c1 := by
            rw [List.getElem?_set_ne (fun e => hji e.symm)]
            exact hc1
          simp [nodeAt, child?, subTrees, this, hn1]

theorem TreeNode.countLeaves_eq_and (o : Nat) (belongs : Nat → Bool) (t : TreeNode) :
    countLeaves (fun x => decide (x = o) && belongs x) t =
      if belongs o = true then countObject o t else 0 := by
  have hfun : (fun x => decide (x = o) && belongs x) =
      (fun x => decide (x = o) && belongs o) := by
    funext x
    by_cases hx : x = o
    · simp [hx]
    · simp [hx]
  rw [hfun]
  cases belongs o with
  | true => simp [countLeaves, countObject]
  | false => simp [countLeaves]

/-- C16. `splitPhysical(mainPhysical, newlySplitPhysical)` on a valid object tree that
holds the main part of the new physical, whose group keeps at least one part of another
physical, returns (with and without assertions) the world whose object tree is the old
one with the group of the main part reduced and the new subtree `newNode` added: the
new subtree is a group head of the final tree and holds every object exactly as often
as the original group did when its part is owned by the new physical and not at all
otherwise, the original group stays a group head of the final tree and holds exactly
the other former members, and every object is in the final tree exactly as often as
before. -/
theorem C16_split_physical_partitions_group (computeCost : Bounds → Int) (debug : Bool)
    (mainPhysicalOf : Nat → Nat) (fuel : Nat) (w : WorldPrototype)
    (mainPhysical newlySplitPhysical : MotorizedPhysical)
    (hworld : mainPhysical.world = w.address) (hnew : newlySplitPhysical.world = 0)
    (h2 : w.objectTree.rootNode.branchesTwo = true)
    (h4 : w.objectTree.rootNode.branchesBounded = true)
    (hh : w.objectTree.rootNode.height ≤ MAX_HEIGHT)
    (hcons : w.objectTree.rootNode.boundsConsistent = true)
    (hheads : headsOk 0 w.objectTree.rootNode = true)
    (hm : 0 < countObject newlySplitPhysical.physical.mainPart.address w.objectTree.rootNode)
    (hbel : mainPhysicalOf newlySplitPhysical.physical.mainPart.address =
      newlySplitPhysical.physical.address)
    (hother : ∀ q g, w.objectTree.rootNode.nodeAt q = some g → g.isGroupHead = true →
      g.isLeafNode = false → 0 < countObject newlySplitPhysical.physical.mainPart.address g →
      ∃ l ∈ leaves g, mainPhysicalOf l.object ≠ newlySplitPhysical.physical.address)
    (hfuel : (leaves w.objectTree.rootNode).length ≤ fuel) :
    ∃ (stack : TreeCursor) (group : TreeNode) (rest : BoundsTree) (newNode : TreeNode),
      w.objectTree.findGroupFor newlySplitPhysical.physical.mainPart.address
          newlySplitPhysical.physical.mainPart.strictBounds = .ok stack ∧
        w.objectTree.rootNode.nodeAt stack.path = some group ∧
        group.isGroupHead = true ∧
        w.splitPhysical computeCost debug mainPhysicalOf fuel mainPhysical newlySplitPhysical =
          .returned ⟨w.address, rest.addNode computeCost newNode, w.terrainTree,
            w.physicals ++ [⟨w.address, newlySplitPhysical.physical⟩], w.objectCount⟩ ∧
        newNode.isGroupHead = true ∧
        (∃ q, (rest.addNode computeCost newNode).rootNode.nodeAt q = some newNode) ∧
        (∀ o, countObject o newNode =
          if mainPhysicalOf o = newlySplitPhysical.physical.address then countObject o group
          else 0) ∧
        (group.isLeafNode = false → ∃ (group' : TreeNode) (q : List Nat),
          (rest.addNode computeCost newNode).rootNode.nodeAt q = some group' ∧
            group'.isGroupHead = true ∧
            ∀ o, countObject o group' =
              if mainPhysicalOf o = newlySplitPhysical.physical.address then 0
              else countObject o group) ∧
        (∀ o, countObject o (rest.addNode computeCost newNode).rootNode =
          countObject o w.objectTree.rootNode) ∧
        treeValidCheck (rest.addNode computeCost newNode) = .ok () := by
  have hother' : ∀ q g, w.objectTree.rootNode.nodeAt q = some g → g.isGroupHead = true →
      g.isLeafNode = false → 0 < countObject newlySplitPhysical.physical.mainPart.address g →
      0 < countLeaves
        (fun o => !decide (mainPhysicalOf o = newlySplitPhysical.physical.address)) g := by
    intro q g hq hg hl hc
    obtain ⟨l, hmem, hne⟩ := hother q g hq hg hl hc
    unfold countLeaves
    rw [List.countP_pos_iff]
    exact ⟨l, hmem, by simpa using hne⟩
  obtain ⟨stack, group, rest, newNode, hfind, hgroup, hhead, hmG, hsplit, hnewCount, hcount, hkeep,
      hrest2, hrestCons, hrestHeads, hk1, hk2, hk3, hk4⟩ :=
    BoundsTree.splitGroup_spec computeCost
      (fun part => decide (mainPhysicalOf part = newlySplitPhysical.physical.address)) fuel
      w.objectTree newlySplitPhysical.physical.mainPart.address
      newlySplitPhysical.physical.mainPart.strictBounds h2 h4 hh hcons hheads hm
      (by simpa using hbel) hother' hfuel
  have hvalid0 : treeValidCheck w.objectTree = .ok () :=
    treeValidCheck_ok_of w.objectTree (Or.inr h2) hcons hheads
  have hvalid : treeValidCheck (rest.addNode computeCost newNode) = .ok () :=
    BoundsTree.addNode_valid computeCost rest newNode hrest2 hrestCons hrestHeads hk1 hk3 hk4
  have hobj : ∀ (o : Nat) (t : TreeNode),
      countLeaves (fun x => decide (x = o) &&
          decide (mainPhysicalOf x = newlySplitPhysical.physical.address)) t =
        if mainPhysicalOf o = newlySplitPhysical.physical.address then countObject o t
        else 0 := by
    intro o t
    have := countLeaves_eq_and o
      (fun x => decide (mainPhysicalOf x = newlySplitPhysical.physical.address)) t
    simpa using this
  have hobjNot : ∀ (o : Nat) (t : TreeNode),
      countLeaves (fun x => decide (x = o) &&
          !decide (mainPhysicalOf x = newlySplitPhysical.physical.address)) t =
        if mainPhysicalOf o = newlySplitPhysical.physical.address then 0
        else countObject o t := by
    intro o t
    have := countLeaves_eq_and o
      (fun x => !decide (mainPhysicalOf x = newlySplitPhysical.physical.address)) t
    rw [this]
    by_cases ho : mainPhysicalOf o = newlySplitPhysical.physical.address
    · simp [ho]
    · simp [ho]
  have hcontains : ∃ q, (rest.addNode computeCost newNode).rootNode.nodeAt q = some newNode := by
    by_cases hempty : rest.isEmpty = true
    · rw [BoundsTree.addNode_of_isEmpty _ _ _ hempty]
      exact ⟨[], nodeAt_nil _⟩
    · have hne : rest.isEmpty = false := by simpa using hempty
      rw [BoundsTree.addNode_of_not_isEmpty _ _ _ hne]
      exact addOutside_contains computeCost newNode rest.rootNode
  refine ⟨stack, group, rest, newNode, hfind, hgroup, hhead, ?_, hk2, hcontains, ?_, ?_, ?_,
    hvalid⟩
  · unfold WorldPrototype.splitPhysical WorldPrototype.assertTreeValid
    simp only [hworld, hnew, hsplit, hvalid0, hvalid]
    cases debug <;> simp
  · intro o
    exact (hnewCount (fun x => decide (x = o))).trans (hobj o group)
  · intro hleaf
    obtain ⟨group', hq', hhead', hcount', _⟩ := hkeep hleaf
    have hpos : 0 < countLeaves
        (fun o => !decide (mainPhysicalOf o = newlySplitPhysical.physical.address)) group' := by
      have h1 := hcount'
        (fun o => !decide (mainPhysicalOf o = newlySplitPhysical.physical.address))
      have h2' := hother' stack.path group hgroup hhead hleaf hmG
      have h3 : countLeaves (fun o =>
          (!decide (mainPhysicalOf o = newlySplitPhysical.physical.address)) &&
            !decide (mainPhysicalOf o = newlySplitPhysical.physical.address)) group =
          countLeaves
            (fun o => !decide (mainPhysicalOf o = newlySplitPhysical.physical.address))
            group := by
        congr 1
        funext o
        simp
      omega
    have hne : rest.isEmpty = false := by
      cases hre : rest.isEmpty with
      | false => rfl
      | true =>
        exfalso
        have hle := countLeaves_nodeAt_le
          (fun o => !decide (mainPhysicalOf o = newlySplitPhysical.physical.address))
          stack.path rest.rootNode group' hq'
        have hzero : countLeaves
            (fun o => !decide (mainPhysicalOf o = newlySplitPhysical.physical.address))
            rest.rootNode = 0 := by
          obtain ⟨root⟩ := rest
          cases root with
          | leaf b o g => simp [BoundsTree.isEmpty, nodeCount, LEAF_NODE_SIGNIFIER] at hre
          | node b subs g =>
            cases subs with
            | nil => simp [countLeaves_node]
            | cons c cs => simp [BoundsTree.isEmpty, nodeCount] at hre
        omega
    obtain ⟨q, hq⟩ := addOutside_keeps_head computeCost newNode rest.rootNode stack.path group'
      hq' hhead'
    refine ⟨group', q, ?_, hhead', ?_⟩
    · rw [BoundsTree.addNode_of_not_isEmpty _ _ _ hne]
      exact hq
    · intro o
      exact (hcount' (fun x => decide (x = o))).trans (hobjNot o group)
  · intro o
    have h1 := BoundsTree.countLeaves_addNode computeCost (fun x => decide (x = o)) rest newNode
    have h2' := hcount (fun x => decide (x = o))
    have h3 := hnewCount (fun x => decide (x = o))
    show countLeaves (fun x => decide (x = o)) (rest.addNode computeCost newNode).rootNode =
      countLeaves (fun x => decide (x = o)) w.objectTree.rootNode
    omega

/-- C16, at the world of the example: the group with the parts 1, 4, 2, 3 is split
for the physical at 200, which owns the parts 2 and 3. -/
theorem C16_split_physical_partitions_group_witness :
    joinedWorld.objectTree.rootNode.branchesTwo = true ∧
      headsOk 0 joinedWorld.objectTree.rootNode = true ∧
      0 < countObject 2 joinedWorld.objectTree.rootNode ∧
      ∃ (stack : TreeCursor) (group : TreeNode) (rest : BoundsTree) (newNode : TreeNode),
        joinedWorld.objectTree.findGroupFor 2 (cube 1 2) = .ok stack ∧
          joinedWorld.objectTree.rootNode.nodeAt stack.path = some group ∧
          group.isGroupHead = true ∧
          joinedWorld.splitPhysical (fun _ => 0) true exampleMainPhysicalOf 4
              ⟨9, examplePhysicalA⟩ ⟨0, examplePhysicalB⟩ =
            .returned ⟨9, rest.addNode (fun _ => 0) newNode, BoundsTree.empty,
              [⟨9, examplePhysicalA⟩] ++ [⟨9, examplePhysicalB⟩], 4⟩ ∧
          newNode.isGroupHead = true ∧
          (∃ q, (rest.addNode (fun _ => 0) newNode).rootNode.nodeAt q = some newNode) ∧
          (∀ o, countObject o newNode =
            if exampleMainPhysicalOf o = 200 then countObject o group else 0) ∧
          (group.isLeafNode = false → ∃ (group' : TreeNode) (q : List Nat),
            (rest.addNode (fun _ => 0) newNode).rootNode.nodeAt q = some group' ∧
              group'.isGroupHead = true ∧
              ∀ o, countObject o group' =
                if exampleMainPhysicalOf o = 200 then 0 else countObject o group) ∧
          (∀ o, countObject o (rest.addNode (fun _ => 0) newNode).rootNode =
            countObject o joinedWorld.objectTree.rootNode) ∧
          treeValidCheck (rest.addNode (fun _ => 0) newNode) = .ok () :=
  ⟨by decide, by decide, by decide,
    C16_split_physical_partitions_group (fun _ => 0) true exampleMainPhysicalOf 4 joinedWorld
      ⟨9, examplePhysicalA⟩ ⟨0, examplePhysicalB⟩ rfl rfl (by decide) (by decide) (by decide)
      (by decide) (by decide) (by decide) (by decide)
      (fun q g hq _ hleaf _ => by
        cases q with
        | nil =>
          rw [nodeAt_nil] at hq
          cases hq
          exact ⟨.leaf (cube 0 1) 1 false, by decide, by decide⟩
        | cons i r =>
          exfalso
          match i, r, hq with
          | 0, [], hq => cases hq; cases hleaf
          | 1, [], hq => cases hq; cases hleaf
          | 2, [], hq => cases hq; cases hleaf
          | 3, [], hq => cases hq; cases hleaf
          | 0, _ :: _, hq => cases hq
          | 1, _ :: _, hq => cases hq
          | 2, _ :: _, hq => cases hq
          | 3, _ :: _, hq => cases hq
          | _ + 4, _, hq => cases hq)
      (by decide)⟩

/-! ### The collision matrix -/

theorem SymmetricMatrix.index_comm (row col : Nat) :
    SymmetricMatrix.index row col = SymmetricMatrix.index col row := by
  unfold SymmetricMatrix.index
  by_cases h1 : col ≤ row
  · by_cases h2 : row ≤ col
    · have : row = col := Nat.le_antisymm h2 h1
      subst this
      rfl
    · simp [h1, h2]
  · have h2 : row ≤ col := by omega
    simp [h1, h2]

theorem SymmetricMatrix.get?_comm (m : SymmetricMatrix) (row col : Nat) :
    m.get? row col = m.get? col row := by
  unfold SymmetricMatrix.get?
  rw [SymmetricMatrix.index_comm row col]
  by_cases h : row < m.size ∧ col < m.size
  · rw [if_pos h, if_pos ⟨h.2, h.1⟩]
  · rw [if_neg h, if_neg (fun h' => h ⟨h'.2, h'.1⟩)]

/-- C21. Whatever the storage held before, the matrix the constructor of the world
leaves has free-free true, free-terrain and terrain-free true, terrain-terrain false,
and is a symmetric relation over the layers 0 and 1. -/
theorem C21_collision_matrix_after_construction (uninitialised : Nat → Bool) :
    (WorldPrototype.colissionMatrix uninitialised).size = 2 ∧
    (WorldPrototype.colissionMatrix uninitialised).get? 0 0 = some true ∧
    (WorldPrototype.colissionMatrix uninitialised).get? 0 1 = some true ∧
    (WorldPrototype.colissionMatrix uninitialised).get? 1 0 = some true ∧
    (WorldPrototype.colissionMatrix uninitialised).get? 1 1 = some false ∧
    ∀ i j, (WorldPrototype.colissionMatrix uninitialised).get? i j =
      (WorldPrototype.colissionMatrix uninitialised).get? j i := by
  refine ⟨rfl, ?_, ?_, ?_, ?_, fun i j => SymmetricMatrix.get?_comm _ i j⟩ <;>
    simp [WorldPrototype.colissionMatrix, SymmetricMatrix.new, SymmetricMatrix.set,
      SymmetricMatrix.get?, SymmetricMatrix.index, List.range_succ]

/-! ### The group node of a physical -/

theorem foldl_addInside_append (n : TreeNode) (xs ys : List TreeNode) :
    (xs ++ ys).foldl TreeNode.addInside n = ys.foldl TreeNode.addInside (xs.foldl TreeNode.addInside n) :=
  List.foldl_append _ _ _ _

theorem foldl_addInside_parts (n : TreeNode) (parts : List Part) :
    parts.foldl (fun n p => n.addInside (.leaf p.strictBounds p.address false)) n =
      (parts.map (fun p => TreeNode.leaf p.strictBounds p.address false)).foldl
        TreeNode.addInside n := by
  induction parts generalizing n with
  | nil => rfl
  | cons p ps ih => exact ih _

/-- The node `addToNode` leaves is the one the listed calls of `addInside` build. -/
theorem addToNode_eq_foldl (phys : Physical) :
    ∀ n : TreeNode, addToNode n phys = (addToNodeInserted phys).foldl TreeNode.addInside n := by
  induction phys using Physical.hierarchy_induction with
  | hmk a m p ps cs ih =>
    have hlist : ∀ (l : List Physical), (∀ c ∈ l, ∀ n : TreeNode,
        addToNode n c = (addToNodeInserted c).foldl TreeNode.addInside n) →
        ∀ n : TreeNode, addToNodeList n l =
          (addToNodeListInserted l).foldl TreeNode.addInside n := by
      intro l
      induction l with
      | nil => intro _ n; rfl
      | cons c cs' ihl =>
        intro h n
        rw [addToNodeList, addToNodeListInserted, foldl_addInside_append,
          h c (List.mem_cons_self _ _)]
        exact ihl (fun c' hc' => h c' (List.mem_cons_of_mem _ hc')) _
    intro n
    rw [addToNode, addToNodeInserted, foldl_addInside_append, hlist cs ih,
      foldl_addInside_parts]
    rfl

theorem addToNodeList_eq_foldl (l : List Physical) (n : TreeNode) :
    addToNodeList n l = (addToNodeListInserted l).foldl TreeNode.addInside n := by
  induction l generalizing n with
  | nil => rfl
  | cons c cs ih =>
    rw [addToNodeList, addToNodeListInserted, foldl_addInside_append, addToNode_eq_foldl]
    exact ih _

/-- The calls `addToNode` makes are one for every part of the hierarchy, in the order
of the hierarchy. -/
theorem addToNodeInserted_eq (phys : Physical) :
    addToNodeInserted phys =
      phys.hierarchyParts.map (fun p => TreeNode.leaf p.strictBounds p.address false) := by
  induction phys using Physical.hierarchy_induction with
  | hmk a m p ps cs ih =>
    have hlist : ∀ (l : List Physical), (∀ c ∈ l, addToNodeInserted c =
        c.hierarchyParts.map (fun p => TreeNode.leaf p.strictBounds p.address false)) →
        addToNodeListInserted l =
          ((Physical.hierarchyList l).map Physical.rigidBody).flatten.map
            (fun p => TreeNode.leaf p.strictBounds p.address false) := by
      intro l
      induction l with
      | nil => intro _; rfl
      | cons c cs' ihl =>
        intro h
        rw [addToNodeListInserted, h c (List.mem_cons_self _ _),
          ihl (fun c' hc' => h c' (List.mem_cons_of_mem _ hc'))]
        simp [Physical.hierarchyList, Physical.hierarchyParts]
    rw [addToNodeInserted, hlist cs ih]
    simp [Physical.hierarchyParts, Physical.hierarchy, Physical.rigidBody, Physical.mainPart,
      Physical.parts]

/-- C25. The node `createNodeFor` returns is built from the leaf of the main part of
the physical, flagged as a group head, by calls of `addInside`, and the nodes passed
to these calls are, in the order of the hierarchy, one leaf flagged as no group head
for every part of the hierarchy but the main part of the physical: one call for every
other part, none besides. -/
theorem C25_create_node_for_inserts_every_part_once (phys : Physical) :
    createNodeFor phys =
      (createNodeForInserted phys).foldl TreeNode.addInside
        (.leaf phys.mainPart.strictBounds phys.mainPart.address true) ∧
    phys.hierarchyParts.head? = some phys.mainPart ∧
    createNodeForInserted phys =
      phys.hierarchyParts.tail.map (fun p => TreeNode.leaf p.strictBounds p.address false) ∧
    (createNodeForInserted phys).length + 1 = phys.hierarchyParts.length ∧
    (∀ n ∈ createNodeForInserted phys, n.isLeafNode = true ∧ n.isGroupHead = false) := by
  have hfold : createNodeFor phys =
      (createNodeForInserted phys).foldl TreeNode.addInside
        (.leaf phys.mainPart.strictBounds phys.mainPart.address true) := by
    rw [createNodeFor, createNodeForInserted, foldl_addInside_append, addToNodeList_eq_foldl,
      foldl_addInside_parts]
  have hparts : createNodeForInserted phys =
      phys.hierarchyParts.tail.map
        (fun p => TreeNode.leaf p.strictBounds p.address false) := by
    have h := addToNodeInserted_eq phys
    cases phys with
    | mk a m p ps cs =>
      rw [addToNodeInserted] at h
      have h' := congrArg List.tail h
      simp only [List.cons_append, List.tail_cons] at h'
      rw [createNodeForInserted]
      simp only [Physical.parts, Physical.childPhysicals]
      rw [h', List.map_tail]
  refine ⟨hfold, ?_, hparts, ?_, ?_⟩
  · cases phys with
    | mk a m p ps cs =>
      simp [Physical.hierarchyParts, Physical.hierarchy, Physical.rigidBody, Physical.mainPart]
  · rw [hparts, List.length_map, List.length_tail]
    have : 0 < phys.hierarchyParts.length := by
      cases phys with
      | mk a m p ps cs =>
        simp [Physical.hierarchyParts, Physical.hierarchy, Physical.rigidBody]
    omega
  · intro n hn
    rw [hparts] at hn
    obtain ⟨p, _, rfl⟩ := List.mem_map.1 hn
    exact ⟨rfl, rfl⟩

/-- C25, at the physical with the parts 5 and 6 and two physicals connected below
it: the leaf of part 5 is created as a group head and the leaves of the parts 6, 8, 9
and 10 are passed to `addInside`. -/
theorem C25_create_node_for_inserts_every_part_once_witness :
    (examplePhysicalC.hierarchyParts.map (fun p => p.address)) = [5, 6, 8, 9, 10] ∧
    createNodeForInserted examplePhysicalC =
      [.leaf (cube 1 2) 6 false, .leaf (cube 2 3) 8 false, .leaf (cube 3 4) 9 false,
        .leaf (cube 4 5) 10 false] ∧
    createNodeFor examplePhysicalC =
      (createNodeForInserted examplePhysicalC).foldl TreeNode.addInside
        (.leaf (cube 0 1) 5 true) ∧
    (∀ n ∈ createNodeForInserted examplePhysicalC,
      n.isLeafNode = true ∧ n.isGroupHead = false) :=
  ⟨by decide, by decide, (C25_create_node_for_inserts_every_part_once examplePhysicalC).1,
    (C25_create_node_for_inserts_every_part_once examplePhysicalC).2.2.2.2⟩

/-! ### Adding a part twice -/

/-- C30. When the main physical of the part names this world already, `addPart`
returns the world as it was (in a debug build, when the world is valid); and once a
call of `addPart` has returned, the physical names this world and a second call for a
part of it returns the world the first call left. -/
theorem C30_add_part_idempotent_per_physical (computeCost : Bounds → Int) (debug : Bool)
    (getNumberOfPartsInThisAndChildren : Physical → Nat) (w : WorldPrototype)
    (mainPhysical : MotorizedPhysical) :
    (mainPhysical.world = w.address → (debug = true → w.isValid = .ok true) →
      w.addPart computeCost debug getNumberOfPartsInThisAndChildren mainPhysical =
        .returned w) ∧
    (∀ w', w.addPart computeCost debug getNumberOfPartsInThisAndChildren mainPhysical =
        .returned w' →
      w'.address = w.address ∧
      w'.addPart computeCost debug getNumberOfPartsInThisAndChildren
        ⟨w.address, mainPhysical.physical⟩ = .returned w') := by
  constructor
  · intro hworld hvalid
    cases debug with
    | false => simp [WorldPrototype.addPart, WorldPrototype.assertValid, hworld]
    | true => simp [WorldPrototype.addPart, WorldPrototype.assertValid, hworld, hvalid rfl]
  · intro w' h
    cases debug with
    | false =>
      by_cases hworld : mainPhysical.world = w.address
      · simp only [WorldPrototype.addPart, WorldPrototype.assertValid, hworld, if_true,
          Bool.false_eq_true, if_false] at h
        cases h
        simp [WorldPrototype.addPart, WorldPrototype.assertValid]
      · simp only [WorldPrototype.addPart, WorldPrototype.assertValid, hworld, if_false,
          Bool.false_eq_true] at h
        cases h
        simp [WorldPrototype.addPart, WorldPrototype.assertValid]
    | true =>
      have hvalid : w'.isValid = .ok true ∧ w'.address = w.address := by
        by_cases hworld : mainPhysical.world = w.address
        · simp only [WorldPrototype.addPart, WorldPrototype.assertValid, hworld, if_true] at h
          split at h
          · rename_i hv
            simp only [hv] at h
            cases h
            exact ⟨hv, rfl⟩
          all_goals cases h
        · simp only [WorldPrototype.addPart, WorldPrototype.assertValid, hworld, if_false,
            if_true] at h
          split at h
          · split at h
            · rename_i hv
              cases h
              exact ⟨hv, rfl⟩
            all_goals cases h
          all_goals cases h
      refine ⟨hvalid.2, ?_⟩
      simp [WorldPrototype.addPart, WorldPrototype.assertValid, hvalid.1, hvalid.2]

/-- C30, at the example: the physical at 200 is added to the world that holds the
group of the physical at 100, and then added again. -/
theorem C30_add_part_idempotent_per_physical_witness :
    WorldPrototype.addPart (fun _ => 0) true (fun _ => 2)
        ⟨9, groupATree, BoundsTree.empty, [⟨9, examplePhysicalA⟩], 2⟩ ⟨0, examplePhysicalB⟩ =
      .returned splitWorld ∧
    splitWorld.address = 9 ∧
    splitWorld.addPart (fun _ => 0) true (fun _ => 2) ⟨9, examplePhysicalB⟩ =
      .returned splitWorld :=
  have h : WorldPrototype.addPart (fun _ => 0) true (fun _ => 2)
      ⟨9, groupATree, BoundsTree.empty, [⟨9, examplePhysicalA⟩], 2⟩ ⟨0, examplePhysicalB⟩ =
      .returned splitWorld := by decide
  ⟨h, (C30_add_part_idempotent_per_physical (fun _ => 0) true (fun _ => 2)
    ⟨9, groupATree, BoundsTree.empty, [⟨9, examplePhysicalA⟩], 2⟩ ⟨0, examplePhysicalB⟩).2
    splitWorld h⟩

/-! ### The flag of the node `splitPhysical` adds -/

/-- The loop of `splitPhysical` leaves the flag of the new node as it was. -/
theorem splitLoop_isGroupHead (belongs : Nat → Bool) (fuel : Nat) :
    ∀ (iter : TreeCursor) (newNode node newNode' : TreeNode),
      splitLoop belongs fuel iter newNode = some (node, newNode') →
      newNode'.isGroupHead = newNode.isGroupHead := by
  induction fuel with
  | zero =>
    intro iter newNode node newNode' h
    unfold splitLoop at h
    split at h
    · cases h; rfl
    · cases h
  | succ fuel ih =>
    intro iter newNode node newNode' h
    unfold splitLoop at h
    split at h
    · cases h; rfl
    · split at h
      · cases h
      · split at h
        · cases h
        · split at h
          · split at h
            · cases h
            · rw [ih _ _ _ _ h, isGroupHead_addInside]
          · split at h
            · cases h
            · exact ih _ _ _ _ h

/-- The tree `splitGroup` returns is the result of `add` of a group head. -/
theorem BoundsTree.splitGroup_adds_head (computeCost : Bounds → Int) (belongs : Nat → Bool)
    (fuel : Nat) (tree tree' : BoundsTree) (m : Nat) (hint : Bounds)
    (h : tree.splitGroup computeCost belongs fuel m hint = .returned () tree') :
    ∃ (stack : TreeCursor) (grabbed : TreeNode) (tree1 rest : BoundsTree) (node : TreeNode),
      tree.findGroupFor m hint = .ok stack ∧ tree.grab m hint = .returned grabbed tree1 ∧
      tree' = rest.addNode computeCost node ∧ node.isGroupHead = true ∧
      (grabbed.isGroupHead = true → node = grabbed ∧ rest = tree1) ∧
      (grabbed.isGroupHead = false → ∃ (iter : TreeCursor) (group : TreeNode),
        splitLoop belongs fuel iter (grabbed.setGroupHead true) = some (group, node)) := by
  unfold BoundsTree.splitGroup at h
  split at h
  · cases h
  · cases h
  · rename_i stack hfind
    split at h
    · cases h
    · cases h
    · rename_i grabbed tree1 hgrab
      by_cases hhead : grabbed.isGroupHead = true
      · simp only [hhead, Bool.not_true, Bool.false_eq_true, if_false] at h
        cases h
        exact ⟨stack, grabbed, tree1, tree1, grabbed, hfind, hgrab, rfl, hhead,
          fun _ => ⟨rfl, rfl⟩, (fun hf => by rw [hhead] at hf; cases hf)⟩
      · have hfalse : grabbed.isGroupHead = false := by simpa using hhead
        simp only [hfalse, Bool.not_false, if_true] at h
        split at h
        · cases h
        · split at h
          · cases h
          · rename_i iter hiter
            split at h
            · cases h
            · rename_i group node hloop
              cases h
              refine ⟨stack, grabbed, tree1, _, node, hfind, hgrab, rfl, ?_,
                (fun ht => by rw [hfalse] at ht; cases ht), fun _ => ⟨iter, group, hloop⟩⟩
              rw [splitLoop_isGroupHead belongs fuel _ _ _ _ hloop, isGroupHead_setGroupHead]

/-- C29. Whenever `splitPhysical` returns, the object tree of the world it leaves is
the result of `add` of a node with `isGroupHead` true: the grabbed node itself, added
to the tree `grab` left, when it was a group head, and otherwise the node the loop
leaves when started from the grabbed node with the flag set. -/
theorem C29_split_physical_adds_group_head (computeCost : Bounds → Int) (debug : Bool)
    (mainPhysicalOf : Nat → Nat) (fuel : Nat) (w w' : WorldPrototype)
    (mainPhysical newlySplitPhysical : MotorizedPhysical)
    (h : w.splitPhysical computeCost debug mainPhysicalOf fuel mainPhysical newlySplitPhysical =
      .returned w') :
    ∃ (stack : TreeCursor) (grabbed : TreeNode) (tree1 rest : BoundsTree) (node : TreeNode),
      w.objectTree.findGroupFor newlySplitPhysical.physical.mainPart.address
        newlySplitPhysical.physical.mainPart.strictBounds = .ok stack ∧
      w.objectTree.grab newlySplitPhysical.physical.mainPart.address
        newlySplitPhysical.physical.mainPart.strictBounds = .returned grabbed tree1 ∧
      w'.objectTree = rest.addNode computeCost node ∧ node.isGroupHead = true ∧
      (grabbed.isGroupHead = true → node = grabbed ∧ rest = tree1) ∧
      (grabbed.isGroupHead = false → ∃ (iter : TreeCursor) (group : TreeNode),
        splitLoop (fun part => decide (mainPhysicalOf part = newlySplitPhysical.physical.address))
          fuel iter (grabbed.setGroupHead true) = some (group, node)) := by
  have key : ∃ tree', w.objectTree.splitGroup computeCost
      (fun part => decide (mainPhysicalOf part = newlySplitPhysical.physical.address)) fuel
      newlySplitPhysical.physical.mainPart.address
      newlySplitPhysical.physical.mainPart.strictBounds = .returned () tree' ∧
      w'.objectTree = tree' := by
    unfold WorldPrototype.splitPhysical WorldPrototype.assertTreeValid at h
    repeat' split at h
    all_goals cases h
    all_goals exact ⟨_, by assumption, rfl⟩
  obtain ⟨tree', hsplit, htree⟩ := key
  rw [htree]
  exact BoundsTree.splitGroup_adds_head computeCost _ fuel w.objectTree tree' _ _ hsplit

/-- C29, at the world of the example: the leaf of part 2, no group head when grabbed,
comes back as the group head over the parts 2 and 3. -/
theorem C29_split_physical_adds_group_head_witness :
    joinedWorld.splitPhysical (fun _ => 0) true exampleMainPhysicalOf 4
        ⟨9, examplePhysicalA⟩ ⟨0, examplePhysicalB⟩ = .returned splitWorld ∧
    ∃ (stack : TreeCursor) (grabbed : TreeNode) (tree1 rest : BoundsTree) (node : TreeNode),
      joinedWorld.objectTree.findGroupFor 2 (cube 1 2) = .ok stack ∧
      joinedWorld.objectTree.grab 2 (cube 1 2) = .returned grabbed tree1 ∧
      splitWorld.objectTree = rest.addNode (fun _ => 0) node ∧ node.isGroupHead = true ∧
      (grabbed.isGroupHead = true → node = grabbed ∧ rest = tree1) ∧
      (grabbed.isGroupHead = false → ∃ (iter : TreeCursor) (group : TreeNode),
        splitLoop (fun part => decide (exampleMainPhysicalOf part = 200)) 4 iter
          (grabbed.setGroupHead true) = some (group, node)) :=
  ⟨by decide,
    C29_split_physical_adds_group_head (fun _ => 0) true exampleMainPhysicalOf 4 joinedWorld
      splitWorld ⟨9, examplePhysicalA⟩ ⟨0, examplePhysicalB⟩ (by decide)⟩

/-! ### The positions the iterators pass through -/

theorem consistent_index (rootNode n : TreeNode) (i j : Nat) (rest : NodeStack)
    (h : Consistent rootNode (⟨n, i⟩ :: rest)) : Consistent rootNode (⟨n, j⟩ :: rest) :=
  (consistent_cons_iff rootNode ⟨n, j⟩ rest).2 ((consistent_cons_iff rootNode ⟨n, i⟩ rest).1 h)

theorem consistent_tail {rootNode : TreeNode} {f : TreeStackElement} {rest : NodeStack}
    (h : Consistent rootNode (f :: rest)) : Consistent rootNode rest :=
  ((consistent_cons_iff rootNode f rest).1 h).2

theorem consistent_root (rootNode : TreeNode) (i : Nat) : Consistent rootNode [⟨rootNode, i⟩] :=
  (consistent_cons_iff rootNode ⟨rootNode, i⟩ []).2 ⟨by simp [nodeAt_nil], Consistent.nil rootNode⟩

/-- The node of the top frame is at the end of the path the frames below it record. -/
theorem consistent_path {rootNode : TreeNode} {f : TreeStackElement} {rest : NodeStack}
    (h : Consistent rootNode (f :: rest)) :
    rootNode.nodeAt (NodeStack.path (f :: rest)) = some f.node :=
  ((consistent_cons_iff rootNode f rest).1 h).1

theorem linked_of_consistent (rootNode : TreeNode) :
    ∀ s : NodeStack, Consistent rootNode s → NodeStack.linked rootNode s = true := by
  intro s
  induction s with
  | nil => intro _; rfl
  | cons f rest ih =>
    intro h
    obtain ⟨hf, hrest⟩ := (consistent_cons_iff rootNode f rest).1 h
    cases rest with
    | nil =>
      simp only [List.map_nil, List.reverse_nil, nodeAt_nil, Option.some.injEq] at hf
      simp [NodeStack.linked, hf]
    | cons g rest' =>
      have hg := ((consistent_cons_iff rootNode g rest').1 hrest).1
      simp only [List.map_cons, List.reverse_cons] at hf
      rw [nodeAt_concat rootNode _ g.index g.node hg] at hf
      simp only [NodeStack.linked, hf, decide_True, Bool.true_and]
      exact ih hrest

/-- The frames below a leaf frame leave room for it in the stack. -/
theorem stackOk_length_lt : ∀ s : NodeStack, StackOk s → s.length < MAX_HEIGHT := by
  intro s hs
  cases s with
  | nil => simp [MAX_HEIGHT]
  | cons f rest =>
    obtain ⟨⟨_, hidx, _, hh⟩, _⟩ := hs
    have hmem : f.node.subTrees[f.index] ∈ f.node.subTrees := List.getElem_mem _
    have h1 := height_le_heightList hmem
    have h2 := (f.node.subTrees[f.index]).height_pos
    simp only [List.length_cons]
    omega

/-- The unfiltered iterator after its constructor and `k` increments, `k` at most the
number of leaves: it is defined, its frames follow the tree, and it is exhausted when
`k` is the number of leaves and at the leaf number `k` otherwise. -/
theorem ConstTreeIterator.after_spec (rootNode : TreeNode) (hwf : rootNode.WellFormed) :
    ∀ k, k ≤ (leaves rootNode).length →
      ∃ s, ConstTreeIterator.after rootNode k = some s ∧ Consistent rootNode s ∧
        ((k = (leaves rootNode).length ∧ s = []) ∨
          ∃ l s', s = ⟨l, 0⟩ :: s' ∧ l.isLeafNode = true ∧ StackOk s' ∧
            (leaves rootNode).drop k = l :: restLeaves s') := by
  obtain ⟨hb, hh⟩ := hwf
  have hne : rootNode.nodeCount ≠ 0 := by
    cases rootNode with
    | leaf b o g => simp [nodeCount, LEAF_NODE_SIGNIFIER]
    | node b subs g =>
      simp only [branchesOk, Bool.and_eq_true, decide_eq_true_eq] at hb
      simp only [nodeCount]; omega
  intro k
  induction k with
  | zero =>
    intro _
    obtain ⟨l, s', h1, h2, h3, h4⟩ := ConstTreeIterator.delveDownLoop_spec (MAX_HEIGHT + 1)
      rootNode [] hb (by omega) (by simpa using hh) trivial
    simp only [restLeaves, List.append_nil] at h4
    have hnew : ConstTreeIterator.new rootNode = some (⟨l, 0⟩ :: s') := by
      simp [ConstTreeIterator.new, hne, NodeStack.ofRoot, ConstTreeIterator.delveDown, h1]
    refine ⟨⟨l, 0⟩ :: s', hnew, ?_, Or.inr ⟨l, s', rfl, h2, h3, by simpa using h4⟩⟩
    exact Consistent.delveDownLoop (MAX_HEIGHT + 1) _ _ (consistent_root rootNode 0) h1
  | succ k ih =>
    intro hk
    obtain ⟨s, hs, hcons, hcase⟩ := ih (by omega)
    rcases hcase with ⟨hkn, _⟩ | ⟨l, s', rfl, _, hok, hdrop⟩
    · omega
    · obtain ⟨r, hr, hcase'⟩ := ConstTreeIterator.increment_spec ⟨l, 0⟩ s' hok
      have hafter : ConstTreeIterator.after rootNode (k + 1) = some r := by
        simp [ConstTreeIterator.after, hs, hr]
      have hdrop' : (leaves rootNode).drop (k + 1) = restLeaves s' := by
        have := congrArg List.tail hdrop
        simpa [List.tail_drop] using this
      refine ⟨r, hafter, Consistent.increment _ _ hcons hr, ?_⟩
      rcases hcase' with ⟨rfl, hnil⟩ | ⟨l', s'', rfl, hl', hok', hrest⟩
      · left
        refine ⟨?_, rfl⟩
        have hlen := congrArg List.length hdrop'
        rw [hnil, List.length_drop, List.length_nil] at hlen
        omega
      · right
        exact ⟨l', s'', rfl, hl', hok', by rw [hdrop', hrest]⟩

theorem acceptedAbove_index (filter : TreeNode → Bool) (n : TreeNode) (i j : Nat)
    (rest : NodeStack) :
    NodeStack.acceptedAbove filter (⟨n, i⟩ :: rest) =
      NodeStack.acceptedAbove filter (⟨n, j⟩ :: rest) := by
  cases rest <;> rfl

theorem acceptedAbove_tail (filter : TreeNode → Bool) (f : TreeStackElement) (rest : NodeStack)
    (h : NodeStack.acceptedAbove filter (f :: rest) = true) :
    NodeStack.acceptedAbove filter rest = true := by
  cases rest with
  | nil => rfl
  | cons g rest' =>
    simp only [NodeStack.acceptedAbove, Bool.and_eq_true] at h
    exact h.2

theorem acceptedAbove_push (filter : TreeNode → Bool) (c : TreeNode) (k : Nat)
    (top : TreeStackElement) (rest : NodeStack)
    (h : NodeStack.acceptedAbove filter (top :: rest) = true) (hc : filter c = true) :
    NodeStack.acceptedAbove filter (⟨c, k⟩ :: top :: rest) = true := by
  simp only [NodeStack.acceptedAbove, hc, Bool.true_and]
  exact h

theorem TreeNode.acceptedPath_concat (filter : TreeNode → Bool) (q : List Nat) :
    ∀ (t c : TreeNode) (i : Nat), t.nodeAt (q ++ [i]) = some c →
      acceptedPath filter t (q ++ [i]) = (acceptedPath filter t q && filter c) := by
  induction q with
  | nil =>
    intro t c i h
    simp only [List.nil_append, nodeAt] at h
    cases hc : t.child? i with
    | none => simp [hc] at h
    | some c' =>
      simp only [hc, nodeAt_nil, Option.some.injEq] at h
      subst h
      simp [acceptedPath, hc]
  | cons j q ih =>
    intro t c i h
    simp only [List.cons_append, nodeAt] at h
    cases hc : t.child? j with
    | none => simp [hc] at h
    | some c' =>
      simp only [hc] at h
      have e := ih c' c i h
      simp only [List.cons_append, acceptedPath, hc]
      exact (congrArg (fun x => filter c' && x) e).trans (Bool.and_assoc _ _ _).symm

/-- The filter accepts every node on the way from below the root to the node of the
top frame. -/
theorem acceptedPath_of_acceptedAbove (filter : TreeNode → Bool) (rootNode : TreeNode) :
    ∀ s : NodeStack, Consistent rootNode s → NodeStack.acceptedAbove filter s = true →
      acceptedPath filter rootNode (NodeStack.path s) = true := by
  intro s
  induction s with
  | nil => intro _ _; rfl
  | cons f rest ih =>
    intro hc ha
    cases rest with
    | nil => rfl
    | cons g rest' =>
      have hf := consistent_path hc
      have hg := ih (consistent_tail hc) (acceptedAbove_tail filter f _ ha)
      simp only [NodeStack.path, List.tail_cons, List.map_cons, List.reverse_cons] at hf hg ⊢
      rw [acceptedPath_concat filter _ rootNode f.node g.index hf, hg]
      simp only [NodeStack.acceptedAbove, Bool.and_eq_true] at ha
      simp [ha.1]

/-- A node passed to the filter is a child of the root or of a node that the filter
accepts together with every node between it and the root. -/
theorem tested_child_of_accepted (filter : TreeNode → Bool) (rootNode : TreeNode)
    (top : TreeStackElement) (rest : NodeStack) (nextNode : TreeNode)
    (hc : Consistent rootNode (top :: rest))
    (ha : NodeStack.acceptedAbove filter (top :: rest) = true)
    (hchild : top.node.child? top.index = some nextNode) :
    ∃ p i, acceptedPath filter rootNode p = true ∧ rootNode.nodeAt (p ++ [i]) = some nextNode :=
  ⟨NodeStack.path (top :: rest), top.index,
    acceptedPath_of_acceptedAbove filter rootNode _ hc ha,
    by rw [nodeAt_concat rootNode _ top.index top.node (consistent_path hc), hchild]⟩

theorem FilteredTreeIterator.riseWhileFull_pruned (filter : TreeNode → Bool) (rootNode : TreeNode) :
    ∀ (rest : NodeStack) (n : TreeNode) (j : Nat), Consistent rootNode (⟨n, j⟩ :: rest) →
      NodeStack.acceptedAbove filter (⟨n, j⟩ :: rest) = true →
      Consistent rootNode (FilteredTreeIterator.riseWhileFull ⟨n, j⟩ rest) ∧
        NodeStack.acceptedAbove filter (FilteredTreeIterator.riseWhileFull ⟨n, j⟩ rest) = true := by
  intro rest
  induction rest with
  | nil =>
    intro n j hc ha
    simp only [FilteredTreeIterator.riseWhileFull]
    split
    · exact ⟨Consistent.nil rootNode, rfl⟩
    · exact ⟨hc, ha⟩
  | cons below rest ih =>
    intro n j hc ha
    simp only [FilteredTreeIterator.riseWhileFull]
    split
    · obtain ⟨bn, bi⟩ := below
      exact ih bn (bi + 1) (consistent_index rootNode bn bi (bi + 1) rest (consistent_tail hc))
        ((acceptedAbove_index filter bn (bi + 1) bi rest).trans (acceptedAbove_tail filter _ _ ha))
    · exact ⟨hc, ha⟩

theorem ConstTreeIterator.riseUntilAvailable_pruned (filter : TreeNode → Bool)
    (rootNode : TreeNode) :
    ∀ s : NodeStack, Consistent rootNode s → NodeStack.acceptedAbove filter s = true →
      NodeStack.acceptedAbove filter (ConstTreeIterator.riseUntilAvailable s) = true := by
  intro s
  induction s with
  | nil => intro _ _; rfl
  | cons top rest ih =>
    intro hc ha
    simp only [ConstTreeIterator.riseUntilAvailable]
    split
    · exact ih (consistent_tail hc) (acceptedAbove_tail filter _ _ ha)
    · obtain ⟨tn, ti⟩ := top
      exact (acceptedAbove_index filter tn (ti + 1) ti rest).trans ha

/-- The descent of the filtered iterator keeps the frames on a way of accepted nodes
from the root, and tests only children of the nodes on such ways. -/
theorem FilteredTreeIterator.delveDownFilteredLoop_pruned (filter : TreeNode → Bool)
    (rootNode : TreeNode) (fuel : Nat) :
    ∀ s : NodeStack, Consistent rootNode s → NodeStack.acceptedAbove filter s = true →
      (∀ r, FilteredTreeIterator.delveDownFilteredLoop filter fuel s = some r →
        Consistent rootNode r ∧ NodeStack.acceptedAbove filter r = true) ∧
      (∀ n ∈ FilteredTreeIterator.delveDownFilteredTested filter fuel s,
        ∃ p i, acceptedPath filter rootNode p = true ∧ rootNode.nodeAt (p ++ [i]) = some n) := by
  induction fuel with
  | zero =>
    intro s _ _
    cases s with
    | nil =>
      exact ⟨fun r h => by simp [FilteredTreeIterator.delveDownFilteredLoop] at h,
        fun n h => by simp [FilteredTreeIterator.delveDownFilteredTested] at h⟩
    | cons top rest =>
      exact ⟨fun r h => by simp [FilteredTreeIterator.delveDownFilteredLoop] at h,
        fun n h => by simp [FilteredTreeIterator.delveDownFilteredTested] at h⟩
  | succ fuel ih =>
    intro s hc ha
    cases s with
    | nil =>
      exact ⟨fun r h => by simp [FilteredTreeIterator.delveDownFilteredLoop] at h,
        fun n h => by simp [FilteredTreeIterator.delveDownFilteredTested] at h⟩
    | cons top rest =>
      cases hchild : top.node.child? top.index with
      | none =>
        exact ⟨fun r h => by simp [FilteredTreeIterator.delveDownFilteredLoop, hchild] at h,
          fun n h => by simp [FilteredTreeIterator.delveDownFilteredTested, hchild] at h⟩
      | some nextNode =>
        have htest := tested_child_of_accepted filter rootNode top rest nextNode hc ha hchild
        by_cases hroom : MAX_HEIGHT ≤ rest.length + 1
        · exact ⟨fun r h => by
              simp [FilteredTreeIterator.delveDownFilteredLoop, hchild, hroom] at h,
            fun n h => by
              simp [FilteredTreeIterator.delveDownFilteredTested, hchild, hroom] at h⟩
        · by_cases hf : filter nextNode = true
          · have hc' : Consistent rootNode (⟨nextNode, 0⟩ :: top :: rest) :=
              Consistent.push hc hchild 0
            have ha' := acceptedAbove_push filter nextNode 0 top rest ha hf
            by_cases hleaf : nextNode.isLeafNode = true
            · constructor
              · intro r h
                simp only [FilteredTreeIterator.delveDownFilteredLoop, hchild, hroom, hf, hleaf,
                  if_true, if_false, Bool.false_eq_true, Option.some.injEq] at h
                subst h
                exact ⟨hc', ha'⟩
              · intro n h
                simp only [FilteredTreeIterator.delveDownFilteredTested, hchild, hroom, hf, hleaf,
                  if_true, if_false, Bool.false_eq_true, List.mem_singleton] at h
                subst h
                exact htest
            · obtain ⟨ih1, ih2⟩ := ih _ hc' ha'
              constructor
              · intro r h
                simp only [FilteredTreeIterator.delveDownFilteredLoop, hchild, hroom, hf, hleaf,
                  if_true, if_false, Bool.false_eq_true] at h
                exact ih1 r h
              · intro n h
                simp only [FilteredTreeIterator.delveDownFilteredTested, hchild, hroom, hf, hleaf,
                  if_true, if_false, Bool.false_eq_true, List.mem_cons] at h
                rcases h with rfl | h
                · exact htest
                · exact ih2 n h
          · obtain ⟨tn, ti⟩ := top
            have hrise := FilteredTreeIterator.riseWhileFull_pruned filter rootNode rest tn (ti + 1)
              (consistent_index rootNode tn ti (ti + 1) rest hc)
              ((acceptedAbove_index filter tn (ti + 1) ti rest).trans ha)
            cases hr : FilteredTreeIterator.riseWhileFull ⟨tn, ti + 1⟩ rest with
            | nil =>
              constructor
              · intro r h
                simp only [FilteredTreeIterator.delveDownFilteredLoop, hchild, hroom, hf, hr,
                  if_false, Bool.false_eq_true, Option.some.injEq] at h
                subst h
                exact ⟨Consistent.nil rootNode, rfl⟩
              · intro n h
                simp only [FilteredTreeIterator.delveDownFilteredTested, hchild, hroom, hf, hr,
                  if_false, Bool.false_eq_true, List.mem_singleton] at h
                subst h
                exact htest
            | cons top' rest' =>
              rw [hr] at hrise
              obtain ⟨ih1, ih2⟩ := ih _ hrise.1 hrise.2
              constructor
              · intro r h
                simp only [FilteredTreeIterator.delveDownFilteredLoop, hchild, hroom, hf, hr,
                  if_false, Bool.false_eq_true] at h
                exact ih1 r h
              · intro n h
                simp only [FilteredTreeIterator.delveDownFilteredTested, hchild, hroom, hf, hr,
                  if_false, Bool.false_eq_true, List.mem_cons] at h
                rcases h with rfl | h
                · exact htest
                · exact ih2 n h

theorem FilteredTreeIterator.increment_pruned (filter : TreeNode → Bool) (rootNode : TreeNode)
    (fuel : Nat) (s : NodeStack) (hc : Consistent rootNode s)
    (ha : NodeStack.acceptedAbove filter s = true) :
    (∀ r, FilteredTreeIterator.increment filter fuel s = some r →
      Consistent rootNode r ∧ NodeStack.acceptedAbove filter r = true) ∧
    (∀ n ∈ FilteredTreeIterator.incrementTested filter fuel s,
      ∃ p i, acceptedPath filter rootNode p = true ∧ rootNode.nodeAt (p ++ [i]) = some n) := by
  cases s with
  | nil =>
    exact ⟨fun r h => by simp [FilteredTreeIterator.increment] at h,
      fun n h => by simp [FilteredTreeIterator.incrementTested] at h⟩
  | cons top rest =>
    have hc1 := Consistent.riseUntilAvailable rest (consistent_tail hc)
    have ha1 := ConstTreeIterator.riseUntilAvailable_pruned filter rootNode rest
      (consistent_tail hc) (acceptedAbove_tail filter _ _ ha)
    cases hr : ConstTreeIterator.riseUntilAvailable rest with
    | nil =>
      constructor
      · intro r h
        simp only [FilteredTreeIterator.increment, hr, Option.some.injEq] at h
        subst h
        exact ⟨Consistent.nil rootNode, rfl⟩
      · intro n h
        simp [FilteredTreeIterator.incrementTested, hr] at h
    | cons top' rest' =>
      rw [hr] at hc1 ha1
      obtain ⟨h1, h2⟩ := FilteredTreeIterator.delveDownFilteredLoop_pruned filter rootNode fuel
        _ hc1 ha1
      constructor
      · intro r h
        simp only [FilteredTreeIterator.increment, hr] at h
        exact h1 r h
      · intro n h
        simp only [FilteredTreeIterator.incrementTested, hr] at h
        exact h2 n h

theorem FilteredTreeIterator.new_pruned (filter : TreeNode → Bool) (rootNode : TreeNode)
    (fuel : Nat) :
    (∀ r, FilteredTreeIterator.new filter fuel rootNode = some r →
      Consistent rootNode r ∧ NodeStack.acceptedAbove filter r = true) ∧
    (∀ n ∈ FilteredTreeIterator.newTested filter fuel rootNode,
      ∃ p i, acceptedPath filter rootNode p = true ∧ rootNode.nodeAt (p ++ [i]) = some n) := by
  by_cases hzero : rootNode.nodeCount = 0
  · constructor
    · intro r h
      simp only [FilteredTreeIterator.new, hzero, if_true, NodeStack.ofRoot,
        Option.some.injEq] at h
      subst h
      exact ⟨Consistent.nil rootNode, rfl⟩
    · intro n h
      simp [FilteredTreeIterator.newTested, hzero] at h
  · by_cases hleaf : rootNode.isLeafNode = true
    · constructor
      · intro r h
        simp only [FilteredTreeIterator.new, hzero, if_false, hleaf, Bool.not_true,
          Bool.false_eq_true, NodeStack.ofRoot, Option.some.injEq] at h
        subst h
        exact ⟨consistent_root rootNode 0, rfl⟩
      · intro n h
        simp [FilteredTreeIterator.newTested, hzero, hleaf] at h
    · have hleaf' : rootNode.isLeafNode = false := by simpa using hleaf
      obtain ⟨h1, h2⟩ := FilteredTreeIterator.delveDownFilteredLoop_pruned filter rootNode fuel
        [⟨rootNode, 0⟩] (consistent_root rootNode 0) rfl
      constructor
      · intro r h
        simp only [FilteredTreeIterator.new, hzero, if_false, hleaf', Bool.not_false, if_true,
          NodeStack.ofRoot] at h
        exact h1 r h
      · intro n h
        simp only [FilteredTreeIterator.newTested, hzero, if_false, hleaf', Bool.not_false,
          if_true, NodeStack.ofRoot] at h
        exact h2 n h

theorem FilteredTreeIterator.after_pruned (filter : TreeNode → Bool) (rootNode : TreeNode)
    (fuel : Nat) :
    ∀ (k : Nat) (s : NodeStack), FilteredTreeIterator.after filter fuel rootNode k = some s →
      Consistent rootNode s ∧ NodeStack.acceptedAbove filter s = true := by
  intro k
  induction k with
  | zero =>
    intro s h
    exact (FilteredTreeIterator.new_pruned filter rootNode fuel).1 s h
  | succ k ih =>
    intro s h
    simp only [FilteredTreeIterator.after] at h
    cases h0 : FilteredTreeIterator.after filter fuel rootNode k with
    | none => simp [h0] at h
    | some s0 =>
      simp only [h0] at h
      obtain ⟨hc, ha⟩ := ih s0 h0
      exact (FilteredTreeIterator.increment_pruned filter rootNode fuel s0 hc ha).1 s h

theorem FilteredTreeIterator.visitTested_pruned (filter : TreeNode → Bool) (rootNode : TreeNode)
    (fuel : Nat) (steps : Nat) :
    ∀ s : NodeStack, Consistent rootNode s → NodeStack.acceptedAbove filter s = true →
      ∀ n ∈ FilteredTreeIterator.visitTested filter fuel steps s,
        ∃ p i, acceptedPath filter rootNode p = true ∧ rootNode.nodeAt (p ++ [i]) = some n := by
  induction steps with
  | zero =>
    intro s _ _ n h
    cases s <;> simp [FilteredTreeIterator.visitTested] at h
  | succ steps ih =>
    intro s hc ha n h
    cases s with
    | nil => simp [FilteredTreeIterator.visitTested] at h
    | cons top rest =>
      obtain ⟨h1, h2⟩ := FilteredTreeIterator.increment_pruned filter rootNode fuel
        (top :: rest) hc ha
      simp only [FilteredTreeIterator.visitTested, List.mem_append] at h
      rcases h with h | h
      · exact h2 n h
      · cases hinc : FilteredTreeIterator.increment filter fuel (top :: rest) with
        | none => simp [hinc] at h
        | some s' =>
          simp only [hinc] at h
          obtain ⟨hc', ha'⟩ := h1 s' hinc
          exact ih s' hc' ha' n h

/-- Every node a loop over `iterFiltered(filter)` passes to the filter is a child of
the root or of a node accepted together with all nodes between it and the root. -/
theorem BoundsTree.iterFilteredTested_pruned (t : BoundsTree) (filter : TreeNode → Bool)
    (fuel steps : Nat) :
    ∀ n ∈ t.iterFilteredTested filter fuel steps,
      ∃ p i, acceptedPath filter t.rootNode p = true ∧ t.rootNode.nodeAt (p ++ [i]) = some n := by
  intro n h
  obtain ⟨h1, h2⟩ := FilteredTreeIterator.new_pruned filter t.rootNode fuel
  simp only [BoundsTree.iterFilteredTested, List.mem_append] at h
  rcases h with h | h
  · exact h2 n h
  · cases hnew : FilteredTreeIterator.new filter fuel t.rootNode with
    | none => simp [hnew] at h
    | some s =>
      simp only [hnew] at h
      obtain ⟨hc, ha⟩ := h1 s hnew
      exact FilteredTreeIterator.visitTested_pruned filter t.rootNode fuel steps s hc ha n h

/-- The filtered iterator after its constructor and `k` increments, `k` at most the
length of the filtered sequence: it is defined, and it is exhausted when `k` is that
length and at the member number `k` of the sequence otherwise. -/
theorem FilteredTreeIterator.afterFiltered_spec (filter : TreeNode → Bool) (fuel : Nat)
    (rootNode : TreeNode) (hwf : rootNode.WellFormed) (hfuel : rootNode.size ≤ fuel) :
    ∀ k, k ≤ (filteredSequence filter rootNode).length →
      ∃ s, FilteredTreeIterator.after filter fuel rootNode k = some s ∧
        ((k = (filteredSequence filter rootNode).length ∧ s = []) ∨
          ∃ l s', s = ⟨l, 0⟩ :: s' ∧ l.isLeafNode = true ∧ StackOk s' ∧ restSize s' ≤ fuel ∧
            (filteredSequence filter rootNode).drop k = l :: restFiltered filter s') := by
  obtain ⟨hb, hh⟩ := hwf
  intro k
  induction k with
  | zero =>
    intro _
    cases rootNode with
    | leaf b o g =>
      refine ⟨[⟨.leaf b o g, 0⟩], ?_, Or.inr ⟨.leaf b o g, [], rfl, rfl, trivial, ?_, ?_⟩⟩
      · simp [FilteredTreeIterator.after, FilteredTreeIterator.new, nodeCount,
          LEAF_NODE_SIGNIFIER, isLeafNode, NodeStack.ofRoot]
      · simp [restSize]
      · simp [filteredSequence, isLeafNode, restFiltered]
    | node b subs g =>
      simp only [branchesOk, Bool.and_eq_true, decide_eq_true_eq] at hb
      obtain ⟨⟨hlen, _⟩, hbl⟩ := hb
      simp only [height] at hh
      simp only [size] at hfuel
      have hne : subs.length ≠ 0 := by omega
      have hok : StackOk [⟨.node b subs g, 0⟩] :=
        ⟨⟨rfl, by simp only [subTrees_node]; omega, hbl,
          by simp only [subTrees_node, List.length_nil]; omega⟩, trivial⟩
      obtain ⟨r, hr, hcase⟩ := FilteredTreeIterator.delveDownFilteredLoop_spec filter fuel
        ⟨.node b subs g, 0⟩ [] hok (by simp only [subTrees_node, List.drop_zero, restSize]; omega)
      simp only [subTrees_node, List.drop_zero, restFiltered, List.append_nil, restSize,
        Nat.add_zero] at hcase
      have hnew : FilteredTreeIterator.after filter fuel (.node b subs g) 0 = some r := by
        simp [FilteredTreeIterator.after, FilteredTreeIterator.new, nodeCount, hne, isLeafNode,
          NodeStack.ofRoot, hr]
      refine ⟨r, hnew, ?_⟩
      rcases hcase with ⟨rfl, hnil⟩ | ⟨l, s', rfl, hl, hs', hrest, hsz⟩
      · left
        simp [filteredSequence, isLeafNode, subTrees_node, hnil]
      · right
        refine ⟨l, s', rfl, hl, hs', by omega, ?_⟩
        simp [filteredSequence, isLeafNode, subTrees_node, hrest]
  | succ k ih =>
    intro hk
    obtain ⟨s, hs, hcase⟩ := ih (by omega)
    rcases hcase with ⟨hkn, _⟩ | ⟨l, s', rfl, _, hok, hsize, hdrop⟩
    · omega
    · obtain ⟨r, hr, hcase'⟩ := FilteredTreeIterator.incrementFiltered_spec filter fuel ⟨l, 0⟩ s'
        hok hsize
      have hafter : FilteredTreeIterator.after filter fuel rootNode (k + 1) = some r := by
        simp [FilteredTreeIterator.after, hs, hr]
      have hdrop' : (filteredSequence filter rootNode).drop (k + 1) = restFiltered filter s' := by
        have := congrArg List.tail hdrop
        simpa [List.tail_drop] using this
      refine ⟨r, hafter, ?_⟩
      rcases hcase' with ⟨rfl, hnil⟩ | ⟨l', s'', rfl, hl', hok', hrest, hlt⟩
      · left
        refine ⟨?_, rfl⟩
        have hlen := congrArg List.length hdrop'
        rw [hnil, List.length_drop, List.length_nil] at hlen
        omega
      · right
        exact ⟨l', s'', rfl, hl', hok', by omega, by rw [hdrop', hrest]⟩

/-! ### The leaves the pruned descent reaches, by their paths -/

theorem TreeNode.acceptedPath_cons (filter : TreeNode → Bool) (b : Bounds) (subs : List TreeNode)
    (g : Bool) (i : Nat) (c : TreeNode) (p : List Nat) (hc : subs[i]? = some c) :
    acceptedPath filter (.node b subs g) (i :: p) = (filter c && acceptedPath filter c p) := by
  simp [acceptedPath, child?, subTrees, hc]

theorem TreeNode.nodeAt_cons_child (b : Bounds) (subs : List TreeNode) (g : Bool) (i : Nat)
    (c : TreeNode) (p : List Nat) (hc : subs[i]? = some c) :
    (TreeNode.node b subs g).nodeAt (i :: p) = c.nodeAt p := by
  simp [nodeAt, child?, subTrees, hc]

theorem TreeNode.filterMap_paths_below (filter : TreeNode → Bool) (b : Bounds)
    (subs : List TreeNode) (g : Bool) (i : Nat) (c : TreeNode) (hc : subs[i]? = some c) :
    ∀ P : List (List Nat),
      ((P.map (fun p => i :: p)).filter (acceptedPath filter (.node b subs g))).filterMap
          (TreeNode.node b subs g).nodeAt =
        if filter c = true then (P.filter (acceptedPath filter c)).filterMap c.nodeAt else [] := by
  intro P
  induction P with
  | nil => simp
  | cons p P ih =>
    simp only [List.map_cons, List.filter_cons, acceptedPath_cons filter b subs g i c p hc]
    by_cases hf : filter c = true
    · simp only [hf, Bool.true_and, if_true] at ih ⊢
      by_cases hp : acceptedPath filter c p = true
      · simp only [hp, if_true, List.filterMap_cons, nodeAt_cons_child b subs g i c p hc, ih]
      · simp only [hp, if_false, Bool.false_eq_true, ih]
    · simp only [hf, Bool.false_and, Bool.false_eq_true, if_false] at ih ⊢
      exact ih

theorem TreeNode.filteredLeavesList_eq_paths (filter : TreeNode → Bool) (b : Bounds)
    (subs : List TreeNode) (g : Bool) :
    ∀ (ts : List TreeNode) (i : Nat), subs.drop i = ts →
      (∀ c ∈ ts, filteredLeaves filter c =
        if filter c = true then ((leafPaths c).filter (acceptedPath filter c)).filterMap c.nodeAt
        else []) →
      ((leafPathsList ts i).filter (acceptedPath filter (.node b subs g))).filterMap
          (TreeNode.node b subs g).nodeAt = filteredLeavesList filter ts := by
  intro ts
  induction ts with
  | nil => intro i _ _; simp [leafPathsList, filteredLeavesList]
  | cons c ts ih =>
    intro i hdrop h
    have hc : subs[i]? = some c := by
      have := congrArg List.head? hdrop
      simpa [List.head?_drop] using this
    have hdrop' : subs.drop (i + 1) = ts := by
      have := congrArg List.tail hdrop
      simpa [List.tail_drop] using this
    rw [leafPathsList, List.filter_append, List.filterMap_append,
      filterMap_paths_below filter b subs g i c hc, ih (i + 1) hdrop'
        (fun c' hc' => h c' (List.mem_cons_of_mem _ hc')),
      filteredLeavesList, h c (List.mem_cons_self _ _)]

/-- The leaves the pruned descent reaches from a node are, when the node is accepted,
the leaves at the ends of the accepted paths, in the order of the paths. -/
theorem TreeNode.filteredLeaves_eq_paths (filter : TreeNode → Bool) (t : TreeNode) :
    filteredLeaves filter t =
      if filter t = true then ((leafPaths t).filter (acceptedPath filter t)).filterMap t.nodeAt
      else [] := by
  induction t using TreeNode.induction with
  | hleaf b o g => simp [filteredLeaves, leafPaths, acceptedPath, nodeAt_nil]
  | hnode b subs g ih =>
    rw [filteredLeaves, leafPaths,
      filteredLeavesList_eq_paths filter b subs g subs 0 (List.drop_zero _) ih]

/-- Below an internal root the filtered sequence is made of the leaves at the ends of
the accepted paths, in the order of the paths. -/
theorem filteredSequence_eq_paths (filter : TreeNode → Bool) (rootNode : TreeNode)
    (hroot : rootNode.isLeafNode = false) :
    filteredSequence filter rootNode =
      ((leafPaths rootNode).filter (acceptedPath filter rootNode)).filterMap rootNode.nodeAt := by
  cases rootNode with
  | leaf b o g => simp [isLeafNode] at hroot
  | node b subs g =>
    simp only [filteredSequence, isLeafNode, Bool.false_eq_true, if_false, subTrees_node, leafPaths]
    exact (filteredLeavesList_eq_paths filter b subs g subs 0 (List.drop_zero _)
      (fun c _ => filteredLeaves_eq_paths filter c)).symm

theorem TreeNode.filteredLeavesList_true (subs : List TreeNode)
    (h : ∀ c ∈ subs, filteredLeaves (fun _ => true) c = leaves c) :
    filteredLeavesList (fun _ => true) subs = leavesList subs := by
  induction subs with
  | nil => rfl
  | cons c cs ih =>
    rw [filteredLeavesList, leavesList, h c (List.mem_cons_self _ _),
      ih (fun c' hc' => h c' (List.mem_cons_of_mem _ hc'))]

/-- A filter that accepts every node hides no leaf. -/
theorem TreeNode.filteredLeaves_true (t : TreeNode) :
    filteredLeaves (fun _ => true) t = leaves t := by
  induction t using TreeNode.induction with
  | hleaf b o g => simp [filteredLeaves, leaves]
  | hnode b subs g ih =>
    simp only [filteredLeaves, if_true, leaves]
    exact filteredLeavesList_true subs ih

theorem filteredSequence_true (rootNode : TreeNode) :
    filteredSequence (fun _ => true) rootNode = leaves rootNode := by
  cases rootNode with
  | leaf b o g => simp [filteredSequence, isLeafNode, leaves]
  | node b subs g =>
    simp only [filteredSequence, isLeafNode, Bool.false_eq_true, if_false, subTrees_node, leaves]
    exact filteredLeavesList_true subs (fun c _ => filteredLeaves_true c)

theorem TreeNode.acceptedPath_true (p : List Nat) :
    ∀ t : TreeNode, acceptedPath (fun _ => true) t p = (t.nodeAt p).isSome := by
  induction p with
  | nil => intro t; simp [acceptedPath, nodeAt_nil]
  | cons i p ih =>
    intro t
    simp only [acceptedPath, nodeAt]
    cases t.child? i with
    | none => rfl
    | some c => simpa using ih c

theorem filterMap_filter_isSome {α β : Type} (f : α → Option β) (l : List α) :
    (l.filter (fun a => (f a).isSome)).filterMap f = l.filterMap f := by
  induction l with
  | nil => rfl
  | cons a l ih =>
    cases h : f a with
    | none => simp [List.filter_cons, List.filterMap_cons, h, ih]
    | some b => simp [List.filter_cons, List.filterMap_cons, h, ih]

/-- The paths to the leaves lead to the leaves, in left-to-right depth-first order. -/
theorem TreeNode.filterMap_leafPaths (t : TreeNode) :
    (leafPaths t).filterMap t.nodeAt = leaves t := by
  have h := filteredLeaves_eq_paths (fun _ => true) t
  rw [filteredLeaves_true] at h
  simp only [if_true] at h
  have hfun : acceptedPath (fun _ => true) t = fun p => (t.nodeAt p).isSome := by
    funext p
    exact acceptedPath_true p t
  rw [hfun, filterMap_filter_isSome] at h
  exact h.symm

theorem TreeNode.mem_leafPathsList (ts : List TreeNode) :
    ∀ (i : Nat) (p : List Nat), p ∈ leafPathsList ts i ↔
      ∃ j c q, ts[j]? = some c ∧ p = (i + j) :: q ∧ q ∈ leafPaths c := by
  induction ts with
  | nil => intro i p; simp [leafPathsList]
  | cons t ts ih =>
    intro i p
    rw [leafPathsList, List.mem_append, List.mem_map, ih]
    constructor
    · rintro (⟨q, hq, rfl⟩ | ⟨j, c, q, hc, rfl, hq⟩)
      · exact ⟨0, t, q, by simp, rfl, hq⟩
      · exact ⟨j + 1, c, q, by simpa using hc, by rw [Nat.add_assoc, Nat.add_comm 1 j], hq⟩
    · rintro ⟨j, c, q, hc, rfl, hq⟩
      cases j with
      | zero =>
        simp only [List.getElem?_cons_zero, Option.some.injEq] at hc
        subst hc
        exact Or.inl ⟨q, hq, rfl⟩
      | succ j =>
        exact Or.inr ⟨j, c, q, by simpa using hc, by rw [Nat.add_assoc, Nat.add_comm 1 j], hq⟩

/-- The listed paths are the paths that lead to a leaf. -/
theorem TreeNode.mem_leafPaths_iff (t : TreeNode) :
    ∀ p : List Nat, p ∈ leafPaths t ↔ ∃ l, t.nodeAt p = some l ∧ l.isLeafNode = true := by
  induction t using TreeNode.induction with
  | hleaf b o g =>
    intro p
    cases p with
    | nil => simp [leafPaths, nodeAt_nil, isLeafNode]
    | cons i p => simp [leafPaths, nodeAt, child?, subTrees]
  | hnode b subs g ih =>
    intro p
    rw [leafPaths, mem_leafPathsList]
    constructor
    · rintro ⟨j, c, q, hc, rfl, hq⟩
      obtain ⟨l, hl, hleaf⟩ := (ih c (List.getElem?_mem hc) q).1 hq
      refine ⟨l, ?_, hleaf⟩
      rw [Nat.zero_add, nodeAt_cons_child b subs g j c q hc]
      exact hl
    · rintro ⟨l, hl, hleaf⟩
      cases p with
      | nil =>
        rw [nodeAt_nil] at hl
        cases hl
        simp [isLeafNode] at hleaf
      | cons j q =>
        cases hc : subs[j]? with
        | none => simp [nodeAt, child?, subTrees, hc] at hl
        | some c =>
          rw [nodeAt_cons_child b subs g j c q hc] at hl
          exact ⟨j, c, q, hc, by rw [Nat.zero_add],
            (ih c (List.getElem?_mem hc) q).2 ⟨l, hl, hleaf⟩⟩

/-- A path is accepted exactly when it stays in the tree and the filter accepts the
node at the end of every prefix of it but the empty one. -/
theorem TreeNode.acceptedPath_iff (filter : TreeNode → Bool) (p : List Nat) :
    ∀ t : TreeNode, acceptedPath filter t p = true ↔
      (∃ n, t.nodeAt p = some n) ∧
        ∀ q c, q ≠ [] → q <+: p → t.nodeAt q = some c → filter c = true := by
  induction p with
  | nil =>
    intro t
    simp only [acceptedPath, nodeAt_nil, true_iff]
    refine ⟨⟨t, rfl⟩, ?_⟩
    intro q c hq hpre _
    exact absurd (List.prefix_nil.1 hpre) hq
  | cons i p ih =>
    intro t
    simp only [acceptedPath, nodeAt]
    cases hc : t.child? i with
    | none =>
      simp only [Bool.false_eq_true, false_iff, not_and]
      rintro ⟨n, hn⟩
      cases hn
    | some c =>
      simp only [Bool.and_eq_true, ih c]
      constructor
      · rintro ⟨hf, hn, hall⟩
        refine ⟨hn, ?_⟩
        intro q c' hq hpre hq'
        cases q with
        | nil => exact absurd rfl hq
        | cons a q' =>
          obtain ⟨rfl, hpre'⟩ := List.cons_prefix_cons.1 hpre
          simp only [nodeAt, hc] at hq'
          cases q' with
          | nil =>
            rw [nodeAt_nil] at hq'
            cases hq'
            exact hf
          | cons a' q'' => exact hall _ c' (by simp) hpre' hq'
      · rintro ⟨hn, hall⟩
        refine ⟨?_, hn, ?_⟩
        · exact hall [i] c (by simp) (by simp [List.cons_prefix_cons]) (by simp [nodeAt, hc, nodeAt_nil])
        · intro q c' hq hpre hq'
          exact hall (i :: q) c' (by simp) (List.cons_prefix_cons.2 ⟨rfl, hpre⟩)
            (by simpa [nodeAt, hc] using hq')

/-! ### The pruning of the filtered iterator -/

/-- C22. On a well-formed tree with an internal root and for every filter, the loop
over `iterFiltered(filter)` returns the leaves at the ends of the accepted paths, in
the left-to-right depth-first order in which the paths to all leaves are listed: a
leaf is visited exactly when the filter accepts it and every node between it and the
root.  Every frame above the first holds an accepted child of the frame below, and
every node passed to the filter is a child of the root or of a node accepted together
with all nodes between it and the root: nothing below a rejected node is entered or
tested. -/
theorem C22_filtered_iteration_prunes (t : BoundsTree) (filter : TreeNode → Bool)
    (fuel steps : Nat) (hwf : t.rootNode.WellFormed) (hroot : t.rootNode.isLeafNode = false)
    (hfuel : t.rootNode.size ≤ fuel) (hsteps : (leaves t.rootNode).length ≤ steps) :
    t.iterFiltered filter fuel steps =
      some (((leafPaths t.rootNode).filter (acceptedPath filter t.rootNode)).filterMap
        t.rootNode.nodeAt) ∧
    (leafPaths t.rootNode).filterMap t.rootNode.nodeAt = leaves t.rootNode ∧
    (∀ p, p ∈ leafPaths t.rootNode ↔ ∃ l, t.rootNode.nodeAt p = some l ∧ l.isLeafNode = true) ∧
    (∀ p, acceptedPath filter t.rootNode p = true ↔
      (∃ n, t.rootNode.nodeAt p = some n) ∧
        ∀ q c, q ≠ [] → q <+: p → t.rootNode.nodeAt q = some c → filter c = true) ∧
    (∀ k s, FilteredTreeIterator.after filter fuel t.rootNode k = some s →
      NodeStack.linked t.rootNode s = true ∧ NodeStack.acceptedAbove filter s = true) ∧
    (∀ n ∈ t.iterFilteredTested filter fuel steps,
      ∃ p i, acceptedPath filter t.rootNode p = true ∧
        t.rootNode.nodeAt (p ++ [i]) = some n) := by
  refine ⟨?_, filterMap_leafPaths t.rootNode, mem_leafPaths_iff t.rootNode,
    fun p => acceptedPath_iff filter p t.rootNode, ?_,
    BoundsTree.iterFilteredTested_pruned t filter fuel steps⟩
  · rw [← filteredSequence_eq_paths filter t.rootNode hroot]
    exact BoundsTree.iterFiltered_eq t filter fuel steps hwf hfuel
      (le_trans (length_filteredSequence_le filter t.rootNode) hsteps)
  · intro k s h
    obtain ⟨hc, ha⟩ := FilteredTreeIterator.after_pruned filter t.rootNode fuel k s h
    exact ⟨linked_of_consistent t.rootNode s hc, ha⟩

/-- C22, at the world of the example after the split, with the filter that rejects
the group of the parts 2 and 3: the parts 1 and 4 are visited, and the filter is
passed the two groups and the parts 1 and 4 only. -/
theorem C22_filtered_iteration_prunes_witness :
    splitWorld.objectTree.rootNode.WellFormed ∧
    splitWorld.objectTree.iterFiltered (fun n => decide (n.bounds ≠ cube 1 3)) 7 4 =
      some [.leaf (cube 0 1) 1 false, .leaf (cube 3 4) 4 false] ∧
    splitWorld.objectTree.iterFilteredTested (fun n => decide (n.bounds ≠ cube 1 3)) 7 4 =
      [.node (cube 0 4) [.leaf (cube 0 1) 1 false, .leaf (cube 3 4) 4 false] true,
        .leaf (cube 0 1) 1 false, .leaf (cube 3 4) 4 false,
        .node (cube 1 3) [.leaf (cube 1 2) 2 false, .leaf (cube 2 3) 3 false] true] ∧
    splitWorld.objectTree.iterFiltered (fun n => decide (n.bounds ≠ cube 1 3)) 7 4 =
      some (((leafPaths splitWorld.objectTree.rootNode).filter
        (acceptedPath (fun n => decide (n.bounds ≠ cube 1 3))
          splitWorld.objectTree.rootNode)).filterMap splitWorld.objectTree.rootNode.nodeAt) :=
  ⟨by decide, by decide, by decide,
    (C22_filtered_iteration_prunes splitWorld.objectTree (fun n => decide (n.bounds ≠ cube 1 3))
      7 4 (by decide) (by decide) (by decide) (by decide)).1⟩

/-! ### The root leaf -/

/-- C26. On a tree whose root is a leaf, the loop over `iterFiltered(filter)` returns
that leaf once, whatever the filter, and the filter is passed no node: the iterator
is at the root after the constructor and exhausted after one increment. -/
theorem C26_root_leaf_is_not_filtered (bounds : Bounds) (object : Nat) (isGroupHead : Bool)
    (filter : TreeNode → Bool) (fuel steps : Nat) :
    BoundsTree.iterFiltered ⟨.leaf bounds object isGroupHead⟩ filter fuel (steps + 1) =
      some [.leaf bounds object isGroupHead] ∧
    BoundsTree.iterFilteredTested ⟨.leaf bounds object isGroupHead⟩ filter fuel (steps + 1) = [] ∧
    FilteredTreeIterator.after filter fuel (.leaf bounds object isGroupHead) 0 =
      some [⟨.leaf bounds object isGroupHead, 0⟩] ∧
    FilteredTreeIterator.after filter fuel (.leaf bounds object isGroupHead) 1 = some [] ∧
    BoundsTree.iterFiltered ⟨.leaf bounds object isGroupHead⟩ (fun _ => false) fuel (steps + 1) =
      some [.leaf bounds object isGroupHead] := by
  have hnew : ∀ f : TreeNode → Bool,
      FilteredTreeIterator.new f fuel (.leaf bounds object isGroupHead) =
        some [⟨.leaf bounds object isGroupHead, 0⟩] := by
    intro f
    simp [FilteredTreeIterator.new, nodeCount, LEAF_NODE_SIGNIFIER, isLeafNode, NodeStack.ofRoot]
  have hinc : ∀ f : TreeNode → Bool,
      FilteredTreeIterator.increment f fuel [⟨.leaf bounds object isGroupHead, 0⟩] = some [] := by
    intro f
    simp [FilteredTreeIterator.increment, ConstTreeIterator.riseUntilAvailable]
  have hiter : ∀ f : TreeNode → Bool,
      BoundsTree.iterFiltered ⟨.leaf bounds object isGroupHead⟩ f fuel (steps + 1) =
        some [.leaf bounds object isGroupHead] := by
    intro f
    cases steps <;>
      simp [BoundsTree.iterFiltered, hnew, FilteredTreeIterator.visit, hinc]
  refine ⟨hiter filter, ?_, hnew filter, ?_, hiter _⟩
  · simp [BoundsTree.iterFilteredTested, FilteredTreeIterator.newTested, nodeCount,
      LEAF_NODE_SIGNIFIER, isLeafNode, hnew, FilteredTreeIterator.visitTested,
      FilteredTreeIterator.incrementTested, ConstTreeIterator.riseUntilAvailable, hinc]
  · simp [FilteredTreeIterator.after, hnew, hinc]

/-! ### The invariant of the iterators -/

/-- C27. On a well-formed tree, the unfiltered iterator after its constructor and `k`
increments, `k` up to the number of leaves, and the filtered iterator after its
constructor and `k` increments, `k` up to the length of the filtered sequence, are
defined; each compares equal to `end()` exactly when `k` is that number, and
otherwise its first frame holds the root, every frame above holds the child of the
frame below at the index recorded there, and `operator*` returns a leaf. -/
theorem C27_cursor_invariant (rootNode : TreeNode) (filter : TreeNode → Bool) (fuel : Nat)
    (hwf : rootNode.WellFormed) (hfuel : rootNode.size ≤ fuel) :
    (∀ k, k ≤ (leaves rootNode).length →
      ∃ s, ConstTreeIterator.after rootNode k = some s ∧
        (NodeStack.neEnd s = false ↔ k = (leaves rootNode).length) ∧
        (NodeStack.neEnd s = true → NodeStack.linked rootNode s = true ∧
          ∃ l, NodeStack.deref? s = some l ∧ l.isLeafNode = true)) ∧
    (∀ k, k ≤ (filteredSequence filter rootNode).length →
      ∃ s, FilteredTreeIterator.after filter fuel rootNode k = some s ∧
        (NodeStack.neEnd s = false ↔ k = (filteredSequence filter rootNode).length) ∧
        (NodeStack.neEnd s = true → NodeStack.linked rootNode s = true ∧
          ∃ l, NodeStack.deref? s = some l ∧ l.isLeafNode = true)) := by
  constructor
  · intro k hk
    obtain ⟨s, hs, hcons, hcase⟩ := ConstTreeIterator.after_spec rootNode hwf k hk
    refine ⟨s, hs, ?_, fun _ => ?_⟩
    · rcases hcase with ⟨hkn, rfl⟩ | ⟨l, s', rfl, _, _, hdrop⟩
      · simp [NodeStack.neEnd, hkn]
      · have hlen := congrArg List.length hdrop
        rw [List.length_drop, List.length_cons] at hlen
        simp only [NodeStack.neEnd, List.isEmpty_cons, Bool.not_false, Bool.true_eq_false,
          false_iff]
        omega
    · refine ⟨linked_of_consistent rootNode s hcons, ?_⟩
      rcases hcase with ⟨_, rfl⟩ | ⟨l, s', rfl, hl, _, _⟩
      · rename_i h; simp [NodeStack.neEnd] at h
      · exact ⟨l, rfl, hl⟩
  · intro k hk
    obtain ⟨s, hs, hcase⟩ := FilteredTreeIterator.afterFiltered_spec filter fuel rootNode hwf hfuel k hk
    have hcons := (FilteredTreeIterator.after_pruned filter rootNode fuel k s hs).1
    refine ⟨s, hs, ?_, fun _ => ?_⟩
    · rcases hcase with ⟨hkn, rfl⟩ | ⟨l, s', rfl, _, _, _, hdrop⟩
      · simp [NodeStack.neEnd, hkn]
      · have hlen := congrArg List.length hdrop
        rw [List.length_drop, List.length_cons] at hlen
        simp only [NodeStack.neEnd, List.isEmpty_cons, Bool.not_false, Bool.true_eq_false,
          false_iff]
        omega
    · refine ⟨linked_of_consistent rootNode s hcons, ?_⟩
      rcases hcase with ⟨_, rfl⟩ | ⟨l, s', rfl, hl, _, _, _⟩
      · rename_i h; simp [NodeStack.neEnd] at h
      · exact ⟨l, rfl, hl⟩

/-- C27, at the world of the example after the split: the unfiltered iterator after
two increments and the iterator filtered for the boxes other than `(1,1,1)-(3,3,3)`
after one. -/
theorem C27_cursor_invariant_witness :
    splitWorld.objectTree.rootNode.WellFormed ∧
    ConstTreeIterator.after splitWorld.objectTree.rootNode 2 =
      some [⟨.leaf (cube 1 2) 2 false, 0⟩,
        ⟨.node (cube 1 3) [.leaf (cube 1 2) 2 false, .leaf (cube 2 3) 3 false] true, 0⟩,
        ⟨splitWorld.objectTree.rootNode, 1⟩] ∧
    FilteredTreeIterator.after (fun n => decide (n.bounds ≠ cube 1 3)) 7
        splitWorld.objectTree.rootNode 2 = some [] ∧
    ((∀ k, k ≤ (leaves splitWorld.objectTree.rootNode).length →
      ∃ s, ConstTreeIterator.after splitWorld.objectTree.rootNode k = some s ∧
        (NodeStack.neEnd s = false ↔ k = (leaves splitWorld.objectTree.rootNode).length) ∧
        (NodeStack.neEnd s = true → NodeStack.linked splitWorld.objectTree.rootNode s = true ∧
          ∃ l, NodeStack.deref? s = some l ∧ l.isLeafNode = true)) ∧
    (∀ k, k ≤ (filteredSequence (fun n => decide (n.bounds ≠ cube 1 3))
        splitWorld.objectTree.rootNode).length →
      ∃ s, FilteredTreeIterator.after (fun n => decide (n.bounds ≠ cube 1 3)) 7
          splitWorld.objectTree.rootNode k = some s ∧
        (NodeStack.neEnd s = false ↔ k = (filteredSequence (fun n => decide (n.bounds ≠ cube 1 3))
          splitWorld.objectTree.rootNode).length) ∧
        (NodeStack.neEnd s = true → NodeStack.linked splitWorld.objectTree.rootNode s = true ∧
          ∃ l, NodeStack.deref? s = some l ∧ l.isLeafNode = true))) :=
  ⟨by decide, by decide, by decide,
    C27_cursor_invariant splitWorld.objectTree.rootNode (fun n => decide (n.bounds ≠ cube 1 3)) 7
      (by decide) (by decide)⟩

/-! ### The filter that accepts every node -/

/-- C28. On every tree that is empty or well-formed, the loop over the iterator
filtered by `DoNothingFilter` returns what the loop over the unfiltered iterator
returns, the leaves of the tree in order; and after the constructor and any number
`k` of increments up to the number of leaves both iterators are defined, `operator*`
returns the same node for both, and both or neither compare equal to `end()`. -/
theorem C28_do_nothing_filter_matches_unfiltered (t : BoundsTree) (fuel steps : Nat)
    (hwf : t.isEmpty = true ∨ t.rootNode.WellFormed) (hfuel : t.rootNode.size ≤ fuel)
    (hsteps : (leaves t.rootNode).length ≤ steps) :
    t.iterFiltered DoNothingFilter fuel steps = t.iterate steps ∧
    t.iterate steps = some (leaves t.rootNode) ∧
    (∀ k, k ≤ (leaves t.rootNode).length →
      ∃ s s', FilteredTreeIterator.after DoNothingFilter fuel t.rootNode k = some s ∧
        ConstTreeIterator.after t.rootNode k = some s' ∧
        NodeStack.deref? s = NodeStack.deref? s' ∧ NodeStack.neEnd s = NodeStack.neEnd s' ∧
        (NodeStack.neEnd s = false ↔ k = (leaves t.rootNode).length)) := by
  have hiter := BoundsTree.iterate_eq_leaves t steps hwf hsteps
  rcases hwf with hempty | hwf
  · obtain ⟨root⟩ := t
    cases root with
    | leaf b o g => simp [BoundsTree.isEmpty, nodeCount, LEAF_NODE_SIGNIFIER] at hempty
    | node b subs g =>
      cases subs with
      | cons c cs => simp [BoundsTree.isEmpty, nodeCount] at hempty
      | nil =>
        refine ⟨?_, hiter, ?_⟩
        · rw [hiter]
          cases steps <;>
            simp [BoundsTree.iterFiltered, FilteredTreeIterator.new, nodeCount, NodeStack.ofRoot,
              FilteredTreeIterator.visit, leaves, leavesList]
        · intro k hk
          simp only [leaves, leavesList, List.length_nil, Nat.le_zero_eq] at hk
          subst hk
          exact ⟨[], [], by simp [FilteredTreeIterator.after, FilteredTreeIterator.new, nodeCount,
            NodeStack.ofRoot], by simp [ConstTreeIterator.after, ConstTreeIterator.new, nodeCount,
            NodeStack.ofRoot], rfl, rfl, by simp [NodeStack.neEnd, leaves, leavesList]⟩
  · have hseq := filteredSequence_true t.rootNode
    refine ⟨?_, hiter, ?_⟩
    · rw [hiter, ← hseq]
      exact BoundsTree.iterFiltered_eq t _ fuel steps hwf hfuel (by
        show (filteredSequence (fun _ => true) t.rootNode).length ≤ steps
        rw [hseq]; exact hsteps)
    · intro k hk
      obtain ⟨s, hs, hcase⟩ := FilteredTreeIterator.afterFiltered_spec DoNothingFilter fuel t.rootNode
        hwf hfuel k (by
          show k ≤ (filteredSequence (fun _ => true) t.rootNode).length
          rw [hseq]; exact hk)
      obtain ⟨s', hs', _, hcase'⟩ := ConstTreeIterator.after_spec t.rootNode hwf k hk
      have hseq' : filteredSequence DoNothingFilter t.rootNode = leaves t.rootNode := hseq
      rw [hseq'] at hcase
      refine ⟨s, s', hs, hs', ?_⟩
      rcases hcase with ⟨hkn, rfl⟩ | ⟨l, r, rfl, _, _, _, hdrop⟩
      · rcases hcase' with ⟨_, rfl⟩ | ⟨l', r', rfl, _, _, hdrop'⟩
        · exact ⟨rfl, rfl, by simp [NodeStack.neEnd, hkn]⟩
        · have hlen := congrArg List.length hdrop'
          rw [List.length_drop, List.length_cons] at hlen
          omega
      · have hlen := congrArg List.length hdrop
        rw [List.length_drop, List.length_cons] at hlen
        rcases hcase' with ⟨hkn, _⟩ | ⟨l', r', rfl, _, _, hdrop'⟩
        · omega
        · rw [hdrop] at hdrop'
          have hl : l = l' := (List.cons.inj hdrop').1
          subst hl
          refine ⟨rfl, rfl, ?_⟩
          simp only [NodeStack.neEnd, List.isEmpty_cons, Bool.not_false, Bool.true_eq_false,
            false_iff]
          omega

/-- C28, at the world of the example after the split. -/
theorem C28_do_nothing_filter_matches_unfiltered_witness :
    splitWorld.objectTree.rootNode.WellFormed ∧
    splitWorld.objectTree.iterFiltered DoNothingFilter 7 4 =
      some [.leaf (cube 0 1) 1 false, .leaf (cube 3 4) 4 false, .leaf (cube 1 2) 2 false,
        .leaf (cube 2 3) 3 false] ∧
    splitWorld.objectTree.iterFiltered DoNothingFilter 7 4 = splitWorld.objectTree.iterate 4 :=
  ⟨by decide, by decide,
    (C28_do_nothing_filter_matches_unfiltered splitWorld.objectTree 7 4 (Or.inr (by decide))
      (by decide) (by decide)).1⟩

/-! ### The depth of the stack -/

theorem TreeNode.height_eq_heightList (t : TreeNode) : t.height = heightList t.subTrees + 1 := by
  cases t <;> simp [height, heightList, subTrees]

theorem TreeNode.heightList_drop {subs : List TreeNode} {i : Nat} {c : TreeNode}
    (h : subs[i]? = some c) :
    heightList (subs.drop i) = Max.max c.height (heightList (subs.drop (i + 1))) := by
  have hlt : i < subs.length := (List.getElem?_eq_some.1 h).1
  have hc : subs[i] = c := (List.getElem?_eq_some.1 h).2
  rw [List.drop_eq_getElem_cons hlt, hc, heightList]

theorem ConstTreeIterator.delveDownLoop_length (fuel : Nat) :
    ∀ (s r : NodeStack), ConstTreeIterator.delveDownLoop fuel s = some r →
      s.length ≤ MAX_HEIGHT → r.length ≤ MAX_HEIGHT := by
  induction fuel with
  | zero => intro s r h; cases s <;> simp [ConstTreeIterator.delveDownLoop] at h
  | succ fuel ih =>
    intro s r h hlen
    cases s with
    | nil => simp [ConstTreeIterator.delveDownLoop] at h
    | cons top rest =>
      simp only [ConstTreeIterator.delveDownLoop] at h
      split at h
      · cases h; exact hlen
      · split at h
        · cases h
        · split at h
          · cases h
          · rename_i hroom
            exact ih _ r h (by simp only [List.length_cons] at hlen ⊢; omega)

theorem ConstTreeIterator.delveDownLoop_unchecked (fuel : Nat) :
    ∀ (s r : NodeStack), ConstTreeIterator.delveDownLoop fuel s = some r →
      ConstTreeIterator.delveDownUnchecked fuel s = some r := by
  induction fuel with
  | zero => intro s r h; cases s <;> simp [ConstTreeIterator.delveDownLoop] at h
  | succ fuel ih =>
    intro s r h
    cases s with
    | nil => simp [ConstTreeIterator.delveDownLoop] at h
    | cons top rest =>
      by_cases hleaf : top.node.isLeafNode = true
      · simp only [ConstTreeIterator.delveDownLoop, hleaf, if_true] at h
        simp [ConstTreeIterator.delveDownUnchecked, hleaf, h]
      · cases hc : top.node.child? top.index with
        | none => simp [ConstTreeIterator.delveDownLoop, hleaf, hc] at h
        | some c =>
          by_cases hroom : MAX_HEIGHT ≤ rest.length + 1
          · simp [ConstTreeIterator.delveDownLoop, hleaf, hc, hroom] at h
          · simp only [ConstTreeIterator.delveDownLoop, hleaf, hc, hroom, if_false] at h
            simp only [ConstTreeIterator.delveDownUnchecked, hleaf, hc, if_false]
            exact ih _ r h

/-- The descent as the source writes it stops at the leaf at the end of the first
children, with one frame for every node on the way. -/
theorem ConstTreeIterator.delveDownUnchecked_spec (fuel : Nat) :
    ∀ (c : TreeNode) (s : NodeStack), c.branchesOk = true → c.height ≤ fuel →
      ∃ r, ConstTreeIterator.delveDownUnchecked fuel (⟨c, 0⟩ :: s) = some r ∧
        r.length = s.length + c.leftDepth := by
  induction fuel with
  | zero =>
    intro c s _ hf
    have := c.height_pos
    omega
  | succ fuel ih =>
    intro c s hb hf
    cases c with
    | leaf b o g =>
      exact ⟨⟨.leaf b o g, 0⟩ :: s, by simp [ConstTreeIterator.delveDownUnchecked, isLeafNode],
        by simp [leftDepth]⟩
    | node b subs g =>
      simp only [branchesOk, Bool.and_eq_true, decide_eq_true_eq] at hb
      obtain ⟨⟨hlen, _⟩, hbl⟩ := hb
      cases subs with
      | nil => simp at hlen
      | cons c0 cs =>
        have hc0 : c0.height ≤ heightList (c0 :: cs) :=
          height_le_heightList (List.mem_cons_self _ _)
        simp only [height] at hf
        obtain ⟨r, hr, hlenr⟩ := ih c0 (⟨.node b (c0 :: cs) g, 0⟩ :: s)
          (branchesOk_of_mem hbl (List.mem_cons_self _ _)) (by omega)
        refine ⟨r, ?_, ?_⟩
        · simp [ConstTreeIterator.delveDownUnchecked, isLeafNode, child?, subTrees, hr]
        · rw [hlenr]
          simp only [List.length_cons, leftDepth, leftDepthList]
          omega

theorem ConstTreeIterator.delveDownUnchecked_length (fuel : Nat) :
    ∀ (c : TreeNode) (s r : NodeStack),
      ConstTreeIterator.delveDownUnchecked fuel (⟨c, 0⟩ :: s) = some r →
      c.branchesOk = true → r.length = s.length + c.leftDepth := by
  induction fuel with
  | zero => intro c s r h; simp [ConstTreeIterator.delveDownUnchecked] at h
  | succ fuel ih =>
    intro c s r h hb
    cases c with
    | leaf b o g =>
      simp only [ConstTreeIterator.delveDownUnchecked, isLeafNode, if_true,
        Option.some.injEq] at h
      subst h
      simp [leftDepth]
    | node b subs g =>
      simp only [branchesOk, Bool.and_eq_true, decide_eq_true_eq] at hb
      obtain ⟨⟨hlen, _⟩, hbl⟩ := hb
      cases subs with
      | nil => simp at hlen
      | cons c0 cs =>
        simp only [ConstTreeIterator.delveDownUnchecked, isLeafNode, Bool.false_eq_true,
          if_false, child?, subTrees, List.getElem?_cons_zero] at h
        rw [ih c0 _ r h (branchesOk_of_mem hbl (List.mem_cons_self _ _))]
        simp only [List.length_cons, leftDepth, leftDepthList]
        omega

/-- What a descent can come to need is what the frames it leaves can come to need. -/
theorem ConstTreeIterator.delveDownLoop_needed (fuel : Nat) :
    ∀ (top : TreeStackElement) (rest r : NodeStack),
      ConstTreeIterator.delveDownLoop fuel (top :: rest) = some r →
      ∃ l rest', r = l :: rest' ∧
        Max.max (descentNeeds top rest) (framesNeeded rest) ≤
          Max.max (rest'.length + 1) (framesNeeded rest') := by
  induction fuel with
  | zero => intro top rest r h; simp [ConstTreeIterator.delveDownLoop] at h
  | succ fuel ih =>
    intro top rest r h
    simp only [ConstTreeIterator.delveDownLoop] at h
    split at h
    · rename_i hleaf
      cases h
      refine ⟨top, rest, rfl, ?_⟩
      have : top.node.subTrees = [] := by
        cases hn : top.node with
        | leaf b o g => rfl
        | node b subs g => rw [hn] at hleaf; simp [isLeafNode] at hleaf
      simp only [descentNeeds, this, List.drop_nil, heightList]
      omega
    · split at h
      · cases h
      · rename_i c hc
        split at h
        · cases h
        · obtain ⟨l, rest', hr, hle⟩ := ih _ _ r h
          refine ⟨l, rest', hr, ?_⟩
          have h1 := heightList_drop hc
          have h2 := c.height_eq_heightList
          simp only [descentNeeds, framesNeeded, List.drop_zero, List.length_cons] at hle ⊢
          omega

theorem ConstTreeIterator.riseUntilAvailable_length :
    ∀ s : NodeStack, (ConstTreeIterator.riseUntilAvailable s).length ≤ s.length := by
  intro s
  induction s with
  | nil => simp [ConstTreeIterator.riseUntilAvailable]
  | cons f rest ih =>
    simp only [ConstTreeIterator.riseUntilAvailable]
    split
    · simp only [List.length_cons]; omega
    · simp

theorem ConstTreeIterator.riseUntilAvailable_needed :
    ∀ s : NodeStack, framesNeeded s ≤ Max.max s.length
      (match ConstTreeIterator.riseUntilAvailable s with
      | [] => 0
      | top :: rest => Max.max (descentNeeds top rest) (framesNeeded rest)) := by
  intro s
  induction s with
  | nil => simp [framesNeeded]
  | cons f rest ih =>
    by_cases hfull : f.index + 1 = f.node.nodeCount
    · have hdrop : f.node.subTrees.drop (f.index + 1) = [] := by
        cases hn : f.node with
        | leaf b o g => simp [subTrees]
        | node b subs g =>
          rw [hn] at hfull
          simp only [nodeCount] at hfull
          simp [subTrees, hfull]
      have e : descentNeeds ⟨f.node, f.index + 1⟩ rest = rest.length + 1 := by
        simp only [descentNeeds, hdrop, heightList]
        omega
      rw [ConstTreeIterator.riseUntilAvailable, if_pos hfull, framesNeeded, e, List.length_cons]
      omega
    · rw [ConstTreeIterator.riseUntilAvailable, if_neg hfull, framesNeeded, List.length_cons]
      simp only
      omega

/-- A traversal that runs to the end never needs more frames than the stack has. -/
theorem ConstTreeIterator.visit_needed (fuel : Nat) :
    ∀ (top : TreeStackElement) (rest : NodeStack) (visited : List TreeNode),
      (top :: rest).length ≤ MAX_HEIGHT →
      ConstTreeIterator.visit fuel (top :: rest) = some visited →
      framesNeeded rest ≤ MAX_HEIGHT := by
  induction fuel with
  | zero => intro top rest visited _ h; simp [ConstTreeIterator.visit] at h
  | succ fuel ih =>
    intro top rest visited hlen h
    simp only [ConstTreeIterator.visit] at h
    cases hinc : ConstTreeIterator.increment (top :: rest) with
    | none => simp [hinc] at h
    | some s =>
      simp only [hinc, Option.map_eq_some'] at h
      obtain ⟨visited', hv, _⟩ := h
      have hneed := ConstTreeIterator.riseUntilAvailable_needed rest
      have hrise := ConstTreeIterator.riseUntilAvailable_length rest
      simp only [List.length_cons] at hlen
      simp only [ConstTreeIterator.increment] at hinc
      cases hr : ConstTreeIterator.riseUntilAvailable rest with
      | nil =>
        rw [hr] at hneed
        simp only at hneed
        omega
      | cons top' rest' =>
        rw [hr] at hneed hrise
        simp only [hr, ConstTreeIterator.delveDown] at hinc
        simp only at hneed
        obtain ⟨l, rest'', hs, hle⟩ := ConstTreeIterator.delveDownLoop_needed _ _ _ _ hinc
        have hlen' := ConstTreeIterator.delveDownLoop_length _ _ _ hinc (by omega)
        subst hs
        have := ih l rest'' visited' hlen' hv
        simp only [List.length_cons] at hlen'
        omega

/-- The loop from `begin()` to `end()` runs to the end only on trees whose paths fit
the stack. -/
theorem BoundsTree.height_le_of_iterate (t : BoundsTree) (fuel : Nat) (visited : List TreeNode)
    (h : t.iterate fuel = some visited) : t.rootNode.height ≤ MAX_HEIGHT := by
  obtain ⟨root⟩ := t
  simp only [BoundsTree.iterate] at h
  cases hnew : ConstTreeIterator.new root with
  | none => simp [hnew] at h
  | some s =>
    simp only [hnew] at h
    simp only [ConstTreeIterator.new] at hnew
    split at hnew
    · rename_i hzero
      cases root with
      | leaf b o g => simp [nodeCount, LEAF_NODE_SIGNIFIER] at hzero
      | node b subs g =>
        simp only [nodeCount] at hzero
        have : subs = [] := List.eq_nil_of_length_eq_zero hzero
        subst this
        simp [height, heightList, MAX_HEIGHT]
    · rename_i hzero
      simp only [NodeStack.ofRoot, hzero, if_false, ConstTreeIterator.delveDown] at hnew
      obtain ⟨l, rest', hs, hle⟩ := ConstTreeIterator.delveDownLoop_needed _ _ _ _ hnew
      have hlen := ConstTreeIterator.delveDownLoop_length _ _ _ hnew (by simp [MAX_HEIGHT])
      subst hs
      have hneed := ConstTreeIterator.visit_needed fuel l rest' visited hlen h
      have hroot := root.height_eq_heightList
      simp only [descentNeeds, List.drop_zero, List.length_nil, framesNeeded,
        List.length_cons] at hle hlen
      simp only
      omega

/-- C23. On a well-formed tree, whose paths have at most `MAX_HEIGHT` nodes, the
unfiltered and the filtered iterator after the constructor and any `k` increments up
to exhaustion are defined and use at most `MAX_HEIGHT` frames, as many as there are
nodes on the way from the root to the node of the top frame.  The descent itself has
no check: the loop as the source writes it returns whatever the guarded loop returns,
and on a tree whose way down the first children has more than `MAX_HEIGHT` nodes it
writes a frame for each of them, where the constructor is undefined; and on every
tree with a path of more than `MAX_HEIGHT` nodes the loop from `begin()` to `end()`
is undefined. -/
theorem C23_stack_depth_safety (rootNode : TreeNode) (filter : TreeNode → Bool) (fuel : Nat) :
    (rootNode.WellFormed → rootNode.size ≤ fuel →
      (∀ k, k ≤ (leaves rootNode).length →
        ∃ s, ConstTreeIterator.after rootNode k = some s ∧ s.length ≤ MAX_HEIGHT ∧
          ∀ top rest, s = top :: rest →
            rootNode.nodeAt (NodeStack.path s) = some top.node ∧
              s.length = (NodeStack.path s).length + 1) ∧
      (∀ k, k ≤ (filteredSequence filter rootNode).length →
        ∃ s, FilteredTreeIterator.after filter fuel rootNode k = some s ∧
          s.length ≤ MAX_HEIGHT ∧
          ∀ top rest, s = top :: rest →
            rootNode.nodeAt (NodeStack.path s) = some top.node ∧
              s.length = (NodeStack.path s).length + 1)) ∧
    (∀ (fuel' : Nat) (s r : NodeStack), ConstTreeIterator.delveDownLoop fuel' s = some r →
      ConstTreeIterator.delveDownUnchecked fuel' s = some r) ∧
    (rootNode.branchesOk = true →
      ∃ r, ConstTreeIterator.delveDownUnchecked rootNode.height [⟨rootNode, 0⟩] = some r ∧
        r.length = rootNode.leftDepth) ∧
    (rootNode.branchesOk = true → MAX_HEIGHT < rootNode.leftDepth →
      ConstTreeIterator.new rootNode = none) ∧
    (MAX_HEIGHT < rootNode.height → ∀ steps, BoundsTree.iterate ⟨rootNode⟩ steps = none) := by
  have hpath : ∀ s : NodeStack, Consistent rootNode s → ∀ top rest, s = top :: rest →
      rootNode.nodeAt (NodeStack.path s) = some top.node ∧
        s.length = (NodeStack.path s).length + 1 := by
    intro s hc top rest hs
    subst hs
    exact ⟨consistent_path hc, by simp [NodeStack.path]⟩
  refine ⟨?_, ConstTreeIterator.delveDownLoop_unchecked, ?_, ?_, ?_⟩
  · intro hwf hfuel
    constructor
    · intro k hk
      obtain ⟨s, hs, hcons, hcase⟩ := ConstTreeIterator.after_spec rootNode hwf k hk
      refine ⟨s, hs, ?_, hpath s hcons⟩
      rcases hcase with ⟨_, rfl⟩ | ⟨l, s', rfl, _, hok, _⟩
      · simp
      · have := stackOk_length_lt s' hok
        simp only [List.length_cons]
        omega
    · intro k hk
      obtain ⟨s, hs, hcase⟩ := FilteredTreeIterator.afterFiltered_spec filter fuel rootNode hwf hfuel k hk
      have hcons := (FilteredTreeIterator.after_pruned filter rootNode fuel k s hs).1
      refine ⟨s, hs, ?_, hpath s hcons⟩
      rcases hcase with ⟨_, rfl⟩ | ⟨l, s', rfl, _, hok, _, _⟩
      · simp
      · have := stackOk_length_lt s' hok
        simp only [List.length_cons]
        omega
  · intro hb
    obtain ⟨r, hr, hlen⟩ := ConstTreeIterator.delveDownUnchecked_spec rootNode.height rootNode []
      hb (Nat.le_refl _)
    exact ⟨r, hr, by simpa using hlen⟩
  · intro hb hdeep
    have hne : rootNode.nodeCount ≠ 0 := by
      cases rootNode with
      | leaf b o g => simp [nodeCount, LEAF_NODE_SIGNIFIER]
      | node b subs g =>
        simp only [branchesOk, Bool.and_eq_true, decide_eq_true_eq] at hb
        simp only [nodeCount]; omega
    cases hnew : ConstTreeIterator.new rootNode with
    | none => rfl
    | some r =>
      exfalso
      simp only [ConstTreeIterator.new, hne, if_false, NodeStack.ofRoot,
        ConstTreeIterator.delveDown] at hnew
      have h1 := ConstTreeIterator.delveDownLoop_length _ _ _ hnew (by simp [MAX_HEIGHT])
      have h2 := ConstTreeIterator.delveDownUnchecked_length _ rootNode [] r
        (ConstTreeIterator.delveDownLoop_unchecked _ _ _ hnew) hb
      simp only [List.length_nil, Nat.zero_add] at h2
      omega
  · intro hdeep steps
    cases hiter : BoundsTree.iterate ⟨rootNode⟩ steps with
    | none => rfl
    | some visited =>
      have := BoundsTree.height_le_of_iterate ⟨rootNode⟩ steps visited hiter
      simp only at this
      omega

theorem TreeNode.height_chain (n : Nat) : (TreeNode.chain n).height = n + 1 := by
  induction n with
  | zero => rfl
  | succ n ih => simp [TreeNode.chain, height, heightList, ih]

theorem TreeNode.leftDepth_chain (n : Nat) : (TreeNode.chain n).leftDepth = n + 1 := by
  induction n with
  | zero => rfl
  | succ n ih => simp [TreeNode.chain, leftDepth, leftDepthList, ih]

theorem TreeNode.branchesOk_chain (n : Nat) : (TreeNode.chain n).branchesOk = true := by
  induction n with
  | zero => rfl
  | succ n ih => simp [TreeNode.chain, branchesOk, branchesOkList, ih, MAX_BRANCHES]

/-- C23, at the world of the example after the split, whose iterators use three
frames, and at the path of 65 nodes, for which the descent as the source writes it
leaves 65 frames and the constructor is undefined. -/
theorem C23_stack_depth_safety_witness :
    splitWorld.objectTree.rootNode.WellFormed ∧
    (ConstTreeIterator.after splitWorld.objectTree.rootNode 1).map List.length = some 3 ∧
    (TreeNode.chain 64).height = 65 ∧ (TreeNode.chain 64).leftDepth = 65 ∧
    (TreeNode.chain 64).branchesOk = true ∧
    (∃ r, ConstTreeIterator.delveDownUnchecked (TreeNode.chain 64).height
        [⟨TreeNode.chain 64, 0⟩] = some r ∧ r.length = (TreeNode.chain 64).leftDepth) ∧
    ConstTreeIterator.new (TreeNode.chain 64) = none ∧
    (∀ steps, BoundsTree.iterate ⟨TreeNode.chain 64⟩ steps = none) ∧
    (∀ k, k ≤ (leaves splitWorld.objectTree.rootNode).length →
      ∃ s, ConstTreeIterator.after splitWorld.objectTree.rootNode k = some s ∧
        s.length ≤ MAX_HEIGHT ∧
        ∀ top rest, s = top :: rest →
          splitWorld.objectTree.rootNode.nodeAt (NodeStack.path s) = some top.node ∧
            s.length = (NodeStack.path s).length + 1) :=
  ⟨by decide, by decide, TreeNode.height_chain 64, TreeNode.leftDepth_chain 64,
    TreeNode.branchesOk_chain 64,
    (C23_stack_depth_safety (TreeNode.chain 64) DoNothingFilter 0).2.2.1
      (TreeNode.branchesOk_chain 64),
    (C23_stack_depth_safety (TreeNode.chain 64) DoNothingFilter 0).2.2.2.1
      (TreeNode.branchesOk_chain 64)
      (by rw [TreeNode.leftDepth_chain]; decide),
    (C23_stack_depth_safety (TreeNode.chain 64) DoNothingFilter 0).2.2.2.2
      (by rw [TreeNode.height_chain]; decide),
    ((C23_stack_depth_safety splitWorld.objectTree.rootNode DoNothingFilter 7).1 (by decide)
      (by decide)).1⟩

/-! ### Trees without childless internal nodes -/

theorem TreeNode.hasChildrenList_iff (subs : List TreeNode) :
    hasChildrenList subs = true ↔ ∀ c ∈ subs, hasChildren c = true := by
  induction subs with
  | nil => simp [hasChildrenList]
  | cons a as ih => simp [hasChildrenList, ih]

theorem TreeNode.hasChildren_node_iff (b : Bounds) (subs : List TreeNode) (g : Bool) :
    hasChildren (.node b subs g) = true ↔ 1 ≤ subs.length ∧ ∀ c ∈ subs, hasChildren c = true := by
  simp [hasChildren, hasChildrenList_iff]

theorem TreeNode.hasChildren_setBounds (t : TreeNode) (b : Bounds) :
    hasChildren (t.setBounds b) = hasChildren t := by
  cases t <;> simp [setBounds, hasChildren]

theorem TreeNode.hasChildren_setGroupHead (t : TreeNode) (g : Bool) :
    hasChildren (t.setGroupHead g) = hasChildren t := by
  cases t <;> simp [setGroupHead, hasChildren]

theorem TreeNode.hasChildren_recalculateBoundsFromSubBounds (t : TreeNode) :
    hasChildren t.recalculateBoundsFromSubBounds = hasChildren t := by
  cases t with
  | leaf b o g => rfl
  | node b subs g =>
    cases subs with
    | nil => rfl
    | cons first others => simp [recalculateBoundsFromSubBounds, hasChildren]

/-- Rewriting along a path keeps every internal node at one child or more when the
rewriting of the target does and the rewriting of the ancestors keeps the children. -/
theorem TreeNode.hasChildren_modifyPath (atTarget onAncestor : TreeNode → TreeNode)
    (hanc : ∀ n, hasChildren (onAncestor n) = hasChildren n) (q : List Nat) :
    ∀ t : TreeNode, hasChildren t = true →
      (∀ target, t.nodeAt q = some target → hasChildren target = true →
        hasChildren (atTarget target) = true) →
      hasChildren (t.modifyPath atTarget onAncestor q) = true := by
  induction q with
  | nil =>
    intro t ht h
    have := h t (nodeAt_nil t) ht
    cases t <;> simpa [modifyPath] using this
  | cons j q ih =>
    intro t ht h
    cases t with
    | leaf b o g => simpa [modifyPath] using ht
    | node b subs g =>
      cases hc : subs[j]? with
      | none => simpa [modifyPath, hc] using ht
      | some c =>
        simp only [modifyPath, hc, hanc]
        rw [hasChildren_node_iff] at ht ⊢
        refine ⟨by simpa using ht.1, ?_⟩
        intro d hd
        rcases List.mem_or_eq_of_mem_set hd with hmem | rfl
        · exact ht.2 d hmem
        · apply ih c (ht.2 c (List.getElem?_mem hc))
          intro target htarget
          exact h target (by rw [nodeAt_cons_node b subs g j q c hc]; exact htarget)

/-- A node with two children or more keeps a child when one is detached. -/
theorem TreeNode.hasChildren_withoutChild (t : TreeNode) (i : Nat) (h : hasChildren t = true)
    (h2 : 2 ≤ t.nodeCount) : hasChildren (t.withoutChild i) = true := by
  cases t with
  | leaf b o g => simpa [withoutChild] using h
  | node b subs g =>
    rw [hasChildren_node_iff] at h
    simp only [nodeCount] at h2
    simp only [withoutChild]
    split
    · next r hr =>
      have hr' : r ∈ subs := List.mem_of_mem_eraseIdx (by rw [hr]; simp)
      rw [hasChildren_setGroupHead]
      exact h.2 r hr'
    · next hnot =>
      rw [hasChildren_node_iff]
      refine ⟨?_, fun c hc => h.2 c (List.mem_of_mem_eraseIdx hc)⟩
      have hlen := List.length_eraseIdx subs i
      split at hlen <;> omega

/-- The tree without a child of a node that has another child has no childless
internal node when the tree had none. -/
theorem hasChildren_removedAt (rootNode : TreeNode) (q : List Nat) (i : Nat)
    (h : hasChildren rootNode = true)
    (h2 : ∀ parent, rootNode.nodeAt q = some parent → 2 ≤ parent.nodeCount) :
    hasChildren (removedAt rootNode q i) = true := by
  apply hasChildren_modifyPath _ _ hasChildren_recalculateBoundsFromSubBounds q rootNode h
  intro target hn htarget
  rw [hasChildren_recalculateBoundsFromSubBounds]
  exact hasChildren_withoutChild target i htarget (h2 target hn)

theorem TreeNode.hasChildren_addOutside (computeCost : Bounds → Int) (newNode : TreeNode)
    (hnew : hasChildren newNode = true) (t : TreeNode) :
    hasChildren t = true → hasChildren (addOutside computeCost t newNode) = true := by
  induction t using TreeNode.induction with
  | hleaf b o g =>
    intro ht
    simp only [addOutside]
    rw [hasChildren_node_iff]
    refine ⟨by simp, ?_⟩
    intro c hc
    simp only [List.mem_cons, List.mem_singleton, List.not_mem_nil, or_false] at hc
    rcases hc with rfl | rfl
    · exact ht
    · exact hnew
  | hnode b subs g ih =>
    intro ht
    rcases addOutside_cases computeCost newNode (.node b subs g) with
      ⟨h, _⟩ | ⟨b', subs', heq, _, h⟩ | ⟨b', subs', i, c, heq, _, hc, h⟩
    · rw [h, hasChildren_node_iff]
      refine ⟨by simp, ?_⟩
      intro c hc
      simp only [List.mem_cons, List.mem_singleton, List.not_mem_nil, or_false] at hc
      rcases hc with rfl | rfl
      · exact ht
      · exact hnew
    · cases heq
      rw [hasChildren_node_iff] at ht
      rw [h, hasChildren_node_iff]
      refine ⟨by simp only [List.length_append, List.length_singleton]; omega, ?_⟩
      intro d hd
      simp only [List.mem_append, List.mem_singleton] at hd
      rcases hd with hd | rfl
      · exact ht.2 d hd
      · exact hnew
    · cases heq
      rw [hasChildren_node_iff] at ht
      rw [h, hasChildren_node_iff]
      refine ⟨by simpa using ht.1, ?_⟩
      intro d hd
      rcases List.mem_or_eq_of_mem_set hd with hmem | rfl
      · exact ht.2 d hmem
      · exact ih c (List.getElem?_mem hc) (ht.2 c (List.getElem?_mem hc))

theorem TreeNode.hasChildren_addInside (t newNode : TreeNode) (hnew : hasChildren newNode = true)
    (ht : hasChildren t = true) : hasChildren (t.addInside newNode) = true := by
  cases t with
  | leaf b o g =>
    simp only [addInside]
    rw [hasChildren_node_iff]
    refine ⟨by simp, ?_⟩
    intro c hc
    simp only [List.mem_cons, List.mem_singleton, List.not_mem_nil, or_false] at hc
    rcases hc with rfl | rfl
    · rfl
    · exact (by rw [hasChildren_setGroupHead]; exact hnew)
  | node b subs g =>
    rw [hasChildren_node_iff] at ht
    simp only [addInside]
    split
    · rw [hasChildren_node_iff]
      refine ⟨by simp only [List.length_append, List.length_singleton]; omega, ?_⟩
      intro d hd
      simp only [List.mem_append, List.mem_singleton] at hd
      rcases hd with hd | rfl
      · exact ht.2 d hd
      · exact (by rw [hasChildren_setGroupHead]; exact hnew)
    · rw [hasChildren_node_iff]
      refine ⟨by simp, ?_⟩
      intro c hc
      simp only [List.mem_cons, List.mem_singleton, List.not_mem_nil, or_false] at hc
      rcases hc with rfl | rfl
      · exact (hasChildren_node_iff b subs false).2 ht
      · exact (by rw [hasChildren_setGroupHead]; exact hnew)

theorem TreeNode.hasChildren_refreshLeafBounds (getStrictBounds : Nat → Bounds) (t : TreeNode) :
    hasChildren t = true → hasChildren (refreshLeafBounds getStrictBounds t) = true := by
  induction t using TreeNode.induction with
  | hleaf b o g => intro _; rfl
  | hnode b subs g ih =>
    intro h
    rw [hasChildren_node_iff] at h
    simp only [refreshLeafBounds, refreshLeafBoundsList_eq_map]
    rw [hasChildren_node_iff]
    refine ⟨by simpa using h.1, ?_⟩
    intro c hc
    simp only [List.mem_map] at hc
    obtain ⟨d, hd, rfl⟩ := hc
    exact ih d hd (h.2 d hd)

theorem TreeNode.hasChildren_recalculateBoundsRecursive (t : TreeNode) :
    hasChildren t = true → hasChildren t.recalculateBoundsRecursive = true := by
  induction t using TreeNode.induction with
  | hleaf b o g => intro _; rfl
  | hnode b subs g ih =>
    intro h
    rw [hasChildren_node_iff] at h
    simp only [recalculateBoundsRecursive, hasChildren_recalculateBoundsFromSubBounds,
      recalculateBoundsRecursiveList_eq_map]
    rw [hasChildren_node_iff]
    refine ⟨by simpa using h.1, ?_⟩
    intro c hc
    simp only [List.mem_map] at hc
    obtain ⟨d, hd, rfl⟩ := hc
    exact ih d hd (h.2 d hd)

/-- The tree after a write through the top frame, `top--` and
`updateBoundsAllTheWayToTop()` keeps every internal node at one child or more when
the write does. -/
theorem TreeCursor.hasChildren_modifyTop_pop_update (rootNode : TreeNode) (indices : List Nat)
    (f : TreeNode → TreeNode) (hroot : hasChildren rootNode = true)
    (hf : ∀ n, hasChildren n = true → hasChildren (f n) = true) :
    hasChildren
      ((TreeCursor.modifyTop f ⟨rootNode, indices⟩).pop.updateBoundsAllTheWayToTop).rootNode
      = true := by
  cases indices with
  | nil => simpa [TreeCursor.modifyTop, TreeCursor.pop, TreeCursor.updateBoundsAllTheWayToTop] using hroot
  | cons k below =>
    cases below with
    | nil =>
      have := hf rootNode hroot
      cases rootNode <;>
        simpa [TreeCursor.modifyTop, TreeCursor.pop, TreeCursor.updateBoundsAllTheWayToTop,
          TreeCursor.path, modifyPath] using this
    | cons i below =>
      simp only [TreeCursor.modifyTop, TreeCursor.pop, TreeCursor.updateBoundsAllTheWayToTop,
        TreeCursor.path, List.tail_cons, List.reverse_cons]
      rw [modifyPath_modifyPath]
      apply hasChildren_modifyPath _ _ hasChildren_recalculateBoundsFromSubBounds _ rootNode hroot
      intro parent _ hparent
      rw [hasChildren_recalculateBoundsFromSubBounds]
      exact hasChildren_modifyPath f id (fun _ => rfl) [i] parent hparent (fun n _ hn => hf n hn)

/-- The tree `NodeStack::remove()` leaves is empty or has no childless internal node,
when the tree had none and the node that lost the child is the root or had another
child. -/
theorem BoundsTree.hasChildren_removedAt_or_empty (rootNode : TreeNode) (q : List Nat) (i : Nat)
    (d : TreeNode) (h : hasChildren rootNode = true) (hn : rootNode.nodeAt (q ++ [i]) = some d)
    (hstop : q = [] ∨ ∃ parent, rootNode.nodeAt q = some parent ∧ parent.nodeCount ≠ 1) :
    BoundsTree.isEmpty ⟨removedAt rootNode q i⟩ = true ∨
      hasChildren (removedAt rootNode q i) = true := by
  obtain ⟨parent, hp, hc⟩ := nodeAt_concat_eq_some hn
  obtain ⟨b, subs, g, rfl, hs⟩ := eq_node_of_child? hc
  have hi : i < subs.length := (List.getElem?_eq_some.1 hs).1
  by_cases h1 : subs.length = 1
  · rcases hstop with rfl | ⟨parent', hp', hne⟩
    · rw [nodeAt_nil] at hp
      cases hp
      left
      match subs, h1 with
      | [c], _ =>
        have hi0 : i = 0 := by simpa using hi
        subst hi0
        simp [removedAt, modifyPath, withoutChild, List.eraseIdx, recalculateBoundsFromSubBounds,
          BoundsTree.isEmpty, nodeCount]
    · rw [hp] at hp'
      cases hp'
      exact absurd h1 hne
  · right
    apply hasChildren_removedAt rootNode q i h
    intro parent' hp'
    rw [hp] at hp'
    cases hp'
    simp only [nodeCount]
    omega

/-- In a bounds-consistent tree that is empty or has no childless internal node, the
root bounds are the union of the bounds of all leaves. -/
theorem BoundsTree.rootIsUnionOfLeaves (tree : BoundsTree)
    (hwf : tree.isEmpty = true ∨ tree.rootNode.hasChildren = true)
    (hcons : tree.rootNode.boundsConsistent = true) : tree.RootIsUnionOfLeaves := by
  rcases hwf with hempty | hch
  · exact Or.inl hempty
  · exact Or.inr (isUnionOf_leaf_bounds tree.rootNode hch hcons)

/-- Each of the five mutating operations, when it returns, leaves a tree that is
empty or has no childless internal node, if the tree was one. -/
theorem BoundsTree.hasChildren_preserved (computeCost : Bounds → Int)
    (getStrictBounds : Nat → Bounds) (tree : BoundsTree)
    (hwf : tree.isEmpty = true ∨ tree.rootNode.hasChildren = true) :
    (∀ obj bounds, (tree.add computeCost obj bounds).isEmpty = true ∨
      (tree.add computeCost obj bounds).rootNode.hasChildren = true) ∧
    (∀ obj bounds objInGroup objInGroupBounds tree',
      tree.addToExistingGroup obj bounds objInGroup objInGroupBounds = .returned () tree' →
      tree'.isEmpty = true ∨ tree'.rootNode.hasChildren = true) ∧
    (∀ obj strictBounds tree', tree.remove obj strictBounds = .returned () tree' →
      tree'.isEmpty = true ∨ tree'.rootNode.hasChildren = true) ∧
    (∀ obj oldBounds tree', tree.updateObjectBounds getStrictBounds obj oldBounds = .returned () tree' →
      tree'.isEmpty = true ∨ tree'.rootNode.hasChildren = true) ∧
    (∀ obj oldBounds tree',
      tree.updateObjectGroupBounds getStrictBounds obj oldBounds = .returned () tree' →
      tree'.isEmpty = true ∨ tree'.rootNode.hasChildren = true) := by
  have hch : tree.isEmpty = false → hasChildren tree.rootNode = true := by
    intro hne
    rcases hwf with hempty | h
    · rw [hempty] at hne; cases hne
    · exact h
  refine ⟨?_, ?_, ?_, ?_, ?_⟩
  · intro obj bounds
    right
    by_cases hempty : tree.isEmpty = true
    · rw [BoundsTree.add, BoundsTree.addNode_of_isEmpty _ _ _ hempty]
      rfl
    · have hne : tree.isEmpty = false := by simpa using hempty
      rw [BoundsTree.add, BoundsTree.addNode_of_not_isEmpty _ _ _ hne]
      exact hasChildren_addOutside computeCost (.leaf bounds obj true) rfl tree.rootNode (hch hne)
  · intro obj bounds objInGroup objInGroupBounds tree' h
    rcases TreeCursor.find_cases tree.rootNode objInGroup objInGroupBounds with
      ⟨_, hf⟩ | ⟨_, hf, _⟩ | ⟨_, p, b', g', hf, hn⟩
    · simp [BoundsTree.addToExistingGroup, hf] at h
    · simp [BoundsTree.addToExistingGroup, hf] at h
    · have hroot := hch (BoundsTree.isEmpty_eq_false_of_nodeAt_leaf tree p b' objInGroup g' hn)
      simp only [BoundsTree.addToExistingGroup, hf, TreeCursor.riseUntilGroupHeadWhile] at h
      cases hrise : TreeCursor.riseUntilGroupHeadLoop tree.rootNode (0 :: p.reverse) with
      | none => simp [hrise] at h
      | some indices =>
        obtain ⟨i, below, dropped, n, rfl, _, hnode, _⟩ :=
          TreeCursor.riseUntilGroupHeadLoop_some _ _ _ hrise
        simp only [hrise, Effect.returned.injEq, true_and] at h
        right
        rw [← h, TreeCursor.addInside_expand_rootNode tree.rootNode i below n _ hnode]
        apply hasChildren_modifyPath _ _ (fun m => hasChildren_setBounds m _) below.reverse
          tree.rootNode hroot
        intro target _ htarget
        exact hasChildren_addInside target (.leaf bounds obj false) rfl htarget
  · intro obj strictBounds tree' h
    cases htree : tree with
    | mk root =>
      rw [htree] at h hch
      cases root with
      | leaf b o g =>
        simp only [BoundsTree.remove] at h
        split at h
        · simp only [Effect.returned.injEq, true_and] at h
          rw [← h]
          left
          rfl
        · cases h
      | node b subs g =>
        rcases BoundsTree.remove_grab_node_cases b subs g obj strictBounds with
          ⟨_, hr, _⟩ | ⟨_, hr, _, _⟩ |
          ⟨_, q, i, b', g', q', i', d', hn, hn', hw, hstop, hr, _⟩
        · rw [hr] at h; cases h
        · rw [hr] at h; cases h
        · rw [hr] at h
          simp only [Effect.returned.injEq, true_and] at h
          rw [← h]
          exact BoundsTree.hasChildren_removedAt_or_empty _ q' i' d'
            (hch (BoundsTree.isEmpty_eq_false_of_nodeAt_leaf ⟨.node b subs g⟩ _ b' obj g' hn))
            hn' hstop
  · intro obj oldBounds tree' h
    simp only [BoundsTree.updateObjectBounds] at h
    split at h
    · cases h
    · next hne =>
      rcases TreeCursor.find_cases tree.rootNode obj oldBounds with
        ⟨_, hf⟩ | ⟨_, hf, _⟩ | ⟨_, p, b', g', hf, hn⟩
      · simp [hf] at h
      · simp [hf] at h
      · simp only [hf, Effect.returned.injEq, true_and] at h
        rw [← h]
        right
        exact TreeCursor.hasChildren_modifyTop_pop_update _ _ _ (hch (by simpa using hne))
          (fun n hn' => by rw [hasChildren_setBounds]; exact hn')
  · intro obj oldBounds tree' h
    simp only [BoundsTree.updateObjectGroupBounds] at h
    split at h
    · cases h
    · next hne =>
      rcases TreeCursor.find_cases tree.rootNode obj oldBounds with
        ⟨_, hf⟩ | ⟨_, hf, _⟩ | ⟨_, p, b', g', hf, hn⟩
      · simp [hf] at h
      · simp [hf] at h
      · simp only [hf, TreeCursor.riseUntilGroupHeadWhile] at h
        cases hrise : TreeCursor.riseUntilGroupHeadLoop tree.rootNode (0 :: p.reverse) with
        | none => simp [hrise] at h
        | some indices =>
          simp only [hrise, Effect.returned.injEq, true_and, TreeCursor.modifyTop_modifyTop] at h
          rw [← h]
          right
          exact TreeCursor.hasChildren_modifyTop_pop_update _ _ _ (hch (by simpa using hne))
            (fun n hn' => hasChildren_recalculateBoundsRecursive _
              (hasChildren_refreshLeafBounds getStrictBounds n hn'))

/-- C5. On a tree that is empty or has no childless internal node (`nodeCount` at
least 1, as the data model has it) and in which the bounds of every internal node are
the union of the bounds of its children, each of `add`, `addToExistingGroup`, `remove`,
`updateObjectBounds` and `updateObjectGroupBounds`, when it returns, leaves a tree of
the same kind: bounds-consistent, and empty or without childless internal nodes; so
the root bounds of the tree left are the union of the bounds of all its leaves. -/
theorem C5_bounds_consistency_preserved (computeCost : Bounds → Int)
    (getStrictBounds : Nat → Bounds) (tree : BoundsTree)
    (hcons : tree.rootNode.boundsConsistent = true)
    (hwf : tree.isEmpty = true ∨ tree.rootNode.hasChildren = true) :
    (∀ obj bounds,
      (tree.add computeCost obj bounds).rootNode.boundsConsistent = true ∧
      ((tree.add computeCost obj bounds).isEmpty = true ∨
        (tree.add computeCost obj bounds).rootNode.hasChildren = true) ∧
      (tree.add computeCost obj bounds).RootIsUnionOfLeaves) ∧
    (∀ obj bounds objInGroup objInGroupBounds tree',
      tree.addToExistingGroup obj bounds objInGroup objInGroupBounds = .returned () tree' →
      tree'.rootNode.boundsConsistent = true ∧
      (tree'.isEmpty = true ∨ tree'.rootNode.hasChildren = true) ∧ tree'.RootIsUnionOfLeaves) ∧
    (∀ obj strictBounds tree', tree.remove obj strictBounds = .returned () tree' →
      tree'.rootNode.boundsConsistent = true ∧
      (tree'.isEmpty = true ∨ tree'.rootNode.hasChildren = true) ∧ tree'.RootIsUnionOfLeaves) ∧
    (∀ obj oldBounds tree', tree.updateObjectBounds getStrictBounds obj oldBounds = .returned () tree' →
      tree'.rootNode.boundsConsistent = true ∧
      (tree'.isEmpty = true ∨ tree'.rootNode.hasChildren = true) ∧ tree'.RootIsUnionOfLeaves) ∧
    (∀ obj oldBounds tree',
      tree.updateObjectGroupBounds getStrictBounds obj oldBounds = .returned () tree' →
      tree'.rootNode.boundsConsistent = true ∧
      (tree'.isEmpty = true ∨ tree'.rootNode.hasChildren = true) ∧ tree'.RootIsUnionOfLeaves) := by
  obtain ⟨h1, h2, h3, h4, h5⟩ :=
    BoundsTree.boundsConsistent_preserved computeCost getStrictBounds tree hcons hwf
  obtain ⟨k1, k2, k3, k4, k5⟩ :=
    BoundsTree.hasChildren_preserved computeCost getStrictBounds tree hwf
  refine ⟨?_, ?_, ?_, ?_, ?_⟩
  · intro obj bounds
    exact ⟨h1 obj bounds, k1 obj bounds,
      BoundsTree.rootIsUnionOfLeaves _ (k1 obj bounds) (h1 obj bounds)⟩
  · intro obj bounds objInGroup objInGroupBounds tree' h
    have hcons' := h2 obj bounds objInGroup objInGroupBounds tree' h
    have hwf' := k2 obj bounds objInGroup objInGroupBounds tree' h
    exact ⟨hcons', hwf', BoundsTree.rootIsUnionOfLeaves _ hwf' hcons'⟩
  · intro obj strictBounds tree' h
    have hcons' := h3 obj strictBounds tree' h
    have hwf' := k3 obj strictBounds tree' h
    exact ⟨hcons', hwf', BoundsTree.rootIsUnionOfLeaves _ hwf' hcons'⟩
  · intro obj oldBounds tree' h
    have hcons' := h4 obj oldBounds tree' h
    have hwf' := k4 obj oldBounds tree' h
    exact ⟨hcons', hwf', BoundsTree.rootIsUnionOfLeaves _ hwf' hcons'⟩
  · intro obj oldBounds tree' h
    have hcons' := h5 obj oldBounds tree' h
    have hwf' := k5 obj oldBounds tree' h
    exact ⟨hcons', hwf', BoundsTree.rootIsUnionOfLeaves _ hwf' hcons'⟩

/-- C5, at the end-to-end scenario: the group over `(0,0,0)-(1,1,1)`, `(1,1,1)-(2,2,2)`,
`(2,2,2)-(3,3,3)` has root bounds `(0,0,0)-(3,3,3)`; removing the middle member leaves
a bounds-consistent tree with the same root bounds, the union of the bounds of its two
leaves. -/
theorem C5_bounds_consistency_preserved_witness :
    groupTree.rootNode.boundsConsistent = true ∧ groupTree.rootNode.hasChildren = true ∧
    groupTree.rootNode.bounds = cube 0 3 ∧
    groupTree.remove 2 (cube 1 2) =
      .returned () ⟨.node (cube 0 3) [.leaf (cube 0 1) 1 false, .leaf (cube 2 3) 3 false] true⟩ ∧
    (TreeNode.node (cube 0 3) [.leaf (cube 0 1) 1 false, .leaf (cube 2 3) 3 false] true).boundsConsistent
      = true ∧
    BoundsTree.RootIsUnionOfLeaves
      ⟨.node (cube 0 3) [.leaf (cube 0 1) 1 false, .leaf (cube 2 3) 3 false] true⟩ :=
  have h := (C5_bounds_consistency_preserved (fun _ => 0) (fun _ => cube 0 1) groupTree
    (by decide) (Or.inr (by decide))).2.2.1 2 (cube 1 2)
    ⟨.node (cube 0 3) [.leaf (cube 0 1) 1 false, .leaf (cube 2 3) 3 false] true⟩ (by decide)
  ⟨by decide, by decide, by decide, by decide, h.1, h.2.2⟩

/-! ### Round trip -/

theorem TreeNode.heightList_append (xs ys : List TreeNode) :
    heightList (xs ++ ys) = Max.max (heightList xs) (heightList ys) := by
  induction xs with
  | nil => simp [heightList]
  | cons a as ih => simp [heightList, ih, max_assoc]

/-- The node `addOutside` builds is higher than the receiver by the height of the new
node at most. -/
theorem TreeNode.height_addOutside_le (computeCost : Bounds → Int) (newNode : TreeNode)
    (t : TreeNode) : (addOutside computeCost t newNode).height ≤ t.height + newNode.height := by
  induction t using TreeNode.induction with
  | hleaf b o g =>
    have := height_pos newNode
    simp only [addOutside, height, heightList]
    omega
  | hnode b subs g ih =>
    have hn := height_pos newNode
    rcases addOutside_cases computeCost newNode (.node b subs g) with
      ⟨h, _⟩ | ⟨b', subs', heq, _, h⟩ | ⟨b', subs', i, c, heq, _, hc, h⟩
    · rw [h]
      have := height_pos (.node b subs g)
      simp only [height, heightList] at this ⊢
      omega
    · cases heq
      rw [h]
      simp only [height, heightList_append, heightList]
      omega
    · cases heq
      rw [h]
      simp only [height]
      have hle : heightList (subs.set i (addOutside computeCost c newNode)) ≤
          heightList subs + newNode.height := by
        apply heightList_le_of_forall
        intro d hd
        rcases List.mem_or_eq_of_mem_set hd with hmem | rfl
        · exact le_trans (height_le_heightList hmem) (Nat.le_add_right _ _)
        · have h1 := ih c (List.getElem?_mem hc)
          have h2 := height_le_heightList (List.getElem?_mem hc)
          omega
      omega

/-- The method `add(obj, bounds)` makes the tree higher by one node at most. -/
theorem BoundsTree.height_add_le (computeCost : Bounds → Int) (tree : BoundsTree) (obj : Nat)
    (bounds : Bounds) :
    (tree.add computeCost obj bounds).rootNode.height ≤ tree.rootNode.height + 1 := by
  by_cases hempty : tree.isEmpty = true
  · rw [BoundsTree.add, BoundsTree.addNode_of_isEmpty _ _ _ hempty]
    have := height_pos tree.rootNode
    simp only [height]
    omega
  · have hne : tree.isEmpty = false := by simpa using hempty
    rw [BoundsTree.add, BoundsTree.addNode_of_not_isEmpty _ _ _ hne]
    exact height_addOutside_le computeCost (.leaf bounds obj true) tree.rootNode

/-- On a tree that fits the stack and does not hold the object the search throws. -/
theorem TreeCursor.find_of_countObject_eq_zero (rootNode : TreeNode) (obj : Nat) (hint : Bounds)
    (hh : rootNode.height ≤ MAX_HEIGHT) (h : countObject obj rootNode = 0) :
    TreeCursor.find rootNode obj hint = .thrown "object not found" := by
  rcases TreeCursor.find_cases_of_height hh obj hint with ⟨hf, _⟩ | ⟨p, b, g, _, hn⟩
  · exact hf
  · exact absurd rfl ((countObject_eq_zero_iff obj rootNode).1 h _ (mem_leaves_of_nodeAt _ _ _ _ _ hn))

/-- On a tree that fits the stack and holds the object once, `remove` returns and
leaves a tree that fits the stack and does not hold the object. -/
theorem BoundsTree.remove_of_countObject_eq_one (tree : BoundsTree) (obj : Nat) (bounds : Bounds)
    (hh : tree.rootNode.height ≤ MAX_HEIGHT) (h : countObject obj tree.rootNode = 1) :
    ∃ tree', tree.remove obj bounds = .returned () tree' ∧ countObject obj tree'.rootNode = 0 ∧
      tree'.rootNode.height ≤ MAX_HEIGHT := by
  obtain ⟨root⟩ := tree
  cases root with
  | leaf b o g =>
    simp only [countObject_leaf] at h
    have ho : o = obj := by
      by_contra hne
      simp [hne] at h
    exact ⟨⟨.node Bounds.default [] g⟩, by simp [BoundsTree.remove, ho], by simp [countObject_node],
      by simp [height, heightList, MAX_HEIGHT]⟩
  | node b subs g =>
    rcases BoundsTree.remove_grab_node_cases b subs g obj bounds with
      ⟨hlt, _⟩ | ⟨_, _, _, hno⟩ | ⟨_, q, i, b', g', q', i', d', hn, hn', hw, _, hr, _⟩
    · exact absurd hh (Nat.not_le.2 hlt)
    · have := (countObject_eq_zero_iff obj (.node b subs g)).2 hno
      simp only at h
      omega
    · refine ⟨_, hr, ?_, Nat.le_trans (height_removedAt_le _ _ _) hh⟩
      have := countObject_removedAt obj (.node b subs g) q' i' _ hn'
      rw [hw.countObject_eq, countObject_leaf, if_pos rfl] at this
      simp only at h ⊢
      omega

/-- C10. For a tree that does not hold `obj` and has no path of `MAX_HEIGHT` nodes, so
that the tree after the insertion fits the stack: after `add(obj, b)` the call
`find(obj, b)` returns a stack whose top node is a leaf holding `obj`; a following
`remove` of `obj` returns, and after it `find(obj, b)` throws. -/
theorem C10_add_find_remove_round_trip (computeCost : Bounds → Int) (getStrictBounds : Nat → Bounds)
    (tree : BoundsTree) (obj : Nat) (b : Bounds)
    (hnew : ∀ l ∈ leaves tree.rootNode, l.object ≠ obj)
    (hh : tree.rootNode.height < MAX_HEIGHT) :
    (∃ stack b' g', (tree.add computeCost obj b).find obj b = .ok stack ∧
      stack.topNode? = some (.leaf b' obj g') ∧
      stack.frames.head?.map TreeStackElement.node = some (.leaf b' obj g')) ∧
    (∃ tree', (tree.add computeCost obj b).removeObject getStrictBounds obj = .returned () tree' ∧
      tree'.find obj b = .thrown "object not found") ∧
    (∀ strictBounds, ∃ tree', (tree.add computeCost obj b).remove obj strictBounds = .returned () tree' ∧
      tree'.find obj b = .thrown "object not found") := by
  have hh' : (tree.add computeCost obj b).rootNode.height ≤ MAX_HEIGHT :=
    Nat.le_trans (BoundsTree.height_add_le computeCost tree obj b) hh
  have hcount : countObject obj (tree.add computeCost obj b).rootNode = 1 := by
    rw [BoundsTree.add, BoundsTree.countObject_addNode, (countObject_eq_zero_iff obj _).2 hnew]
    simp [countObject_leaf]
  have hremove : ∀ strictBounds, ∃ tree',
      (tree.add computeCost obj b).remove obj strictBounds = .returned () tree' ∧
      tree'.find obj b = .thrown "object not found" := by
    intro strictBounds
    obtain ⟨tree', h1, h2, h3⟩ :=
      BoundsTree.remove_of_countObject_eq_one _ obj strictBounds hh' hcount
    exact ⟨tree', h1, TreeCursor.find_of_countObject_eq_zero _ obj b h3 h2⟩
  refine ⟨?_, hremove (getStrictBounds obj), hremove⟩
  rcases TreeCursor.find_cases_of_height hh' obj b with ⟨_, hno⟩ | ⟨p, b', g', hf, hn⟩
  · have := (countObject_eq_zero_iff obj _).2 hno
    omega
  · refine ⟨_, b', g', hf, ?_, ?_⟩
    · simp [TreeCursor.topNode?, hn]
    · simp [TreeCursor.frames, TreeCursor.framesOf, hn]

/-- C10, at the example tree and a fourth object. -/
theorem C10_add_find_remove_round_trip_witness :
    (∀ l ∈ leaves queryTree.rootNode, l.object ≠ 4) ∧
    queryTree.rootNode.height < MAX_HEIGHT ∧
    (∃ stack b' g', (queryTree.add (fun _ => 0) 4 (cube 7 8)).find 4 (cube 7 8) = .ok stack ∧
      stack.topNode? = some (.leaf b' 4 g')) ∧
    ∃ tree', (queryTree.add (fun _ => 0) 4 (cube 7 8)).remove 4 (cube 7 8) = .returned () tree' ∧
      tree'.find 4 (cube 7 8) = .thrown "object not found" :=
  have h := C10_add_find_remove_round_trip (fun _ => 0) (fun _ => cube 7 8) queryTree 4 (cube 7 8)
    (by decide) (by decide)
  ⟨by decide, by decide,
    h.1.elim (fun s hs => hs.elim (fun b' hb => hb.elim (fun g' hg => ⟨s, b', g', hg.1, hg.2.1⟩))),
    h.2.2 (cube 7 8)⟩

/-! ### Updating twice -/

/-- What `updateObjectBounds(obj, oldBounds)` does on a tree that fits the stack and
holds the object: it returns, with the strict bounds written into a leaf holding the
object and the bounds of the ancestors of that leaf recomputed. -/
theorem BoundsTree.updateObjectBounds_of_countObject_pos (getStrictBounds : Nat → Bounds)
    (tree : BoundsTree) (obj : Nat) (oldBounds : Bounds)
    (hh : tree.rootNode.height ≤ MAX_HEIGHT) (h : 0 < countObject obj tree.rootNode) :
    ∃ p b g, tree.rootNode.nodeAt p = some (.leaf b obj g) ∧
      tree.updateObjectBounds getStrictBounds obj oldBounds =
        .returned () ⟨tree.rootNode.modifyPath (fun n => n.setBounds (getStrictBounds obj))
          recalculateBoundsFromSubBounds p⟩ := by
  rcases TreeCursor.find_cases_of_height hh obj oldBounds with ⟨_, hno⟩ | ⟨p, b, g, hf, hn⟩
  · exact absurd ((countObject_eq_zero_iff obj tree.rootNode).2 hno) (by omega)
  · refine ⟨p, b, g, hn, ?_⟩
    have hne := BoundsTree.isEmpty_eq_false_of_nodeAt_leaf tree p b obj g hn
    simp only [BoundsTree.updateObjectBounds, hne, hf, Bool.false_eq_true, if_false]
    rw [TreeCursor.modifyTop_pop_update_rootNode tree.rootNode p _ _ hn]

/-- C12. On a tree that fits the stack (`height ≤ MAX_HEIGHT`) and holds `obj` in one
leaf, bounds-consistent or not, `updateObjectBounds(obj, b)` returns, and calling it a
second time, the strict bounds of the object being the same, returns the tree the
first call left: every node keeps its bounds. -/
theorem C12_update_object_bounds_idempotent (getStrictBounds : Nat → Bounds) (tree : BoundsTree)
    (obj : Nat) (b : Bounds) (hh : tree.rootNode.height ≤ MAX_HEIGHT)
    (hcount : countObject obj tree.rootNode = 1) :
    ∃ tree', tree.updateObjectBounds getStrictBounds obj b = .returned () tree' ∧
      tree'.updateObjectBounds getStrictBounds obj b = .returned () tree' := by
  obtain ⟨p, b0, g0, hn, h1⟩ :=
    BoundsTree.updateObjectBounds_of_countObject_pos getStrictBounds tree obj b hh (by omega)
  refine ⟨_, h1, ?_⟩
  have hcount' : countObject obj (tree.rootNode.modifyPath
      (fun n => n.setBounds (getStrictBounds obj)) recalculateBoundsFromSubBounds p) = 1 := by
    have := countObject_modifyPath obj (fun n => n.setBounds (getStrictBounds obj))
      recalculateBoundsFromSubBounds (countObject_recalculateBoundsFromSubBounds obj) 0 p
      tree.rootNode _ hn (by simp [countObject_setBounds])
    omega
  have hh' : (tree.rootNode.modifyPath (fun n => n.setBounds (getStrictBounds obj))
      recalculateBoundsFromSubBounds p).height ≤ MAX_HEIGHT := by
    refine Nat.le_trans ?_ hh
    apply height_modifyPath_le
    · intro n
      exact height_recalculateBoundsFromSubBounds n
    · intro n
      cases n <;> exact le_refl _
  have hn' := nodeAt_modifyPath_recalculate (fun n => n.setBounds (getStrictBounds obj)) p
    tree.rootNode _ hn
  obtain ⟨p', b1, g1, hn1, h2⟩ := BoundsTree.updateObjectBounds_of_countObject_pos getStrictBounds
    ⟨tree.rootNode.modifyPath (fun n => n.setBounds (getStrictBounds obj))
      recalculateBoundsFromSubBounds p⟩ obj b hh' (by simp only; omega)
  simp only at hn1 h2
  have hpp : p' = p :=
    path_unique_of_countObject_eq_one obj p' _ p b1 (getStrictBounds obj) g1 g0 hcount' hn1
      (by simpa [setBounds] using hn')
  rw [h2, hpp, modifyPath_setBounds_recalculate_idem (getStrictBounds obj) p tree.rootNode _ hn]

/-- C12, at the example group: object 2, held by one leaf, moves to
`(5,5,5)-(6,6,6)`. -/
theorem C12_update_object_bounds_idempotent_witness :
    groupTree.rootNode.height ≤ MAX_HEIGHT ∧ countObject 2 groupTree.rootNode = 1 ∧
      ∃ tree', groupTree.updateObjectBounds (fun _ => cube 5 6) 2 (cube 1 2) = .returned () tree' ∧
        tree'.updateObjectBounds (fun _ => cube 5 6) 2 (cube 1 2) = .returned () tree' :=
  ⟨by decide, by decide,
    C12_update_object_bounds_idempotent (fun _ => cube 5 6) groupTree 2 (cube 1 2)
      (by decide) (by decide)⟩

/-! ### Groups -/

theorem TreeNode.groupsList_eq_flatten (subs : List TreeNode) :
    groupsList subs = (subs.map groups).flatten := by
  induction subs with
  | nil => rfl
  | cons a as ih => simp [groupsList, ih]

theorem TreeNode.groupSets_leaf (b : Bounds) (o : Nat) (g : Bool) :
    groupSets (.leaf b o g) = if g then {({o} : Multiset Nat)} else 0 := by
  cases g <;> rfl

/-- The groups below a node that is not a group head are those of its children. -/
theorem TreeNode.groupSets_node_false (b : Bounds) (subs : List TreeNode) :
    groupSets (.node b subs false) = (subs.map groupSets).sum := by
  simp only [groupSets, groups, Bool.false_eq_true, if_false]
  induction subs with
  | nil => rfl
  | cons a as ih =>
    simp only [groupsList, List.map_append, List.map_cons, List.sum_cons]
    rw [← ih, ← Multiset.coe_add]
    rfl

/-- A group head is one group, of the objects below it. -/
theorem TreeNode.groupSets_of_head (t : TreeNode) (h : t.isGroupHead = true) :
    groupSets t = {Multiset.ofList (objects t)} := by
  cases t with
  | leaf b o g =>
    simp only [isGroupHead] at h
    subst h
    rfl
  | node b subs g =>
    simp only [isGroupHead] at h
    subst h
    rfl

theorem TreeNode.groupSets_setBounds (t : TreeNode) (b : Bounds) :
    groupSets (t.setBounds b) = groupSets t := by
  cases t <;> rfl

theorem TreeNode.groupSets_recalculateBoundsFromSubBounds (t : TreeNode) :
    groupSets t.recalculateBoundsFromSubBounds = groupSets t := by
  cases t with
  | leaf b o g => rfl
  | node b subs g =>
    cases subs with
    | nil => rfl
    | cons first others => rfl

/-- The objects of a subtree, as a set with multiplicity, hold every object as often
as the subtree has leaves holding it. -/
theorem TreeNode.count_objects (o : Nat) (t : TreeNode) :
    Multiset.count o (Multiset.ofList (objects t)) = countObject o t := by
  simp only [Multiset.coe_count, objects, countObject, List.count, List.countP_map]
  congr 1

/-- Two subtrees hold the same objects when they hold every object equally often. -/
theorem TreeNode.objects_eq_of_count {s t : TreeNode}
    (h : ∀ o, countObject o s = countObject o t) :
    (Multiset.ofList (objects s) : Multiset Nat) = Multiset.ofList (objects t) := by
  ext o
  rw [count_objects, count_objects, h o]

theorem sum_map_set_add_monoid {α M : Type} [AddCommMonoid M] (f : α → M) (l : List α) :
    ∀ (i : Nat) (c c' : α), l[i]? = some c →
      ((l.set i c').map f).sum + f c = (l.map f).sum + f c' := by
  induction l with
  | nil => intro i c c' h; simp at h
  | cons a as ih =>
    intro i c c' h
    cases i with
    | zero =>
      simp only [List.getElem?_cons_zero, Option.some.injEq] at h
      subst h
      simp only [List.set_cons_zero, List.map_cons, List.sum_cons]
      abel
    | succ n =>
      simp only [List.getElem?_cons_succ] at h
      simp only [List.set_cons_succ, List.map_cons, List.sum_cons]
      rw [add_assoc, ih n c c' h, add_assoc]

theorem sum_map_eraseIdx_add_monoid {α M : Type} [AddCommMonoid M] (f : α → M) (l : List α) :
    ∀ (i : Nat) (c : α), l[i]? = some c → ((l.eraseIdx i).map f).sum + f c = (l.map f).sum := by
  induction l with
  | nil => intro i c h; simp at h
  | cons a as ih =>
    intro i c h
    cases i with
    | zero =>
      simp only [List.getElem?_cons_zero, Option.some.injEq] at h
      subst h
      simp only [List.eraseIdx_cons_zero, List.map_cons, List.sum_cons]
      rw [add_comm]
    | succ n =>
      simp only [List.getElem?_cons_succ] at h
      simp only [List.eraseIdx_cons_succ, List.map_cons, List.sum_cons]
      rw [add_assoc, ih n c h]

/-- A rewriting at the end of a path that passes no group head, the bounds of the
nodes on the path being all that changes there, exchanges the groups of the node
rewritten for those of its image. -/
theorem TreeNode.groupSets_modifyPath (atTarget onAncestor : TreeNode → TreeNode)
    (hanc : ∀ n, ∃ b, onAncestor n = n.setBounds b) (q : List Nat) :
    ∀ (t target : TreeNode), t.nodeAt q = some target → unflaggedAlong t q = true →
      groupSets (t.modifyPath atTarget onAncestor q) + groupSets target =
        groupSets t + groupSets (atTarget target) := by
  induction q with
  | nil =>
    intro t target h _
    rw [nodeAt_nil] at h
    cases h
    have : t.modifyPath atTarget onAncestor [] = atTarget t := by cases t <;> rfl
    rw [this, add_comm]
  | cons j q ih =>
    intro t target h hu
    obtain ⟨b, subs, g, c, rfl, hc, hn⟩ := nodeAt_cons_eq_some h
    simp only [unflaggedAlong, hc, Bool.and_eq_true, Bool.not_eq_true'] at hu
    obtain ⟨rfl, hu⟩ := hu
    obtain ⟨b', hb'⟩ := hanc (.node b (subs.set j (c.modifyPath atTarget onAncestor q)) false)
    simp only [modifyPath, hc, hb', groupSets_setBounds, groupSets_node_false]
    have h1 := ih c target hn hu
    have h2 := sum_map_set_add_monoid groupSets subs j c (c.modifyPath atTarget onAncestor q) hc
    apply add_right_cancel (b := groupSets c)
    calc (List.map groupSets (subs.set j (modifyPath atTarget onAncestor q c))).sum +
          groupSets target + groupSets c
        = (List.map groupSets (subs.set j (modifyPath atTarget onAncestor q c))).sum +
          groupSets c + groupSets target := by abel
      _ = (List.map groupSets subs).sum +
          ((modifyPath atTarget onAncestor q c).groupSets + groupSets target) := by
          rw [h2]; abel
      _ = (List.map groupSets subs).sum + groupSets (atTarget target) + groupSets c := by
          rw [h1]; abel

/-! ### Group heads on a path -/

/-- A group head with a leaf below it satisfies the group invariant below no group
head only. -/
theorem TreeNode.heads_zero_of_head_leaf (x : TreeNode) (r : List Nat) (b : Bounds) (o : Nat)
    (g : Bool) (hhead : x.isGroupHead = true) (hleaf : x.nodeAt r = some (.leaf b o g)) :
    ∀ k, headsOk k x = true → k = 0 := by
  intro k hk
  have := heads_le_one_of_leaf r x k b o g hk hleaf
  rw [hhead] at this
  simp only [Bool.toNat_true] at this
  omega

theorem TreeNode.Wraps.heads_zero {x d : TreeNode} (h : Wraps x d)
    (hz : ∀ k, headsOk k d = true → k = 0) : ∀ k, headsOk k x = true → k = 0 := by
  induction h with
  | refl d => exact hz
  | step b g c d _ ih =>
    intro k hk
    simp only [headsOk, headsOkList, Bool.and_true] at hk
    have := ih hz _ hk
    omega

/-- In a tree with one group head on every path, no node above a node that holds a
group head with a leaf is a group head. -/
theorem TreeNode.unflaggedAlong_of_headsOk (p : List Nat) :
    ∀ (t x : TreeNode) (k : Nat), headsOk k t = true → t.nodeAt p = some x →
      (∀ k', headsOk k' x = true → k' = 0) → k = 0 ∧ unflaggedAlong t p = true := by
  induction p with
  | nil =>
    intro t x k ht hn hz
    rw [nodeAt_nil] at hn
    cases hn
    exact ⟨hz k ht, by cases t <;> rfl⟩
  | cons j q ih =>
    intro t x k ht hn hz
    obtain ⟨b, subs, g, c, rfl, hc, hn'⟩ := nodeAt_cons_eq_some hn
    simp only [headsOk, headsOkList_iff] at ht
    obtain ⟨h0, hu⟩ := ih c x _ (ht c (List.getElem?_mem hc)) hn' hz
    have hg : g = false := by
      cases g with
      | false => rfl
      | true => simp at h0
    subst hg
    simp only [Bool.toNat_false, Nat.add_zero] at h0
    exact ⟨h0, by simp [unflaggedAlong, hc, hu]⟩

/-- What a path that passes no group head ends at satisfies the group invariant of
the tree. -/
theorem TreeNode.headsOk_of_unflaggedAlong (p : List Nat) :
    ∀ (t x : TreeNode) (k : Nat), headsOk k t = true → t.nodeAt p = some x →
      unflaggedAlong t p = true → headsOk k x = true := by
  induction p with
  | nil =>
    intro t x k ht hn _
    rw [nodeAt_nil] at hn
    cases hn
    exact ht
  | cons j q ih =>
    intro t x k ht hn hu
    obtain ⟨b, subs, g, c, rfl, hc, hn'⟩ := nodeAt_cons_eq_some hn
    simp only [unflaggedAlong, hc, Bool.and_eq_true, Bool.not_eq_true'] at hu
    obtain ⟨rfl, hu⟩ := hu
    simp only [headsOk, headsOkList_iff, Bool.toNat_false, Nat.add_zero] at ht
    exact ih c x k (ht c (List.getElem?_mem hc)) hn' hu

theorem TreeNode.unflaggedAlong_append (q r : List Nat) :
    ∀ (t n : TreeNode), t.nodeAt q = some n → unflaggedAlong t (q ++ r) = true →
      unflaggedAlong t q = true ∧ unflaggedAlong n r = true := by
  induction q with
  | nil =>
    intro t n hn hu
    rw [nodeAt_nil] at hn
    cases hn
    exact ⟨by cases t <;> rfl, by simpa using hu⟩
  | cons j q ih =>
    intro t n hn hu
    obtain ⟨b, subs, g, c, rfl, hc, hn'⟩ := nodeAt_cons_eq_some hn
    simp only [List.cons_append, unflaggedAlong, hc, Bool.and_eq_true, Bool.not_eq_true'] at hu ⊢
    obtain ⟨h1, h2⟩ := ih c n hn' hu.2
    exact ⟨⟨hu.1, h1⟩, h2⟩

/-- Below one group head, a subtree without childless internal nodes has no node
marked as a group head; below two it cannot satisfy the group invariant. -/
theorem TreeNode.headsOk_eq_false_of_two_le (t : TreeNode) :
    ∀ k, 2 ≤ k → t.hasChildren = true → headsOk k t = false := by
  induction t using TreeNode.induction with
  | hleaf b o g =>
    intro k hk _
    simp only [headsOk, decide_eq_false_iff_not]
    omega
  | hnode b subs g ih =>
    intro k hk hch
    rw [hasChildren_node_iff] at hch
    cases subs with
    | nil => simp at hch
    | cons c cs =>
      have := ih c (List.mem_cons_self _ _) (k + g.toNat) (by omega)
        (hch.2 c (List.mem_cons_self _ _))
      simp [headsOk, headsOkList, this]

theorem TreeNode.noGroupHeadList_iff (subs : List TreeNode) :
    noGroupHeadList subs = true ↔ ∀ c ∈ subs, noGroupHead c = true := by
  induction subs with
  | nil => simp [noGroupHeadList]
  | cons a as ih => simp [noGroupHeadList, ih]

theorem TreeNode.noGroupHead_of_headsOk_one (t : TreeNode) :
    headsOk 1 t = true → t.hasChildren = true → noGroupHead t = true := by
  induction t using TreeNode.induction with
  | hleaf b o g =>
    intro h _
    simp only [headsOk, decide_eq_true_eq] at h
    cases g <;> simp at h ⊢
    rfl
  | hnode b subs g ih =>
    intro h hch
    cases g with
    | true =>
      have := headsOk_eq_false_of_two_le (.node b subs true) 1
      rw [hasChildren_node_iff] at hch
      cases subs with
      | nil => simp at hch
      | cons c cs =>
        have hc := headsOk_eq_false_of_two_le c 2 (le_refl _) (hch.2 c (List.mem_cons_self _ _))
        simp [headsOk, headsOkList, hc] at h
    | false =>
      rw [hasChildren_node_iff] at hch
      simp only [headsOk, Bool.toNat_false, Nat.add_zero, headsOkList_iff] at h
      simp only [noGroupHead, Bool.not_false, Bool.true_and, noGroupHeadList_iff]
      intro c hc
      exact ih c hc (h c hc) (hch.2 c hc)

/-- A group head below no other head, with its own mark cleared, satisfies the group
invariant below one head. -/
theorem TreeNode.headsOk_one_setGroupHead_false (d : TreeNode) (hd : d.isGroupHead = true)
    (h : headsOk 0 d = true) : headsOk 1 (d.setGroupHead false) = true := by
  cases d with
  | leaf b o g => simp [setGroupHead, headsOk]
  | node b subs g =>
    simp only [isGroupHead] at hd
    subst hd
    simpa [setGroupHead, headsOk] using h

/-! ### Groups under removal and insertion -/

theorem TreeNode.Wraps.groupSets_eq {x d : TreeNode} (h : Wraps x d)
    (hz : ∀ k, headsOk k d = true → k = 0) :
    headsOk 0 x = true → groupSets x = groupSets d := by
  induction h with
  | refl d => intro _; rfl
  | step b g c d hw ih =>
    intro hk
    simp only [headsOk, headsOkList, Bool.and_true, Nat.zero_add] at hk
    have h0 := hw.heads_zero hz _ hk
    have hg : g = false := by
      cases g with
      | false => rfl
      | true => simp at h0
    subst hg
    rw [groupSets_node_false]
    simp only [Bool.toNat_false] at hk
    simp [ih hz hk]

/-- A node that is not a group head loses, with a child, the groups of that child. -/
theorem TreeNode.groupSets_withoutChild (b : Bounds) (subs : List TreeNode) (i : Nat)
    (d : TreeNode) (hd : subs[i]? = some d) :
    groupSets ((TreeNode.node b subs false).withoutChild i) + groupSets d =
      groupSets (.node b subs false) := by
  have hsum := sum_map_eraseIdx_add_monoid groupSets subs i d hd
  rw [groupSets_node_false, ← hsum]
  congr 1
  simp only [withoutChild]
  split
  · next r hr =>
    rw [hr]
    simp only [Bool.false_or, List.map_cons, List.map_nil, List.sum_cons, List.sum_nil, add_zero]
    rw [setGroupHead_of_eq rfl]
  · rw [groupSets_node_false]

theorem TreeNode.recalculate_eq_setBounds (n : TreeNode) :
    ∃ b, n.recalculateBoundsFromSubBounds = n.setBounds b := by
  cases n with
  | leaf b o g => exact ⟨b, rfl⟩
  | node b subs g =>
    cases subs with
    | nil => exact ⟨b, rfl⟩
    | cons first others => exact ⟨_, rfl⟩

/-- The tree left by `NodeStack::remove()` has the groups of the tree without those of
the node detached, when no node above that node is a group head. -/
theorem groupSets_removedAt (rootNode : TreeNode) (q : List Nat) (i : Nat) (d : TreeNode)
    (hn : rootNode.nodeAt (q ++ [i]) = some d) (hu : unflaggedAlong rootNode (q ++ [i]) = true) :
    groupSets (removedAt rootNode q i) + groupSets d = groupSets rootNode := by
  obtain ⟨parent, hp, hc⟩ := nodeAt_concat_eq_some hn
  obtain ⟨b, subs, g, rfl, hs⟩ := eq_node_of_child? hc
  obtain ⟨hu1, hu2⟩ := unflaggedAlong_append q [i] rootNode _ hp hu
  have hg : g = false := by
    simpa [unflaggedAlong, hs] using hu2
  subst hg
  have h1 := groupSets_modifyPath
    (fun n => TreeNode.recalculateBoundsFromSubBounds (n.withoutChild i))
    TreeNode.recalculateBoundsFromSubBounds recalculate_eq_setBounds q rootNode _ hp hu1
  simp only [groupSets_recalculateBoundsFromSubBounds] at h1
  have h2 := groupSets_withoutChild b subs i d hs
  apply add_right_cancel (b := groupSets ((TreeNode.node b subs false).withoutChild i))
  calc groupSets (removedAt rootNode q i) + groupSets d +
        groupSets ((TreeNode.node b subs false).withoutChild i)
      = groupSets (removedAt rootNode q i) +
        (groupSets ((TreeNode.node b subs false).withoutChild i) + groupSets d) := by abel
    _ = groupSets (removedAt rootNode q i) + groupSets (.node b subs false) := by rw [h2]
    _ = groupSets rootNode + groupSets ((TreeNode.node b subs false).withoutChild i) := h1

theorem TreeNode.leavesList_append_objects (xs ys : List TreeNode) :
    (leavesList (xs ++ ys)).map object = (leavesList xs).map object ++ (leavesList ys).map object := by
  induction xs with
  | nil => simp [leavesList]
  | cons a as ih => simp [leavesList, ih]

/-- After `addInside` the subtree holds the objects of the receiver and then those of
the node added. -/
theorem TreeNode.objects_addInside (t newNode : TreeNode) :
    objects (t.addInside newNode) = objects t ++ objects newNode := by
  have hs := leaves_setGroupHead newNode false
  cases t with
  | leaf b o g =>
    simp only [objects, addInside, leaves, leavesList, List.append_nil, List.map_append, hs]
    rfl
  | node b subs g =>
    simp only [addInside]
    split
    · simp only [objects, leaves, leavesList_append_objects, leavesList, List.append_nil, hs]
    · simp only [objects, leaves, leavesList, List.append_nil, List.map_append, hs]

/-- After `addInside` at a group head the subtree is one group, of the objects of the
receiver and those of the node added. -/
theorem TreeNode.groupSets_addInside (t newNode : TreeNode) (h : t.isGroupHead = true) :
    groupSets (t.addInside newNode) =
      {Multiset.ofList (objects t) + Multiset.ofList (objects newNode)} := by
  rw [groupSets_of_head _ (by rw [isGroupHead_addInside]; exact h), objects_addInside,
    Multiset.coe_add]

/-- After `addOutside` the subtree has its groups and those of the node added. -/
theorem TreeNode.groupSets_addOutside (computeCost : Bounds → Int) (newNode : TreeNode)
    (t : TreeNode) :
    groupSets (addOutside computeCost t newNode) = groupSets t + groupSets newNode := by
  induction t using TreeNode.induction with
  | hleaf b o g =>
    simp [addOutside, groupSets_node_false]
  | hnode b subs g ih =>
    rcases addOutside_cases computeCost newNode (.node b subs g) with
      ⟨h, _⟩ | ⟨b', subs', heq, _, h⟩ | ⟨b', subs', i, c, heq, _, hc, h⟩
    · rw [h]
      simp [groupSets_node_false]
    · cases heq
      rw [h]
      simp [groupSets_node_false]
    · cases heq
      rw [h, groupSets_node_false, groupSets_node_false]
      have := sum_map_set_add_monoid groupSets subs i c (addOutside computeCost c newNode) hc
      rw [ih c (List.getElem?_mem hc)] at this
      apply add_right_cancel (b := groupSets c)
      rw [this]
      abel

/-! ### The calls of `mergePhysicals` on the object tree -/

theorem TreeNode.nodeAt_modifyPath_setBounds (f onAncestor : TreeNode → TreeNode)
    (hanc : ∀ n, ∃ b, onAncestor n = n.setBounds b) (q : List Nat) :
    ∀ (t target : TreeNode), t.nodeAt q = some target →
      (t.modifyPath f onAncestor q).nodeAt q = some (f target) := by
  induction q with
  | nil =>
    intro t target h
    rw [nodeAt_nil] at h
    cases h
    cases t <;> simp [modifyPath, nodeAt_nil]
  | cons j q ih =>
    intro t target h
    obtain ⟨b, subs, g, c, rfl, hc, hn⟩ := nodeAt_cons_eq_some h
    obtain ⟨b', hb'⟩ := hanc (.node b (subs.set j (c.modifyPath f onAncestor q)) g)
    have hj : j < subs.length := (List.getElem?_eq_some.1 hc).1
    simp only [modifyPath, hc, hb', setBounds]
    rw [nodeAt_cons_node _ _ _ j q (c.modifyPath f onAncestor q) (by simp [hj])]
    exact ih c target hn

/-- The stack `findGroupFor` returns, when it returns one in a tree with one group
head on every path: its top frame is a group head with a leaf holding the object
below it. -/
theorem BoundsTree.findGroupFor_spec (rootNode : TreeNode) (a : Nat) (hint : Bounds)
    (stack : TreeCursor) (hheads : headsOk 0 rootNode = true)
    (h : BoundsTree.findGroupFor ⟨rootNode⟩ a hint = .ok stack) :
    ∃ k gp group r b g, stack = ⟨rootNode, k :: gp.reverse⟩ ∧
      rootNode.nodeAt gp = some group ∧ group.isGroupHead = true ∧
      group.nodeAt r = some (.leaf b a g) ∧ rootNode.height ≤ MAX_HEIGHT := by
  rcases TreeCursor.find_cases rootNode a hint with
    ⟨_, hf⟩ | ⟨_, hf, _⟩ | ⟨hh, p, b0, g0, hf, hn⟩
  · simp [BoundsTree.findGroupFor, hf] at h
  · simp [BoundsTree.findGroupFor, hf] at h
  · obtain ⟨k, gp, r, group, hfg, hp, hG, hGhead, _, _⟩ :=
      BoundsTree.findGroupFor_of_find rootNode a hint p b0 g0 hheads hf hn
    rw [hfg] at h
    cases h
    refine ⟨k, gp, group, r, b0, g0, rfl, hG, hGhead, ?_, hh⟩
    rw [hp, nodeAt_append, hG] at hn
    simpa using hn

/-- In a tree that fits the stack, has one group head on every path and holds the
object, `findGroupFor` returns a stack. -/
theorem BoundsTree.findGroupFor_returns (rootNode : TreeNode) (a : Nat) (hint : Bounds)
    (hheads : headsOk 0 rootNode = true) (hh : rootNode.height ≤ MAX_HEIGHT)
    (ha : 0 < countObject a rootNode) :
    ∃ stack, BoundsTree.findGroupFor ⟨rootNode⟩ a hint = .ok stack := by
  rcases TreeCursor.find_cases_of_height hh a hint with ⟨_, hno⟩ | ⟨p, b0, g0, hf, hn⟩
  · exact absurd ((countObject_eq_zero_iff a rootNode).2 hno) (by omega)
  · obtain ⟨k, gp, r, group, hfg, _⟩ :=
      BoundsTree.findGroupFor_of_find rootNode a hint p b0 g0 hheads hf hn
    exact ⟨_, hfg⟩

/-- The method `grabGroupFor` in terms of `findGroupFor`, on a tree whose root is an
internal node. -/
theorem BoundsTree.grabGroupFor_node (b : Bounds) (subs : List TreeNode) (g : Bool) (m : Nat)
    (hint : Bounds) :
    BoundsTree.grabGroupFor ⟨.node b subs g⟩ m hint =
      match BoundsTree.findGroupFor ⟨.node b subs g⟩ m hint with
      | .thrown message => .thrown message ⟨.node b subs g⟩
      | .undefined => .undefined
      | .ok iter =>
        match iter.remove with
        | none => .undefined
        | some (result, iter) => .returned result ⟨iter.rootNode⟩ := by
  simp only [BoundsTree.grabGroupFor, BoundsTree.findGroupFor]
  cases TreeCursor.find (.node b subs g) m hint with
  | thrown message => rfl
  | undefined => rfl
  | ok iter =>
    simp only
    cases iter.riseUntilGroupHeadWhile <;> rfl

/-- What `grabGroupFor` returns, when it returns in a tree with one group head on
every path: a group head of the tree with a leaf holding the object below it, and the
tree without that node and the chain of single-child nodes above it; or, on a tree
that is one leaf, that leaf and the empty tree. -/
theorem BoundsTree.grabGroupFor_spec (rootNode : TreeNode) (m : Nat) (hint : Bounds)
    (d : TreeNode) (tree1 : BoundsTree) (hheads : headsOk 0 rootNode = true)
    (h : BoundsTree.grabGroupFor ⟨rootNode⟩ m hint = .returned d tree1) :
    d.isGroupHead = true ∧ (∃ r b g, d.nodeAt r = some (.leaf b m g)) ∧
    ((rootNode.isLeafNode = true ∧ tree1.isEmpty = true) ∨
      ∃ q' i' d', tree1 = ⟨removedAt rootNode q' i'⟩ ∧
        rootNode.nodeAt (q' ++ [i']) = some d' ∧ Wraps d' d ∧
        (q' = [] ∨ ∃ parent', rootNode.nodeAt q' = some parent' ∧ parent'.nodeCount ≠ 1)) := by
  cases rootNode with
  | leaf b o g =>
    simp only [headsOk, Nat.zero_add, decide_eq_true_eq] at hheads
    have hg : g = true := by
      cases g with
      | true => rfl
      | false => simp at hheads
    subst hg
    simp only [BoundsTree.grabGroupFor] at h
    split at h
    · next ho =>
      simp only [Effect.returned.injEq] at h
      obtain ⟨rfl, rfl⟩ := h
      exact ⟨rfl, ⟨[], b, true, by rw [nodeAt_nil, ho]⟩, Or.inl ⟨rfl, rfl⟩⟩
    · cases h
  | node b subs g =>
    rw [BoundsTree.grabGroupFor_node] at h
    cases hfg : BoundsTree.findGroupFor ⟨.node b subs g⟩ m hint with
    | thrown message => simp [hfg] at h
    | undefined => simp [hfg] at h
    | ok stack =>
      obtain ⟨k, gp, group, r, b0, g0, rfl, hG, hGhead, hleaf, _⟩ :=
        BoundsTree.findGroupFor_spec _ m hint stack hheads hfg
      simp only [hfg] at h
      rcases List.eq_nil_or_concat gp with rfl | ⟨q, i, rfl⟩
      · simp [TreeCursor.remove] at h
      · rw [List.concat_eq_append] at hG h
        simp only [List.reverse_append, List.reverse_cons, List.reverse_nil, List.nil_append,
          List.singleton_append] at h
        obtain ⟨q', i', d', indices, hr, hn', hw, hstop⟩ :=
          TreeCursor.remove_at (.node b subs g) q i k group hG
        simp only [hr, Effect.returned.injEq] at h
        obtain ⟨rfl, rfl⟩ := h
        exact ⟨hGhead, ⟨r, b0, g0, hleaf⟩, Or.inr ⟨q', i', d', rfl, hn', hw, hstop⟩⟩

/-- In a tree that fits the stack, has one group head on every path, holds the object
and is not a single group, `grabGroupFor` returns. -/
theorem BoundsTree.grabGroupFor_returns (rootNode : TreeNode) (m : Nat) (hint : Bounds)
    (hheads : headsOk 0 rootNode = true) (hh : rootNode.height ≤ MAX_HEIGHT)
    (hm : 0 < countObject m rootNode) (hroot : rootNode.isGroupHead = false) :
    ∃ d tree1, BoundsTree.grabGroupFor ⟨rootNode⟩ m hint = .returned d tree1 := by
  cases rootNode with
  | leaf b o g =>
    simp only [isGroupHead] at hroot
    subst hroot
    simp [headsOk] at hheads
  | node b subs g =>
    obtain ⟨stack, hfg⟩ := BoundsTree.findGroupFor_returns _ m hint hheads hh hm
    obtain ⟨k, gp, group, r, b0, g0, rfl, hG, hGhead, hleaf, _⟩ :=
      BoundsTree.findGroupFor_spec _ m hint stack hheads hfg
    rw [BoundsTree.grabGroupFor_node, hfg]
    rcases List.eq_nil_or_concat gp with rfl | ⟨q, i, rfl⟩
    · rw [nodeAt_nil] at hG
      cases hG
      rw [hroot] at hGhead
      cases hGhead
    · rw [List.concat_eq_append] at hG ⊢
      simp only [List.reverse_append, List.reverse_cons, List.reverse_nil, List.nil_append,
        List.singleton_append]
      obtain ⟨q', i', d', indices, hr, _⟩ := TreeCursor.remove_at (.node b subs g) q i k group hG
      simp only [hr]
      exact ⟨_, _, rfl⟩

theorem TreeNode.countLeaves_modifyPath_add (p : Nat → Bool)
    (atTarget onAncestor : TreeNode → TreeNode)
    (hanc : ∀ n, countLeaves p (onAncestor n) = countLeaves p n) (k : Nat) (q : List Nat) :
    ∀ (t target : TreeNode), t.nodeAt q = some target →
      countLeaves p (atTarget target) = countLeaves p target + k →
      countLeaves p (t.modifyPath atTarget onAncestor q) = countLeaves p t + k := by
  induction q with
  | nil =>
    intro t target h hk
    rw [nodeAt_nil] at h
    cases h
    cases t <;> exact hk
  | cons i q ih =>
    intro t target h hk
    obtain ⟨b, subs, g, c, rfl, hc, hn⟩ := nodeAt_cons_eq_some h
    have hrec := ih c target hn hk
    have hset := sum_map_set_add (countLeaves p) subs i c
      (c.modifyPath atTarget onAncestor q) hc
    simp only [modifyPath, hc, hanc, countLeaves_node]
    omega

/-- The tree after `group.addInside(groupNode)` at the group head `findGroupFor`
stopped at and `expandBoundsAllTheWayToTop()`, for a group head `groupNode` that
satisfies the group invariant: the node added is the last child of the node at the
place of the group head, the tree holds the leaves of both, it has one group head on
every path, and the two groups have become one. -/
theorem TreeCursor.addInside_group_spec (tree1 : TreeNode) (k : Nat) (gp : List Nat)
    (group d : TreeNode) (r : List Nat) (b : Bounds) (a : Nat) (g : Bool)
    (hheads : headsOk 0 tree1 = true) (hG : tree1.nodeAt gp = some group)
    (hGhead : group.isGroupHead = true) (hleaf : group.nodeAt r = some (.leaf b a g))
    (hd0 : headsOk 0 d = true) (hdhead : d.isGroupHead = true) :
    ((TreeCursor.modifyTop (fun groupNode => groupNode.addInside d)
        ⟨tree1, k :: gp.reverse⟩).expandBoundsAllTheWayToTop).rootNode.nodeAt gp =
      some (group.addInside d) ∧
    headsOk 0 ((TreeCursor.modifyTop (fun groupNode => groupNode.addInside d)
        ⟨tree1, k :: gp.reverse⟩).expandBoundsAllTheWayToTop).rootNode = true ∧
    (∀ p, countLeaves p ((TreeCursor.modifyTop (fun groupNode => groupNode.addInside d)
        ⟨tree1, k :: gp.reverse⟩).expandBoundsAllTheWayToTop).rootNode =
      countLeaves p tree1 + countLeaves p d) ∧
    groupSets ((TreeCursor.modifyTop (fun groupNode => groupNode.addInside d)
        ⟨tree1, k :: gp.reverse⟩).expandBoundsAllTheWayToTop).rootNode +
        {Multiset.ofList (objects group)} =
      groupSets tree1 + {Multiset.ofList (objects group) + Multiset.ofList (objects d)} ∧
    (tree1.hasChildren = true → d.hasChildren = true →
      ((TreeCursor.modifyTop (fun groupNode => groupNode.addInside d)
        ⟨tree1, k :: gp.reverse⟩).expandBoundsAllTheWayToTop).rootNode.hasChildren = true) ∧
    (tree1.boundsConsistent = true → tree1.hasChildren = true → d.boundsConsistent = true →
      ((TreeCursor.modifyTop (fun groupNode => groupNode.addInside d)
        ⟨tree1, k :: gp.reverse⟩).expandBoundsAllTheWayToTop).rootNode.boundsConsistent = true) := by
  have hG' : tree1.nodeAt gp.reverse.reverse = some group := by simpa using hG
  have hz := heads_zero_of_head_leaf group r b a g hGhead hleaf
  have hanc : ∀ n : TreeNode, ∃ b', (fun n : TreeNode =>
      n.setBounds (unionOfBounds n.bounds (group.addInside d).bounds)) n = n.setBounds b' :=
    fun n => ⟨_, rfl⟩
  refine ⟨?_, ?_, ?_, ?_, ?_, ?_⟩
  · rw [TreeCursor.addInside_expand_rootNode tree1 k gp.reverse group d hG',
      List.reverse_reverse]
    exact nodeAt_modifyPath_setBounds _ _ hanc gp tree1 group hG
  · rw [TreeCursor.addInside_expand_rootNode tree1 k gp.reverse group d hG',
      List.reverse_reverse]
    apply headsOk_modifyPath _ _ (fun k m => headsOk_setBounds k m _) gp tree1 0 hheads
    intro target k' htarget hk'
    rw [hG] at htarget
    cases htarget
    have hk0 := hz k' hk'
    subst hk0
    rw [headsOk_addInside_eq, hk', hGhead]
    exact headsOk_one_setGroupHead_false d hdhead hd0
  · intro p
    rw [TreeCursor.addInside_expand_rootNode tree1 k gp.reverse group d hG',
      List.reverse_reverse]
    exact countLeaves_modifyPath_add p _ _ (fun n => countLeaves_setBounds p n _) _ gp tree1 group
      hG (countLeaves_addInside p group d)
  · rw [TreeCursor.addInside_expand_rootNode tree1 k gp.reverse group d hG',
      List.reverse_reverse]
    have hu := (unflaggedAlong_of_headsOk gp tree1 group 0 hheads hG hz).2
    have := groupSets_modifyPath (fun groupNode => groupNode.addInside d) _ hanc gp tree1 group
      hG hu
    rw [groupSets_of_head group hGhead, groupSets_addInside group d hGhead] at this
    exact this
  · intro hch hdch
    rw [TreeCursor.addInside_expand_rootNode tree1 k gp.reverse group d hG',
      List.reverse_reverse]
    apply hasChildren_modifyPath _ _ (fun m => hasChildren_setBounds m _) gp tree1 hch
    intro target _ htarget
    exact hasChildren_addInside target d hdch htarget
  · intro hcons hch hdcons
    exact TreeCursor.boundsConsistent_addInside_expand tree1 k gp.reverse group d hcons hch
      hdcons hG'

theorem TreeNode.Wraps.exists_nodeAt {x d : TreeNode} (h : Wraps x d) :
    ∃ r, x.nodeAt r = some d := by
  induction h with
  | refl d => exact ⟨[], nodeAt_nil d⟩
  | step b g c d _ ih =>
    obtain ⟨r, hr⟩ := ih
    exact ⟨0 :: r, by rw [nodeAt_cons_node b [c] g 0 r c rfl]; exact hr⟩

theorem createNodeFor_eq_foldl (phys : Physical) :
    createNodeFor phys =
      (createNodeForInserted phys).foldl TreeNode.addInside
        (.leaf phys.mainPart.strictBounds phys.mainPart.address true) := by
  rw [createNodeFor, createNodeForInserted, foldl_addInside_append, addToNodeList_eq_foldl,
    foldl_addInside_parts]

theorem addToNodeListInserted_mem (l : List Physical) :
    ∀ n ∈ addToNodeListInserted l, ∃ c ∈ l, n ∈ addToNodeInserted c := by
  induction l with
  | nil => intro n hn; simp [addToNodeListInserted] at hn
  | cons c cs ih =>
    intro n hn
    rw [addToNodeListInserted, List.mem_append] at hn
    rcases hn with hn | hn
    · exact ⟨c, List.mem_cons_self _ _, hn⟩
    · obtain ⟨c', hc', hn'⟩ := ih n hn
      exact ⟨c', List.mem_cons_of_mem _ hc', hn'⟩

/-- Every node `createNodeFor` passes to `addInside` is a leaf that is not a group
head. -/
theorem createNodeForInserted_leaf (phys : Physical) :
    ∀ n ∈ createNodeForInserted phys, ∃ b o, n = .leaf b o false := by
  intro n hn
  rw [createNodeForInserted, List.mem_append] at hn
  rcases hn with hn | hn
  · obtain ⟨p, _, rfl⟩ := List.mem_map.1 hn
    exact ⟨_, _, rfl⟩
  · obtain ⟨c, _, hc⟩ := addToNodeListInserted_mem _ n hn
    rw [addToNodeInserted_eq] at hc
    obtain ⟨p, _, rfl⟩ := List.mem_map.1 hc
    exact ⟨_, _, rfl⟩

/-- A group head that satisfies the group invariant, has no childless internal node
and is bounds-consistent stays one under `addInside` of leaves that are not group
heads. -/
theorem TreeNode.foldl_addInside_group (l : List TreeNode)
    (hl : ∀ n ∈ l, ∃ b o, n = TreeNode.leaf b o false) :
    ∀ t : TreeNode, t.isGroupHead = true → headsOk 0 t = true → t.hasChildren = true →
      t.boundsConsistent = true →
      (l.foldl TreeNode.addInside t).isGroupHead = true ∧
      headsOk 0 (l.foldl TreeNode.addInside t) = true ∧
      (l.foldl TreeNode.addInside t).hasChildren = true ∧
      (l.foldl TreeNode.addInside t).boundsConsistent = true := by
  induction l with
  | nil => intro t h1 h2 h3 h4; exact ⟨h1, h2, h3, h4⟩
  | cons n ns ih =>
    intro t h1 h2 h3 h4
    obtain ⟨b, o, rfl⟩ := hl n (List.mem_cons_self _ _)
    simp only [List.foldl_cons]
    apply ih (fun x hx => hl x (List.mem_cons_of_mem _ hx))
    · rw [isGroupHead_addInside]; exact h1
    · exact headsOk_addInside t b o h1 h2
    · exact hasChildren_addInside t _ rfl h3
    · exact boundsConsistent_addInside t _ rfl h3 h4

/-- The node `createNodeFor` returns is a group head that satisfies the group
invariant, has no childless internal node and is bounds-consistent. -/
theorem createNodeFor_group (phys : Physical) :
    (createNodeFor phys).isGroupHead = true ∧ headsOk 0 (createNodeFor phys) = true ∧
      (createNodeFor phys).hasChildren = true ∧ (createNodeFor phys).boundsConsistent = true := by
  rw [createNodeFor_eq_foldl]
  exact foldl_addInside_group _ (createNodeForInserted_leaf phys) _ rfl rfl rfl rfl

theorem WorldPrototype.mergeGroups_fresh (tree : BoundsTree) (firstPhysical secondPhysical : Physical) :
    WorldPrototype.mergeGroups tree false firstPhysical secondPhysical =
      match tree.findGroupFor firstPhysical.mainPart.address
          firstPhysical.mainPart.strictBounds with
      | .thrown message => .thrown message tree
      | .undefined => .undefined
      | .ok stack =>
        .returned () ⟨((stack.modifyTop
          (fun group => group.addInside (createNodeFor secondPhysical))).expandBoundsAllTheWayToTop).rootNode⟩ := by
  simp only [WorldPrototype.mergeGroups, Bool.false_eq_true, if_false]
  all_goals
    cases tree.findGroupFor firstPhysical.mainPart.address firstPhysical.mainPart.strictBounds <;>
      rfl

theorem WorldPrototype.mergeGroups_inWorld (tree : BoundsTree)
    (firstPhysical secondPhysical : Physical) :
    WorldPrototype.mergeGroups tree true firstPhysical secondPhysical =
      match tree.grabGroupFor secondPhysical.mainPart.address
          secondPhysical.mainPart.strictBounds with
      | .thrown message tree => .thrown message tree
      | .undefined => .undefined
      | .returned groupNode tree1 =>
        match tree1.findGroupFor firstPhysical.mainPart.address
            firstPhysical.mainPart.strictBounds with
        | .thrown message => .thrown message tree1
        | .undefined => .undefined
        | .ok stack =>
          .returned () ⟨((stack.modifyTop
            (fun group => group.addInside groupNode)).expandBoundsAllTheWayToTop).rootNode⟩ := by
  simp only [WorldPrototype.mergeGroups, if_true]
  all_goals
    cases tree.grabGroupFor secondPhysical.mainPart.address
        secondPhysical.mainPart.strictBounds with
    | thrown message tree => rfl
    | undefined => rfl
    | returned groupNode tree1 =>
      simp only
      cases tree1.findGroupFor firstPhysical.mainPart.address
        firstPhysical.mainPart.strictBounds <;> rfl

/-- What `grabGroupFor` leaves in a tree with one group head on every path and without
childless internal nodes, when it returns a node from a tree with more than the leaf
it returns: the node is a group head of the tree that satisfies the group invariant,
and the tree left has the leaves and the groups of the tree without those of the
node. -/
theorem BoundsTree.grabGroupFor_left (rootNode : TreeNode) (m : Nat) (hint : Bounds)
    (d : TreeNode) (tree1 : BoundsTree) (hheads : headsOk 0 rootNode = true)
    (hch : rootNode.hasChildren = true)
    (h : BoundsTree.grabGroupFor ⟨rootNode⟩ m hint = .returned d tree1)
    (hne : tree1.isEmpty = false) :
    d.isGroupHead = true ∧ headsOk 0 d = true ∧ 0 < countObject m d ∧ d.hasChildren = true ∧
    (rootNode.boundsConsistent = true → d.boundsConsistent = true) ∧
    (∃ gd, rootNode.nodeAt gd = some d) ∧
    headsOk 0 tree1.rootNode = true ∧ tree1.rootNode.hasChildren = true ∧
    (rootNode.boundsConsistent = true → tree1.rootNode.boundsConsistent = true) ∧
    tree1.rootNode.height ≤ rootNode.height ∧
    (∀ p, countLeaves p tree1.rootNode + countLeaves p d = countLeaves p rootNode) ∧
    groupSets tree1.rootNode + {Multiset.ofList (objects d)} = groupSets rootNode := by
  obtain ⟨hdhead, ⟨r, b, g, hleaf⟩, hcase⟩ :=
    BoundsTree.grabGroupFor_spec rootNode m hint d tree1 hheads h
  rcases hcase with ⟨_, hempty⟩ | ⟨q', i', d', rfl, hn', hw, hstop⟩
  · rw [hempty] at hne
    cases hne
  · have hz := heads_zero_of_head_leaf d r b m g hdhead hleaf
    have hz' := hw.heads_zero hz
    have hu := (unflaggedAlong_of_headsOk (q' ++ [i']) rootNode d' 0 hheads hn' hz').2
    have hd'0 := headsOk_of_unflaggedAlong (q' ++ [i']) rootNode d' 0 hheads hn' hu
    obtain ⟨rd, hrd⟩ := hw.exists_nodeAt
    have hgd : rootNode.nodeAt (q' ++ [i'] ++ rd) = some d := by
      rw [nodeAt_append, hn']
      simpa using hrd
    obtain ⟨kd, hkd⟩ := headsOk_nodeAt _ rootNode d 0 hheads hgd
    have hkd0 := hz kd hkd
    subst hkd0
    have hgs := groupSets_removedAt rootNode q' i' d' hn' hu
    rw [hw.groupSets_eq hz hd'0, groupSets_of_head d hdhead] at hgs
    refine ⟨hdhead, hkd, countObject_pos_of_nodeAt m d r b g hleaf,
      hasChildren_nodeAt _ rootNode d hch hgd,
      fun hcons => boundsConsistent_nodeAt _ rootNode d hcons hgd, ⟨_, hgd⟩,
      headsOk_removedAt rootNode q' i' hheads, ?_,
      fun hcons => boundsConsistent_removedAt rootNode q' i' hcons,
      height_removedAt_le rootNode q' i', ?_, hgs⟩
    · rcases BoundsTree.hasChildren_removedAt_or_empty rootNode q' i' d' hch hn' hstop with he | hc
      · rw [he] at hne
        cases hne
      · exact hc
    · intro p
      have := countLeaves_removedAt p rootNode q' i' d' hn'
      rw [hw.countLeaves_eq] at this
      exact this

theorem BoundsTree.isEmpty_eq_false_of_findGroupFor (tree : BoundsTree) (a : Nat) (hint : Bounds)
    (stack : TreeCursor) (h : tree.findGroupFor a hint = .ok stack) : tree.isEmpty = false := by
  rcases TreeCursor.find_cases tree.rootNode a hint with
    ⟨_, hf⟩ | ⟨_, hf, _⟩ | ⟨_, p, b0, g0, hf, hn⟩
  · simp [BoundsTree.findGroupFor, hf] at h
  · simp [BoundsTree.findGroupFor, hf] at h
  · exact BoundsTree.isEmpty_eq_false_of_nodeAt_leaf tree p b0 a g0 hn

theorem BoundsTree.countLeaves_of_isEmpty (p : Nat → Bool) (tree : BoundsTree)
    (h : tree.isEmpty = true) : countLeaves p tree.rootNode = 0 := by
  obtain ⟨root⟩ := tree
  cases root with
  | leaf b o g => simp [BoundsTree.isEmpty, nodeCount, LEAF_NODE_SIGNIFIER] at h
  | node b subs g =>
    simp only [BoundsTree.isEmpty, nodeCount, decide_eq_true_eq, List.length_eq_zero] at h
    subst h
    simp [countLeaves_node]

/-- What the calls of `mergePhysicals` on the object tree leave when the second
physical is in the world, on a tree with one group head on every path and without
childless internal nodes, when they return: the group `grabGroupFor` took out of the
tree is the last child of the node at the place of the group head `findGroupFor`
stopped at, no node of it is marked as a group head, the tree has one group head on
every path and holds every object as often as before, and the two groups have become
one. -/
theorem WorldPrototype.mergeGroups_inWorld_spec (tree tree' : BoundsTree)
    (firstPhysical secondPhysical : Physical) (hheads : headsOk 0 tree.rootNode = true)
    (hch : tree.rootNode.hasChildren = true)
    (h : WorldPrototype.mergeGroups tree true firstPhysical secondPhysical = .returned () tree') :
    ∃ d tree1 gp group,
      tree.grabGroupFor secondPhysical.mainPart.address secondPhysical.mainPart.strictBounds =
        .returned d tree1 ∧
      d.isGroupHead = true ∧ 0 < countObject secondPhysical.mainPart.address d ∧
      (∃ gd, tree.rootNode.nodeAt gd = some d) ∧
      tree1.rootNode.nodeAt gp = some group ∧ group.isGroupHead = true ∧
      0 < countObject firstPhysical.mainPart.address group ∧
      tree'.rootNode.nodeAt gp = some (group.addInside d) ∧
      (d.setGroupHead false).noGroupHead = true ∧
      headsOk 0 tree'.rootNode = true ∧ tree'.rootNode.hasChildren = true ∧
      (tree.rootNode.boundsConsistent = true → tree'.rootNode.boundsConsistent = true) ∧
      (∀ p, countLeaves p tree'.rootNode = countLeaves p tree.rootNode) ∧
      groupSets tree1.rootNode + {Multiset.ofList (objects d)} = groupSets tree.rootNode ∧
      groupSets tree'.rootNode + {Multiset.ofList (objects group)} =
        groupSets tree1.rootNode +
          {Multiset.ofList (objects group) + Multiset.ofList (objects d)} := by
  rw [WorldPrototype.mergeGroups_inWorld] at h
  cases hgrab : tree.grabGroupFor secondPhysical.mainPart.address
      secondPhysical.mainPart.strictBounds with
  | thrown message t => simp [hgrab] at h
  | undefined => simp [hgrab] at h
  | returned d tree1 =>
    simp only [hgrab] at h
    cases hfg : tree1.findGroupFor firstPhysical.mainPart.address
        firstPhysical.mainPart.strictBounds with
    | thrown message => simp [hfg] at h
    | undefined => simp [hfg] at h
    | ok stack =>
      simp only [hfg, Effect.returned.injEq, true_and] at h
      have hne := BoundsTree.isEmpty_eq_false_of_findGroupFor tree1 _ _ stack hfg
      obtain ⟨root⟩ := tree
      obtain ⟨hdhead, hd0, hmd, hdch, hdcons, hgd, h1heads, h1ch, h1cons, _, h1count, h1gs⟩ :=
        BoundsTree.grabGroupFor_left root _ _ d tree1 hheads hch hgrab hne
      obtain ⟨root1⟩ := tree1
      obtain ⟨k, gp, group, r, b, g, rfl, hG, hGhead, hleaf, _⟩ :=
        BoundsTree.findGroupFor_spec root1 _ _ stack h1heads hfg
      obtain ⟨e1, e2, e3, e4, e5, e6⟩ :=
        TreeCursor.addInside_group_spec root1 k gp group d r b _ g h1heads hG hGhead hleaf hd0
          hdhead
      subst h
      refine ⟨d, ⟨root1⟩, gp, group, rfl, hdhead, hmd, hgd, hG, hGhead,
        countObject_pos_of_nodeAt _ group r b g hleaf, e1, ?_, e2, e5 h1ch hdch,
        fun hcons => e6 (h1cons hcons) h1ch (hdcons hcons), ?_, h1gs, e4⟩
      · exact noGroupHead_of_headsOk_one _ (headsOk_one_setGroupHead_false d hdhead hd0)
          (by rw [hasChildren_setGroupHead]; exact hdch)
      · intro p
        have := h1count p
        rw [e3 p]
        exact this

/-- What the calls of `mergePhysicals` on the object tree leave when the second
physical is not in a world, on a tree with one group head on every path, when they
return: the node `createNodeFor` made is the last child of the node at the place of
the group head `findGroupFor` stopped at, no node of it is marked as a group head, the
tree has one group head on every path, and it holds the objects it held and those of
the new node. -/
theorem WorldPrototype.mergeGroups_fresh_spec (tree tree' : BoundsTree)
    (firstPhysical secondPhysical : Physical) (hheads : headsOk 0 tree.rootNode = true)
    (h : WorldPrototype.mergeGroups tree false firstPhysical secondPhysical = .returned () tree') :
    ∃ gp group,
      tree.rootNode.nodeAt gp = some group ∧ group.isGroupHead = true ∧
      0 < countObject firstPhysical.mainPart.address group ∧
      tree'.rootNode.nodeAt gp = some (group.addInside (createNodeFor secondPhysical)) ∧
      ((createNodeFor secondPhysical).setGroupHead false).noGroupHead = true ∧
      headsOk 0 tree'.rootNode = true ∧
      (tree.rootNode.hasChildren = true → tree'.rootNode.hasChildren = true) ∧
      (tree.rootNode.boundsConsistent = true → tree.rootNode.hasChildren = true →
        tree'.rootNode.boundsConsistent = true) ∧
      (∀ p, countLeaves p tree'.rootNode =
        countLeaves p tree.rootNode + countLeaves p (createNodeFor secondPhysical)) ∧
      groupSets tree'.rootNode + {Multiset.ofList (objects group)} =
        groupSets tree.rootNode +
          {Multiset.ofList (objects group) +
            Multiset.ofList (objects (createNodeFor secondPhysical))} := by
  rw [WorldPrototype.mergeGroups_fresh] at h
  cases hfg : tree.findGroupFor firstPhysical.mainPart.address
      firstPhysical.mainPart.strictBounds with
  | thrown message => simp [hfg] at h
  | undefined => simp [hfg] at h
  | ok stack =>
    simp only [hfg, Effect.returned.injEq, true_and] at h
    obtain ⟨root⟩ := tree
    obtain ⟨k, gp, group, r, b, g, rfl, hG, hGhead, hleaf, _⟩ :=
      BoundsTree.findGroupFor_spec root _ _ stack hheads hfg
    obtain ⟨hdhead, hd0, hdch, hdcons⟩ := createNodeFor_group secondPhysical
    obtain ⟨e1, e2, e3, e4, e5, e6⟩ :=
      TreeCursor.addInside_group_spec root k gp group (createNodeFor secondPhysical) r b _ g
        hheads hG hGhead hleaf hd0 hdhead
    subst h
    exact ⟨gp, group, hG, hGhead, countObject_pos_of_nodeAt _ group r b g hleaf, e1,
      noGroupHead_of_headsOk_one _ (headsOk_one_setGroupHead_false _ hdhead hd0)
        (by rw [hasChildren_setGroupHead]; exact hdch),
      e2, fun hc => e5 hc hdch, fun hcons hc => e6 hcons hc hdcons, e3, e4⟩

/-- The calls of `mergePhysicals` on the object tree return when the second physical
is in the world, on a tree that fits the stack, has one group head on every path and
holds the main parts of the two physicals in different groups. -/
theorem WorldPrototype.mergeGroups_inWorld_returns (tree : BoundsTree)
    (firstPhysical secondPhysical : Physical) (hheads : headsOk 0 tree.rootNode = true)
    (hh : tree.rootNode.height ≤ MAX_HEIGHT)
    (ha : 0 < countObject firstPhysical.mainPart.address tree.rootNode)
    (hm : 0 < countObject secondPhysical.mainPart.address tree.rootNode)
    (hdiff : ∀ gd d, tree.rootNode.nodeAt gd = some d → d.isGroupHead = true →
      0 < countObject secondPhysical.mainPart.address d →
      countObject firstPhysical.mainPart.address d = 0) :
    ∃ tree', WorldPrototype.mergeGroups tree true firstPhysical secondPhysical =
      .returned () tree' := by
  obtain ⟨root⟩ := tree
  simp only at hheads hh ha hm hdiff
  have hroot : root.isGroupHead = false := by
    cases hg : root.isGroupHead with
    | false => rfl
    | true =>
      have := hdiff [] root (nodeAt_nil root) hg hm
      omega
  obtain ⟨d, tree1, hgrab⟩ := BoundsTree.grabGroupFor_returns root
    secondPhysical.mainPart.address secondPhysical.mainPart.strictBounds hheads hh hm hroot
  obtain ⟨hdhead, ⟨r, b, g, hleaf⟩, hcase⟩ :=
    BoundsTree.grabGroupFor_spec root _ _ d tree1 hheads hgrab
  have hrootNode : root.isLeafNode = false := by
    cases root with
    | leaf b' o' g' =>
      simp only [isGroupHead] at hroot
      subst hroot
      simp [headsOk] at hheads
    | node b' subs g' => rfl
  rcases hcase with ⟨hl, _⟩ | ⟨q', i', d', rfl, hn', hw, hstop⟩
  · rw [hl] at hrootNode
    cases hrootNode
  · obtain ⟨rd, hrd⟩ := hw.exists_nodeAt
    have hgd : root.nodeAt (q' ++ [i'] ++ rd) = some d := by
      rw [nodeAt_append, hn']
      simpa using hrd
    have had := hdiff _ d hgd hdhead (countObject_pos_of_nodeAt _ d r b g hleaf)
    have hcount := countObject_removedAt firstPhysical.mainPart.address root q' i' d' hn'
    rw [hw.countObject_eq, had] at hcount
    obtain ⟨stack, hfg⟩ := BoundsTree.findGroupFor_returns (removedAt root q' i')
      firstPhysical.mainPart.address firstPhysical.mainPart.strictBounds
      (headsOk_removedAt root q' i' hheads) (le_trans (height_removedAt_le root q' i') hh)
      (by omega)
    rw [WorldPrototype.mergeGroups_inWorld, hgrab]
    simp only [hfg]
    exact ⟨_, rfl⟩

/-- The calls of `mergePhysicals` on the object tree return when the second physical
is not in a world, on a tree that fits the stack, has one group head on every path and
holds the main part of the first physical. -/
theorem WorldPrototype.mergeGroups_fresh_returns (tree : BoundsTree)
    (firstPhysical secondPhysical : Physical) (hheads : headsOk 0 tree.rootNode = true)
    (hh : tree.rootNode.height ≤ MAX_HEIGHT)
    (ha : 0 < countObject firstPhysical.mainPart.address tree.rootNode) :
    ∃ tree', WorldPrototype.mergeGroups tree false firstPhysical secondPhysical =
      .returned () tree' := by
  obtain ⟨root⟩ := tree
  obtain ⟨stack, hfg⟩ := BoundsTree.findGroupFor_returns root
    firstPhysical.mainPart.address firstPhysical.mainPart.strictBounds hheads hh ha
  rw [WorldPrototype.mergeGroups_fresh]
  simp only [hfg]
  exact ⟨_, rfl⟩

/-! ### Merging two physicals -/

/-- The check succeeds on subtrees without childless internal nodes only. -/
theorem recursiveTreeValidCheck_ok_hasChildren (t : TreeNode) :
    ∀ passed : Bool, recursiveTreeValidCheck t passed = .ok () → t.hasChildren = true := by
  induction t using TreeNode.induction with
  | hleaf b o g => intro _ _; rfl
  | hnode b subs g ih =>
    intro passed h
    cases subs with
    | nil =>
      simp only [recursiveTreeValidCheck, List.head?_nil] at h
      split at h <;> cases h
    | cons first others =>
      simp only [recursiveTreeValidCheck, List.head?_cons, List.tail_cons] at h
      split at h
      · cases h
      · split at h
        · cases h
        · rw [recursiveTreeValidCheckList_ok_iff] at h
          rw [hasChildren_node_iff]
          exact ⟨by simp, fun c hc => ih c hc _ (h c hc)⟩

/-- A tree that passes `treeValidCheck` is empty, or it has no childless internal
node, is bounds-consistent and has one group head on every path. -/
theorem treeValidCheck_ok_valid (tree : BoundsTree) (h : treeValidCheck tree = .ok ()) :
    tree.isEmpty = true ∨
      (tree.rootNode.hasChildren = true ∧ tree.rootNode.boundsConsistent = true ∧
        headsOk 0 tree.rootNode = true) := by
  by_cases hempty : tree.isEmpty = true
  · exact Or.inl hempty
  · right
    simp only [treeValidCheck, hempty, Bool.not_false, if_true] at h
    have hch := recursiveTreeValidCheck_ok_hasChildren _ _ h
    obtain ⟨hcons, hpaths⟩ := (recursiveTreeValidCheck_ok_iff _ hch false).1 h
    exact ⟨hch, hcons, (headsOk_iff_rootPaths _ 0).2 hpaths⟩

/-- A tree without childless internal nodes that is bounds-consistent and has one
group head on every path passes `treeValidCheck`. -/
theorem treeValidCheck_ok_of_valid (tree : BoundsTree) (hch : tree.rootNode.hasChildren = true)
    (hcons : tree.rootNode.boundsConsistent = true) (hheads : headsOk 0 tree.rootNode = true) :
    treeValidCheck tree = .ok () := by
  by_cases hempty : tree.isEmpty = true
  · simp [treeValidCheck, hempty]
  · simp only [treeValidCheck, hempty, Bool.not_false, if_true]
    exact (recursiveTreeValidCheck_ok_iff _ hch false).2
      ⟨hcons, (headsOk_iff_rootPaths _ 0).1 hheads⟩

theorem TreeNode.getLast?_subTrees_addInside (t newNode : TreeNode) :
    (t.addInside newNode).subTrees.getLast? = some (newNode.setGroupHead false) := by
  cases t with
  | leaf b o g => simp [addInside, subTrees]
  | node b subs g =>
    simp only [addInside]
    split <;> simp [subTrees]

theorem BoundsTree.isEmpty_eq_false_of_countObject_pos (tree : BoundsTree) (o : Nat)
    (h : 0 < countObject o tree.rootNode) : tree.isEmpty = false := by
  cases he : tree.isEmpty with
  | false => rfl
  | true =>
    have := BoundsTree.countLeaves_of_isEmpty (fun x => decide (x = o)) tree he
    have h2 : countObject o tree.rootNode = countLeaves (fun x => decide (x = o)) tree.rootNode := by
      simp [countObject, countLeaves]
    omega

/-- C17. On an object tree that passes `treeValidCheck`, once the calls of
`mergePhysicals(first, second)` on the tree have returned (`grabGroupFor` of the donor
when the second physical is in the world, `createNodeFor` otherwise, then `addInside`
at the group head of the first and `expandBoundsAllTheWayToTop`): the donor is the
last child of the node at the place of that group head, which is still a group head;
no node of the donor's subtree is marked as a group head; and the tree has exactly one
group head on every root-to-leaf path and passes `treeValidCheck`. -/
theorem C17_merge_demotes_donor (tree tree' : BoundsTree) (inWorld : Bool)
    (firstPhysical secondPhysical : Physical) (hvalid : treeValidCheck tree = .ok ())
    (hmerge : WorldPrototype.mergeGroups tree inWorld firstPhysical secondPhysical =
      .returned () tree') :
    ∃ donor gp group,
      (inWorld = true → ∃ tree1, tree.grabGroupFor secondPhysical.mainPart.address
        secondPhysical.mainPart.strictBounds = .returned donor tree1) ∧
      (inWorld = false → donor = createNodeFor secondPhysical) ∧
      donor.isGroupHead = true ∧ group.isGroupHead = true ∧
      0 < countObject firstPhysical.mainPart.address group ∧
      tree'.rootNode.nodeAt gp = some (group.addInside donor) ∧
      (group.addInside donor).isGroupHead = true ∧
      (group.addInside donor).subTrees.getLast? = some (donor.setGroupHead false) ∧
      (donor.setGroupHead false).noGroupHead = true ∧
      tree'.rootNode.OneGroupHeadPerPath ∧ treeValidCheck tree' = .ok () := by
  have hpaths : ∀ t : TreeNode, headsOk 0 t = true → t.OneGroupHeadPerPath := by
    intro t ht p hp
    have := (headsOk_iff_rootPaths t 0).1 ht p hp
    simpa using this
  cases inWorld with
  | true =>
    have hne : tree.isEmpty = false := by
      cases he : tree.isEmpty with
      | false => rfl
      | true =>
        exfalso
        obtain ⟨root⟩ := tree
        cases root with
        | leaf b o g => simp [BoundsTree.isEmpty, nodeCount, LEAF_NODE_SIGNIFIER] at he
        | node b subs g =>
          simp only [BoundsTree.isEmpty, nodeCount, decide_eq_true_eq, List.length_eq_zero] at he
          subst he
          rw [WorldPrototype.mergeGroups_inWorld, BoundsTree.grabGroupFor_node] at hmerge
          simp [BoundsTree.findGroupFor, TreeCursor.find, TreeCursor.search, findPath,
            findPathList, height, heightList, MAX_HEIGHT] at hmerge
    rcases treeValidCheck_ok_valid tree hvalid with he | ⟨hch, hcons, hheads⟩
    · rw [he] at hne
      cases hne
    obtain ⟨d, tree1, gp, group, hgrab, hdhead, _, _, _, hGhead, haG, hnode, hno, hheads', hch',
        hcons', _, _, _⟩ :=
      WorldPrototype.mergeGroups_inWorld_spec tree tree' firstPhysical secondPhysical hheads hch
        hmerge
    exact ⟨d, gp, group, fun _ => ⟨tree1, hgrab⟩, (fun h => by cases h), hdhead, hGhead, haG, hnode,
      (by rw [isGroupHead_addInside]; exact hGhead), getLast?_subTrees_addInside group d, hno,
      hpaths _ hheads', treeValidCheck_ok_of_valid tree' hch' (hcons' hcons) hheads'⟩
  | false =>
    have hne : tree.isEmpty = false := by
      rw [WorldPrototype.mergeGroups_fresh] at hmerge
      cases hfg : tree.findGroupFor firstPhysical.mainPart.address
          firstPhysical.mainPart.strictBounds with
      | thrown message => simp [hfg] at hmerge
      | undefined => simp [hfg] at hmerge
      | ok stack => exact BoundsTree.isEmpty_eq_false_of_findGroupFor tree _ _ stack hfg
    rcases treeValidCheck_ok_valid tree hvalid with he | ⟨hch, hcons, hheads⟩
    · rw [he] at hne
      cases hne
    obtain ⟨gp, group, _, hGhead, haG, hnode, hno, hheads', hch', hcons', _, _⟩ :=
      WorldPrototype.mergeGroups_fresh_spec tree tree' firstPhysical secondPhysical hheads hmerge
    exact ⟨createNodeFor secondPhysical, gp, group, (fun h => by cases h), fun _ => rfl,
      (createNodeFor_group secondPhysical).1, hGhead, haG, hnode,
      (by rw [isGroupHead_addInside]; exact hGhead),
      getLast?_subTrees_addInside group _, hno, hpaths _ hheads',
      treeValidCheck_ok_of_valid tree' (hch' hch) (hcons' hcons hch) hheads'⟩

/-- C17, at the examples: the group of the parts 2 and 3 is merged into the group of
the parts 1 and 4, taken out of the tree of the world after the split in the one case
and made by `createNodeFor` in the other; both give the tree in which the node over
the parts 2 and 3 is not a group head. -/
theorem C17_merge_demotes_donor_witness :
    treeValidCheck splitWorld.objectTree = .ok () ∧
    WorldPrototype.mergeGroups splitWorld.objectTree true examplePhysicalA examplePhysicalB =
      .returned () mergedTree ∧
    treeValidCheck groupATree = .ok () ∧
    WorldPrototype.mergeGroups groupATree false examplePhysicalA examplePhysicalB =
      .returned () mergedTree ∧
    mergedTree.rootNode.OneGroupHeadPerPath ∧ treeValidCheck mergedTree = .ok () :=
  have h := C17_merge_demotes_donor splitWorld.objectTree mergedTree true examplePhysicalA
    examplePhysicalB (by decide) (by decide)
  have h' := C17_merge_demotes_donor groupATree mergedTree false examplePhysicalA
    examplePhysicalB (by decide) (by decide)
  ⟨by decide, by decide, by decide, by decide,
    h.elim (fun _ h1 => h1.elim (fun _ h2 => h2.elim (fun _ h3 => h3.2.2.2.2.2.2.2.2.2.1))),
    h'.elim (fun _ h1 => h1.elim (fun _ h2 => h2.elim (fun _ h3 => h3.2.2.2.2.2.2.2.2.2.2)))⟩

/-! ### The end of `mergePhysicals` -/

theorem TreeNode.mem_objects_iff (o : Nat) (t : TreeNode) :
    o ∈ objects t ↔ 0 < countObject o t := by
  rw [← count_objects, Multiset.count_pos, Multiset.mem_coe]

/-- A subtree that satisfies the group invariant below `k` heads and holds an object
lies below at most one head, itself counted. -/
theorem TreeNode.heads_le_one_of_countObject (o : Nat) (t : TreeNode) :
    ∀ k, headsOk k t = true → 0 < countObject o t → k + t.isGroupHead.toNat ≤ 1 := by
  induction t using TreeNode.induction with
  | hleaf b o' g =>
    intro k h _
    simp only [headsOk, decide_eq_true_eq] at h
    simp only [isGroupHead]
    omega
  | hnode b subs g ih =>
    intro k h hc
    rw [countObject_pos_iff] at hc
    obtain ⟨l, hl, ho⟩ := hc
    simp only [leaves] at hl
    obtain ⟨c, hc, hlc⟩ := mem_leavesList.1 hl
    simp only [headsOk, headsOkList_iff] at h
    have := ih c hc _ (h c hc) ((countObject_pos_iff o c).2 ⟨l, hlc, ho⟩)
    simp only [isGroupHead]
    omega

theorem TreeNode.mem_groupsList {x : List Nat} {c : TreeNode} {subs : List TreeNode}
    (hc : c ∈ subs) (hx : x ∈ groups c) : x ∈ groupsList subs := by
  rw [groupsList_eq_flatten, List.mem_flatten]
  exact ⟨groups c, List.mem_map.2 ⟨c, hc, rfl⟩, hx⟩

/-- The objects below a group head that has no group head above it are a group of the
tree. -/
theorem TreeNode.mem_groups_of_nodeAt (p : List Nat) :
    ∀ (t d : TreeNode), t.nodeAt p = some d → unflaggedAlong t p = true →
      d.isGroupHead = true → objects d ∈ groups t := by
  induction p with
  | nil =>
    intro t d hn _ hd
    rw [nodeAt_nil] at hn
    cases hn
    cases t with
    | leaf b o g =>
      simp only [isGroupHead] at hd
      subst hd
      simp [groups, objects, leaves, object]
    | node b subs g =>
      simp only [isGroupHead] at hd
      subst hd
      simp [groups, objects, leaves]
  | cons j q ih =>
    intro t d hn hu hd
    obtain ⟨b, subs, g, c, rfl, hc, hn'⟩ := nodeAt_cons_eq_some hn
    simp only [unflaggedAlong, hc, Bool.and_eq_true, Bool.not_eq_true'] at hu
    obtain ⟨rfl, hu⟩ := hu
    simp only [groups, Bool.false_eq_true, if_false]
    exact mem_groupsList (List.getElem?_mem hc) (ih c d hn' hu hd)

/-- In a tree with one group head on every path in which no group holds both of two
objects, a group head that holds the one does not hold the other. -/
theorem TreeNode.countObject_eq_zero_of_groups (t : TreeNode) (a m : Nat)
    (hheads : headsOk 0 t = true) (hdiff : ∀ g ∈ groups t, m ∈ g → a ∉ g) :
    ∀ gd d, t.nodeAt gd = some d → d.isGroupHead = true → 0 < countObject m d →
      countObject a d = 0 := by
  intro gd d hn hd hm
  have hz : ∀ k, headsOk k d = true → k = 0 := by
    intro k hk
    have := heads_le_one_of_countObject m d k hk hm
    rw [hd] at this
    simp only [Bool.toNat_true] at this
    omega
  have hu := (unflaggedAlong_of_headsOk gd t d 0 hheads hn hz).2
  have hmem := mem_groups_of_nodeAt gd t d hn hu hd
  have := hdiff _ hmem ((mem_objects_iff m d).2 hm)
  rw [mem_objects_iff] at this
  omega

theorem TreeNode.countLeaves_foldl_addInside_le (p : Nat → Bool) (l : List TreeNode) :
    ∀ t : TreeNode, countLeaves p t ≤ countLeaves p (l.foldl TreeNode.addInside t) := by
  induction l with
  | nil => intro t; exact le_refl _
  | cons n ns ih =>
    intro t
    simp only [List.foldl_cons]
    refine le_trans ?_ (ih _)
    rw [countLeaves_addInside]
    exact Nat.le_add_right _ _

/-- C24. In a world whose object tree passes `treeValidCheck` and fits the stack, for
two physicals that pass the assertions on their worlds, the second found in the list
of physicals when it is in the world, with the main part of the first in the tree and,
when the second is in the world, its main part in the tree in another group:
`mergePhysicals` performs its calls on the object tree, which return a tree other than
the one before that passes `ASSERT_TREE_VALID`, and then reaches `assert(false)`; with
assertions enabled it stops there, with assertions compiled out it returns the world
with that tree.  With assertions enabled `mergePhysicals` returns on no input at
all. -/
theorem C24_merge_physicals_reaches_assert_false (w : WorldPrototype)
    (firstPhysical secondPhysical : MotorizedPhysical)
    (hfirst : firstPhysical.world = w.address)
    (hsecond : secondPhysical.world = 0 ∨ secondPhysical.world = w.address)
    (hlookup : secondPhysical.world ≠ 0 →
      (removePhysical w.physicals secondPhysical.physical.address).isSome = true)
    (hvalid : treeValidCheck w.objectTree = .ok ())
    (hh : w.objectTree.rootNode.height ≤ MAX_HEIGHT)
    (ha : 0 < countObject firstPhysical.physical.mainPart.address w.objectTree.rootNode)
    (hm : secondPhysical.world ≠ 0 →
      0 < countObject secondPhysical.physical.mainPart.address w.objectTree.rootNode)
    (hdiff : secondPhysical.world ≠ 0 → ∀ g ∈ groups w.objectTree.rootNode,
      secondPhysical.physical.mainPart.address ∈ g →
      firstPhysical.physical.mainPart.address ∉ g) :
    (∃ tree', WorldPrototype.mergeGroups w.objectTree (decide (secondPhysical.world ≠ 0))
          firstPhysical.physical secondPhysical.physical = .returned () tree' ∧
        tree' ≠ w.objectTree ∧ treeValidCheck tree' = .ok () ∧
        ∃ physicals, w.mergePhysicals false firstPhysical secondPhysical =
          .returned ⟨w.address, tree', w.terrainTree, physicals, w.objectCount⟩) ∧
    w.mergePhysicals true firstPhysical secondPhysical = .aborted ∧
    ∀ (w2 : WorldPrototype) (first2 second2 : MotorizedPhysical) (w' : WorldPrototype),
      w2.mergePhysicals true first2 second2 ≠ .returned w' := by
  have hne : w.objectTree.isEmpty = false :=
    BoundsTree.isEmpty_eq_false_of_countObject_pos _ _ ha
  rcases treeValidCheck_ok_valid w.objectTree hvalid with he | ⟨hch, hcons, hheads⟩
  · rw [he] at hne
    cases hne
  have hnever : ∀ (w2 : WorldPrototype) (first2 second2 : MotorizedPhysical)
      (w' : WorldPrototype), w2.mergePhysicals true first2 second2 ≠ .returned w' := by
    intro w2 first2 second2 w' h
    unfold WorldPrototype.mergePhysicals WorldPrototype.assertTreeValid at h
    simp only [Bool.true_and, if_true] at h
    repeat' split at h
    all_goals cases h
  by_cases hworld : secondPhysical.world = 0
  · obtain ⟨tree', hmerge⟩ := WorldPrototype.mergeGroups_fresh_returns w.objectTree
      firstPhysical.physical secondPhysical.physical hheads hh ha
    obtain ⟨gp, group, _, _, _, _, _, hheads', hch', hcons', hcount, _⟩ :=
      WorldPrototype.mergeGroups_fresh_spec w.objectTree tree' firstPhysical.physical
        secondPhysical.physical hheads hmerge
    have hok := treeValidCheck_ok_of_valid tree' (hch' hch) (hcons' hcons hch) hheads'
    have hchanged : tree' ≠ w.objectTree := by
      intro heq
      have h1 := hcount (fun _ => true)
      rw [heq, createNodeFor_eq_foldl] at h1
      have h2 := countLeaves_foldl_addInside_le (fun _ => true)
        (createNodeForInserted secondPhysical.physical)
        (.leaf secondPhysical.physical.mainPart.strictBounds
          secondPhysical.physical.mainPart.address true)
      rw [countLeaves_leaf] at h2
      simp only [if_true] at h2
      omega
    refine ⟨⟨tree', by simpa [hworld] using hmerge, hchanged, hok, w.physicals, ?_⟩, ?_, hnever⟩
    · simp [WorldPrototype.mergePhysicals, WorldPrototype.assertTreeValid, hworld, hmerge]
    · simp [WorldPrototype.mergePhysicals, WorldPrototype.assertTreeValid, hworld, hmerge, hfirst,
        hok]
  · have hsec : secondPhysical.world = w.address := hsecond.resolve_left hworld
    obtain ⟨physicals, hphys⟩ := Option.isSome_iff_exists.1 (hlookup hworld)
    obtain ⟨tree', hmerge⟩ := WorldPrototype.mergeGroups_inWorld_returns w.objectTree
      firstPhysical.physical secondPhysical.physical hheads hh ha (hm hworld)
      (countObject_eq_zero_of_groups _ _ _ hheads (hdiff hworld))
    obtain ⟨d, tree1, gp, group, _, _, _, _, _, _, _, _, _, hheads', hch', hcons', _, hgs1, hgs'⟩ :=
      WorldPrototype.mergeGroups_inWorld_spec w.objectTree tree' firstPhysical.physical
        secondPhysical.physical hheads hch hmerge
    have hok := treeValidCheck_ok_of_valid tree' hch' (hcons' hcons) hheads'
    have hchanged : tree' ≠ w.objectTree := by
      intro heq
      have h1 := congrArg Multiset.card hgs1
      have h2 := congrArg Multiset.card hgs'
      rw [heq] at h2
      simp only [Multiset.card_add, Multiset.card_singleton] at h1 h2
      omega
    refine ⟨⟨tree', by simpa [hworld] using hmerge, hchanged, hok, physicals, ?_⟩, ?_, hnever⟩
    · simp [WorldPrototype.mergePhysicals, WorldPrototype.assertTreeValid, hworld, hmerge, hphys]
    · have hw0 : ¬ w.address = 0 := by rw [← hsec]; exact hworld
      simp [WorldPrototype.mergePhysicals, WorldPrototype.assertTreeValid, hmerge, hphys,
        hfirst, hsec, hw0, hok]

/-- C24, at the examples: in the world after the split the physical at 200 is merged
into the one at 100; the calls on the object tree leave the merged tree, which passes
the check, and with assertions enabled `mergePhysicals` stops at `assert(false)`. -/
theorem C24_merge_physicals_reaches_assert_false_witness :
    treeValidCheck splitWorld.objectTree = .ok () ∧
    WorldPrototype.mergeGroups splitWorld.objectTree true examplePhysicalA examplePhysicalB =
      .returned () mergedTree ∧
    mergedTree ≠ splitWorld.objectTree ∧ treeValidCheck mergedTree = .ok () ∧
    splitWorld.mergePhysicals true ⟨9, examplePhysicalA⟩ ⟨9, examplePhysicalB⟩ = .aborted ∧
    splitWorld.mergePhysicals false ⟨9, examplePhysicalA⟩ ⟨9, examplePhysicalB⟩ =
      .returned ⟨9, mergedTree, BoundsTree.empty, [⟨9, examplePhysicalA⟩], 4⟩ :=
  have h := C24_merge_physicals_reaches_assert_false splitWorld ⟨9, examplePhysicalA⟩
    ⟨9, examplePhysicalB⟩ rfl (Or.inr rfl) (fun _ => by decide) (by decide) (by decide)
    (by decide) (fun _ => by decide) (fun _ => by decide)
  ⟨by decide, by decide, by decide, by decide, h.2.1, by decide⟩

/-! ### Splitting and merging again -/

/-- Rewriting along a path is rewriting along its first part with the rewriting
along the rest. -/
theorem TreeNode.modifyPath_append (atTarget onAncestor : TreeNode → TreeNode) (r : List Nat)
    (q : List Nat) :
    ∀ t : TreeNode, t.modifyPath atTarget onAncestor (q ++ r) =
      t.modifyPath (fun n => n.modifyPath atTarget onAncestor r) onAncestor q := by
  induction q with
  | nil => intro t; cases t <;> simp [modifyPath]
  | cons j q ih =>
    intro t
    cases t with
    | leaf b o g => simp [modifyPath]
    | node b subs g =>
      cases hc : subs[j]? with
      | none => simp [modifyPath, hc]
      | some c => simp [modifyPath, hc, ih c]

/-- Taking a member out of a group changes the objects of that group alone. -/
theorem TreeNode.groupSets_removedAt_within (rootNode group : TreeNode) (gp r : List Nat) (i : Nat)
    (hG : rootNode.nodeAt gp = some group) (hu : unflaggedAlong rootNode gp = true)
    (hhead : group.isGroupHead = true) :
    groupSets (removedAt rootNode (gp ++ r) i) + {Multiset.ofList (objects group)} =
      groupSets rootNode + {Multiset.ofList (objects (removedAt group r i))} := by
  have h := groupSets_modifyPath (fun n => removedAt n r i) recalculateBoundsFromSubBounds
    recalculate_eq_setBounds gp rootNode group hG hu
  rw [groupSets_of_head group hhead,
    groupSets_of_head _ (isGroupHead_removedAt group r i hhead)] at h
  rw [← h]
  unfold removedAt
  rw [modifyPath_append]

/-- The objects of a group of a subtree are objects of the subtree. -/
theorem TreeNode.countObject_pos_of_mem_groups (o : Nat) (t : TreeNode) :
    ∀ x ∈ groups t, o ∈ x → 0 < countObject o t := by
  induction t using TreeNode.induction with
  | hleaf b o' g =>
    intro x hx ho
    cases g with
    | false => simp [groups] at hx
    | true =>
      simp only [groups, if_true, List.mem_singleton] at hx
      subst hx
      simp only [List.mem_singleton] at ho
      subst ho
      simp [countObject_leaf]
  | hnode b subs g ih =>
    intro x hx ho
    cases g with
    | true =>
      simp only [groups, if_true, List.mem_singleton] at hx
      subst hx
      exact (mem_objects_iff o (.node b subs true)).1 (by simpa [objects, leaves] using ho)
    | false =>
      simp only [groups, Bool.false_eq_true, if_false, groupsList_eq_flatten,
        List.mem_flatten, List.mem_map] at hx
      obtain ⟨l, ⟨c, hc, rfl⟩, hxl⟩ := hx
      have := ih c hc x hxl ho
      rw [countObject_pos_iff] at this ⊢
      obtain ⟨lf, hlf, hobj⟩ := this
      exact ⟨lf, by simp only [leaves]; exact mem_leavesList.2 ⟨c, hc, hlf⟩, hobj⟩

/-- The objects of a group of a subtree, as a set, are objects of the subtree. -/
theorem TreeNode.countObject_pos_of_mem_groupSets (o : Nat) (t : TreeNode) (x : Multiset Nat)
    (hx : x ∈ groupSets t) (ho : o ∈ x) : 0 < countObject o t := by
  simp only [groupSets, Multiset.mem_coe, List.mem_map] at hx
  obtain ⟨l, hl, rfl⟩ := hx
  exact countObject_pos_of_mem_groups o t l hl (by simpa using ho)

theorem TreeNode.mem_groupSets_of_mem_groups (t : TreeNode) (l : List Nat) (h : l ∈ groups t) :
    (Multiset.ofList l : Multiset Nat) ∈ groupSets t := by
  simp only [groupSets, Multiset.mem_coe, List.mem_map]
  exact ⟨l, h, rfl⟩

theorem multiset_sum_list_sum (l : List (Multiset (Multiset Nat))) :
    (l.sum).sum = (l.map Multiset.sum).sum := by
  induction l with
  | nil => rfl
  | cons a as ih => simp [Multiset.sum_add, ih]

/-- The groups of a subtree hold an object no more often than the subtree. -/
theorem TreeNode.count_sum_groupSets_le (o : Nat) (t : TreeNode) :
    Multiset.count o (groupSets t).sum ≤ countObject o t := by
  induction t using TreeNode.induction with
  | hleaf b o' g =>
    rw [groupSets_leaf]
    cases g with
    | false => simp
    | true =>
      simp only [if_true, Multiset.sum_singleton, countObject_leaf, Multiset.count_singleton]
      by_cases h : o = o'
      · simp [h]
      · have h' : ¬ o' = o := fun e => h e.symm
        simp [h, h']
  | hnode b subs g ih =>
    cases g with
    | true =>
      rw [groupSets_of_head (.node b subs true) rfl, Multiset.sum_singleton, count_objects]
    | false =>
      rw [groupSets_node_false, countObject_node, multiset_sum_list_sum]
      clear b
      induction subs with
      | nil => simp
      | cons c cs ihs =>
        simp only [List.map_cons, List.sum_cons, Multiset.count_add]
        have h1 := ih c (List.mem_cons_self _ _)
        have h2 := ihs (fun c' hc' => ih c' (List.mem_cons_of_mem _ hc'))
        simp only [List.map_map] at h2 ⊢
        exact Nat.add_le_add h1 h2

/-- Two groups that hold an object which is in the groups once are the same group. -/
theorem multiset_eq_of_mem_of_count_le_one (S : Multiset (Multiset Nat)) (x y : Multiset Nat)
    (a : Nat) (hx : x ∈ S) (hy : y ∈ S) (hax : a ∈ x) (hay : a ∈ y)
    (h : Multiset.count a S.sum ≤ 1) : x = y := by
  by_contra hne
  obtain ⟨S', rfl⟩ := Multiset.exists_cons_of_mem hx
  rw [Multiset.mem_cons] at hy
  rcases hy with hy | hy
  · exact hne hy.symm
  · obtain ⟨S'', rfl⟩ := Multiset.exists_cons_of_mem hy
    simp only [Multiset.sum_cons, Multiset.count_add] at h
    have h1 := Multiset.count_pos.2 hax
    have h2 := Multiset.count_pos.2 hay
    omega

/-- The lookup of `mergePhysicals` finds a physical that was appended to the list. -/
theorem removePhysical_append_isSome (physicals : List MotorizedPhysical) (m : MotorizedPhysical) :
    (removePhysical (physicals ++ [m]) m.physical.address).isSome = true := by
  unfold removePhysical
  have h1 : ((physicals ++ [m]).findIdx? (fun item => decide (item.physical.address =
      m.physical.address))).isSome = true := by
    rw [List.findIdx?_isSome]
    simp
  have h2 : (physicals ++ [m]).getLast? = some m := by simp
  obtain ⟨idx, hidx⟩ := Option.isSome_iff_exists.1 h1
  rw [hidx, h2]
  rfl
/-- A group head that holds an object satisfies the group invariant below no group head
only. -/
theorem TreeNode.heads_zero_of_head_countObject (x : TreeNode) (o : Nat)
    (hhead : x.isGroupHead = true) (ho : 0 < countObject o x) :
    ∀ k, headsOk k x = true → k = 0 := by
  intro k hk
  have := heads_le_one_of_countObject o x k hk ho
  rw [hhead] at this
  simp only [Bool.toNat_true] at this
  omega

/-- The objects below a group head that holds an object, in a tree with one group head
on every path, are a group of the tree. -/
theorem TreeNode.mem_groupSets_of_nodeAt (p : List Nat) (t d : TreeNode) (o : Nat)
    (hheads : headsOk 0 t = true) (hn : t.nodeAt p = some d) (hd : d.isGroupHead = true)
    (ho : 0 < countObject o d) :
    (Multiset.ofList (objects d) : Multiset Nat) ∈ groupSets t :=
  mem_groupSets_of_mem_groups t _
    (mem_groups_of_nodeAt p t d hn
      (unflaggedAlong_of_headsOk p t d 0 hheads hn (heads_zero_of_head_countObject d o hd ho)).2 hd)

/-- What the calls of `splitPhysical` on the object tree do to the groups: the group of
the main part of the new physical has become the group `group'` of the members that do
not belong to it, the other groups are as they were. -/
theorem BoundsTree.groupSets_splitGroup_rest (rootNode group group' rest : TreeNode)
    (gp r : List Nat) (i : Nat) (b : Bounds) (m a : Nat)
    (hheads : headsOk 0 rootNode = true) (hG : rootNode.nodeAt gp = some group)
    (hhead : group.isGroupHead = true) (hhead' : group'.isGroupHead = true)
    (hleaf : group.nodeAt (r ++ [i]) = some (.leaf b m false))
    (ha : 0 < countObject a group) (ham : a ≠ m)
    (hrest : rest = (removedAt rootNode (gp ++ r) i).modifyPath (fun _ => group')
      recalculateBoundsFromSubBounds gp) :
    groupSets rest + {Multiset.ofList (objects group)} =
      groupSets rootNode + {Multiset.ofList (objects group')} := by
  have hmG : 0 < countObject m group := countObject_pos_of_nodeAt m group _ b false hleaf
  have hu0 := (unflaggedAlong_of_headsOk gp rootNode group 0 hheads hG
    (heads_zero_of_head_countObject group m hhead hmG)).2
  have hA := groupSets_removedAt_within rootNode group gp r i hG hu0 hhead
  have hG1 : (removedAt rootNode (gp ++ r) i).nodeAt gp = some (removedAt group r i) :=
    nodeAt_modifyPath_append _ gp r rootNode group hG
  have hRhead := isGroupHead_removedAt group r i hhead
  have haR : 0 < countObject a (removedAt group r i) := by
    have := countLeaves_removedAt (fun x => decide (x = a)) group r i _ hleaf
    rw [countLeaves_leaf] at this
    have hma : ¬ m = a := fun e => ham e.symm
    simp only [decide_eq_true_eq, hma, if_false] at this
    show 0 < countLeaves (fun x => decide (x = a)) (removedAt group r i)
    have ha' : 0 < countLeaves (fun x => decide (x = a)) group := ha
    omega
  have huR := (unflaggedAlong_of_headsOk gp _ _ 0
    (headsOk_removedAt rootNode (gp ++ r) i hheads) hG1
    (heads_zero_of_head_countObject _ a hRhead haR)).2
  have hB := groupSets_modifyPath (fun _ => group') recalculateBoundsFromSubBounds
    recalculate_eq_setBounds gp _ _ hG1 huR
  rw [groupSets_of_head _ hRhead, groupSets_of_head _ hhead'] at hB
  rw [← hrest] at hB
  apply add_right_cancel (b := ({Multiset.ofList (objects (removedAt group r i))} :
    Multiset (Multiset Nat)))
  calc groupSets rest + {Multiset.ofList (objects group)} +
        {Multiset.ofList (objects (removedAt group r i))}
      = groupSets rest + {Multiset.ofList (objects (removedAt group r i))} +
        {Multiset.ofList (objects group)} := by abel
    _ = groupSets (removedAt rootNode (gp ++ r) i) + {Multiset.ofList (objects group)} +
        {Multiset.ofList (objects group')} := by rw [hB]; abel
    _ = groupSets rootNode + {Multiset.ofList (objects group')} +
        {Multiset.ofList (objects (removedAt group r i))} := by rw [hA]; abel

/-- Splitting a group and merging the two groups again, on the object tree: on a tree
whose internal nodes have between two and `MAX_BRANCHES` children, that fits the stack,
is bounds-consistent, has one group head on every path and holds the main parts `a`
and `m` of the two physicals once each in one group, `a` not belonging to the new
physical and `m` belonging to it, the calls of `splitPhysical` return a tree that passes
the check; when that tree fits the stack, the calls of `mergePhysicals` on it return a
tree that passes the check, has the groups of the tree before the split and holds every
object as often. -/
theorem BoundsTree.splitGroup_mergeGroups (computeCost : Bounds → Int) (belongs : Nat → Bool)
    (fuel : Nat) (tree : BoundsTree) (firstPhysical secondPhysical : Physical)
    (h2 : tree.rootNode.branchesTwo = true) (h4 : tree.rootNode.branchesBounded = true)
    (hh : tree.rootNode.height ≤ MAX_HEIGHT) (hcons : tree.rootNode.boundsConsistent = true)
    (hheads : headsOk 0 tree.rootNode = true)
    (ha : countObject firstPhysical.mainPart.address tree.rootNode = 1)
    (hm : countObject secondPhysical.mainPart.address tree.rootNode = 1)
    (hbelA : belongs firstPhysical.mainPart.address = false)
    (hbelM : belongs secondPhysical.mainPart.address = true)
    (hsame : ∀ q g, tree.rootNode.nodeAt q = some g → g.isGroupHead = true →
      0 < countObject secondPhysical.mainPart.address g →
      0 < countObject firstPhysical.mainPart.address g)
    (hfuel : (leaves tree.rootNode).length ≤ fuel) :
    ∃ tree1,
      tree.splitGroup computeCost belongs fuel secondPhysical.mainPart.address
        secondPhysical.mainPart.strictBounds = .returned () tree1 ∧
      treeValidCheck tree1 = .ok () ∧
      (tree1.rootNode.height ≤ MAX_HEIGHT → ∃ tree2,
        WorldPrototype.mergeGroups tree1 true firstPhysical secondPhysical = .returned () tree2 ∧
        treeValidCheck tree2 = .ok () ∧
        groupSets tree2.rootNode = groupSets tree.rootNode ∧
        ∀ p, countLeaves p tree2.rootNode = countLeaves p tree.rootNode) := by
  have ham : firstPhysical.mainPart.address ≠ secondPhysical.mainPart.address := by
    intro e
    rw [e, hbelM] at hbelA
    cases hbelA
  have hother : ∀ q g, tree.rootNode.nodeAt q = some g → g.isGroupHead = true →
      g.isLeafNode = false → 0 < countObject secondPhysical.mainPart.address g →
      0 < countLeaves (fun o => !belongs o) g := by
    intro q g hq hg _ hc
    obtain ⟨l, hl, ho⟩ := (countObject_pos_iff _ g).1 (hsame q g hq hg hc)
    unfold countLeaves
    rw [List.countP_pos_iff]
    exact ⟨l, hl, by simp [ho, hbelA]⟩
  obtain ⟨stack, group, rest, newNode, hfind, hgroup, hhead, hmG, hsplit, hnewCount, hcount, hkeep,
      hrest2, hrestCons, hrestHeads, hk1, hk2, hk3, hk4⟩ :=
    BoundsTree.splitGroup_spec computeCost belongs fuel tree secondPhysical.mainPart.address
      secondPhysical.mainPart.strictBounds h2 h4 hh hcons hheads (by omega) hbelM hother hfuel
  have haG := hsame stack.path group hgroup hhead hmG
  have hGint : group.isLeafNode = false := by
    cases group with
    | node b subs g => rfl
    | leaf b o g =>
      exfalso
      rw [countObject_leaf] at hmG haG
      by_cases h1 : o = secondPhysical.mainPart.address
      · by_cases h3 : o = firstPhysical.mainPart.address
        · exact ham (h3.symm.trans h1)
        · simp [h3] at haG
      · simp [h1] at hmG
  obtain ⟨group', hq', hhead', hcount', r, i, b, hGleaf, hrest⟩ := hkeep hGint
  -- counting the two main parts
  have hcA : ∀ t : TreeNode, countLeaves (fun x => decide (x = firstPhysical.mainPart.address) &&
      belongs x) t = 0 := by
    intro t
    rw [countLeaves_eq_and, hbelA]
    simp
  have hcM : ∀ t : TreeNode, countLeaves (fun x => decide (x = secondPhysical.mainPart.address) &&
      belongs x) t = countObject secondPhysical.mainPart.address t := by
    intro t
    rw [countLeaves_eq_and, hbelM]
    simp
  have hobj : ∀ (o : Nat) (t : TreeNode),
      countObject o t = countLeaves (fun x => decide (x = o)) t := fun _ _ => rfl
  have haG' : 0 < countObject firstPhysical.mainPart.address group' := by
    have e1 := hcount' (fun x => decide (x = firstPhysical.mainPart.address))
    have e2 := countLeaves_split (fun x => decide (x = firstPhysical.mainPart.address)) belongs
      group
    rw [hcA group] at e2
    rw [hobj] at haG ⊢
    omega
  have haRest : countObject firstPhysical.mainPart.address rest.rootNode = 1 := by
    have e1 := hcount (fun x => decide (x = firstPhysical.mainPart.address))
    rw [hcA group] at e1
    rw [hobj] at ha ⊢
    omega
  have hmRest : countObject secondPhysical.mainPart.address rest.rootNode = 0 := by
    have e1 := hcount (fun x => decide (x = secondPhysical.mainPart.address))
    rw [hcM group] at e1
    rw [hobj] at hm ⊢
    omega
  have haNew : countObject firstPhysical.mainPart.address newNode = 0 := by
    have e1 := hnewCount (fun x => decide (x = firstPhysical.mainPart.address))
    rw [hcA group] at e1
    exact e1
  have hne : rest.isEmpty = false :=
    BoundsTree.isEmpty_eq_false_of_countObject_pos rest firstPhysical.mainPart.address
      (by omega)
  have h2rest : rest.rootNode.branchesTwo = true := by
    rcases hrest2 with h | h
    · rw [h] at hne
      cases hne
    · exact h
  -- the tree after the split
  have hT1 := BoundsTree.addNode_of_not_isEmpty computeCost rest newNode hne
  rw [hT1] at hsplit
  have hcountT1 : ∀ p, countLeaves p (rest.rootNode.addOutside computeCost newNode) =
      countLeaves p tree.rootNode := by
    intro p
    have e1 := BoundsTree.countLeaves_addNode computeCost p rest newNode
    rw [hT1] at e1
    have e2 := hcount p
    have e3 := hnewCount p
    simp only at e1
    omega
  have hheads1 := headsOk_addOutside computeCost newNode hk1 rest.rootNode hrestHeads
  have hch1 := hasChildren_of_branchesTwo _
    (branchesTwo_addOutside computeCost newNode hk4 rest.rootNode h2rest)
  have hcons1 := boundsConsistent_addOutside computeCost newNode hk3 rest.rootNode
    (hasChildren_of_branchesTwo _ h2rest) hrestCons
  have hok1 : treeValidCheck ⟨rest.rootNode.addOutside computeCost newNode⟩ = .ok () :=
    treeValidCheck_ok_of_valid _ hch1 hcons1 hheads1
  have hgsT1 : groupSets (rest.rootNode.addOutside computeCost newNode) =
      groupSets rest.rootNode + {Multiset.ofList (objects newNode)} := by
    rw [groupSets_addOutside, groupSets_of_head newNode hk2]
  have hdiff : ∀ g ∈ groups (rest.rootNode.addOutside computeCost newNode),
      secondPhysical.mainPart.address ∈ g → firstPhysical.mainPart.address ∉ g := by
    intro g hg hmg hag
    have hmem := mem_groupSets_of_mem_groups _ g hg
    rw [hgsT1, Multiset.mem_add, Multiset.mem_singleton] at hmem
    rcases hmem with hmem | hmem
    · have := countObject_pos_of_mem_groupSets secondPhysical.mainPart.address rest.rootNode _
        hmem (by simpa using hmg)
      omega
    · have h1 : firstPhysical.mainPart.address ∈ (Multiset.ofList g : Multiset Nat) := by
        simpa using hag
      rw [hmem, Multiset.mem_coe, mem_objects_iff] at h1
      omega
  refine ⟨_, hsplit, hok1, fun hfit1 => ?_⟩
  -- the merge
  obtain ⟨tree2, hmerge⟩ := WorldPrototype.mergeGroups_inWorld_returns
    ⟨rest.rootNode.addOutside computeCost newNode⟩ firstPhysical secondPhysical hheads1 hfit1
    (by
      have := hcountT1 (fun x => decide (x = firstPhysical.mainPart.address))
      rw [hobj] at ha ⊢
      simp only
      omega)
    (by
      have := hcountT1 (fun x => decide (x = secondPhysical.mainPart.address))
      rw [hobj] at hm ⊢
      simp only
      omega)
    (countObject_eq_zero_of_groups _ _ _ hheads1 hdiff)
  obtain ⟨d, tree1, gp, groupA, hgrab, hdhead, hmd, _, hGA, hGAhead, haGA, _, _, hheads2, hch2,
      hcons2, hcount2, hgs1, hgs2⟩ :=
    WorldPrototype.mergeGroups_inWorld_spec _ tree2 firstPhysical secondPhysical hheads1 hch1
      hmerge
  have hok2 := treeValidCheck_ok_of_valid tree2 hch2 (hcons2 hcons1) hheads2
  have haT1 : 0 < countObject firstPhysical.mainPart.address tree1.rootNode := by
    have := countLeaves_nodeAt_le (fun x => decide (x = firstPhysical.mainPart.address)) gp
      tree1.rootNode groupA hGA
    rw [hobj] at haGA ⊢
    omega
  have hne1 := BoundsTree.isEmpty_eq_false_of_countObject_pos tree1 _ haT1
  obtain ⟨_, _, _, _, _, _, hheadsT1, _, _, _, _, _⟩ :=
    BoundsTree.grabGroupFor_left _ _ _ d tree1 hheads1 hch1 hgrab hne1
  -- the donor is the new node of the split
  have hD : (Multiset.ofList (objects d) : Multiset Nat) = Multiset.ofList (objects newNode) := by
    have hmem : (Multiset.ofList (objects d) : Multiset Nat) ∈
        groupSets rest.rootNode + {Multiset.ofList (objects newNode)} := by
      rw [← hgsT1, ← hgs1]
      simp
    rw [Multiset.mem_add, Multiset.mem_singleton] at hmem
    rcases hmem with hmem | hmem
    · have := countObject_pos_of_mem_groupSets secondPhysical.mainPart.address rest.rootNode _
        hmem (by rw [Multiset.mem_coe, mem_objects_iff]; exact hmd)
      omega
    · exact hmem
  have hgsRest : groupSets tree1.rootNode = groupSets rest.rootNode := by
    apply add_right_cancel (b := ({Multiset.ofList (objects newNode)} :
      Multiset (Multiset Nat)))
    rw [← hgsT1, ← hD]
    exact hgs1
  -- the group of the first main part is the group the split left
  have hGAmem := mem_groupSets_of_nodeAt gp tree1.rootNode groupA _ hheadsT1 hGA hGAhead haGA
  rw [hgsRest] at hGAmem
  have hG'mem := mem_groupSets_of_nodeAt stack.path rest.rootNode group' _ hrestHeads hq' hhead'
    haG'
  have hGA' : (Multiset.ofList (objects groupA) : Multiset Nat) =
      Multiset.ofList (objects group') :=
    multiset_eq_of_mem_of_count_le_one (groupSets rest.rootNode) _ _
      firstPhysical.mainPart.address hGAmem hG'mem
      (by rw [Multiset.mem_coe, mem_objects_iff]; exact haGA)
      (by rw [Multiset.mem_coe, mem_objects_iff]; exact haG')
      (le_trans (count_sum_groupSets_le _ rest.rootNode) (le_of_eq haRest))
  have hjoin : (Multiset.ofList (objects group') : Multiset Nat) +
      Multiset.ofList (objects newNode) = Multiset.ofList (objects group) := by
    ext o
    rw [Multiset.count_add, count_objects, count_objects, count_objects]
    have e1 := hcount' (fun x => decide (x = o))
    have e2 := hnewCount (fun x => decide (x = o))
    have e3 := countLeaves_split (fun x => decide (x = o)) belongs group
    rw [hobj, hobj, hobj]
    omega
  have hsplitGS := BoundsTree.groupSets_splitGroup_rest tree.rootNode group group' rest.rootNode
    stack.path r i b secondPhysical.mainPart.address firstPhysical.mainPart.address hheads hgroup
    hhead hhead' hGleaf haG ham hrest
  refine ⟨tree2, hmerge, hok2, ?_, ?_⟩
  · rw [hgsRest, hGA', hD, hjoin] at hgs2
    apply add_right_cancel (b := ({Multiset.ofList (objects group')} :
      Multiset (Multiset Nat)))
    rw [hgs2, hsplitGS]
  · intro p
    rw [hcount2 p]
    exact hcountT1 p
/-- C18. Split/merge symmetry.  In a world whose object tree is valid (internal nodes
with between two and `MAX_BRANCHES` children, depth at most `MAX_HEIGHT`, consistent
bounds, one group head on every path) and holds the main part of physical A and the
main part of physical B once each, in one group, B the physical that is split from A
(its main part is owned by it, the main part of A is not): `splitPhysical(A, B)`
returns, with and without assertions, and when the object tree it leaves has depth at
most `MAX_HEIGHT`, `mergePhysicals(A, B)` in the world it leaves, B now registered in
that world, returns when assertions are compiled out (with assertions it never
returns, it ends in `assert(false)`); the object tree then passes `treeValidCheck`, has
the same groups as before the split (the same sets of objects below the group heads,
whatever the layout below them), holds every object as often as before and has as many
leaves, and the object count of the world is what it was. -/
theorem C18_split_then_merge_restores_groups (computeCost : Bounds → Int) (debug : Bool)
    (mainPhysicalOf : Nat → Nat) (fuel : Nat) (w : WorldPrototype)
    (mainPhysical newlySplitPhysical : MotorizedPhysical)
    (hworld : mainPhysical.world = w.address) (hnew : newlySplitPhysical.world = 0)
    (haddress : w.address ≠ 0)
    (h2 : w.objectTree.rootNode.branchesTwo = true)
    (h4 : w.objectTree.rootNode.branchesBounded = true)
    (hh : w.objectTree.rootNode.height ≤ MAX_HEIGHT)
    (hcons : w.objectTree.rootNode.boundsConsistent = true)
    (hheads : headsOk 0 w.objectTree.rootNode = true)
    (ha : countObject mainPhysical.physical.mainPart.address w.objectTree.rootNode = 1)
    (hm : countObject newlySplitPhysical.physical.mainPart.address w.objectTree.rootNode = 1)
    (hownA : mainPhysicalOf mainPhysical.physical.mainPart.address ≠
      newlySplitPhysical.physical.address)
    (hownM : mainPhysicalOf newlySplitPhysical.physical.mainPart.address =
      newlySplitPhysical.physical.address)
    (hsame : ∀ q g, w.objectTree.rootNode.nodeAt q = some g → g.isGroupHead = true →
      0 < countObject newlySplitPhysical.physical.mainPart.address g →
      0 < countObject mainPhysical.physical.mainPart.address g)
    (hfuel : (leaves w.objectTree.rootNode).length ≤ fuel)
    (hfit : ∀ w1, w.splitPhysical computeCost debug mainPhysicalOf fuel mainPhysical
      newlySplitPhysical = .returned w1 → w1.objectTree.rootNode.height ≤ MAX_HEIGHT) :
    ∃ w1 w2,
      w.splitPhysical computeCost debug mainPhysicalOf fuel mainPhysical newlySplitPhysical =
        .returned w1 ∧
      w1.mergePhysicals false mainPhysical ⟨w.address, newlySplitPhysical.physical⟩ =
        .returned w2 ∧
      treeValidCheck w2.objectTree = .ok () ∧
      groupSets w2.objectTree.rootNode = groupSets w.objectTree.rootNode ∧
      (∀ o, countObject o w2.objectTree.rootNode = countObject o w.objectTree.rootNode) ∧
      (leaves w2.objectTree.rootNode).length = (leaves w.objectTree.rootNode).length ∧
      w2.objectCount = w.objectCount := by
  obtain ⟨tree1, hsplit, hok1, hrest⟩ :=
    BoundsTree.splitGroup_mergeGroups computeCost
      (fun part => decide (mainPhysicalOf part = newlySplitPhysical.physical.address)) fuel
      w.objectTree mainPhysical.physical newlySplitPhysical.physical h2 h4 hh hcons hheads ha hm
      (by simpa using hownA) (by simpa using hownM) hsame hfuel
  have hvalid0 : treeValidCheck w.objectTree = .ok () :=
    treeValidCheck_ok_of w.objectTree (Or.inr h2) hcons hheads
  have hsplitW : w.splitPhysical computeCost debug mainPhysicalOf fuel mainPhysical
      newlySplitPhysical = .returned ⟨w.address, tree1, w.terrainTree,
        w.physicals ++ [⟨w.address, newlySplitPhysical.physical⟩], w.objectCount⟩ := by
    unfold WorldPrototype.splitPhysical WorldPrototype.assertTreeValid
    simp only [hworld, hnew, hsplit, hvalid0, hok1]
    cases debug <;> simp
  obtain ⟨tree2, hmerge, hok2, hgs, hcount⟩ := hrest (hfit _ hsplitW)
  obtain ⟨physicals, hphys⟩ := Option.isSome_iff_exists.1
    (removePhysical_append_isSome w.physicals ⟨w.address, newlySplitPhysical.physical⟩)
  refine ⟨_, ⟨w.address, tree2, w.terrainTree, physicals, w.objectCount⟩, hsplitW, ?_, hok2, hgs,
    fun o => hcount (fun x => decide (x = o)), ?_, rfl⟩
  · simp [WorldPrototype.mergePhysicals, WorldPrototype.assertTreeValid, haddress, hmerge, hphys]
  · have := hcount (fun _ => true)
    simpa [countLeaves_true] using this
/-- The split of the example: the world with one group of four parts becomes the world
with two groups. -/
theorem joinedWorld_splitPhysical :
    joinedWorld.splitPhysical (fun _ => 0) true exampleMainPhysicalOf 4
      ⟨9, examplePhysicalA⟩ ⟨0, examplePhysicalB⟩ = .returned splitWorld := by
  decide

/-- C18, at the worlds of the example: the group with the parts 1, 4, 2, 3 is split
for the physical at 200, which gives the world with the groups of the parts 1, 4 and
2, 3, and the two physicals are merged again, which gives one group with the four
parts, the parts 2 and 3 in a node of their own below the group head. -/
theorem C18_split_then_merge_restores_groups_witness :
    joinedWorld.splitPhysical (fun _ => 0) true exampleMainPhysicalOf 4
        ⟨9, examplePhysicalA⟩ ⟨0, examplePhysicalB⟩ = .returned splitWorld ∧
      splitWorld.mergePhysicals false ⟨9, examplePhysicalA⟩ ⟨9, examplePhysicalB⟩ =
        .returned ⟨9, mergedTree, BoundsTree.empty, [⟨9, examplePhysicalA⟩], 4⟩ ∧
      groupSets mergedTree.rootNode = groupSets joinedWorld.objectTree.rootNode ∧
      groupSets splitWorld.objectTree.rootNode ≠ groupSets joinedWorld.objectTree.rootNode ∧
      ∃ w1 w2,
        joinedWorld.splitPhysical (fun _ => 0) true exampleMainPhysicalOf 4
            ⟨9, examplePhysicalA⟩ ⟨0, examplePhysicalB⟩ = .returned w1 ∧
          w1.mergePhysicals false ⟨9, examplePhysicalA⟩ ⟨9, examplePhysicalB⟩ = .returned w2 ∧
          treeValidCheck w2.objectTree = .ok () ∧
          groupSets w2.objectTree.rootNode = groupSets joinedWorld.objectTree.rootNode ∧
          (∀ o, countObject o w2.objectTree.rootNode =
            countObject o joinedWorld.objectTree.rootNode) ∧
          (leaves w2.objectTree.rootNode).length =
            (leaves joinedWorld.objectTree.rootNode).length ∧
          w2.objectCount = joinedWorld.objectCount :=
  ⟨joinedWorld_splitPhysical, by decide, by decide, by decide,
    C18_split_then_merge_restores_groups (fun _ => 0) true exampleMainPhysicalOf 4 joinedWorld
      ⟨9, examplePhysicalA⟩ ⟨0, examplePhysicalB⟩ rfl rfl (by decide) (by decide) (by decide)
      (by decide) (by decide) (by decide) (by decide) (by decide) (by decide) (by decide)
      (fun q g hq hg _ => by
        cases q with
        | nil =>
          rw [nodeAt_nil] at hq
          cases hq
          decide
        | cons i r =>
          exfalso
          match i, r, hq with
          | 0, [], hq => cases hq; cases hg
          | 1, [], hq => cases hq; cases hg
          | 2, [], hq => cases hq; cases hg
          | 3, [], hq => cases hq; cases hg
          | 0, _ :: _, hq => cases hq
          | 1, _ :: _, hq => cases hq
          | 2, _ :: _, hq => cases hq
          | 3, _ :: _, hq => cases hq
          | _ + 4, _, hq => cases hq)
      (by decide)
      (fun w1 h => by
        rw [joinedWorld_splitPhysical] at h
        cases h
        decide)⟩

end Physics3D
